import Mathlib

/-! # JiaoBenScript: lexical name resolution

A shallow embedding of `src/name_resolve.cpp` (with the attribute records of
`src/node.h`) and theorems about it.

Modelling conventions.

* AST nodes are heap objects.  Every node that carries a mutable attribute
  record (`S_Block`, `Program`, `S_DeclareList`, `E_Var`) is given its address
  (`Addr`) in the tree; the attribute records live in a `State` keyed by
  address.  Distinct objects have distinct addresses, which appears in the
  theorems as `Nodup` hypotheses on the addresses of a tree.
* `std::map<ustring, int>` is an association list with `map_find` and
  `map_emplace` (which, like `std::map::emplace`, keeps an existing entry).
* `int` is `Int`; `static_cast<int>(v.size())` is taken to be exact.
* A C++ exception leaves every mutation made before the `throw` in place, so
  every operation returns its `Result` together with the state it leaves.
* The parent walk of `resolve_from_block` is the only loop that is not bounded
  by the tree; it takes a `fuel` argument and reports `out_of_fuel` when the
  budget is exhausted.
-/

namespace JiaoBenScript

/-- Unicode string of the interpreter (`ustring`). -/
abbrev ustring := String

/-- Address (object identity) of an AST node. -/
abbrev Addr := Nat

/-! ## Attribute records (`node.h`) -/

/-- `S_Block::AttrType::VarInfo`. -/
structure VarInfo where
  name : ustring
  deriving DecidableEq, Repr

/-- `S_Block::AttrType::NonLocalInfo`: `(parent, index)`. -/
structure NonLocalInfo where
  parent : Option Addr := none
  index : Int := -1
  deriving DecidableEq, Repr

/-- `std::map<ustring, int>` as an association list. -/
abbrev NameMap := List (ustring × Int)

/-- `std::map::find`: the value stored under `name`, if any. -/
def map_find : NameMap → ustring → Option Int
  | [], _ => none
  | (k, v) :: m, name => if k = name then some v else map_find m name

/-- `std::map::emplace`: inserts only when the key is absent. -/
def map_emplace (m : NameMap) (name : ustring) (v : Int) : NameMap :=
  match map_find m name with
  | some _ => m
  | none => m ++ [(name, v)]

/-- `S_Block::AttrType`. -/
structure S_Block.AttrType where
  parent : Option Addr := none
  local_info : List VarInfo := []
  nonlocal_indexes : List NonLocalInfo := []
  name_to_local_index : NameMap := []
  name_to_nonlocal_index : NameMap := []
  deriving DecidableEq, Repr

/-- `A_DeclareList`. -/
structure A_DeclareList where
  start_index : Int := -1
  deriving DecidableEq, Repr

/-- `E_Var::AttrType` (value-initialised: `is_local = false`, `index = -1`). -/
structure E_Var.AttrType where
  is_local : Bool := false
  index : Int := -1
  deriving DecidableEq, Repr

/-! ## AST (`node.h`) -/

/-- `OpCode`. -/
inductive OpCode where
  | PLUS | MINUS | STAR | SLASH | PERCENT
  | LESS | LESSEQ | GREAT | GREATEQ | EQ | NEQ
  | NOT | AND | OR
  | ASSIGN | PLUS_ASSIGN | MINUS_ASSIGN | STAR_ASSIGN | SLASH_ASSIGN | PERCENT_ASSIGN
  | CALL | SUBSCRIPT | EXPLIST
  deriving DecidableEq, Repr

/-- AST nodes.  `E_Func::block` is `static_cast` to `S_Block` and
`E_Func::args` to `S_DeclareList` by the resolver, so a function literal stores
the fields of its body block and of its optional parameter declare-list in
place.  `E_Float` carries the bit pattern of its `double`. -/
inductive Node where
  | S_Block (addr : Addr) (stmts : List Node)
  | Program (addr : Addr) (stmts : List Node)
  | S_DeclareList (addr : Addr) (decls : List (ustring × Option Node))
  | S_Condition (condition : Node) (then_block : Node) (else_block : Option Node)
  | S_While (condition : Node) (block : Node)
  | S_Return (value : Option Node)
  | S_Break
  | S_Continue
  | S_Exp (value : Node)
  | S_Empty
  | E_Op (op_code : OpCode) (args : List Node)
  | E_Var (addr : Addr) (name : ustring)
  | E_Func (args : Option (Addr × List (ustring × Option Node))) (block_addr : Addr)
      (block_stmts : List Node)
  | E_Bool (value : Bool)
  | E_Int (value : Int)
  | E_Float (bits : Nat)
  | E_String (value : ustring)
  | E_List (value : List Node)
  | E_Null

/-- `S_DeclareList::PairType`: a declared name and its optional initialiser. -/
abbrev PairType := ustring × Option Node

/-! ## Machine state and results -/

/-- The mutable attribute records of all nodes, by address, and the
resolver's `cur_block` pointer. -/
structure State where
  block : Addr → S_Block.AttrType
  var : Addr → E_Var.AttrType
  decl : Addr → A_DeclareList
  cur_block : Option Addr

/-- Pointwise update of a table of records. -/
def upd {β : Type} (f : Addr → β) (a : Addr) (v : β) : Addr → β :=
  fun x => if x = a then v else f x

/-- Exceptions thrown by the resolver, with the offending name. -/
inductive Exception where
  | DuplicatedLocalName (name : ustring)
  | NoSuchName (name : ustring)
  deriving DecidableEq, Repr

/-- Outcome of a call: normal return, a thrown exception, a failed `assert`,
or an exhausted step budget. -/
inductive Result (α : Type) where
  | ok (value : α)
  | throw (e : Exception)
  | assert_fail
  | out_of_fuel
  deriving DecidableEq, Repr

/-- Sequencing of two `void` steps: the second runs only when the first
returned normally. -/
def andThen (r : Result Unit × State) (k : State → Result Unit × State) :
    Result Unit × State :=
  match r with
  | (Result.ok _, s) => k s
  | other => other

/-- Destructor of `RestoreOnExit`: runs on every exit of the guarded scope and
writes the saved block back into `cur_block`. -/
def RestoreOnExit (origin : Option Addr) (r : Result Unit × State) : Result Unit × State :=
  (r.1, { r.2 with cur_block := origin })

/-! ## `name_resolve.cpp` -/

/-- The two `emplace` statements that end the loop body of
`add_declarations_to_block_attr`: `name` becomes the next local. -/
def push_local (attr : S_Block.AttrType) (name : ustring) : S_Block.AttrType :=
  { attr with
    name_to_local_index :=
      map_emplace attr.name_to_local_index name (attr.local_info.length : Int)
    local_info := attr.local_info ++ [⟨name⟩] }

/-- Loop of `add_declarations_to_block_attr` over `decls.decls`. -/
def add_declarations_loop :
    S_Block.AttrType → List PairType → Result Unit × S_Block.AttrType
  | attr, [] => (Result.ok (), attr)
  | attr, pair :: rest =>
    match map_find attr.name_to_local_index pair.1 with
    | some _ => (Result.throw (Exception.DuplicatedLocalName pair.1), attr)
    | none => add_declarations_loop (push_local attr pair.1) rest

/-- `add_declarations_to_block_attr(attr, decls)`: returns the outcome, the
block attribute record and the declare-list attribute it leaves. -/
def add_declarations_to_block_attr (attr : S_Block.AttrType) (decls : List PairType) :
    Result Unit × S_Block.AttrType × A_DeclareList :=
  let decls_attr : A_DeclareList := { start_index := (attr.local_info.length : Int) }
  let r := add_declarations_loop attr decls
  (r.1, r.2, decls_attr)

/-- `add_declarations_to_block_attr(block.attr, decls)` on the state, for the
block at `b` and the declare-list at `d`. -/
def declare (b d : Addr) (decls : List PairType) (s : State) : Result Unit × State :=
  let r := add_declarations_to_block_attr (s.block b) decls
  (r.1, { s with block := upd s.block b r.2.1, decl := upd s.decl d r.2.2 })

/-- `resolve_from_block(block, name)`. -/
def resolve_from_block (mem : Addr → S_Block.AttrType) :
    Nat → Option Addr → ustring → Result NonLocalInfo
  | _, none, name => Result.throw (Exception.NoSuchName name)
  | 0, some _, _ => Result.out_of_fuel
  | fuel + 1, some b, name =>
    match map_find (mem b).name_to_local_index name with
    | some i => Result.ok ⟨some b, i⟩
    | none => resolve_from_block mem fuel (mem b).parent name

/-- `add_nonlocal_to_block_attr(attr, name, start)` where `attr` is the record
of the block at `c`. -/
def add_nonlocal_to_block_attr (fuel : Nat) (c : Addr) (name : ustring)
    (start : Option Addr) (s : State) : Result Int × State :=
  match map_find (s.block c).name_to_nonlocal_index name with
  | none =>
    let index : Int := ((s.block c).nonlocal_indexes.length : Int)
    let s1 : State :=
      { s with
        block := upd s.block c
          { s.block c with
            name_to_nonlocal_index :=
              map_emplace (s.block c).name_to_nonlocal_index name index } }
    match resolve_from_block s1.block fuel start name with
    | Result.ok info =>
      (Result.ok index,
        { s1 with
          block := upd s1.block c
            { s1.block c with
              nonlocal_indexes := (s1.block c).nonlocal_indexes ++ [info] } })
    | Result.throw e => (Result.throw e, s1)
    | Result.assert_fail => (Result.assert_fail, s1)
    | Result.out_of_fuel => (Result.out_of_fuel, s1)
  | some i => (Result.ok i, s)

/-- `Resolver::enter(block)`; the caller keeps the returned guard's `origin`. -/
def Resolver.enter (block : Addr) (s : State) : State :=
  { s with
    cur_block := some block
    block := upd s.block block { s.block block with parent := s.cur_block } }

/-- First loop of `Resolver::visit_block`: every statement that is an
`S_DeclareList` has its declarations added to the block. -/
def hoist_declarations (b : Addr) : List Node → State → Result Unit × State
  | [], s => (Result.ok (), s)
  | Node.S_DeclareList d decls :: rest, s =>
    andThen (declare b d decls s) (hoist_declarations b rest)
  | _ :: rest, s => hoist_declarations b rest s

/-- `Resolver::visit_block(block)`, given its second loop. -/
def Resolver.visit_block (second_loop : State → Result Unit × State)
    (b : Addr) (stmts : List Node) (s : State) : Result Unit × State :=
  RestoreOnExit s.cur_block
    (andThen (hoist_declarations b stmts (Resolver.enter b s)) second_loop)

/-- `Resolver::visit_var(var)`. -/
def Resolver.visit_var (fuel : Nat) (v : Addr) (name : ustring) (s : State) :
    Result Unit × State :=
  match s.cur_block with
  | none => (Result.assert_fail, s)
  | some c =>
    match map_find (s.block c).name_to_local_index name with
    | some i => (Result.ok (), { s with var := upd s.var v ⟨true, i⟩ })
    | none =>
      let s1 : State := { s with var := upd s.var v { s.var v with is_local := false } }
      match add_nonlocal_to_block_attr fuel c name (s1.block c).parent s1 with
      | (Result.ok index, s2) =>
        (Result.ok (), { s2 with var := upd s2.var v { s2.var v with index := index } })
      | (Result.throw e, s2) => (Result.throw e, s2)
      | (Result.assert_fail, s2) => (Result.assert_fail, s2)
      | (Result.out_of_fuel, s2) => (Result.out_of_fuel, s2)

/-- Modelled from the spec: the `visit_*` methods of the base class
`NodeVistor` (its declaration is not among the sources) that `Resolver` does
not override: `visit_break`, `visit_continue`, `visit_stmt_empty`,
`visit_bool`, `visit_int`, `visit_float`, `visit_string`, `visit_null`.  The
resolver of the spec has no step for these node kinds, which have no
sub-nodes: the default returns and changes nothing. -/
def NodeVistor.visit_default (s : State) : Result Unit × State :=
  (Result.ok (), s)

mutual
/-- `node.accept(resolver)`: dispatch to the `Resolver::visit_*` method of the
node's class, or to the base-class default for a class the resolver does not
override. -/
def Resolver.visit (fuel : Nat) : Node → State → Result Unit × State
  | Node.S_Block b stmts, s =>
    Resolver.visit_block (Resolver.visit_each fuel stmts) b stmts s
  | Node.Program b stmts, s =>
    Resolver.visit_block (Resolver.visit_each fuel stmts) b stmts s
  | Node.S_DeclareList _ decls, s => Resolver.visit_declare_list fuel decls s
  | Node.S_Condition condition then_block else_block, s =>
    andThen (Resolver.visit fuel condition s) fun s1 =>
      andThen (Resolver.visit fuel then_block s1) fun s2 =>
        match else_block with
        | some e => Resolver.visit fuel e s2
        | none => (Result.ok (), s2)
  | Node.S_While condition block, s =>
    andThen (Resolver.visit fuel condition s) (Resolver.visit fuel block)
  | Node.S_Return value, s =>
    match value with
    | some v => Resolver.visit fuel v s
    | none => (Result.ok (), s)
  | Node.S_Exp value, s => Resolver.visit fuel value s
  | Node.E_Op _ args, s => Resolver.visit_each fuel args s
  | Node.E_Var v name, s => Resolver.visit_var fuel v name s
  | Node.E_Func args b stmts, s =>
    andThen
      (match args with
        | some (d, decls) =>
          RestoreOnExit s.cur_block
            (andThen (Resolver.visit_declare_list fuel decls (Resolver.enter b s))
              (declare b d decls))
        | none => (Result.ok (), s))
      (Resolver.visit_block (Resolver.visit_each fuel stmts) b stmts)
  | Node.E_List value, s => Resolver.visit_each fuel value s
  | Node.S_Break, s => NodeVistor.visit_default s
  | Node.S_Continue, s => NodeVistor.visit_default s
  | Node.S_Empty, s => NodeVistor.visit_default s
  | Node.E_Bool _, s => NodeVistor.visit_default s
  | Node.E_Int _, s => NodeVistor.visit_default s
  | Node.E_Float _, s => NodeVistor.visit_default s
  | Node.E_String _, s => NodeVistor.visit_default s
  | Node.E_Null, s => NodeVistor.visit_default s
/-- A `for` loop that lets every node of a vector accept the resolver. -/
def Resolver.visit_each (fuel : Nat) : List Node → State → Result Unit × State
  | [], s => (Result.ok (), s)
  | n :: rest, s => andThen (Resolver.visit fuel n s) (Resolver.visit_each fuel rest)
/-- `Resolver::visit_declare_list(decls)`: visits the initialisers. -/
def Resolver.visit_declare_list (fuel : Nat) : List PairType → State → Result Unit × State
  | [], s => (Result.ok (), s)
  | (_, some initial) :: rest, s =>
    andThen (Resolver.visit fuel initial s) (Resolver.visit_declare_list fuel rest)
  | (_, none) :: rest, s => Resolver.visit_declare_list fuel rest s
end

/-- `resolve_names_in_block(block, node)`. -/
def resolve_names_in_block (fuel : Nat) (block : Addr) (node : Node) (s : State) :
    Result Unit × State :=
  andThen
    (match node with
      | Node.S_DeclareList d decls => declare block d decls s
      | _ => (Result.ok (), s))
    fun s1 => Resolver.visit fuel node { s1 with cur_block := some block }

/-- `resolve_names(block)`: a resolver with `cur_block = nullptr` visits the
block (`stmts` are the statements of the block at `block`). -/
def resolve_names (fuel : Nat) (block : Addr) (stmts : List Node) (s : State) :
    Result Unit × State :=
  Resolver.visit_block (Resolver.visit_each fuel stmts) block stmts { s with cur_block := none }

/-- State in which every attribute record is default-initialised. -/
def State.fresh : State :=
  { block := fun _ => {}, var := fun _ => {}, decl := fun _ => {}, cur_block := none }


/-! ## Notions used by the specification -/

/-- The names of the locals of a block, in slot order. -/
def local_names (attr : S_Block.AttrType) : List ustring :=
  attr.local_info.map VarInfo.name

/-- The names declared by a declare-list, in source order. -/
def decl_names (decls : List PairType) : List ustring :=
  decls.map Prod.fst

/-- Table property: `name_to_local_index` maps exactly the names of
`local_info`, each to its position. -/
def MapsToPositions (attr : S_Block.AttrType) : Prop :=
  ∀ (name : ustring) (i : Int),
    map_find attr.name_to_local_index name = some i ↔
      ∃ k : Nat, i = (k : Int) ∧ attr.local_info[k]? = some ⟨name⟩

/-- The local-table invariant of a block attribute record: the map sends
exactly the names of `local_info` to their positions, and those names are
pairwise distinct. -/
def LocalTableInv (attr : S_Block.AttrType) : Prop :=
  MapsToPositions attr ∧ (local_names attr).Nodup

/-- The call failed with `DuplicatedLocalName`. -/
def Result.threw_duplicated {α : Type} : Result α → Bool
  | Result.throw (Exception.DuplicatedLocalName _) => true
  | _ => false

/-- The call failed with `NoSuchName`. -/
def Result.threw_no_such_name {α : Type} : Result α → Bool
  | Result.throw (Exception.NoSuchName _) => true
  | _ => false

/-- The call returned normally. -/
def Result.returned {α : Type} : Result α → Bool
  | Result.ok _ => true
  | _ => false

/-! ### Tree structure -/

/-- The initialiser expressions of a declare-list, in source order. -/
def initialisers (decls : List PairType) : List Node :=
  decls.filterMap Prod.snd

/-- Node classes whose visit only lets sub-nodes accept the resolver, under
the same current block. -/
def Node.is_seq : Node → Bool
  | Node.S_Block _ _ => false
  | Node.Program _ _ => false
  | Node.E_Var _ _ => false
  | Node.E_Func _ _ _ => false
  | _ => true

/-- The sub-nodes visited, in order, by a node with `is_seq`. -/
def Node.kids : Node → List Node
  | Node.S_DeclareList _ decls => initialisers decls
  | Node.S_Condition c t e => c :: t :: e.toList
  | Node.S_While c b => [c, b]
  | Node.S_Return v => v.toList
  | Node.S_Exp v => [v]
  | Node.E_Op _ args => args
  | Node.E_List value => value
  | _ => []

/-- The declare-list statements directly in a block: address and names. -/
def direct_decls : List Node → List (Addr × List ustring)
  | [] => []
  | Node.S_DeclareList d decls :: rest => (d, decl_names decls) :: direct_decls rest
  | _ :: rest => direct_decls rest

/-- The names declared by the declare-list statements directly in a block. -/
def hoisted (stmts : List Node) : List ustring :=
  (direct_decls stmts).flatMap Prod.snd

/-- The parameter names of a function literal. -/
def param_names (args : Option (Addr × List PairType)) : List ustring :=
  match args with
  | some (_, decls) => decl_names decls
  | none => []

/-- The parameter initialisers of a function literal. -/
def param_initialisers (args : Option (Addr × List PairType)) : List Node :=
  match args with
  | some (_, decls) => initialisers decls
  | none => []

/-- What the tree says about one block: its address, the block that
lexically encloses it, the parameter declare-list when it is the body of a
function literal with one, and the declare-list statements directly in it. -/
structure BlockInfo where
  addr : Addr
  parent : Option Addr
  params : Option (Addr × List ustring)
  decls : List (Addr × List ustring)

/-- The declare-lists whose declarations go to the block, in the order the
resolver adds them: the parameter list, then the declare-list statements. -/
def BlockInfo.all_decls (bi : BlockInfo) : List (Addr × List ustring) :=
  bi.params.toList ++ bi.decls

/-- The names a block declares: parameters first, then the names of its
declare-list statements in source order. -/
def BlockInfo.declared (bi : BlockInfo) : List ustring :=
  bi.all_decls.flatMap Prod.snd

/-- The addresses of the declare-lists whose declarations go to the block. -/
def BlockInfo.decl_addrs (bi : BlockInfo) : List Addr :=
  bi.all_decls.map Prod.fst

mutual
/-- The blocks of a subtree whose nearest enclosing block is `cur`. -/
def blocks (cur : Option Addr) : Node → List BlockInfo
  | Node.S_Block b stmts => ⟨b, cur, none, direct_decls stmts⟩ :: blocks_each (some b) stmts
  | Node.Program b stmts => ⟨b, cur, none, direct_decls stmts⟩ :: blocks_each (some b) stmts
  | Node.S_DeclareList _ decls => blocks_pairs cur decls
  | Node.S_Condition c t e =>
    blocks cur c ++ (blocks cur t ++
      match e with
      | some x => blocks cur x
      | none => [])
  | Node.S_While c b => blocks cur c ++ blocks cur b
  | Node.S_Return v =>
    match v with
    | some x => blocks cur x
    | none => []
  | Node.S_Exp v => blocks cur v
  | Node.E_Op _ args => blocks_each cur args
  | Node.E_Var _ _ => []
  | Node.E_Func args b stmts =>
    ⟨b, cur, args.map (fun a => (a.1, decl_names a.2)), direct_decls stmts⟩ ::
      ((match args with
        | some (_, decls) => blocks_pairs (some b) decls
        | none => []) ++ blocks_each (some b) stmts)
  | Node.E_List value => blocks_each cur value
  | Node.S_Break => []
  | Node.S_Continue => []
  | Node.S_Empty => []
  | Node.E_Bool _ => []
  | Node.E_Int _ => []
  | Node.E_Float _ => []
  | Node.E_String _ => []
  | Node.E_Null => []
/-- The blocks of a sequence of nodes. -/
def blocks_each (cur : Option Addr) : List Node → List BlockInfo
  | [] => []
  | n :: rest => blocks cur n ++ blocks_each cur rest
/-- The blocks inside the initialisers of a declare-list. -/
def blocks_pairs (cur : Option Addr) : List PairType → List BlockInfo
  | [] => []
  | (_, some initial) :: rest => blocks cur initial ++ blocks_pairs cur rest
  | (_, none) :: rest => blocks_pairs cur rest
end

/-- The addresses of the blocks of a subtree. -/
def block_addrs (cur : Option Addr) (n : Node) : List Addr :=
  (blocks cur n).map BlockInfo.addr

/-- The addresses of the declare-lists of a subtree that are a block's
declare-list statement or a function literal's parameter list. -/
def decl_addrs (cur : Option Addr) (n : Node) : List Addr :=
  (blocks cur n).flatMap BlockInfo.decl_addrs

/-- One block around a node, as the resolver has it when it reaches the node:
the block's address, the names it has declared at that moment, and whether the
node is reached while the block is current for the parameter default
initialisers of its function literal (`init`), when it has no local yet. -/
structure Level where
  block : Addr
  names : List ustring
  init : Bool

/-- Where a node stands when the resolver reaches it: the current block and
the blocks around it, innermost first. -/
abbrev Scope := List Level

/-- The current block of a scope. -/
def Scope.cur (sc : Scope) : Option Addr := sc.head?.map Level.block

/-- Scope of the statements of a block at `b` declaring `names`. -/
def Scope.enter_block (sc : Scope) (b : Addr) (names : List ustring) : Scope :=
  ⟨b, names, false⟩ :: sc

/-- Scope of the parameter default initialisers of a function literal whose
body is at `b`: the body is current and has no local yet. -/
def Scope.enter_init (sc : Scope) (b : Addr) : Scope :=
  ⟨b, [], true⟩ :: sc

/-- The scope a resolver with no current block starts in. -/
def Scope.top : Scope := []

/-- Lexical lookup of a name: the nearest block of the scope that declares it
and the position of the name among that block's declarations. -/
def Scope.lookup (name : ustring) : Scope → Option (Addr × Nat)
  | [] => none
  | l :: rest =>
    if name ∈ l.names then some (l.block, l.names.indexOf name) else Scope.lookup name rest

/-- A variable reference of the tree: address, name and scope. -/
structure Ref where
  addr : Addr
  name : ustring
  scope : Scope

/-- The block that is current when the reference is visited. -/
def Ref.owner (r : Ref) : Option Addr := r.scope.cur

/-- The reference is located inside a parameter default initialiser. -/
def Ref.in_init (r : Ref) : Bool := r.scope.any Level.init

/-- The reference is located inside a function literal or block that is
itself inside a parameter default initialiser. -/
def Ref.nested_in_init (r : Ref) : Bool := r.scope.tail.any Level.init

/-- No block around the reference declares its name. -/
def Ref.unbound (r : Ref) : Bool := (r.scope.lookup r.name).isNone

mutual
/-- The variable references of a subtree reached in scope `sc`, in visiting
order. -/
def refs (sc : Scope) : Node → List Ref
  | Node.S_Block b stmts => refs_each (sc.enter_block b (hoisted stmts)) stmts
  | Node.Program b stmts => refs_each (sc.enter_block b (hoisted stmts)) stmts
  | Node.S_DeclareList _ decls => refs_pairs sc decls
  | Node.S_Condition c t e =>
    refs sc c ++ (refs sc t ++
      match e with
      | some x => refs sc x
      | none => [])
  | Node.S_While c b => refs sc c ++ refs sc b
  | Node.S_Return v =>
    match v with
    | some x => refs sc x
    | none => []
  | Node.S_Exp v => refs sc v
  | Node.E_Op _ args => refs_each sc args
  | Node.E_Var v name => [⟨v, name, sc⟩]
  | Node.E_Func args b stmts =>
    (match args with
      | some (_, decls) => refs_pairs (sc.enter_init b) decls
      | none => []) ++
      refs_each (sc.enter_block b (param_names args ++ hoisted stmts)) stmts
  | Node.E_List value => refs_each sc value
  | Node.S_Break => []
  | Node.S_Continue => []
  | Node.S_Empty => []
  | Node.E_Bool _ => []
  | Node.E_Int _ => []
  | Node.E_Float _ => []
  | Node.E_String _ => []
  | Node.E_Null => []
/-- The variable references of a sequence of nodes. -/
def refs_each (sc : Scope) : List Node → List Ref
  | [] => []
  | n :: rest => refs sc n ++ refs_each sc rest
/-- The variable references inside the initialisers of a declare-list. -/
def refs_pairs (sc : Scope) : List PairType → List Ref
  | [] => []
  | (_, some initial) :: rest => refs sc initial ++ refs_pairs sc rest
  | (_, none) :: rest => refs_pairs sc rest
end

/-- The addresses of the variable references of a subtree. -/
def var_addrs (sc : Scope) (n : Node) : List Addr :=
  (refs sc n).map Ref.addr

/-! ### Footprint of a visit -/

/-- What a visit under current block `s.cur_block` may change between `s` and
`s'`: the records of the blocks in `bs`, the capture tables of the current
block (which only grow), the stamps of the variables in `vs` and the
attributes of the declare-lists in `ds`. -/
structure Touches (bs vs ds : List Addr) (s s' : State) : Prop where
  cur : s'.cur_block = s.cur_block
  block_other : ∀ b, b ∉ bs → s.cur_block ≠ some b → s'.block b = s.block b
  block_cur : ∀ c, s.cur_block = some c → c ∉ bs →
    (s'.block c).parent = (s.block c).parent ∧
    (s'.block c).local_info = (s.block c).local_info ∧
    (s'.block c).name_to_local_index = (s.block c).name_to_local_index ∧
    (s.block c).nonlocal_indexes <+: (s'.block c).nonlocal_indexes ∧
    ∀ name i, map_find (s.block c).name_to_nonlocal_index name = some i →
      map_find (s'.block c).name_to_nonlocal_index name = some i
  var_other : ∀ v, v ∉ vs → s'.var v = s.var v
  decl_other : ∀ d, d ∉ ds → s'.decl d = s.decl d

/-- What adding declarations to the block at `b` may change: the local table
of that block and the attributes of the declare-lists in `ds`. -/
structure Declares (b : Addr) (ds : List Addr) (s s' : State) : Prop where
  cur : s'.cur_block = s.cur_block
  var : s'.var = s.var
  block_other : ∀ b', b' ≠ b → s'.block b' = s.block b'
  decl_other : ∀ d, d ∉ ds → s'.decl d = s.decl d
  parent : (s'.block b).parent = (s.block b).parent
  nonlocal_indexes : (s'.block b).nonlocal_indexes = (s.block b).nonlocal_indexes
  name_to_nonlocal_index :
    (s'.block b).name_to_nonlocal_index = (s.block b).name_to_nonlocal_index

/-- A change confined to the records of the blocks in `bs`, the variables
in `vs` and the declare-lists in `ds`, with `cur_block` as before. -/
structure Confined (bs vs ds : List Addr) (s s' : State) : Prop where
  cur : s'.cur_block = s.cur_block
  block_other : ∀ b, b ∉ bs → s'.block b = s.block b
  var_other : ∀ v, v ∉ vs → s'.var v = s.var v
  decl_other : ∀ d, d ∉ ds → s'.decl d = s.decl d

/-! ### Resolver calls made by a driver -/

/-- One call of an entry point of the resolver. -/
inductive ResolverCall where
  | resolve_names (block : Addr) (stmts : List Node)
  | resolve_names_in_block (block : Addr) (node : Node)

/-- The state after a call, whatever its outcome. -/
def ResolverCall.run (fuel : Nat) (call : ResolverCall) (s : State) : State :=
  match call with
  | ResolverCall.resolve_names block stmts => (JiaoBenScript.resolve_names fuel block stmts s).2
  | ResolverCall.resolve_names_in_block block node =>
    (JiaoBenScript.resolve_names_in_block fuel block node s).2

/-- The state after a sequence of calls; a driver that reports an exception
and goes on (the REPL) makes the next call on the state the failed one left. -/
def run_calls (fuel : Nat) : List ResolverCall → State → State
  | [], s => s
  | call :: rest, s => run_calls fuel rest (call.run fuel s)

/-- The effect of a successful `add_declarations_to_block_attr` on a block
record `old`: `start_index` is the old number of locals, the declared names
are appended in source order, and every old local keeps its slot. -/
def Appended (old : S_Block.AttrType) (decls : List PairType) (new : S_Block.AttrType)
    (decls_attr : A_DeclareList) : Prop :=
  decls_attr.start_index = (old.local_info.length : Int) ∧
  new.local_info = old.local_info ++ (decl_names decls).map VarInfo.mk ∧
  (∀ i name, (decl_names decls)[i]? = some name →
    new.local_info[old.local_info.length + i]? = some ⟨name⟩) ∧
  (∀ k, k < old.local_info.length → new.local_info[k]? = old.local_info[k]?) ∧
  (∀ name i, map_find old.name_to_local_index name = some i →
    map_find new.name_to_local_index name = some i)

/-! ### What resolution establishes -/

/-- The parent pointers lead from `o` through exactly the blocks of `env`,
in order, and end at null. -/
def Chain (blk : Addr → S_Block.AttrType) : Option Addr → List Addr → Prop
  | o, [] => o = none
  | o, b :: rest => o = some b ∧ Chain blk (blk b).parent rest

/-- The state agrees with a scope: the current block and its parent chain are
the blocks of the scope, and each of them has exactly the scope's names as
locals, under the local-table invariant. -/
structure ScopeOK (s : State) (sc : Scope) : Prop where
  cur : s.cur_block = sc.cur
  chain : Chain s.block s.cur_block (sc.map Level.block)
  nodup : (sc.map Level.block).Nodup
  names : ∀ l ∈ sc, local_names (s.block l.block) = l.names
  inv : ∀ l ∈ sc, LocalTableInv (s.block l.block)

/-- The capture tables of a block record agree with lexical lookup in the
blocks `anc` around the block: the map numbers its names `0, 1, ..` in the
order of `nonlocal_indexes`, and the entry of a name is what lookup finds. -/
structure CacheOK (attr : S_Block.AttrType) (anc : Scope) : Prop where
  values : attr.name_to_nonlocal_index.map Prod.snd =
    (List.range attr.nonlocal_indexes.length).map Int.ofNat
  keys : (attr.name_to_nonlocal_index.map Prod.fst).Nodup
  sound : ∀ (name : ustring) (v : Int), map_find attr.name_to_nonlocal_index name = some v →
    ∃ (k : Nat) (T : Addr) (i : Nat), v = (k : Int) ∧ anc.lookup name = some (T, i) ∧
      attr.nonlocal_indexes[k]? = some ⟨some T, (i : Int)⟩

/-- The name of the reference is declared by the block that is current when
the reference is visited. -/
def Ref.declared_locally (r : Ref) : Prop :=
  match r.scope with
  | [] => False
  | l :: _ => r.name ∈ l.names

/-- The stamp of a reference is the one lexical lookup prescribes: local with
the position of the name in the current block, or else non-local with a
capture slot of the current block that holds what lookup finds around it. -/
def Stamped (s : State) (r : Ref) : Prop :=
  match r.scope with
  | [] => False
  | l :: anc =>
    (r.name ∈ l.names → s.var r.addr = ⟨true, (l.names.indexOf r.name : Nat)⟩) ∧
    (r.name ∉ l.names → ∃ (k : Nat) (T : Addr) (i : Nat),
      Scope.lookup r.name anc = some (T, i) ∧ s.var r.addr = ⟨false, (k : Int)⟩ ∧
      (s.block l.block).nonlocal_indexes[k]? = some ⟨some T, (i : Int)⟩ ∧
      map_find (s.block l.block).name_to_nonlocal_index r.name = some (k : Int))

/-- A block of the tree is resolved: parent pointer, local table, capture
tables and the `start_index` of its declare-lists are as the tree prescribes;
`R` are the variable references of the tree. -/
structure BlockDone (s : State) (R : List Ref) (bi : BlockInfo) : Prop where
  parent : (s.block bi.addr).parent = bi.parent
  names : local_names (s.block bi.addr) = bi.declared
  inv : LocalTableInv (s.block bi.addr)
  values : (s.block bi.addr).name_to_nonlocal_index.map Prod.snd =
    (List.range (s.block bi.addr).nonlocal_indexes.length).map Int.ofNat
  keys : ((s.block bi.addr).name_to_nonlocal_index.map Prod.fst).Nodup
  captured : ∀ name, name ∈ (s.block bi.addr).name_to_nonlocal_index.map Prod.fst ↔
    ∃ r ∈ R, r.owner = some bi.addr ∧ r.name = name ∧ ¬ r.declared_locally
  start : ∀ (i : Nat) (d : Addr) (names : List ustring), bi.all_decls[i]? = some (d, names) →
    (s.decl d).start_index = (((bi.all_decls.take i).flatMap Prod.snd).length : Int)

/-- What a visit needs: the state agrees with the scope `l :: anc`, the
capture tables of the current block agree with lookup, and the blocks `bs`,
variable references `vs` and declare-lists `ds` of what is to be visited are
distinct objects, outside the scope, with default-initialised block records;
the step budget covers the nesting depth. -/
structure Ready (fuel : Nat) (s : State) (l : Level) (anc : Scope)
    (bs vs ds : List Addr) : Prop where
  scope : ScopeOK s (l :: anc)
  cache : CacheOK (s.block l.block) anc
  blocks_nodup : bs.Nodup
  blocks_disjoint : ∀ b ∈ bs, b ∉ (l :: anc).map Level.block
  fresh : ∀ b ∈ bs, s.block b = {}
  vars_nodup : vs.Nodup
  decls_nodup : ds.Nodup
  fuel : (l :: anc).length + bs.length ≤ fuel

/-- What a successful visit establishes for the references `R` and blocks
`B` it covered, in scope `l :: anc`. -/
structure Done (s s' : State) (l : Level) (anc : Scope) (R : List Ref)
    (B : List BlockInfo) : Prop where
  scope : ScopeOK s' (l :: anc)
  cache : CacheOK (s'.block l.block) anc
  stamped : ∀ r ∈ R, Stamped s' r
  blocks : ∀ bi ∈ B, BlockDone s' R bi
  captured : ∀ name, name ∈ (s'.block l.block).name_to_nonlocal_index.map Prod.fst ↔
    (name ∈ (s.block l.block).name_to_nonlocal_index.map Prod.fst ∨
      ∃ r ∈ R, r.scope = l :: anc ∧ r.name = name ∧ name ∉ l.names)

/-- Every reference finds its name in its scope. -/
def AllBound (R : List Ref) : Prop := ∀ r ∈ R, r.unbound = false

/-- No block declares a name twice. -/
def NoDupDecl (B : List BlockInfo) : Prop := ∀ bi ∈ B, bi.declared.Nodup

/-- The outcome of a visit in scope `l :: anc` that covers the references `R`
and the blocks `B`: resolution is established when it returns; and when no
block declares a name twice, it returns if every reference is bound and
throws `NoSuchName` if one is not. -/
def Outcome (s : State) (res : Result Unit × State) (l : Level) (anc : Scope)
    (R : List Ref) (B : List BlockInfo) : Prop :=
  (res.1 = Result.ok () → Done s res.2 l anc R B) ∧
  (NoDupDecl B →
    (res.1 = Result.ok () ∧ AllBound R) ∨ (res.1.threw_no_such_name = true ∧ ¬ AllBound R))

/-- The guarded scope of `Resolver::visit_func`: with the body block current,
the parameter initialisers are visited and then the parameters are declared. -/
def Resolver.visit_args (fuel : Nat) (args : Option (Addr × List PairType)) (b : Addr)
    (s : State) : Result Unit × State :=
  match args with
  | some (d, decls) =>
    RestoreOnExit s.cur_block
      (andThen (Resolver.visit_each fuel (initialisers decls) (Resolver.enter b s))
        (declare b d decls))
  | none => (Result.ok (), s)

/-- The parameter declare-list of a function literal: address and names. -/
def param_decl (args : Option (Addr × List PairType)) : Option (Addr × List ustring) :=
  args.map fun a => (a.1, decl_names a.2)

/-- The scope of a reference of a subtree is the scope of the subtree, or
extends it by blocks of the subtree, the innermost being the owner. -/
def ScopeCases (sc : Scope) (bs : List Addr) (r : Ref) : Prop :=
  r.scope = sc ∨ ∃ l pre, r.scope = l :: (pre ++ sc) ∧ l.block ∈ bs

/-- The expected result of `resolve_from_block` by lexical lookup. -/
def lookup_result (anc : Scope) (name : ustring) : Result NonLocalInfo :=
  match Scope.lookup name anc with
  | some (T, i) => Result.ok ⟨some T, (i : Int)⟩
  | none => Result.throw (Exception.NoSuchName name)


/-- The block record after a capture slot for `name` has been requested:
the name is in the map under the next index. -/
def with_key (attr : S_Block.AttrType) (name : ustring) : S_Block.AttrType :=
  { attr with
    name_to_nonlocal_index :=
      attr.name_to_nonlocal_index ++ [(name, (attr.nonlocal_indexes.length : Int))] }

/-- The block record after a capture slot for `name` has been allocated. -/
def with_slot (attr : S_Block.AttrType) (name : ustring) (info : NonLocalInfo) :
    S_Block.AttrType :=
  { with_key attr name with nonlocal_indexes := attr.nonlocal_indexes ++ [info] }


/-- What the induction establishes for a node: from a ready state, the
outcome of its visit. -/
def Resolves (fuel : Nat) (n : Node) : Prop :=
  ∀ (s : State) (l : Level) (anc : Scope),
    Ready fuel s l anc (block_addrs (some l.block) n) (var_addrs (l :: anc) n)
      (decl_addrs (some l.block) n) →
    Outcome s (Resolver.visit fuel n s) l anc (refs (l :: anc) n) (blocks (some l.block) n)


/-- The state between the two parts of `Resolver::visit_func`, for the body
block `b` of a function literal in scope `l :: anc`: the parameters `P` are
the locals of `b`, its capture tables hold what the parameter initialisers
captured, and the references `R0` and blocks `B0` of the initialisers are
resolved. -/
structure Mid (sa : State) (b : Addr) (l : Level) (anc : Scope) (P : List ustring)
    (pd : Option (Addr × List ustring)) (R0 : List Ref) (B0 : List BlockInfo) : Prop where
  names : local_names (sa.block b) = P
  inv : LocalTableInv (sa.block b)
  cache : CacheOK (sa.block b) (l :: anc)
  stamped : ∀ r ∈ R0, Stamped sa r
  blocks : ∀ bi ∈ B0, BlockDone sa R0 bi
  captured : ∀ name, name ∈ (sa.block b).name_to_nonlocal_index.map Prod.fst ↔
    ∃ r ∈ R0, r.scope = ⟨b, [], true⟩ :: l :: anc ∧ r.name = name
  start : ∀ d names, pd = some (d, names) → (sa.decl d).start_index = 0

/-! ### Programs -/

/-- A fresh program AST in state `s`: the blocks, variable references and
declare-lists of the tree are distinct objects, and every block of the tree has
a default-initialised (empty) attribute record. -/
structure FreshTree (s : State) (b : Addr) (stmts : List Node) : Prop where
  blocks_nodup : (block_addrs none (Node.Program b stmts)).Nodup
  vars_nodup : (var_addrs Scope.top (Node.Program b stmts)).Nodup
  decls_nodup : (decl_addrs none (Node.Program b stmts)).Nodup
  fresh : ∀ b' ∈ block_addrs none (Node.Program b stmts), s.block b' = {}

/-- What a successful `resolve_names` establishes for the references `R` and
the blocks `B` of the program. -/
structure Resolved (s : State) (R : List Ref) (B : List BlockInfo) : Prop where
  stamped : ∀ r ∈ R, Stamped s r
  blocks : ∀ bi ∈ B, BlockDone s R bi

/-- A level of a scope agrees with the tree: it is a block of `B` whose
lexically enclosing block is `next`, and its names are the block's
declarations, or none yet while the block is current for the parameter
default initialisers. -/
def LevelOK (B : List BlockInfo) (lv : Level) (next : Option Addr) : Prop :=
  ∃ bi ∈ B, bi.addr = lv.block ∧ bi.parent = next ∧
    (lv.init = false → lv.names = bi.declared) ∧ (lv.init = true → lv.names = [])

/-- Every level of a scope agrees with the tree. -/
def ScopeWF (B : List BlockInfo) : Scope → Prop
  | [] => True
  | lv :: rest => LevelOK B lv (Scope.cur rest) ∧ ScopeWF B rest

/-- A scope read off the resolved state: parent pointers link the levels, and
the names of a level are the locals of its block, or none for a level that
was current for parameter default initialisers. -/
def HeapScope (s : State) : Scope → Prop
  | [] => True
  | lv :: rest =>
    (s.block lv.block).parent = Scope.cur rest ∧
    (lv.init = false → lv.names = local_names (s.block lv.block)) ∧
    (lv.init = true → lv.names = []) ∧ HeapScope s rest

/-- The parent pointers lead from `o` through the blocks of `path`, in order,
to the block `T`. -/
def PathTo (blk : Addr → S_Block.AttrType) : Option Addr → List Addr → Addr → Prop
  | o, [], T => o = some T
  | o, b :: rest, T => o = some b ∧ PathTo blk (blk b).parent rest T

/-- Block `T` is a strict ancestor of block `B` on `B`'s parent chain. -/
def StrictAncestor (blk : Addr → S_Block.AttrType) (B T : Addr) : Prop :=
  ∃ path, PathTo blk (blk B).parent path T

/-- Block `T` is the nearest strict ancestor of `B` that has `name` as a
local: it is on `B`'s parent chain, it declares `name`, and no block strictly
between `B` and `T` on the chain does. -/
def NearestDeclaring (blk : Addr → S_Block.AttrType) (name : ustring) (B T : Addr) : Prop :=
  ∃ path, PathTo blk (blk B).parent path T ∧
    (∀ b ∈ path, name ∉ local_names (blk b)) ∧ name ∈ local_names (blk T)

/-- The distinct names of the references that have `B` as owning block and
are stamped non-local in state `s`. -/
def nonlocal_names (s : State) (R : List Ref) (B : Addr) : List ustring :=
  ((R.filter fun r => decide (r.owner = some B) && !(s.var r.addr).is_local).map
    Ref.name).dedup

/-! ### Example programs -/

/-- The program `var y = z;`. -/
def prog_undeclared : List Node :=
  [Node.S_DeclareList 100 [("y", some (Node.E_Var 200 "z"))]]

/-- The program `fn(a = z) {};`: the only variable reference is in a
parameter default initialiser. -/
def prog_init_unbound : List Node :=
  [Node.S_Exp (Node.E_Func (some (100, [("a", some (Node.E_Var 200 "z"))])) 1 [])]

/-- The program `var a; fn() { return a; }; a;`. -/
def prog_capture : List Node :=
  [Node.S_DeclareList 100 [("a", none)],
    Node.S_Exp (Node.E_Func none 1 [Node.S_Return (some (Node.E_Var 200 "a"))]),
    Node.S_Exp (Node.E_Var 201 "a")]

/-- The program `var a; fn(a = fn() { return a; }) {};`: the inner function
literal is in the default initialiser of the parameter `a`. -/
def prog_nested_init : List Node :=
  [Node.S_DeclareList 100 [("a", none)],
    Node.S_Exp (Node.E_Func
      (some (101, [("a", some (Node.E_Func none 2
        [Node.S_Return (some (Node.E_Var 200 "a"))]))])) 1 [])]

/-- The program `x; var x;`: a reference before the declaration. -/
def prog_forward : List Node :=
  [Node.S_Exp (Node.E_Var 200 "x"), Node.S_DeclareList 100 [("x", none)]]

/-- The program `var a; var b; fn() { a; b; a; };`. -/
def prog_two_captures : List Node :=
  [Node.S_DeclareList 100 [("a", none)], Node.S_DeclareList 101 [("b", none)],
    Node.S_Exp (Node.E_Func none 1
      [Node.S_Exp (Node.E_Var 200 "a"), Node.S_Exp (Node.E_Var 201 "b"),
        Node.S_Exp (Node.E_Var 202 "a")])]

/-- The function literal `fn(p, q = 1) { var x; var y, z; }` with its body
block at 1. -/
def func_two_params : Node :=
  Node.E_Func (some (100, [("p", none), ("q", some (Node.E_Int 1))])) 1
    [Node.S_DeclareList 101 [("x", none)], Node.S_DeclareList 102 [("y", none), ("z", none)]]

/-! ### Lexical enclosure -/

/-- What the text of a program says about where a block stands: `encl` is the
nearest block among the ancestors of the block in the tree, that is, the
nearest block that lexically encloses it; `host` is set for a block that is
reached through a parameter default initialiser with no block in between, and
is then the body block of the function literal the initialiser belongs to. -/
structure LexInfo where
  addr : Addr
  encl : Option Addr
  host : Option Addr
  deriving DecidableEq, Repr

mutual
/-- The blocks of a subtree, each with the nearest block that lexically
encloses it; `encl` is that block for the subtree itself, and `host` the body
block of the function literal when the subtree stands in one of its parameter
default initialisers with no block in between. -/
def lexical_blocks (encl host : Option Addr) : Node → List LexInfo
  | Node.S_Block b stmts => ⟨b, encl, host⟩ :: lexical_blocks_each (some b) none stmts
  | Node.Program b stmts => ⟨b, encl, host⟩ :: lexical_blocks_each (some b) none stmts
  | Node.S_DeclareList _ decls => lexical_blocks_pairs encl host decls
  | Node.S_Condition c t e =>
    lexical_blocks encl host c ++ (lexical_blocks encl host t ++
      match e with
      | some x => lexical_blocks encl host x
      | none => [])
  | Node.S_While c b => lexical_blocks encl host c ++ lexical_blocks encl host b
  | Node.S_Return v =>
    match v with
    | some x => lexical_blocks encl host x
    | none => []
  | Node.S_Exp v => lexical_blocks encl host v
  | Node.E_Op _ args => lexical_blocks_each encl host args
  | Node.E_Var _ _ => []
  | Node.E_Func args b stmts =>
    ⟨b, encl, host⟩ ::
      ((match args with
        | some (_, decls) => lexical_blocks_pairs encl (some b) decls
        | none => []) ++ lexical_blocks_each (some b) none stmts)
  | Node.E_List value => lexical_blocks_each encl host value
  | Node.S_Break => []
  | Node.S_Continue => []
  | Node.S_Empty => []
  | Node.E_Bool _ => []
  | Node.E_Int _ => []
  | Node.E_Float _ => []
  | Node.E_String _ => []
  | Node.E_Null => []
/-- The blocks of a sequence of nodes, with their lexical position. -/
def lexical_blocks_each (encl host : Option Addr) : List Node → List LexInfo
  | [] => []
  | n :: rest => lexical_blocks encl host n ++ lexical_blocks_each encl host rest
/-- The blocks inside the initialisers of a declare-list, with their lexical
position. -/
def lexical_blocks_pairs (encl host : Option Addr) : List PairType → List LexInfo
  | [] => []
  | (_, some initial) :: rest =>
    lexical_blocks encl host initial ++ lexical_blocks_pairs encl host rest
  | (_, none) :: rest => lexical_blocks_pairs encl host rest
end

/-- The block in which the resolver reaches a block: the body block of the
function literal for a block reached through a parameter default initialiser,
and the lexically enclosing block otherwise. -/
def LexInfo.reached_in (lb : LexInfo) : Option Addr :=
  match lb.host with
  | some h => some h
  | none => lb.encl

/-! ### More example programs -/

/-- The function literal `fn(a = z) { var a; }` with its body block at 1. -/
def func_redeclared_unbound : Node :=
  Node.E_Func (some (100, [("a", some (Node.E_Var 200 "z"))])) 1
    [Node.S_DeclareList 101 [("a", none)]]

/-- The function literal `fn(a) { var a; }` with its body block at 1. -/
def func_redeclared : Node :=
  Node.E_Func (some (100, [("a", none)])) 1 [Node.S_DeclareList 101 [("a", none)]]

/-- The function literal `fn(a, a) {}` with its body block at 1. -/
def func_twice : Node :=
  Node.E_Func (some (100, [("a", none), ("a", none)])) 1 []

/-- The reference stands in a parameter default initialiser, outside any
nested block or function: its current block is the body block of the function
literal, which is current while the initialisers are resolved. -/
def Ref.at_init (r : Ref) : Bool :=
  match r.scope with
  | l :: _ => l.init
  | [] => false

/-- The program `fn(a = fn(y, y) {}, b = b) {};`: the initialiser of the
parameter `b` refers to `b`, after an initialiser whose function literal names
a parameter twice. -/
def prog_dup_in_init : List Node :=
  [Node.S_Exp (Node.E_Func
    (some (100, [("a", some (Node.E_Func (some (101, [("y", none), ("y", none)])) 2 [])),
      ("b", some (Node.E_Var 200 "b"))])) 1 [])]

/-! ### Resolution of an already resolved tree -/

/-- The block records `blk` hold what a completed resolution of the
references `R` and the blocks `B` leaves: the name of every reference is in
the local table or in the capture table of its current block, every block
has its parent pointer, and every declared name is in the local table of its
block. -/
structure Settled (blk : Addr → S_Block.AttrType) (R : List Ref) (B : List BlockInfo) :
    Prop where
  known : ∀ r ∈ R, ∃ c, r.owner = some c ∧
    ((map_find (blk c).name_to_local_index r.name).isSome = true ∨
      (map_find (blk c).name_to_nonlocal_index r.name).isSome = true)
  parent : ∀ bi ∈ B, (blk bi.addr).parent = bi.parent
  declared : ∀ bi ∈ B, ∀ name ∈ bi.declared,
    (map_find (blk bi.addr).name_to_local_index name).isSome = true

/-- Outcome of a visit that covers the blocks `B` of a settled tree: it
returns with the block records and `cur_block` as before when no block of `B`
declares a name, and throws `DuplicatedLocalName` when one does. -/
def Replayed (s : State) (res : Result Unit × State) (B : List BlockInfo) : Prop :=
  (res.1 = Result.ok () ∧ res.2.block = s.block ∧ res.2.cur_block = s.cur_block ∧
    ∀ bi ∈ B, bi.declared = []) ∨
  (res.1.threw_duplicated = true ∧ ∃ bi ∈ B, bi.declared ≠ [])

/-- The program `fn() { while (true) { } };`, which declares no name. -/
def prog_no_decls : List Node :=
  [Node.S_Exp (Node.E_Func none 1 [Node.S_While (Node.E_Bool true) (Node.S_Block 2 [])])]

/-! ### References that stand directly in a scope -/

/-- What a returning visit of a node in scope `l :: anc` establishes for the
references of the node whose current block is `l.block`, whatever the block
records inside the node hold: from a state that agrees with the scope and
whose current block has capture tables that agree with lookup, the visit
leaves such a state and every such reference is stamped as lookup
prescribes.  The blocks of the node are distinct from those of the scope. -/
def Directly (fuel : Nat) (n : Node) : Prop :=
  ∀ (s : State) (l : Level) (anc : Scope),
    ScopeOK s (l :: anc) → CacheOK (s.block l.block) anc →
    (∀ b ∈ block_addrs (some l.block) n, b ∉ (l :: anc).map Level.block) →
    (var_addrs (l :: anc) n).Nodup → (l :: anc).length ≤ fuel →
    (Resolver.visit fuel n s).1 = Result.ok () →
    ScopeOK (Resolver.visit fuel n s).2 (l :: anc) ∧
    CacheOK ((Resolver.visit fuel n s).2.block l.block) anc ∧
    ∀ r ∈ refs (l :: anc) n, r.scope = l :: anc → Stamped (Resolver.visit fuel n s).2 r

/-- The function literal `fn(a = a) {}` with its body block at 1: the
initialiser of the parameter `a` refers to `a`. -/
def func_init_own_param : Node :=
  Node.E_Func (some (101, [("a", some (Node.E_Var 200 "a"))])) 1 []

/-- The state in which the resolver reaches a statement typed after `var a;`:
the program `var a;` has been resolved, and `resolve_names_in_block` has made
the program block (at 0), which is populated, the current block. -/
def state_var_a : State :=
  { (resolve_names 8 0 [Node.S_DeclareList 100 [("a", none)]] State.fresh).2 with
    cur_block := some 0 }

/-! ### What a visit reaches under the current block -/

mutual
/-- What the resolver visits under the current block of a node, in visiting
order: the variable references of the node that stand outside any block or
function literal of the node, and the blocks and function literals of the
node that stand outside any other.  The other nodes only pass the visit on to
their sub-nodes. -/
def items : Node → List Node
  | Node.S_Block b stmts => [Node.S_Block b stmts]
  | Node.Program b stmts => [Node.Program b stmts]
  | Node.S_DeclareList _ decls => items_pairs decls
  | Node.S_Condition c t e =>
    items c ++ (items t ++
      match e with
      | some x => items x
      | none => [])
  | Node.S_While c b => items c ++ items b
  | Node.S_Return v =>
    match v with
    | some x => items x
    | none => []
  | Node.S_Exp v => items v
  | Node.E_Op _ args => items_each args
  | Node.E_Var v name => [Node.E_Var v name]
  | Node.E_Func args b stmts => [Node.E_Func args b stmts]
  | Node.E_List value => items_each value
  | Node.S_Break => []
  | Node.S_Continue => []
  | Node.S_Empty => []
  | Node.E_Bool _ => []
  | Node.E_Int _ => []
  | Node.E_Float _ => []
  | Node.E_String _ => []
  | Node.E_Null => []
/-- What the resolver visits under the current block in a sequence of
nodes. -/
def items_each : List Node → List Node
  | [] => []
  | n :: rest => items n ++ items_each rest
/-- What the resolver visits under the current block in the initialisers of a
declare-list. -/
def items_pairs : List PairType → List Node
  | [] => []
  | (_, some initial) :: rest => items initial ++ items_pairs rest
  | (_, none) :: rest => items_pairs rest
end

/-! ## Evaluator (`eval_ast.h`)

The header declares the signals, `Frame`, the guard `StackPoper` and the class
`AstInterpreter` with its two stacks.  The member functions of
`AstInterpreter` are only declared there; they are modelled from the
specification (§4.3), under the names of the header.  Value arithmetic (§4.2)
and the built-ins (§6) are host functions on values and are parameters of the
model.  A visit takes a step budget: loops and calls of the interpreted
program need not terminate. -/

/-- Modelled from the spec: the runtime values of §3, which the header takes
from `jbobject.h`: null, bool, 64-bit int, double (as its bit pattern), string,
list (a reference to a list object), function (the fields of the defining
`E_Func` node and the captured parent frame) and built-in. -/
inductive JBValue where
  | null
  | bool (value : Bool)
  | int (value : Int)
  | float (bits : Nat)
  | string (value : ustring)
  | list (ref : Nat)
  | func (args : Option (Addr × List PairType)) (block : Addr) (stmts : List Node)
      (frame : Option Nat)
  | builtin (id : Nat)

/-- `Signal` and its subclasses `BreakSignal`, `ContinueSignal` and
`ReturnSignal`, which carries the returned value. -/
inductive Signal where
  | BreakSignal
  | ContinueSignal
  | ReturnSignal (value : JBValue)

/-- `Frame`: the lexically enclosing frame, the block the frame belongs to,
and one slot per local of the block.  Frames are named by their position in
the allocator. -/
structure Frame where
  parent : Option Nat := none
  block : Option Addr := none
  vars : List JBValue := []

/-- Modelled from the spec: the error kinds of §7 that the evaluator raises. -/
inductive EvalError where
  | TypeError
  | ArgumentError
  | ZeroDivision
  | IndexError

/-- How a visit of the evaluator ends: normal return, a signal or an error
that unwinds, a failed `assert`, or an exhausted step budget. -/
inductive Exit where
  | normal
  | signal (s : Signal)
  | error (e : EvalError)
  | assert_fail
  | out_of_fuel

/-- The visit returned normally. -/
def Exit.is_normal : Exit → Bool
  | Exit.normal => true
  | _ => false

/-- The visit was left by a signal. -/
def Exit.is_signal : Exit → Bool
  | Exit.signal _ => true
  | _ => false

/-- The data members of `AstInterpreter`: the frame stack and the value stack
(top first), and the objects the allocator owns: frames and list objects.
`strays` is bookkeeping of the model and no data member: the number of
`BreakSignal`s and `ContinueSignal`s that have left a function body so far.
No step of the evaluator reads it: a visit from a state that differs only in
`strays` ends in the same way, in a state that differs only in `strays`. -/
structure AstInterpreter where
  frames : List Nat := []
  values : List JBValue := []
  allocator : List Frame := []
  lists : List (List JBValue) := []
  strays : Nat := 0

/-- A step of the evaluator from a state to an exit and a state. -/
abbrev Run := AstInterpreter → Exit × AstInterpreter

/-- Modelled from the spec: the host functions the evaluator consumes.  `op`
is the value arithmetic of §4.2 (an operator applied to its operand values,
with the subscript read), `setitem` the subscript assignment, `call` the
built-ins table of §6 (a host function of shape vector of values to value).
They see the list objects and no stack. -/
structure Host where
  op : OpCode → List JBValue → List (List JBValue) →
    Except EvalError (JBValue × List (List JBValue))
  setitem : JBValue → JBValue → JBValue → List (List JBValue) →
    Except EvalError (List (List JBValue))
  call : Nat → List JBValue → List (List JBValue) →
    Except EvalError (JBValue × List (List JBValue))

/-- Destructor of `StackPoper`: asserts that the stack is not empty and pops
it; `none` is the failed assertion. -/
def StackPoper.destroy {α : Type} (stk : List α) : Option (List α) :=
  match stk with
  | [] => none
  | _ :: rest => some rest

/-- The guard `StackPoper` on the frame stack: its destructor runs when the
guarded scope is left, by normal return, signal or error. -/
def StackPoper (r : Exit × AstInterpreter) : Exit × AstInterpreter :=
  match StackPoper.destroy r.2.frames with
  | none => (Exit.assert_fail, r.2)
  | some rest => (r.1, { r.2 with frames := rest })

/-- Sequencing in the evaluator: the second step runs only when the first
returned normally; a signal or error unwinds past it. -/
def continue_with (r : Exit × AstInterpreter) (k : Run) : Exit × AstInterpreter :=
  match r with
  | (Exit.normal, st) => k st
  | other => other

/-- Modelled from the spec: the statement forms of §3. -/
def Node.is_statement : Node → Bool
  | Node.S_Block _ _ => true
  | Node.Program _ _ => true
  | Node.S_DeclareList _ _ => true
  | Node.S_Condition _ _ _ => true
  | Node.S_While _ _ => true
  | Node.S_Return _ => true
  | Node.S_Break => true
  | Node.S_Continue => true
  | Node.S_Exp _ => true
  | Node.S_Empty => true
  | _ => false

/-- Modelled from the spec: truthiness (§4.2): null, false, 0, 0.0, the empty
string and the empty list are falsy, everything else is truthy. -/
def truthy (lists : List (List JBValue)) : JBValue → Bool
  | JBValue.null => false
  | JBValue.bool b => b
  | JBValue.int i => i != 0
  | JBValue.float bits => bits % 2 ^ 63 != 0
  | JBValue.string s => s != ""
  | JBValue.list ref => !((lists[ref]?).getD []).isEmpty
  | JBValue.func _ _ _ _ => true
  | JBValue.builtin _ => true

/-- Modelled from the spec: `AstInterpreter::return_value`: the value of an
expression is pushed onto the value stack. -/
def AstInterpreter.return_value (value : JBValue) : Run :=
  fun st => (Exit.normal, { st with values := value :: st.values })

/-- Takes the top of the value stack; an empty stack is a failed assertion. -/
def AstInterpreter.pop_value (k : JBValue → Run) : Run :=
  fun st =>
    match st.values with
    | [] => (Exit.assert_fail, st)
    | v :: rest => k v { st with values := rest }

/-- Takes the top `n` values of the value stack, oldest first. -/
def AstInterpreter.pop_values (n : Nat) (k : List JBValue → Run) : Run :=
  fun st =>
    if n ≤ st.values.length then
      k (st.values.take n).reverse { st with values := st.values.drop n }
    else (Exit.assert_fail, st)

/-- Applies a host function to the list objects and pushes its value. -/
def AstInterpreter.host_value
    (f : List (List JBValue) → Except EvalError (JBValue × List (List JBValue))) : Run :=
  fun st =>
    match f st.lists with
    | Except.ok (v, lists) => AstInterpreter.return_value v { st with lists := lists }
    | Except.error e => (Exit.error e, st)

/-- Modelled from the spec: `AstInterpreter::create_frame` (§4.3 "Block
execution"): a new frame with the given parent and one slot, initialised to
null, for every local of the block. -/
def AstInterpreter.create_frame (attrs : State) (parent : Option Nat) (block : Addr) : Frame :=
  { parent := parent, block := some block,
    vars := List.replicate (attrs.block block).local_info.length JBValue.null }

/-- Modelled from the spec: `AstInterpreter::enter` (§4.3 "Block execution"):
allocates the frame of the block and pushes it onto the frame stack; the
caller holds the returned `StackPoper`. -/
def AstInterpreter.enter (attrs : State) (block : Addr) (parent_frame : Option Nat)
    (st : AstInterpreter) : AstInterpreter :=
  { st with
    allocator := st.allocator ++ [AstInterpreter.create_frame attrs parent_frame block]
    frames := st.allocator.length :: st.frames }

/-- Walk of the parent chain of a frame to the frame of the block `target`. -/
def find_frame (allocator : List Frame) (target : Addr) : Nat → Option Nat → Option Nat
  | 0, _ => none
  | _ + 1, none => none
  | fuel + 1, some f =>
    match allocator[f]? with
    | none => none
    | some fr =>
      if fr.block = some target then some f else find_frame allocator target fuel fr.parent

/-- Modelled from the spec: `AstInterpreter::resolve_var` (§4.3 "Variable
access"): the frame and slot of a variable reference.  A local reference is a
slot of the current frame; a non-local one selects an entry `(target block,
slot)` of the current block's `nonlocal_indexes`, and the parent chain of the
current frame is walked to the frame of the target block. -/
def AstInterpreter.resolve_var (attrs : State) (v : Addr) (st : AstInterpreter) :
    Option (Nat × Nat) :=
  match st.frames with
  | [] => none
  | f :: _ =>
    if (attrs.var v).index < 0 then none
    else if (attrs.var v).is_local then some (f, (attrs.var v).index.toNat)
    else
      match st.allocator[f]? with
      | none => none
      | some fr =>
        match fr.block with
        | none => none
        | some b =>
          match (attrs.block b).nonlocal_indexes[(attrs.var v).index.toNat]? with
          | some ⟨some target, slot⟩ =>
            if slot < 0 then none
            else
              (find_frame st.allocator target st.allocator.length fr.parent).map
                fun g => (g, slot.toNat)
          | _ => none

/-- Reads a slot of a frame. -/
def AstInterpreter.read_slot (st : AstInterpreter) (loc : Nat × Nat) : Option JBValue :=
  (st.allocator[loc.1]?).bind fun fr => fr.vars[loc.2]?

/-- Writes a slot of a frame; a missing frame or slot is a failed assertion. -/
def AstInterpreter.write_slot (loc : Nat × Nat) (value : JBValue) : Run :=
  fun st =>
    match st.allocator[loc.1]? with
    | none => (Exit.assert_fail, st)
    | some fr =>
      if loc.2 < fr.vars.length then
        (Exit.normal,
          { st with
            allocator := st.allocator.set loc.1 { fr with vars := fr.vars.set loc.2 value } })
      else (Exit.assert_fail, st)

/-- Modelled from the spec: execution of a node in statement position
(§4.3 `eval_stmt`: dispatch by kind).  The AST contract of §3 is checked
here: a node that is not a statement form is a failed assertion. -/
def AstInterpreter.exec_stmt (visit : Node → Run) (node : Node) : Run :=
  fun st => if node.is_statement then visit node st else (Exit.assert_fail, st)

/-- Modelled from the spec: `AstInterpreter::eval_exp` (§4.3: dispatch by
kind, one net push on success).  The AST contract of §3 is checked here: a
node that is not an expression form is a failed assertion. -/
def AstInterpreter.eval_exp (visit : Node → Run) (node : Node) : Run :=
  fun st => if node.is_statement then (Exit.assert_fail, st) else visit node st

/-- Statements executed in order. -/
def AstInterpreter.exec_each (visit : Node → Run) : List Node → Run
  | [] => fun st => (Exit.normal, st)
  | n :: rest => fun st =>
    continue_with (AstInterpreter.exec_stmt visit n st) (AstInterpreter.exec_each visit rest)

/-- Expressions evaluated left to right, each value pushed onto the value
stack. -/
def AstInterpreter.eval_each (visit : Node → Run) : List Node → Run
  | [] => fun st => (Exit.normal, st)
  | n :: rest => fun st =>
    continue_with (AstInterpreter.eval_exp visit n st) (AstInterpreter.eval_each visit rest)

/-- Modelled from the spec: `AstInterpreter::handle_block` (§4.3 "Block
execution"): the block is entered with the given parent frame, its statements
are executed in order, and the frame is popped on normal or abrupt exit. -/
def AstInterpreter.handle_block (attrs : State) (visit : Node → Run) (block : Addr)
    (stmts : List Node) (parent_frame : Option Nat) : Run :=
  fun st =>
    StackPoper (AstInterpreter.exec_each visit stmts
      (AstInterpreter.enter attrs block parent_frame st))

/-- Modelled from the spec: `AstInterpreter::visit_declare_list` (§6
`eval_raw_decl_list`: "evaluate initialisers"): the value of every
initialiser is stored in the slot of its declaration, `start_index` plus the
position in the list, in the current frame. -/
def AstInterpreter.visit_declare_list (visit : Node → Run) (start : Int) :
    List PairType → Nat → Run
  | [], _ => fun st => (Exit.normal, st)
  | (_, none) :: rest, i => AstInterpreter.visit_declare_list visit start rest (i + 1)
  | (_, some initial) :: rest, i => fun st =>
    continue_with
      (continue_with (AstInterpreter.eval_exp visit initial st)
        (AstInterpreter.pop_value fun v st1 =>
          match st1.frames with
          | [] => (Exit.assert_fail, st1)
          | f :: _ =>
            if start < 0 then (Exit.assert_fail, st1)
            else AstInterpreter.write_slot (f, start.toNat + i) v st1))
      (AstInterpreter.visit_declare_list visit start rest (i + 1))

/-- Modelled from the spec: `AstInterpreter::visit_condition` (§4.3
"Conditionals"): the predicate is evaluated and consumed; the then-block runs
on truthy, the else-block, if any, otherwise. -/
def AstInterpreter.visit_condition (visit : Node → Run) (condition then_block : Node)
    (else_block : Option Node) : Run :=
  fun st =>
    continue_with (AstInterpreter.eval_exp visit condition st)
      (AstInterpreter.pop_value fun v st1 =>
        if truthy st1.lists v then AstInterpreter.exec_stmt visit then_block st1
        else
          match else_block with
          | some e => AstInterpreter.exec_stmt visit e st1
          | none => (Exit.normal, st1))

/-- Modelled from the spec: `AstInterpreter::visit_while` (§4.3 "While" and
"Control-flow non-local exits"): the condition is evaluated and consumed; on
truthy the body is executed and the loop repeats.  A `BreakSignal` from the
body ends the loop normally, a `ContinueSignal` proceeds to the next
condition test. -/
def AstInterpreter.visit_while (visit : Node → Run) (condition block : Node) : Run :=
  fun st =>
    continue_with (AstInterpreter.eval_exp visit condition st)
      (AstInterpreter.pop_value fun v st1 =>
        if truthy st1.lists v then
          match AstInterpreter.exec_stmt visit block st1 with
          | (Exit.normal, st2) => visit (Node.S_While condition block) st2
          | (Exit.signal Signal.BreakSignal, st2) => (Exit.normal, st2)
          | (Exit.signal Signal.ContinueSignal, st2) => visit (Node.S_While condition block) st2
          | other => other
        else (Exit.normal, st1))

/-- Modelled from the spec: `AstInterpreter::visit_return` (§4.3): the value
is evaluated and leaves the value stack as the payload of a `ReturnSignal`;
`return;` carries null. -/
def AstInterpreter.visit_return (visit : Node → Run) (value : Option Node) : Run :=
  fun st =>
    match value with
    | some e =>
      continue_with (AstInterpreter.eval_exp visit e st)
        (AstInterpreter.pop_value fun v st1 => (Exit.signal (Signal.ReturnSignal v), st1))
    | none => (Exit.signal (Signal.ReturnSignal JBValue.null), st)

/-- Modelled from the spec: `AstInterpreter::visit_stmt_exp` (§4.3
`eval_stmt`): the expression is evaluated and its value is consumed. -/
def AstInterpreter.visit_stmt_exp (visit : Node → Run) (value : Node) : Run :=
  fun st =>
    continue_with (AstInterpreter.eval_exp visit value st)
      (AstInterpreter.pop_value fun _ st1 => (Exit.normal, st1))

/-- Modelled from the spec: `AstInterpreter::visit_var` (§4.3 "Variable
access"): the value of the slot of the reference is pushed. -/
def AstInterpreter.visit_var (attrs : State) (v : Addr) : Run :=
  fun st =>
    match (AstInterpreter.resolve_var attrs v st).bind st.read_slot with
    | some value => AstInterpreter.return_value value st
    | none => (Exit.assert_fail, st)

/-- Modelled from the spec: `AstInterpreter::visit_list`: the items are
evaluated left to right and collected into a fresh list object. -/
def AstInterpreter.visit_list (visit : Node → Run) (value : List Node) : Run :=
  fun st =>
    continue_with (AstInterpreter.eval_each visit value st)
      (AstInterpreter.pop_values value.length fun items st1 =>
        AstInterpreter.return_value (JBValue.list st1.lists.length)
          { st1 with lists := st1.lists ++ [items] })

/-- Modelled from the spec: `AstInterpreter::handle_unary_or_binary_op` with
`handle_unary_op`, `handle_binary_op` and `handle_getitem` (§4.2): the
operands are evaluated left to right, taken from the value stack, and the
value the host computes is pushed. -/
def AstInterpreter.handle_unary_or_binary_op (host : Host) (visit : Node → Run)
    (op_code : OpCode) (args : List Node) : Run :=
  fun st =>
    continue_with (AstInterpreter.eval_each visit args st)
      (AstInterpreter.pop_values args.length fun operands =>
        AstInterpreter.host_value (host.op op_code operands))

/-- Modelled from the spec: `AstInterpreter::handle_logic_and` (§4.2): `&&`
short-circuits and returns the last evaluated operand value. -/
def AstInterpreter.handle_logic_and (visit : Node → Run) (lhs rhs : Node) : Run :=
  fun st =>
    continue_with (AstInterpreter.eval_exp visit lhs st)
      (AstInterpreter.pop_value fun v st1 =>
        if truthy st1.lists v then AstInterpreter.eval_exp visit rhs st1
        else AstInterpreter.return_value v st1)

/-- Modelled from the spec: `AstInterpreter::handle_logic_or` (§4.2): `||`
short-circuits and returns the last evaluated operand value. -/
def AstInterpreter.handle_logic_or (visit : Node → Run) (lhs rhs : Node) : Run :=
  fun st =>
    continue_with (AstInterpreter.eval_exp visit lhs st)
      (AstInterpreter.pop_value fun v st1 =>
        if truthy st1.lists v then AstInterpreter.return_value v st1
        else AstInterpreter.eval_exp visit rhs st1)

/-- Modelled from the spec: `AstInterpreter::do_assign` (§4.3 "Assignment"):
the left-hand side is a variable, whose slot is written, or a subscript, whose
collection and index are evaluated and the element updated; any other
left-hand side fails with `TypeError`. -/
def AstInterpreter.do_assign (host : Host) (attrs : State) (visit : Node → Run) (lhs : Node)
    (value : JBValue) : Run :=
  fun st =>
    match lhs with
    | Node.E_Var v _ =>
      match AstInterpreter.resolve_var attrs v st with
      | some loc => AstInterpreter.write_slot loc value st
      | none => (Exit.assert_fail, st)
    | Node.E_Op OpCode.SUBSCRIPT [collection, index] =>
      continue_with (AstInterpreter.eval_each visit [collection, index] st)
        (AstInterpreter.pop_values 2 fun operands st1 =>
          match host.setitem (operands.getD 0 JBValue.null) (operands.getD 1 JBValue.null)
              value st1.lists with
          | Except.ok lists => (Exit.normal, { st1 with lists := lists })
          | Except.error e => (Exit.error e, st1))
    | _ => (Exit.error EvalError.TypeError, st)

/-- Modelled from the spec: `AstInterpreter::handle_assign` (§4.3
"Assignment"): the right-hand side is evaluated, assigned to the left-hand
side, and is the value of the assignment. -/
def AstInterpreter.handle_assign (host : Host) (attrs : State) (visit : Node → Run)
    (lhs rhs : Node) : Run :=
  fun st =>
    continue_with (AstInterpreter.eval_exp visit rhs st)
      (AstInterpreter.pop_value fun v st1 =>
        continue_with (AstInterpreter.do_assign host attrs visit lhs v st1)
          (AstInterpreter.return_value v))

/-- Modelled from the spec: `AstInterpreter::handle_binop_assign` (§4.3
"Assignment"): `x OP= e` evaluates the left-hand side once, reads its value,
applies the binary operator `op_code` to it and the value of `e`, and writes
the result back; the result is the value of the expression. -/
def AstInterpreter.handle_binop_assign (host : Host) (attrs : State) (visit : Node → Run)
    (op_code : OpCode) (lhs rhs : Node) : Run :=
  fun st =>
    match lhs with
    | Node.E_Var v _ =>
      continue_with (AstInterpreter.eval_each visit [lhs, rhs] st)
        (AstInterpreter.pop_values 2 fun operands st1 =>
          match host.op op_code operands st1.lists with
          | Except.ok (r, lists) =>
            match AstInterpreter.resolve_var attrs v st1 with
            | some loc =>
              continue_with (AstInterpreter.write_slot loc r { st1 with lists := lists })
                (AstInterpreter.return_value r)
            | none => (Exit.assert_fail, st1)
          | Except.error e => (Exit.error e, st1))
    | Node.E_Op OpCode.SUBSCRIPT [collection, index] =>
      continue_with (AstInterpreter.eval_each visit [collection, index, rhs] st)
        (AstInterpreter.pop_values 3 fun operands st1 =>
          match host.op OpCode.SUBSCRIPT (operands.take 2) st1.lists with
          | Except.ok (old, lists1) =>
            match host.op op_code [old, operands.getD 2 JBValue.null] lists1 with
            | Except.ok (r, lists2) =>
              match host.setitem (operands.getD 0 JBValue.null) (operands.getD 1 JBValue.null)
                  r lists2 with
              | Except.ok lists3 => AstInterpreter.return_value r { st1 with lists := lists3 }
              | Except.error e => (Exit.error e, st1)
            | Except.error e => (Exit.error e, st1)
          | Except.error e => (Exit.error e, st1))
    | _ => (Exit.error EvalError.TypeError, st)

/-- Modelled from the spec: `AstInterpreter::handle_explist`: the expressions
are evaluated left to right; the value of the list is the value of the last
one (null for an empty list). -/
def AstInterpreter.handle_explist (visit : Node → Run) (args : List Node) : Run :=
  fun st =>
    continue_with (AstInterpreter.eval_each visit args st)
      (AstInterpreter.pop_values args.length fun items =>
        AstInterpreter.return_value (items.getLast?.getD JBValue.null))

/-- Modelled from the spec: the arguments of a call are assigned to the first
slots of the frame of the function body (§4.3 "Function call"), which are the
parameter slots. -/
def AstInterpreter.assign_arguments (frame : Nat) : List JBValue → Nat → Run
  | [], _ => fun st => (Exit.normal, st)
  | v :: rest, i => fun st =>
    continue_with (AstInterpreter.write_slot (frame, i) v st)
      (AstInterpreter.assign_arguments frame rest (i + 1))

/-- Modelled from the spec: `AstInterpreter::handle_func_body` (§4.3
"Function call"): the body is entered with the captured frame as parent, the
arguments are assigned to the first slots, the statements are executed, and
the frame is popped on every exit.  A `ReturnSignal` is caught: its value is
the result; a body that falls off the end returns null.  The call boundary
catches no other signal: a `BreakSignal` or `ContinueSignal` that leaves the
body unwinds further, to the nearest `While` around the call, and is counted
in `strays`. -/
def AstInterpreter.handle_func_body (attrs : State) (visit : Node → Run) (block : Addr)
    (stmts : List Node) (captured : Option Nat) (arguments : List JBValue) : Run :=
  fun st =>
    match StackPoper
        (continue_with
          (AstInterpreter.assign_arguments st.allocator.length arguments 0
            (AstInterpreter.enter attrs block captured st))
          (AstInterpreter.exec_each visit stmts)) with
    | (Exit.normal, st1) => AstInterpreter.return_value JBValue.null st1
    | (Exit.signal (Signal.ReturnSignal v), st1) => AstInterpreter.return_value v st1
    | (Exit.signal s, st1) => (Exit.signal s, { st1 with strays := st1.strays + 1 })
    | other => other

/-- Modelled from the spec: `AstInterpreter::handle_call` (§4.3 "Function
call"): the callee and the arguments are evaluated left to right onto the
value stack and taken from it.  A built-in is invoked on the argument vector
and its value pushed; a closure is called after the arity check
(`ArgumentError`) and its result pushed; anything else is a `TypeError`. -/
def AstInterpreter.handle_call (host : Host) (attrs : State) (visit : Node → Run)
    (args : List Node) : Run :=
  fun st =>
    match args with
    | [] => (Exit.assert_fail, st)
    | callee :: rest =>
      continue_with (AstInterpreter.eval_each visit (callee :: rest) st)
        (AstInterpreter.pop_values rest.length fun arguments =>
          AstInterpreter.pop_value fun f =>
            match f with
            | JBValue.builtin id => AstInterpreter.host_value (host.call id arguments)
            | JBValue.func params block stmts captured =>
              if (param_names params).length = arguments.length then
                AstInterpreter.handle_func_body attrs visit block stmts captured arguments
              else fun st1 => (Exit.error EvalError.ArgumentError, st1)
            | _ => fun st1 => (Exit.error EvalError.TypeError, st1))

/-- Modelled from the spec: `AstInterpreter::visit_op`: dispatch by op code
(§3 "Op codes"). -/
def AstInterpreter.visit_op (host : Host) (attrs : State) (visit : Node → Run)
    (op_code : OpCode) (args : List Node) : Run :=
  match op_code, args with
  | OpCode.AND, [lhs, rhs] => AstInterpreter.handle_logic_and visit lhs rhs
  | OpCode.OR, [lhs, rhs] => AstInterpreter.handle_logic_or visit lhs rhs
  | OpCode.ASSIGN, [lhs, rhs] => AstInterpreter.handle_assign host attrs visit lhs rhs
  | OpCode.PLUS_ASSIGN, [lhs, rhs] =>
    AstInterpreter.handle_binop_assign host attrs visit OpCode.PLUS lhs rhs
  | OpCode.MINUS_ASSIGN, [lhs, rhs] =>
    AstInterpreter.handle_binop_assign host attrs visit OpCode.MINUS lhs rhs
  | OpCode.STAR_ASSIGN, [lhs, rhs] =>
    AstInterpreter.handle_binop_assign host attrs visit OpCode.STAR lhs rhs
  | OpCode.SLASH_ASSIGN, [lhs, rhs] =>
    AstInterpreter.handle_binop_assign host attrs visit OpCode.SLASH lhs rhs
  | OpCode.PERCENT_ASSIGN, [lhs, rhs] =>
    AstInterpreter.handle_binop_assign host attrs visit OpCode.PERCENT lhs rhs
  | OpCode.AND, _ => fun st => (Exit.assert_fail, st)
  | OpCode.OR, _ => fun st => (Exit.assert_fail, st)
  | OpCode.ASSIGN, _ => fun st => (Exit.assert_fail, st)
  | OpCode.PLUS_ASSIGN, _ => fun st => (Exit.assert_fail, st)
  | OpCode.MINUS_ASSIGN, _ => fun st => (Exit.assert_fail, st)
  | OpCode.STAR_ASSIGN, _ => fun st => (Exit.assert_fail, st)
  | OpCode.SLASH_ASSIGN, _ => fun st => (Exit.assert_fail, st)
  | OpCode.PERCENT_ASSIGN, _ => fun st => (Exit.assert_fail, st)
  | OpCode.CALL, _ => AstInterpreter.handle_call host attrs visit args
  | OpCode.EXPLIST, _ => AstInterpreter.handle_explist visit args
  | _, _ => AstInterpreter.handle_unary_or_binary_op host visit op_code args

/-- Modelled from the spec: `node.accept(interpreter)`: dispatch to the
`AstInterpreter::visit_*` method of the node's class; `visit` is the
evaluator for the sub-nodes.  A nested block is entered with the current top
frame as parent, the program root with null (§4.3, table of parent frames);
a function literal evaluates to a closure bound to the current top frame. -/
def AstInterpreter.accept (host : Host) (attrs : State) (visit : Node → Run) : Node → Run
  | Node.S_Block b stmts => fun st =>
    AstInterpreter.handle_block attrs visit b stmts st.frames.head? st
  | Node.Program b stmts => AstInterpreter.handle_block attrs visit b stmts none
  | Node.S_DeclareList d decls =>
    AstInterpreter.visit_declare_list visit (attrs.decl d).start_index decls 0
  | Node.S_Condition c t e => AstInterpreter.visit_condition visit c t e
  | Node.S_While c b => AstInterpreter.visit_while visit c b
  | Node.S_Return v => AstInterpreter.visit_return visit v
  | Node.S_Break => fun st => (Exit.signal Signal.BreakSignal, st)
  | Node.S_Continue => fun st => (Exit.signal Signal.ContinueSignal, st)
  | Node.S_Exp v => AstInterpreter.visit_stmt_exp visit v
  | Node.S_Empty => fun st => (Exit.normal, st)
  | Node.E_Op op_code args => AstInterpreter.visit_op host attrs visit op_code args
  | Node.E_Var v _ => AstInterpreter.visit_var attrs v
  | Node.E_Func args b stmts => fun st =>
    AstInterpreter.return_value (JBValue.func args b stmts st.frames.head?) st
  | Node.E_Bool value => AstInterpreter.return_value (JBValue.bool value)
  | Node.E_Int value => AstInterpreter.return_value (JBValue.int value)
  | Node.E_Float bits => AstInterpreter.return_value (JBValue.float bits)
  | Node.E_String value => AstInterpreter.return_value (JBValue.string value)
  | Node.E_List value => AstInterpreter.visit_list visit value
  | Node.E_Null => AstInterpreter.return_value JBValue.null

/-- The evaluator with a step budget: every visit of a node takes one step;
an exhausted budget ends the visit with `out_of_fuel`. -/
def AstInterpreter.visit (host : Host) (attrs : State) : Nat → Node → Run
  | 0 => fun _ st => (Exit.out_of_fuel, st)
  | fuel + 1 => AstInterpreter.accept host attrs (AstInterpreter.visit host attrs fuel)

/-- The value stack of `st1` is the value stack of `st` with at least `m`
values on top, and exactly `m` when no `BreakSignal` or `ContinueSignal` has
left a function body between `st` and `st1`. -/
def Grown (m : Nat) (st st1 : AstInterpreter) : Prop :=
  st.strays ≤ st1.strays ∧
    ∃ vs : List JBValue, st1.values = vs ++ st.values ∧ m ≤ vs.length ∧
      (st1.strays = st.strays → vs.length = m)

/-- An exit of the evaluation of expressions that is not a normal return: the
frame stack is as it was found, and a signal comes from a function body that
a `BreakSignal` or `ContinueSignal` has left. -/
def Abrupt (st : AstInterpreter) (r : Exit × AstInterpreter) : Prop :=
  r.2.frames = st.frames ∧ r.1.is_normal = false ∧
    (r.1.is_signal = true → Grown 0 st r.2 ∧ st.strays < r.2.strays)

/-- A host whose operators return null and that has no built-in. -/
def Host.trivial : Host :=
  { op := fun _ _ lists => Except.ok (JBValue.null, lists),
    setitem := fun _ _ _ lists => Except.ok lists,
    call := fun _ _ _ => Except.error EvalError.TypeError }

theorem map_find_append (m m' : NameMap) (name : ustring) :
    map_find (m ++ m') name =
      match map_find m name with
      | some v => some v
      | none => map_find m' name := by
  induction m with
  | nil => simp [map_find]
  | cons p m ih =>
    obtain ⟨k, v⟩ := p
    by_cases h : k = name
    · simp [map_find, h]
    · simp [map_find, h, ih]

theorem map_emplace_absent (m : NameMap) (name : ustring) (v : Int)
    (h : map_find m name = none) : map_emplace m name v = m ++ [(name, v)] := by
  simp [map_emplace, h]

theorem map_find_emplace_absent (m : NameMap) (k name : ustring) (v : Int)
    (h : map_find m k = none) :
    map_find (map_emplace m k v) name = if k = name then some v else map_find m name := by
  rw [map_emplace_absent m k v h, map_find_append]
  by_cases hk : k = name
  · subst hk; simp [h, map_find]
  · cases hm : map_find m name <;> simp [map_find, hk]

theorem MapsToPositions.find_none_iff {attr : S_Block.AttrType} (h : MapsToPositions attr)
    (name : ustring) :
    map_find attr.name_to_local_index name = none ↔ name ∉ local_names attr := by
  constructor
  · intro hn hmem
    simp only [local_names, List.mem_map] at hmem
    obtain ⟨v, hv, rfl⟩ := hmem
    obtain ⟨k, hget⟩ := List.getElem?_of_mem hv
    have := (h v.name k).2 ⟨k, rfl, hget⟩
    rw [hn] at this
    exact absurd this (by simp)
  · intro hn
    cases hf : map_find attr.name_to_local_index name with
    | none => rfl
    | some i =>
      obtain ⟨k, _, hget⟩ := (h name i).1 hf
      exact absurd (by
        simp only [local_names, List.mem_map]
        exact ⟨⟨name⟩, List.getElem?_mem hget, rfl⟩) hn

theorem local_names_push_local (attr : S_Block.AttrType) (name : ustring) :
    local_names (push_local attr name) = local_names attr ++ [name] := by
  simp [local_names, push_local]

theorem MapsToPositions.push_maps {attr : S_Block.AttrType} (h : MapsToPositions attr)
    (name : ustring) (hn : map_find attr.name_to_local_index name = none) :
    MapsToPositions (push_local attr name) := by
  intro n i
  have hnot := (h.find_none_iff name).1 hn
  simp only [JiaoBenScript.push_local]
  rw [map_find_emplace_absent _ _ _ _ hn]
  by_cases hk : name = n
  · subst hk
    simp only [if_true]
    constructor
    · intro hi
      refine ⟨attr.local_info.length, by simpa using hi.symm, by simp⟩
    · rintro ⟨k, rfl, hget⟩
      rcases Nat.lt_or_ge k attr.local_info.length with hlt | hge
      · rw [List.getElem?_append_left hlt] at hget
        exact absurd (by
          simp only [local_names, List.mem_map]
          exact ⟨⟨name⟩, List.getElem?_mem hget, rfl⟩) hnot
      · have hlen : k < (attr.local_info ++ [({ name := name } : VarInfo)]).length := by
          by_contra hc
          rw [List.getElem?_eq_none (by omega)] at hget
          simp at hget
        simp at hlen
        have : k = attr.local_info.length := by omega
        subst this; rfl
  · simp only [hk, if_false]
    rw [h n i]
    constructor
    · rintro ⟨k, rfl, hget⟩
      refine ⟨k, rfl, ?_⟩
      have hlt : k < attr.local_info.length := by
        by_contra hc
        rw [List.getElem?_eq_none (by omega)] at hget
        simp at hget
      rw [List.getElem?_append_left hlt]; exact hget
    · rintro ⟨k, rfl, hget⟩
      refine ⟨k, rfl, ?_⟩
      rcases Nat.lt_or_ge k attr.local_info.length with hlt | hge
      · rw [List.getElem?_append_left hlt] at hget; exact hget
      · rw [List.getElem?_append_right hge] at hget
        have : k - attr.local_info.length = 0 := by
          by_contra hc
          rw [List.getElem?_eq_none (by simp; omega)] at hget
          simp at hget
        rw [this] at hget
        simp at hget
        exact absurd hget hk

theorem LocalTableInv.push_inv {attr : S_Block.AttrType} (h : LocalTableInv attr)
    (name : ustring) (hn : map_find attr.name_to_local_index name = none) :
    LocalTableInv (push_local attr name) := by
  refine ⟨h.1.push_maps name hn, ?_⟩
  rw [local_names_push_local]
  have hnot := (h.1.find_none_iff name).1 hn
  exact List.Nodup.append h.2 (by simp) (by simpa using hnot)

/-! ## `add_declarations_to_block_attr` -/

theorem add_declarations_loop_outcome (attr : S_Block.AttrType) (decls : List PairType) :
    (add_declarations_loop attr decls).1 = Result.ok () ∨
      ∃ name, (add_declarations_loop attr decls).1 =
        Result.throw (Exception.DuplicatedLocalName name) := by
  induction decls generalizing attr with
  | nil => left; rfl
  | cons p rest ih =>
    simp only [add_declarations_loop]
    cases hf : map_find attr.name_to_local_index p.1 with
    | some i => right; exact ⟨p.1, rfl⟩
    | none => exact ih _

theorem add_declarations_loop_frame (attr : S_Block.AttrType) (decls : List PairType) :
    (add_declarations_loop attr decls).2.parent = attr.parent ∧
    (add_declarations_loop attr decls).2.nonlocal_indexes = attr.nonlocal_indexes ∧
    (add_declarations_loop attr decls).2.name_to_nonlocal_index =
      attr.name_to_nonlocal_index := by
  induction decls generalizing attr with
  | nil => simp [add_declarations_loop]
  | cons p rest ih =>
    simp only [add_declarations_loop]
    cases hf : map_find attr.name_to_local_index p.1 with
    | some i => simp
    | none =>
      have := ih (push_local attr p.1)
      simpa [push_local] using this

theorem add_declarations_loop_inv (attr : S_Block.AttrType) (decls : List PairType)
    (h : LocalTableInv attr) : LocalTableInv (add_declarations_loop attr decls).2 := by
  induction decls generalizing attr with
  | nil => simpa [add_declarations_loop] using h
  | cons p rest ih =>
    simp only [add_declarations_loop]
    cases hf : map_find attr.name_to_local_index p.1 with
    | some i => simpa using h
    | none => exact ih _ (h.push_inv p.1 hf)

theorem add_declarations_loop_maps (attr : S_Block.AttrType) (decls : List PairType)
    (h : MapsToPositions attr) : MapsToPositions (add_declarations_loop attr decls).2 := by
  induction decls generalizing attr with
  | nil => simpa [add_declarations_loop] using h
  | cons p rest ih =>
    simp only [add_declarations_loop]
    cases hf : map_find attr.name_to_local_index p.1 with
    | some i => simpa using h
    | none => exact ih _ (h.push_maps p.1 hf)

/-- The loop appends a prefix of the declared names: all of them when it
returns, those before the offending one when it throws. -/
theorem add_declarations_loop_prefix (attr : S_Block.AttrType) (decls : List PairType) :
    ∃ j, j ≤ decls.length ∧
      (add_declarations_loop attr decls).2.local_info =
        attr.local_info ++ ((decl_names decls).take j).map VarInfo.mk ∧
      ((add_declarations_loop attr decls).1 = Result.ok () → j = decls.length) ∧
      (∀ name, (add_declarations_loop attr decls).1 =
          Result.throw (Exception.DuplicatedLocalName name) →
        (decl_names decls)[j]? = some name ∧
          name ∈ local_names attr ++ (decl_names decls).take j ∨
          ¬ MapsToPositions attr) := by
  induction decls generalizing attr with
  | nil => exact ⟨0, by simp [add_declarations_loop, decl_names]⟩
  | cons p rest ih =>
    simp only [add_declarations_loop]
    cases hf : map_find attr.name_to_local_index p.1 with
    | some i =>
      refine ⟨0, by simp, by simp, by simp, ?_⟩
      intro name hname
      by_cases hm : MapsToPositions attr
      · left
        simp only [Result.throw.injEq, Exception.DuplicatedLocalName.injEq] at hname
        subst hname
        refine ⟨by simp [decl_names], ?_⟩
        have : p.1 ∈ local_names attr := by
          by_contra hc
          rw [(hm.find_none_iff p.1).2 hc] at hf
          simp at hf
        simpa using this
      · right; exact hm
    | none =>
      obtain ⟨j, hj, hinfo, hok, hthrow⟩ := ih (push_local attr p.1)
      refine ⟨j + 1, by simpa using hj, ?_, ?_, ?_⟩
      · rw [hinfo]; simp [push_local, decl_names]
      · intro h; simp [hok h]
      · intro name hname
        by_cases hm : MapsToPositions attr
        · left
          rcases hthrow name hname with ⟨h1, h2⟩ | h3
          · refine ⟨by simpa [decl_names] using h1, ?_⟩
            rw [local_names_push_local] at h2
            simpa [decl_names, List.append_assoc] using h2
          · exact absurd (hm.push_maps p.1 hf) h3
        · right; exact hm

theorem add_declarations_loop_keeps (attr : S_Block.AttrType) (decls : List PairType)
    (name : ustring) (i : Int) (h : map_find attr.name_to_local_index name = some i) :
    map_find (add_declarations_loop attr decls).2.name_to_local_index name = some i := by
  induction decls generalizing attr with
  | nil => simpa [add_declarations_loop] using h
  | cons p rest ih =>
    simp only [add_declarations_loop]
    cases hf : map_find attr.name_to_local_index p.1 with
    | some i => simpa using h
    | none =>
      apply ih
      simp only [push_local]
      rw [map_find_emplace_absent _ _ _ _ hf]
      have : p.1 ≠ name := by
        rintro rfl; rw [hf] at h; simp at h
      simp [this, h]

/-- Failure of the loop, in terms of the names already in the map. -/
theorem add_declarations_loop_throws_iff (attr : S_Block.AttrType) (decls : List PairType)
    (h : MapsToPositions attr) :
    (add_declarations_loop attr decls).1.threw_duplicated = true ↔
      ((∃ name ∈ decl_names decls, name ∈ local_names attr) ∨ ¬ (decl_names decls).Nodup) := by
  induction decls generalizing attr with
  | nil => simp [add_declarations_loop, Result.threw_duplicated, decl_names]
  | cons p rest ih =>
    simp only [add_declarations_loop]
    cases hf : map_find attr.name_to_local_index p.1 with
    | some i =>
      have : p.1 ∈ local_names attr := by
        by_contra hc
        rw [(h.find_none_iff p.1).2 hc] at hf
        simp at hf
      simp only [Result.threw_duplicated, true_iff]
      left
      exact ⟨p.1, by simp [decl_names], this⟩
    | none =>
      have hnot := (h.find_none_iff p.1).1 hf
      simp only []
      rw [ih _ (h.push_maps p.1 hf), local_names_push_local]
      simp only [decl_names, List.map_cons, List.mem_cons, List.mem_append, List.mem_singleton,
        List.nodup_cons, exists_eq_or_imp, List.not_mem_nil, or_false]
      constructor
      · rintro (⟨n, hn, hl | rfl⟩ | hnd)
        · left; right; exact ⟨n, hn, hl⟩
        · right; intro hc; exact hc.1 hn
        · right; intro hc; exact hnd hc.2
      · rintro ((hp | ⟨n, hn, hl⟩) | hnd)
        · exact absurd hp hnot
        · left; exact ⟨n, hn, Or.inl hl⟩
        · by_cases hmem : p.1 ∈ List.map Prod.fst rest
          · left; exact ⟨p.1, hmem, Or.inr rfl⟩
          · right; intro hc; exact hnd ⟨hmem, hc⟩

theorem threw_duplicated_false_of_outcome {r : Result Unit}
    (h : r = Result.ok () ∨ ∃ name, r = Result.throw (Exception.DuplicatedLocalName name))
    (hf : r.threw_duplicated = false) : r = Result.ok () := by
  rcases h with h | ⟨n, h⟩
  · exact h
  · rw [h] at hf; simp [Result.threw_duplicated] at hf

/-! ## Structure of the visitor -/

theorem andThen_ok (s : State) (k : State → Result Unit × State) :
    andThen (Result.ok (), s) k = k s := rfl

theorem andThen_pure (r : Result Unit × State) :
    andThen r (fun s => (Result.ok (), s)) = r := by
  obtain ⟨r, s⟩ := r
  cases r <;> rfl

theorem andThen_assoc (r : Result Unit × State) (k k' : State → Result Unit × State) :
    andThen (andThen r k) k' = andThen r (fun s => andThen (k s) k') := by
  obtain ⟨r, s⟩ := r
  cases r <;> rfl

theorem visit_each_append (fuel : Nat) (l l' : List Node) (s : State) :
    Resolver.visit_each fuel (l ++ l') s =
      andThen (Resolver.visit_each fuel l s) (Resolver.visit_each fuel l') := by
  induction l generalizing s with
  | nil => simp [Resolver.visit_each, andThen_ok]
  | cons n l ih =>
    simp only [List.cons_append, Resolver.visit_each, andThen_assoc]
    congr 1
    funext s1
    exact ih s1

theorem visit_each_singleton (fuel : Nat) (n : Node) (s : State) :
    Resolver.visit_each fuel [n] s = Resolver.visit fuel n s := by
  simp only [Resolver.visit_each]
  exact andThen_pure _

theorem visit_declare_list_eq (fuel : Nat) (decls : List PairType) (s : State) :
    Resolver.visit_declare_list fuel decls s =
      Resolver.visit_each fuel (initialisers decls) s := by
  induction decls generalizing s with
  | nil => simp [Resolver.visit_declare_list, Resolver.visit_each, initialisers]
  | cons p rest ih =>
    obtain ⟨name, init⟩ := p
    cases init with
    | none =>
      simp only [Resolver.visit_declare_list, initialisers, List.filterMap_cons_none]
      exact ih s
    | some x =>
      simp only [Resolver.visit_declare_list, initialisers, List.filterMap_cons_some,
        Resolver.visit_each]
      congr 1
      funext s1
      exact ih s1

/-- A node with `is_seq` visits its `kids` in order. -/
theorem visit_of_seq (fuel : Nat) (n : Node) (h : n.is_seq = true) (s : State) :
    Resolver.visit fuel n s = Resolver.visit_each fuel n.kids s := by
  cases n with
  | S_Block _ _ => simp [Node.is_seq] at h
  | Program _ _ => simp [Node.is_seq] at h
  | E_Var _ _ => simp [Node.is_seq] at h
  | E_Func _ _ _ => simp [Node.is_seq] at h
  | S_DeclareList d decls =>
    simp only [Resolver.visit, Node.kids]
    exact visit_declare_list_eq fuel decls s
  | S_Condition c t e =>
    cases e with
    | none =>
      simp only [Resolver.visit, Node.kids, Option.toList, Resolver.visit_each]
    | some x =>
      simp only [Resolver.visit, Node.kids, Option.toList, Resolver.visit_each]
      congr 1; funext s1; congr 1; funext s2
      exact (andThen_pure _).symm
  | S_While c b =>
    simp only [Resolver.visit, Node.kids, Resolver.visit_each]
    congr 1; funext s1
    exact (andThen_pure _).symm
  | S_Return v =>
    cases v with
    | none => simp only [Resolver.visit, Node.kids, Option.toList, Resolver.visit_each]
    | some x =>
      simp only [Resolver.visit, Node.kids, Option.toList, Resolver.visit_each]
      exact (andThen_pure _).symm
  | S_Exp v =>
    simp only [Resolver.visit, Node.kids, Resolver.visit_each]
    exact (andThen_pure _).symm
  | E_Op _ args => simp only [Resolver.visit, Node.kids]
  | E_List value => simp only [Resolver.visit, Node.kids]
  | S_Break => simp only [Resolver.visit, Node.kids, Resolver.visit_each, NodeVistor.visit_default]
  | S_Continue => simp only [Resolver.visit, Node.kids, Resolver.visit_each, NodeVistor.visit_default]
  | S_Empty => simp only [Resolver.visit, Node.kids, Resolver.visit_each, NodeVistor.visit_default]
  | E_Bool _ => simp only [Resolver.visit, Node.kids, Resolver.visit_each, NodeVistor.visit_default]
  | E_Int _ => simp only [Resolver.visit, Node.kids, Resolver.visit_each, NodeVistor.visit_default]
  | E_Float _ => simp only [Resolver.visit, Node.kids, Resolver.visit_each, NodeVistor.visit_default]
  | E_String _ => simp only [Resolver.visit, Node.kids, Resolver.visit_each, NodeVistor.visit_default]
  | E_Null => simp only [Resolver.visit, Node.kids, Resolver.visit_each, NodeVistor.visit_default]

theorem blocks_each_eq (cur : Option Addr) (l : List Node) :
    blocks_each cur l = l.flatMap (blocks cur) := by
  induction l with
  | nil => simp [blocks_each]
  | cons n l ih => simp [blocks_each, ih]

theorem blocks_pairs_eq (cur : Option Addr) (decls : List PairType) :
    blocks_pairs cur decls = blocks_each cur (initialisers decls) := by
  induction decls with
  | nil => simp [blocks_pairs, blocks_each, initialisers]
  | cons p rest ih =>
    obtain ⟨name, init⟩ := p
    cases init with
    | none => simpa [blocks_pairs, initialisers] using ih
    | some x =>
      simp only [blocks_pairs, initialisers, List.filterMap_cons_some, blocks_each]
      rw [ih]; rfl

theorem blocks_of_seq (cur : Option Addr) (n : Node) (h : n.is_seq = true) :
    blocks cur n = blocks_each cur n.kids := by
  cases n with
  | S_Block _ _ => simp [Node.is_seq] at h
  | Program _ _ => simp [Node.is_seq] at h
  | E_Var _ _ => simp [Node.is_seq] at h
  | E_Func _ _ _ => simp [Node.is_seq] at h
  | S_DeclareList d decls => simp only [blocks, Node.kids, blocks_pairs_eq]
  | S_Condition c t e =>
    cases e <;> simp [blocks, Node.kids, blocks_each]
  | S_Return v => cases v <;> simp [blocks, Node.kids, blocks_each]
  | _ => simp [blocks, Node.kids, blocks_each]

theorem refs_each_eq (sc : Scope) (l : List Node) :
    refs_each sc l = l.flatMap (refs sc) := by
  induction l with
  | nil => simp [refs_each]
  | cons n l ih => simp [refs_each, ih]

theorem refs_pairs_eq (sc : Scope) (decls : List PairType) :
    refs_pairs sc decls = refs_each sc (initialisers decls) := by
  induction decls with
  | nil => simp [refs_pairs, refs_each, initialisers]
  | cons p rest ih =>
    obtain ⟨name, init⟩ := p
    cases init with
    | none => simpa [refs_pairs, initialisers] using ih
    | some x =>
      simp only [refs_pairs, initialisers, List.filterMap_cons_some, refs_each]
      rw [ih]; rfl

theorem refs_of_seq (sc : Scope) (n : Node) (h : n.is_seq = true) :
    refs sc n = refs_each sc n.kids := by
  cases n with
  | S_Block _ _ => simp [Node.is_seq] at h
  | Program _ _ => simp [Node.is_seq] at h
  | E_Var _ _ => simp [Node.is_seq] at h
  | E_Func _ _ _ => simp [Node.is_seq] at h
  | S_DeclareList d decls => simp only [refs, Node.kids, refs_pairs_eq]
  | S_Condition c t e =>
    cases e <;> simp [refs, Node.kids, refs_each]
  | S_Return v => cases v <;> simp [refs, Node.kids, refs_each]
  | _ => simp [refs, Node.kids, refs_each]

mutual
/-- Induction over the tree by kind of node: variable references, blocks,
function literals, and nodes that only visit their `kids`. -/
theorem Node.induction_kinds {P : Node → Prop}
    (var : ∀ v name, P (Node.E_Var v name))
    (block : ∀ b stmts, (∀ n ∈ stmts, P n) → P (Node.S_Block b stmts))
    (program : ∀ b stmts, (∀ n ∈ stmts, P n) → P (Node.Program b stmts))
    (func : ∀ args b stmts, (∀ n ∈ param_initialisers args, P n) → (∀ n ∈ stmts, P n) →
      P (Node.E_Func args b stmts))
    (seq : ∀ n, n.is_seq = true → (∀ k ∈ n.kids, P k) → P n) : ∀ n, P n
  | Node.E_Var v name => var v name
  | Node.S_Block b stmts =>
    block b stmts (Node.induction_kinds_each var block program func seq stmts)
  | Node.Program b stmts =>
    program b stmts (Node.induction_kinds_each var block program func seq stmts)
  | Node.E_Func args b stmts =>
    func args b stmts
      (match args with
        | some (_, decls) => Node.induction_kinds_pairs var block program func seq decls
        | none => by simp [param_initialisers])
      (Node.induction_kinds_each var block program func seq stmts)
  | Node.S_DeclareList d decls =>
    seq _ rfl (Node.induction_kinds_pairs var block program func seq decls)
  | Node.S_Condition c t e =>
    seq _ rfl (by
      have hc := Node.induction_kinds var block program func seq c
      have ht := Node.induction_kinds var block program func seq t
      cases e with
      | none => simp [Node.kids, hc, ht]
      | some x =>
        have hx := Node.induction_kinds var block program func seq x
        simp [Node.kids, hc, ht, hx])
  | Node.S_While c b =>
    seq _ rfl (by
      have hc := Node.induction_kinds var block program func seq c
      have hb := Node.induction_kinds var block program func seq b
      simp [Node.kids, hc, hb])
  | Node.S_Return v =>
    seq _ rfl (by
      cases v with
      | none => simp [Node.kids]
      | some x =>
        have hx := Node.induction_kinds var block program func seq x
        simp [Node.kids, hx])
  | Node.S_Exp v =>
    seq _ rfl (by
      have hv := Node.induction_kinds var block program func seq v
      simp [Node.kids, hv])
  | Node.E_Op _ args => seq _ rfl (Node.induction_kinds_each var block program func seq args)
  | Node.E_List value => seq _ rfl (Node.induction_kinds_each var block program func seq value)
  | Node.S_Break => seq _ rfl (by simp [Node.kids])
  | Node.S_Continue => seq _ rfl (by simp [Node.kids])
  | Node.S_Empty => seq _ rfl (by simp [Node.kids])
  | Node.E_Bool _ => seq _ rfl (by simp [Node.kids])
  | Node.E_Int _ => seq _ rfl (by simp [Node.kids])
  | Node.E_Float _ => seq _ rfl (by simp [Node.kids])
  | Node.E_String _ => seq _ rfl (by simp [Node.kids])
  | Node.E_Null => seq _ rfl (by simp [Node.kids])
theorem Node.induction_kinds_each {P : Node → Prop}
    (var : ∀ v name, P (Node.E_Var v name))
    (block : ∀ b stmts, (∀ n ∈ stmts, P n) → P (Node.S_Block b stmts))
    (program : ∀ b stmts, (∀ n ∈ stmts, P n) → P (Node.Program b stmts))
    (func : ∀ args b stmts, (∀ n ∈ param_initialisers args, P n) → (∀ n ∈ stmts, P n) →
      P (Node.E_Func args b stmts))
    (seq : ∀ n, n.is_seq = true → (∀ k ∈ n.kids, P k) → P n) :
    ∀ l : List Node, ∀ n ∈ l, P n
  | [] => by simp
  | x :: rest => by
    have hx := Node.induction_kinds var block program func seq x
    have hr := Node.induction_kinds_each var block program func seq rest
    intro n hn
    rcases List.mem_cons.1 hn with rfl | hn
    · exact hx
    · exact hr n hn
theorem Node.induction_kinds_pairs {P : Node → Prop}
    (var : ∀ v name, P (Node.E_Var v name))
    (block : ∀ b stmts, (∀ n ∈ stmts, P n) → P (Node.S_Block b stmts))
    (program : ∀ b stmts, (∀ n ∈ stmts, P n) → P (Node.Program b stmts))
    (func : ∀ args b stmts, (∀ n ∈ param_initialisers args, P n) → (∀ n ∈ stmts, P n) →
      P (Node.E_Func args b stmts))
    (seq : ∀ n, n.is_seq = true → (∀ k ∈ n.kids, P k) → P n) :
    ∀ decls : List PairType, ∀ n ∈ initialisers decls, P n
  | [] => by simp [initialisers]
  | (name, some x) :: rest => by
    have hx := Node.induction_kinds var block program func seq x
    have hr := Node.induction_kinds_pairs var block program func seq rest
    intro n hn
    have hi : initialisers ((name, some x) :: rest) = x :: initialisers rest := rfl
    rw [hi] at hn
    rcases List.mem_cons.1 hn with rfl | hn
    · exact hx
    · exact hr n hn
  | (name, none) :: rest => by
    have hr := Node.induction_kinds_pairs var block program func seq rest
    intro n hn
    have hi : initialisers ((name, none) :: rest) = initialisers rest := rfl
    rw [hi] at hn
    exact hr n hn
end

/-! ## Unfolding at function literals -/

theorem visit_func_eq (fuel : Nat) (args : Option (Addr × List PairType)) (b : Addr)
    (stmts : List Node) (s : State) :
    Resolver.visit fuel (Node.E_Func args b stmts) s =
      andThen (Resolver.visit_args fuel args b s)
        (Resolver.visit_block (Resolver.visit_each fuel stmts) b stmts) := by
  cases args with
  | none => simp only [Resolver.visit, Resolver.visit_args]
  | some a =>
    obtain ⟨d, decls⟩ := a
    simp only [Resolver.visit, Resolver.visit_args, visit_declare_list_eq]

theorem blocks_func (cur : Option Addr) (args : Option (Addr × List PairType)) (b : Addr)
    (stmts : List Node) :
    blocks cur (Node.E_Func args b stmts) =
      ⟨b, cur, param_decl args, direct_decls stmts⟩ ::
        (blocks_each (some b) (param_initialisers args) ++ blocks_each (some b) stmts) := by
  cases args with
  | none => simp [blocks, param_initialisers, blocks_each, param_decl]
  | some a =>
    obtain ⟨d, decls⟩ := a
    simp [blocks, blocks_pairs_eq, param_initialisers, param_decl]

theorem refs_func (sc : Scope) (args : Option (Addr × List PairType)) (b : Addr)
    (stmts : List Node) :
    refs sc (Node.E_Func args b stmts) =
      refs_each (sc.enter_init b) (param_initialisers args) ++
        refs_each (sc.enter_block b (param_names args ++ hoisted stmts)) stmts := by
  cases args with
  | none => simp [refs, param_initialisers, refs_each]
  | some a =>
    obtain ⟨d, decls⟩ := a
    simp [refs, refs_pairs_eq, param_initialisers]

theorem blocks_block (cur : Option Addr) (b : Addr) (stmts : List Node) :
    blocks cur (Node.S_Block b stmts) =
      ⟨b, cur, none, direct_decls stmts⟩ :: blocks_each (some b) stmts := by
  simp [blocks]

theorem refs_block (sc : Scope) (b : Addr) (stmts : List Node) :
    refs sc (Node.S_Block b stmts) = refs_each (sc.enter_block b (hoisted stmts)) stmts := by
  simp [refs]

/-! ## Footprint of the visitor -/

@[simp] theorem upd_same {β : Type} (f : Addr → β) (a : Addr) (v : β) : upd f a v a = v := by
  simp [upd]

theorem upd_other {β : Type} (f : Addr → β) (a : Addr) (v : β) (x : Addr) (h : x ≠ a) :
    upd f a v x = f x := by
  simp [upd, h]

theorem Touches.refl_t (bs vs ds : List Addr) (s : State) : Touches bs vs ds s s :=
  ⟨rfl, fun _ _ _ => rfl, fun _ _ _ => ⟨rfl, rfl, rfl, List.prefix_refl _, fun _ _ h => h⟩,
    fun _ _ => rfl, fun _ _ => rfl⟩

theorem Touches.mono_t {bs vs ds bs' vs' ds' : List Addr} {s s' : State}
    (h : Touches bs vs ds s s') (hb : bs ⊆ bs') (hv : vs ⊆ vs') (hd : ds ⊆ ds') :
    Touches bs' vs' ds' s s' :=
  ⟨h.cur, fun b hb' hc => h.block_other b (fun hm => hb' (hb hm)) hc,
    fun c hc hb' => h.block_cur c hc (fun hm => hb' (hb hm)),
    fun v hv' => h.var_other v (fun hm => hv' (hv hm)),
    fun d hd' => h.decl_other d (fun hm => hd' (hd hm))⟩

theorem Touches.trans_t {bs vs ds : List Addr} {s s1 s2 : State}
    (h1 : Touches bs vs ds s s1) (h2 : Touches bs vs ds s1 s2) : Touches bs vs ds s s2 := by
  refine ⟨h2.cur.trans h1.cur, ?_, ?_, ?_, ?_⟩
  · intro b hb hc
    rw [h2.block_other b hb (by rw [h1.cur]; exact hc), h1.block_other b hb hc]
  · intro c hc hb
    obtain ⟨a1, a2, a3, a4, a5⟩ := h1.block_cur c hc hb
    obtain ⟨b1, b2, b3, b4, b5⟩ := h2.block_cur c (by rw [h1.cur]; exact hc) hb
    exact ⟨b1.trans a1, b2.trans a2, b3.trans a3, a4.trans b4,
      fun name i h => b5 name i (a5 name i h)⟩
  · intro v hv; rw [h2.var_other v hv, h1.var_other v hv]
  · intro d hd; rw [h2.decl_other d hd, h1.decl_other d hd]

/-- Sequencing keeps a footprint. -/
theorem Touches.and_then {bs vs ds : List Addr} {s : State} {r : Result Unit × State}
    {k : State → Result Unit × State}
    (h1 : Touches bs vs ds s r.2) (h2 : ∀ s1, Touches bs vs ds s s1 → Touches bs vs ds s1 (k s1).2) :
    Touches bs vs ds s (andThen r k).2 := by
  obtain ⟨r, s1⟩ := r
  cases r with
  | ok u => exact h1.trans_t (h2 s1 h1)
  | throw e => exact h1
  | assert_fail => exact h1
  | out_of_fuel => exact h1

theorem add_nonlocal_touches (fuel : Nat) (c : Addr) (name : ustring) (start : Option Addr)
    (s : State) :
    let s' := (add_nonlocal_to_block_attr fuel c name start s).2
    s'.cur_block = s.cur_block ∧ s'.var = s.var ∧ s'.decl = s.decl ∧
    (∀ b, b ≠ c → s'.block b = s.block b) ∧
    (s'.block c).parent = (s.block c).parent ∧
    (s'.block c).local_info = (s.block c).local_info ∧
    (s'.block c).name_to_local_index = (s.block c).name_to_local_index ∧
    (s.block c).nonlocal_indexes <+: (s'.block c).nonlocal_indexes ∧
    ∀ n i, map_find (s.block c).name_to_nonlocal_index n = some i →
      map_find (s'.block c).name_to_nonlocal_index n = some i := by
  simp only [add_nonlocal_to_block_attr]
  cases hf : map_find (s.block c).name_to_nonlocal_index name with
  | some i => simp
  | none =>
    have hgrow : ∀ n i, map_find (s.block c).name_to_nonlocal_index n = some i →
        map_find (map_emplace (s.block c).name_to_nonlocal_index name
          ((s.block c).nonlocal_indexes.length : Int)) n = some i := by
      intro n i h
      rw [map_find_emplace_absent _ _ _ _ hf]
      have : name ≠ n := by rintro rfl; rw [hf] at h; simp at h
      simp [this, h]
    simp only []
    split
    · refine ⟨rfl, rfl, rfl, ?_, ?_⟩
      · intro b hb; simp [upd_other _ _ _ _ hb]
      · simpa using hgrow
    all_goals
      refine ⟨rfl, rfl, rfl, ?_, ?_⟩
      · intro b hb; simp [upd_other _ _ _ _ hb]
      · simpa using hgrow

theorem visit_var_touches (fuel : Nat) (v : Addr) (name : ustring) (s : State) :
    Touches [] [v] [] s (Resolver.visit_var fuel v name s).2 := by
  obtain ⟨blk, var, decl, cur⟩ := s
  simp only [Resolver.visit_var]
  cases cur with
  | none => exact Touches.refl_t _ _ _ _
  | some c =>
    simp only []
    cases hf : map_find (blk c).name_to_local_index name with
    | some i =>
      refine ⟨rfl, fun _ _ _ => rfl,
        fun _ _ _ => ⟨rfl, rfl, rfl, List.prefix_refl _, fun _ _ h => h⟩, ?_, fun _ _ => rfl⟩
      intro x hx
      simp only [List.mem_singleton] at hx
      simp [upd_other _ _ _ _ hx]
    | none =>
      simp only []
      have key := add_nonlocal_touches fuel c name (blk c).parent
        ⟨blk, upd var v { var v with is_local := false }, decl, some c⟩
      simp only [] at key
      obtain ⟨k1, k2, k3, k4, k5, k6, k7, k8, k9⟩ := key
      have hfin : ∀ (s2 : State), s2 = (add_nonlocal_to_block_attr fuel c name (blk c).parent
          ⟨blk, upd var v { var v with is_local := false }, decl, some c⟩).2 →
          ∀ (va : E_Var.AttrType) (s3 : State),
            (s3 = s2 ∨ s3 = { s2 with var := upd s2.var v va }) →
          Touches [] [v] [] ⟨blk, var, decl, some c⟩ s3 := by
        intro s2 hs2 va s3 hs3
        subst hs2
        have hblock : s3.block = (add_nonlocal_to_block_attr fuel c name (blk c).parent
          ⟨blk, upd var v { var v with is_local := false }, decl, some c⟩).2.block := by
          rcases hs3 with rfl | rfl <;> rfl
        refine ⟨?_, ?_, ?_, ?_, ?_⟩
        · rcases hs3 with rfl | rfl <;> simpa using k1
        · intro b _ hb
          rw [hblock]
          exact k4 b (by rintro rfl; exact hb rfl)
        · intro c' hc' _
          cases hc'
          rw [hblock]
          exact ⟨k5, k6, k7, k8, k9⟩
        · intro x hx
          simp only [List.mem_singleton] at hx
          rcases hs3 with rfl | rfl
          · rw [k2]; simp [upd_other _ _ _ _ hx]
          · simp only [upd_other _ _ _ _ hx]
            rw [k2]; simp [upd_other _ _ _ _ hx]
        · intro d _
          rcases hs3 with rfl | rfl <;> simpa using congrFun k3 d
      split
      · rename_i index s2 heq
        exact hfin s2 (by rw [heq]) _ _ (Or.inr rfl)
      · rename_i e s2 heq
        exact hfin s2 (by rw [heq]) {} _ (Or.inl rfl)
      · rename_i s2 heq
        exact hfin s2 (by rw [heq]) {} _ (Or.inl rfl)
      · rename_i s2 heq
        exact hfin s2 (by rw [heq]) {} _ (Or.inl rfl)

theorem andThen_elim {P : Result Unit × State → Prop} (r : Result Unit × State)
    (k : State → Result Unit × State)
    (h1 : r.1 ≠ Result.ok () → P r) (h2 : r.1 = Result.ok () → P (k r.2)) :
    P (andThen r k) := by
  obtain ⟨r, s⟩ := r
  cases r with
  | ok u => exact h2 rfl
  | throw e => exact h1 (by simp)
  | assert_fail => exact h1 (by simp)
  | out_of_fuel => exact h1 (by simp)

theorem Declares.refl_d (b : Addr) (ds : List Addr) (s : State) : Declares b ds s s :=
  ⟨rfl, rfl, fun _ _ => rfl, fun _ _ => rfl, rfl, rfl, rfl⟩

theorem Declares.trans_d {b : Addr} {ds : List Addr} {s s1 s2 : State}
    (h1 : Declares b ds s s1) (h2 : Declares b ds s1 s2) : Declares b ds s s2 :=
  ⟨h2.cur.trans h1.cur, h2.var.trans h1.var,
    fun b' hb => (h2.block_other b' hb).trans (h1.block_other b' hb),
    fun d hd => (h2.decl_other d hd).trans (h1.decl_other d hd),
    h2.parent.trans h1.parent, h2.nonlocal_indexes.trans h1.nonlocal_indexes,
    h2.name_to_nonlocal_index.trans h1.name_to_nonlocal_index⟩

theorem Declares.mono_d {b : Addr} {ds ds' : List Addr} {s s' : State}
    (h : Declares b ds s s') (hd : ds ⊆ ds') : Declares b ds' s s' :=
  ⟨h.cur, h.var, h.block_other, fun d hd' => h.decl_other d (fun hm => hd' (hd hm)),
    h.parent, h.nonlocal_indexes, h.name_to_nonlocal_index⟩

theorem declare_declares (b d : Addr) (decls : List PairType) (s : State) :
    Declares b [d] s (declare b d decls s).2 := by
  obtain ⟨h1, h2, h3⟩ := add_declarations_loop_frame (s.block b) decls
  refine ⟨rfl, rfl, ?_, ?_, ?_, ?_, ?_⟩
  · intro b' hb; simp [declare, upd_other _ _ _ _ hb]
  · intro d' hd
    simp only [List.mem_singleton] at hd
    simp [declare, upd_other _ _ _ _ hd]
  · simpa [declare, add_declarations_to_block_attr] using h1
  · simpa [declare, add_declarations_to_block_attr] using h2
  · simpa [declare, add_declarations_to_block_attr] using h3

theorem direct_decls_cons_decl (d : Addr) (decls : List PairType) (rest : List Node) :
    direct_decls (Node.S_DeclareList d decls :: rest) =
      (d, decl_names decls) :: direct_decls rest := rfl

theorem direct_decls_cons_other (n : Node) (rest : List Node)
    (h : ∀ d decls, n ≠ Node.S_DeclareList d decls) :
    direct_decls (n :: rest) = direct_decls rest := by
  cases n <;> first | rfl | exact absurd rfl (h _ _)

theorem hoist_cons_other (b : Addr) (n : Node) (rest : List Node) (s : State)
    (h : ∀ d decls, n ≠ Node.S_DeclareList d decls) :
    hoist_declarations b (n :: rest) s = hoist_declarations b rest s := by
  cases n <;> first | rfl | exact absurd rfl (h _ _)

/-- Case split on whether a statement is a declare-list. -/
theorem Node.decl_or_other (n : Node) :
    (∃ d decls, n = Node.S_DeclareList d decls) ∨ ∀ d decls, n ≠ Node.S_DeclareList d decls := by
  cases n <;> first | (left; exact ⟨_, _, rfl⟩) | (right; intro d decls h; cases h)

theorem hoist_declares (b : Addr) (stmts : List Node) (s : State) :
    Declares b ((direct_decls stmts).map Prod.fst) s (hoist_declarations b stmts s).2 := by
  induction stmts generalizing s with
  | nil => exact Declares.refl_d _ _ _
  | cons n rest ih =>
    rcases n.decl_or_other with ⟨d, decls, rfl⟩ | hn
    · simp only [hoist_declarations, direct_decls_cons_decl, List.map_cons]
      apply andThen_elim (P := fun r => Declares b _ s r.2)
      · intro _
        exact (declare_declares b d decls s).mono_d (by simp)
      · intro _
        exact ((declare_declares b d decls s).mono_d (by simp)).trans_d ((ih _).mono_d (by simp))
    · rw [hoist_cons_other b n rest s hn, direct_decls_cons_other n rest hn]
      exact ih s

theorem Confined.refl_c (bs vs ds : List Addr) (s : State) : Confined bs vs ds s s :=
  ⟨rfl, fun _ _ => rfl, fun _ _ => rfl, fun _ _ => rfl⟩

theorem Confined.trans_c {bs vs ds : List Addr} {s s1 s2 : State}
    (h1 : Confined bs vs ds s s1) (h2 : Confined bs vs ds s1 s2) : Confined bs vs ds s s2 :=
  ⟨h2.cur.trans h1.cur, fun b hb => (h2.block_other b hb).trans (h1.block_other b hb),
    fun v hv => (h2.var_other v hv).trans (h1.var_other v hv),
    fun d hd => (h2.decl_other d hd).trans (h1.decl_other d hd)⟩

theorem Confined.mono_c {bs vs ds bs' vs' ds' : List Addr} {s s' : State}
    (h : Confined bs vs ds s s') (hb : bs ⊆ bs') (hv : vs ⊆ vs') (hd : ds ⊆ ds') :
    Confined bs' vs' ds' s s' :=
  ⟨h.cur, fun b hb' => h.block_other b (fun hm => hb' (hb hm)),
    fun v hv' => h.var_other v (fun hm => hv' (hv hm)),
    fun d hd' => h.decl_other d (fun hm => hd' (hd hm))⟩

theorem Confined.touches {bs vs ds : List Addr} {s s' : State} (h : Confined bs vs ds s s') :
    Touches bs vs ds s s' :=
  ⟨h.cur, fun b hb _ => h.block_other b hb,
    fun c _ hb => by
      rw [h.block_other c hb]
      exact ⟨rfl, rfl, rfl, List.prefix_refl _, fun _ _ h => h⟩,
    h.var_other, h.decl_other⟩

/-- The footprint of the scope guarded by `enter(b)`: some declarations for
`b` followed by a computation with footprint `bs vs ds` under current block
`b`. -/
theorem scoped_confined {bs vs ds dd : List Addr} (b : Addr) (s s2 s3 : State)
    (origin : Option Addr)
    (h2 : Declares b dd (Resolver.enter b s) s2) (h3 : Touches bs vs ds s2 s3)
    (ho : origin = s.cur_block) :
    Confined (b :: bs) vs (dd ++ ds) s { s3 with cur_block := origin } := by
  have hcur2 : s2.cur_block = some b := by rw [h2.cur]; rfl
  refine ⟨ho, ?_, ?_, ?_⟩
  · intro b' hb'
    simp only [List.mem_cons, not_or] at hb'
    show s3.block b' = s.block b'
    rw [h3.block_other b' hb'.2 (by rw [hcur2]; intro h; cases h; exact hb'.1 rfl),
      h2.block_other b' hb'.1]
    simp [Resolver.enter, upd_other _ _ _ _ hb'.1]
  · intro v hv
    show s3.var v = s.var v
    rw [h3.var_other v hv, h2.var]; rfl
  · intro d hd
    simp only [List.mem_append, not_or] at hd
    show s3.decl d = s.decl d
    rw [h3.decl_other d hd.2, h2.decl_other d hd.1]; rfl

theorem visit_block_confined {bs vs ds : List Addr} (k : State → Result Unit × State)
    (b : Addr) (stmts : List Node) (s : State)
    (hk : ∀ s1, s1.cur_block = some b → Touches bs vs ds s1 (k s1).2) :
    Confined (b :: bs) vs ((direct_decls stmts).map Prod.fst ++ ds) s
      (Resolver.visit_block k b stmts s).2 := by
  simp only [Resolver.visit_block, RestoreOnExit]
  have hd := hoist_declares b stmts (Resolver.enter b s)
  apply andThen_elim (P := fun r =>
    Confined (b :: bs) vs ((direct_decls stmts).map Prod.fst ++ ds) s
      { r.2 with cur_block := s.cur_block })
  · intro _
    exact scoped_confined b s _ _ _ hd (Touches.refl_t _ _ _ _) rfl
  · intro _
    exact scoped_confined b s _ _ _ hd (hk _ (by rw [hd.cur]; rfl)) rfl

/-- The footprint of the guarded scope in `Resolver::visit_func`: the
initialisers are visited under current block `b`, then the parameters are
declared. -/
theorem init_confined {bs vs ds dd : List Addr} (b : Addr) (s s2 s3 : State)
    (origin : Option Addr)
    (h2 : Touches bs vs ds (Resolver.enter b s) s2) (h3 : Declares b dd s2 s3)
    (ho : origin = s.cur_block) :
    Confined (b :: bs) vs (dd ++ ds) s { s3 with cur_block := origin } := by
  refine ⟨ho, ?_, ?_, ?_⟩
  · intro b' hb'
    simp only [List.mem_cons, not_or] at hb'
    show s3.block b' = s.block b'
    rw [h3.block_other b' hb'.1,
      h2.block_other b' hb'.2 (by intro h; cases h; exact hb'.1 rfl)]
    simp [Resolver.enter, upd_other _ _ _ _ hb'.1]
  · intro v hv
    show s3.var v = s.var v
    rw [h3.var, h2.var_other v hv]; rfl
  · intro d hd
    simp only [List.mem_append, not_or] at hd
    show s3.decl d = s.decl d
    rw [h3.decl_other d hd.1, h2.decl_other d hd.2]; rfl

theorem visit_each_touches (fuel : Nat) (l : List Node)
    (h : ∀ n ∈ l, ∀ (sc : Scope) (s : State), sc.cur = s.cur_block →
      Touches (block_addrs sc.cur n) (var_addrs sc n) (decl_addrs sc.cur n) s
        (Resolver.visit fuel n s).2)
    (sc : Scope) (s : State) (hsc : sc.cur = s.cur_block) :
    Touches ((blocks_each sc.cur l).map BlockInfo.addr) ((refs_each sc l).map Ref.addr)
      ((blocks_each sc.cur l).flatMap BlockInfo.decl_addrs) s
      (Resolver.visit_each fuel l s).2 := by
  induction l generalizing s with
  | nil => exact Touches.refl_t _ _ _ _
  | cons n rest ih =>
    simp only [Resolver.visit_each, blocks_each, refs_each, List.map_append,
      List.flatMap_append]
    apply Touches.and_then
    · exact (h n (List.mem_cons_self _ _) sc s hsc).mono_t
        (List.subset_append_left _ _) (List.subset_append_left _ _)
        (List.subset_append_left _ _)
    · intro s1 hs1
      exact (ih (fun m hm => h m (List.mem_cons_of_mem _ hm)) s1
        (hsc.trans hs1.cur.symm)).mono_t
        (List.subset_append_right _ _) (List.subset_append_right _ _)
        (List.subset_append_right _ _)

theorem visit_confined_block (fuel : Nat) (b : Addr) (stmts : List Node)
    (h : ∀ n ∈ stmts, ∀ (sc : Scope) (s : State), sc.cur = s.cur_block →
      Touches (block_addrs sc.cur n) (var_addrs sc n) (decl_addrs sc.cur n) s
        (Resolver.visit fuel n s).2)
    (sc : Scope) (names : List ustring) (s : State) :
    Confined (b :: (blocks_each (some b) stmts).map BlockInfo.addr)
      ((refs_each (sc.enter_block b names) stmts).map Ref.addr)
      ((direct_decls stmts).map Prod.fst ++
        (blocks_each (some b) stmts).flatMap BlockInfo.decl_addrs) s
      (Resolver.visit_block (Resolver.visit_each fuel stmts) b stmts s).2 :=
  visit_block_confined _ b stmts s
    (fun s1 hs1 => visit_each_touches fuel stmts h (sc.enter_block b names) s1 hs1.symm)

/-- Footprint of a visit: the blocks, variable references and declare-lists
of the subtree, and the capture tables of the current block. -/
theorem visit_touches (fuel : Nat) (n : Node) :
    ∀ (sc : Scope) (s : State), sc.cur = s.cur_block →
      Touches (block_addrs sc.cur n) (var_addrs sc n) (decl_addrs sc.cur n) s
        (Resolver.visit fuel n s).2 := by
  induction n using Node.induction_kinds with
  | var v name =>
    intro sc s _
    simpa [block_addrs, var_addrs, decl_addrs, blocks, refs, Resolver.visit] using
      visit_var_touches fuel v name s
  | block b stmts ih =>
    intro sc s _
    have := (visit_confined_block fuel b stmts ih sc (hoisted stmts) s).touches
    simpa [block_addrs, var_addrs, decl_addrs, blocks, refs, Resolver.visit,
      BlockInfo.decl_addrs, BlockInfo.all_decls] using this
  | program b stmts ih =>
    intro sc s _
    have := (visit_confined_block fuel b stmts ih sc (hoisted stmts) s).touches
    simpa [block_addrs, var_addrs, decl_addrs, blocks, refs, Resolver.visit,
      BlockInfo.decl_addrs, BlockInfo.all_decls] using this
  | func args b stmts ihi ih =>
    intro sc s _
    have hbody := fun s1 =>
      visit_confined_block fuel b stmts ih sc (param_names args ++ hoisted stmts) s1
    apply Confined.touches
    cases args with
    | none =>
      simp only [Resolver.visit, andThen_ok]
      have := hbody s
      simpa [block_addrs, var_addrs, decl_addrs, blocks, refs, BlockInfo.decl_addrs, BlockInfo.all_decls] using this
    | some a =>
      obtain ⟨d, decls⟩ := a
      simp only [Resolver.visit]
      simp only [param_initialisers] at ihi
      have hinit : Confined (b :: (blocks_each (some b) (initialisers decls)).map BlockInfo.addr)
          ((refs_each (sc.enter_init b) (initialisers decls)).map Ref.addr)
          ([d] ++ (blocks_each (some b) (initialisers decls)).flatMap BlockInfo.decl_addrs) s
          (RestoreOnExit s.cur_block
            (andThen (Resolver.visit_declare_list fuel decls (Resolver.enter b s))
              (declare b d decls))).2 := by
        simp only [RestoreOnExit, visit_declare_list_eq]
        have ht := visit_each_touches fuel (initialisers decls) ihi (sc.enter_init b)
          (Resolver.enter b s) rfl
        apply andThen_elim (P := fun r => Confined _ _ _ s { r.2 with cur_block := s.cur_block })
        · intro _
          exact init_confined b s _ _ _ ht (Declares.refl_d _ _ _) rfl
        · intro _
          exact init_confined b s _ _ _ ht (declare_declares b d decls _) rfl
      simp only [block_addrs, var_addrs, decl_addrs, blocks, refs, blocks_pairs_eq,
        refs_pairs_eq, List.map_cons, List.map_append, List.flatMap_cons, List.flatMap_append,
        BlockInfo.decl_addrs, BlockInfo.all_decls, Option.map_some', Option.toList]
      apply andThen_elim (P := fun r => Confined _ _ _ s r.2)
      · intro _
        exact hinit.mono_c (by intro x hx; simp only [List.mem_cons, List.mem_append, List.mem_singleton, List.not_mem_nil, false_or, or_false] at hx ⊢; tauto) (by intro x hx; simp only [List.mem_cons, List.mem_append, List.mem_singleton, List.not_mem_nil, false_or, or_false] at hx ⊢; tauto)
          (by intro x hx; simp only [List.mem_cons, List.mem_append, List.mem_singleton, List.not_mem_nil, false_or, or_false] at hx ⊢; tauto)
      · intro _
        exact (hinit.mono_c (by intro x hx; simp only [List.mem_cons, List.mem_append, List.mem_singleton, List.not_mem_nil, false_or, or_false] at hx ⊢; tauto) (by intro x hx; simp only [List.mem_cons, List.mem_append, List.mem_singleton, List.not_mem_nil, false_or, or_false] at hx ⊢; tauto)
          (by intro x hx; simp only [List.mem_cons, List.mem_append, List.mem_singleton, List.not_mem_nil, false_or, or_false] at hx ⊢; tauto)).trans_c
          ((hbody _).mono_c (by intro x hx; simp only [List.mem_cons, List.mem_append, List.mem_singleton, List.not_mem_nil, false_or, or_false] at hx ⊢; tauto) (by intro x hx; simp only [List.mem_cons, List.mem_append, List.mem_singleton, List.not_mem_nil, false_or, or_false] at hx ⊢; tauto)
            (by intro x hx; simp only [List.mem_cons, List.mem_append, List.mem_singleton, List.not_mem_nil, false_or, or_false] at hx ⊢; tauto))
  | seq n hn ih =>
    intro sc s hsc
    rw [visit_of_seq fuel n hn]
    simp only [block_addrs, var_addrs, decl_addrs, blocks_of_seq _ n hn, refs_of_seq _ n hn]
    exact visit_each_touches fuel n.kids ih sc s hsc

/-! ## Properties kept by every step of the visitor -/

/-- A property of the state kept by `enter`, by the restoring of `cur_block`,
by `add_declarations_to_block_attr` and by `visit_var` is kept by every
visit, on every outcome. -/
theorem visit_preserves (fuel : Nat) (Q : State → Prop)
    (h_enter : ∀ b s, Q s → Q (Resolver.enter b s))
    (h_restore : ∀ o (s : State), Q s → Q { s with cur_block := o })
    (h_declare : ∀ b d decls s, Q s → Q (declare b d decls s).2)
    (h_var : ∀ v name s, Q s → Q (Resolver.visit_var fuel v name s).2)
    (n : Node) : ∀ s, Q s → Q (Resolver.visit fuel n s).2 := by
  have h_each : ∀ l : List Node, (∀ n ∈ l, ∀ s, Q s → Q (Resolver.visit fuel n s).2) →
      ∀ s, Q s → Q (Resolver.visit_each fuel l s).2 := by
    intro l
    induction l with
    | nil => intro _ s hs; exact hs
    | cons n rest ih =>
      intro h s hs
      simp only [Resolver.visit_each]
      apply andThen_elim (P := fun r => Q r.2)
      · intro _; exact h n (List.mem_cons_self _ _) s hs
      · intro _
        exact ih (fun m hm => h m (List.mem_cons_of_mem _ hm)) _
          (h n (List.mem_cons_self _ _) s hs)
  have h_hoist : ∀ b (stmts : List Node) s, Q s → Q (hoist_declarations b stmts s).2 := by
    intro b stmts
    induction stmts with
    | nil => intro s hs; exact hs
    | cons n rest ih =>
      intro s hs
      rcases n.decl_or_other with ⟨d, decls, rfl⟩ | hn
      · simp only [hoist_declarations]
        apply andThen_elim (P := fun r => Q r.2)
        · intro _; exact h_declare b d decls s hs
        · intro _; exact ih _ (h_declare b d decls s hs)
      · rw [hoist_cons_other b n rest s hn]; exact ih s hs
  have h_block : ∀ b (stmts : List Node),
      (∀ n ∈ stmts, ∀ s, Q s → Q (Resolver.visit fuel n s).2) →
      ∀ s, Q s → Q (Resolver.visit_block (Resolver.visit_each fuel stmts) b stmts s).2 := by
    intro b stmts h s hs
    simp only [Resolver.visit_block, RestoreOnExit]
    apply h_restore
    apply andThen_elim (P := fun r => Q r.2)
    · intro _; exact h_hoist b stmts _ (h_enter b s hs)
    · intro _; exact h_each stmts h _ (h_hoist b stmts _ (h_enter b s hs))
  induction n using Node.induction_kinds with
  | var v name => intro s hs; exact h_var v name s hs
  | block b stmts ih => intro s hs; exact h_block b stmts ih s hs
  | program b stmts ih => intro s hs; exact h_block b stmts ih s hs
  | func args b stmts ihi ih =>
    intro s hs
    cases args with
    | none => simp only [Resolver.visit, andThen_ok]; exact h_block b stmts ih s hs
    | some a =>
      obtain ⟨d, decls⟩ := a
      simp only [Resolver.visit]
      have hinit : Q (RestoreOnExit s.cur_block
          (andThen (Resolver.visit_declare_list fuel decls (Resolver.enter b s))
            (declare b d decls))).2 := by
        simp only [RestoreOnExit, visit_declare_list_eq]
        apply h_restore
        apply andThen_elim (P := fun r => Q r.2)
        · intro _; exact h_each _ ihi _ (h_enter b s hs)
        · intro _; exact h_declare b d decls _ (h_each _ ihi _ (h_enter b s hs))
      apply andThen_elim (P := fun r => Q r.2)
      · intro _; exact hinit
      · intro _; exact h_block b stmts ih _ hinit
  | seq n hn ih =>
    intro s hs
    rw [visit_of_seq fuel n hn]
    exact h_each n.kids ih s hs

theorem LocalTableInv.congr_inv {attr attr' : S_Block.AttrType} (h : LocalTableInv attr)
    (h1 : attr'.local_info = attr.local_info)
    (h2 : attr'.name_to_local_index = attr.name_to_local_index) : LocalTableInv attr' := by
  obtain ⟨hm, hn⟩ := h
  refine ⟨?_, ?_⟩
  · intro name i; rw [h1, h2]; exact hm name i
  · simpa [local_names, h1] using hn

theorem LocalTableInv.empty_inv : LocalTableInv {} := by
  refine ⟨?_, by simp [local_names]⟩
  intro name i
  simp [map_find]

theorem add_declarations_inv (attr : S_Block.AttrType) (decls : List PairType)
    (h : LocalTableInv attr) : LocalTableInv (add_declarations_to_block_attr attr decls).2.1 :=
  add_declarations_loop_inv attr decls h

/-- Every visit keeps the local-table invariant of every block. -/
theorem visit_inv (fuel : Nat) (n : Node) (s : State)
    (h : ∀ b, LocalTableInv (s.block b)) :
    ∀ b, LocalTableInv ((Resolver.visit fuel n s).2.block b) := by
  refine visit_preserves fuel (fun s => ∀ b, LocalTableInv (s.block b)) ?_ ?_ ?_ ?_ n s h
  · intro b s hs b'
    by_cases hb : b' = b
    · subst hb
      exact (hs b').congr_inv (by simp [Resolver.enter]) (by simp [Resolver.enter])
    · simpa [Resolver.enter, upd_other _ _ _ _ hb] using hs b'
  · intro o s hs; exact hs
  · intro b d decls s hs b'
    by_cases hb : b' = b
    · subst hb
      simpa [declare] using add_declarations_inv (s.block b') decls (hs b')
    · simpa [declare, upd_other _ _ _ _ hb] using hs b'
  · intro v name s hs b'
    have ht := visit_var_touches fuel v name s
    by_cases hb : s.cur_block = some b'
    · obtain ⟨_, h2, h3, _⟩ := ht.block_cur b' hb (by simp)
      exact (hs b').congr_inv h2 h3
    · rw [ht.block_other b' (by simp) hb]; exact hs b'

theorem hoist_inv (b : Addr) (stmts : List Node) (s : State)
    (h : ∀ b', LocalTableInv (s.block b')) :
    ∀ b', LocalTableInv ((hoist_declarations b stmts s).2.block b') := by
  induction stmts generalizing s with
  | nil => exact h
  | cons n rest ih =>
    rcases n.decl_or_other with ⟨d, decls, rfl⟩ | hn
    · have hd : ∀ b', LocalTableInv ((declare b d decls s).2.block b') := by
        intro b'
        by_cases hb : b' = b
        · subst hb
          simpa [declare] using add_declarations_inv (s.block b') decls (h b')
        · simpa [declare, upd_other _ _ _ _ hb] using h b'
      simp only [hoist_declarations]
      apply andThen_elim (P := fun r => ∀ b', LocalTableInv (r.2.block b'))
      · intro _; exact hd
      · intro _; exact ih _ hd
    · rw [hoist_cons_other b n rest s hn]; exact ih s h

theorem run_calls_inv (fuel : Nat) (calls : List ResolverCall) (s : State)
    (h : ∀ b, LocalTableInv (s.block b)) :
    ∀ b, LocalTableInv ((run_calls fuel calls s).block b) := by
  induction calls generalizing s with
  | nil => exact h
  | cons call rest ih =>
    apply ih
    cases call with
    | resolve_names block stmts =>
      have := visit_inv fuel (Node.S_Block block stmts) { s with cur_block := none } h
      simpa [ResolverCall.run, resolve_names, Resolver.visit] using this
    | resolve_names_in_block block node =>
      simp only [ResolverCall.run, resolve_names_in_block]
      have hfirst : ∀ b, LocalTableInv ((match node with
          | Node.S_DeclareList d decls => declare block d decls s
          | _ => (Result.ok (), s) : Result Unit × State).2.block b) := by
        rcases node.decl_or_other with ⟨d, decls, rfl⟩ | hn
        · intro b'
          by_cases hb : b' = block
          · subst hb
            simpa [declare] using add_declarations_inv (s.block b') decls (h b')
          · simpa [declare, upd_other _ _ _ _ hb] using h b'
        · cases node <;> first | exact h | exact absurd rfl (hn _ _)
      apply andThen_elim (P := fun r => ∀ b, LocalTableInv (r.2.block b))
      · intro _; exact hfirst
      · intro _; exact visit_inv fuel node _ hfirst

theorem add_declarations_appended (attr : S_Block.AttrType) (decls : List PairType)
    (h : (add_declarations_to_block_attr attr decls).1 = Result.ok ()) :
    Appended attr decls (add_declarations_to_block_attr attr decls).2.1
      (add_declarations_to_block_attr attr decls).2.2 := by
  obtain ⟨j, hj, hinfo, hok, _⟩ := add_declarations_loop_prefix attr decls
  have hj' : j = decls.length := hok h
  have hlen : (decl_names decls).length = decls.length := by simp [decl_names]
  have hinfo' : (add_declarations_loop attr decls).2.local_info =
      attr.local_info ++ (decl_names decls).map VarInfo.mk := by
    rw [hinfo, hj', ← hlen, List.take_length]
  refine ⟨rfl, hinfo', ?_, ?_, ?_⟩
  · intro i name hi
    show (add_declarations_loop attr decls).2.local_info[_]? = _
    rw [hinfo', List.getElem?_append_right (by omega)]
    simp [hi]
  · intro k hk
    show (add_declarations_loop attr decls).2.local_info[_]? = _
    rw [hinfo', List.getElem?_append_left hk]
  · intro name i hf
    exact add_declarations_loop_keeps attr decls name i hf

theorem resolve_names_in_block_appended (fuel : Nat) (block d : Addr) (decls : List PairType)
    (s : State)
    (hb : block ∉ block_addrs (some block) (Node.S_DeclareList d decls))
    (hd : d ∉ decl_addrs (some block) (Node.S_DeclareList d decls))
    (h : (resolve_names_in_block fuel block (Node.S_DeclareList d decls) s).1 = Result.ok ()) :
    Appended (s.block block) decls
      ((resolve_names_in_block fuel block (Node.S_DeclareList d decls) s).2.block block)
      ((resolve_names_in_block fuel block (Node.S_DeclareList d decls) s).2.decl d) := by
  simp only [resolve_names_in_block] at h ⊢
  cases hr : (declare block d decls s).1 with
  | ok u =>
    have hdecl : declare block d decls s = (Result.ok (), (declare block d decls s).2) := by
      rw [← hr]
    have happ := add_declarations_appended (s.block block) decls hr
    rw [hdecl, andThen_ok] at h ⊢
    have ht := visit_touches fuel (Node.S_DeclareList d decls)
      [⟨block, [], false⟩]
      { (declare block d decls s).2 with cur_block := some block } rfl
    obtain ⟨_, h2, h3, _⟩ := ht.block_cur block rfl hb
    have h4 := ht.decl_other d hd
    obtain ⟨a1, a2, a3, a4, a5⟩ := happ
    have e1 : (declare block d decls s).2.block block =
        (add_declarations_to_block_attr (s.block block) decls).2.1 := by simp [declare]
    have e2 : (declare block d decls s).2.decl d =
        (add_declarations_to_block_attr (s.block block) decls).2.2 := by simp [declare]
    simp only [] at h2 h3 h4
    refine ⟨?_, ?_, ?_, ?_, ?_⟩
    · rw [h4, e2]; exact a1
    · rw [h2, e1]; exact a2
    · intro i name hi; rw [h2, e1]; exact a3 i name hi
    · intro k hk; rw [h2, e1]; exact a4 k hk
    · intro name i hf; rw [h3, e1]; exact a5 name i hf
  | throw e =>
    have hdecl : declare block d decls s = (Result.throw e, (declare block d decls s).2) := by
      rw [← hr]
    rw [hdecl] at h; simp [andThen] at h
  | assert_fail =>
    have hdecl : declare block d decls s = (Result.assert_fail, (declare block d decls s).2) := by
      rw [← hr]
    rw [hdecl] at h; simp [andThen] at h
  | out_of_fuel =>
    have hdecl : declare block d decls s = (Result.out_of_fuel, (declare block d decls s).2) := by
      rw [← hr]
    rw [hdecl] at h; simp [andThen] at h


/-! ## Scopes of the references of a subtree -/

theorem Scope.cur_enter_block (sc : Scope) (b : Addr) (names : List ustring) :
    Scope.cur (sc.enter_block b names) = some b := rfl

theorem Scope.cur_enter_init (sc : Scope) (b : Addr) :
    Scope.cur (sc.enter_init b) = some b := rfl

theorem ScopeCases.mono_sc {sc : Scope} {bs bs' : List Addr} {r : Ref}
    (h : ScopeCases sc bs r) (hb : bs ⊆ bs') : ScopeCases sc bs' r := by
  rcases h with h | ⟨l, pre, h1, h2⟩
  · exact Or.inl h
  · exact Or.inr ⟨l, pre, h1, hb h2⟩

theorem ScopeCases.under {sc : Scope} {bs : List Addr} {r : Ref} (l0 : Level)
    (h : ScopeCases (l0 :: sc) bs r) :
    ∃ l pre, r.scope = l :: (pre ++ sc) ∧ l.block ∈ l0.block :: bs := by
  rcases h with h | ⟨l, pre, h1, h2⟩
  · exact ⟨l0, [], by simpa using h, by simp⟩
  · exact ⟨l, pre ++ [l0], by simpa using h1, by simp [h2]⟩

theorem refs_each_scope (l : List Node)
    (h : ∀ n ∈ l, ∀ (sc : Scope) (r : Ref), r ∈ refs sc n →
      ScopeCases sc (block_addrs sc.cur n) r)
    (sc : Scope) (r : Ref) (hr : r ∈ refs_each sc l) :
    ScopeCases sc ((blocks_each sc.cur l).map BlockInfo.addr) r := by
  rw [refs_each_eq, List.mem_flatMap] at hr
  obtain ⟨n, hn, hr⟩ := hr
  refine (h n hn sc r hr).mono_sc ?_
  intro b hb
  simp only [block_addrs, List.mem_map] at hb ⊢
  obtain ⟨bi, hbi, rfl⟩ := hb
  exact ⟨bi, by rw [blocks_each_eq, List.mem_flatMap]; exact ⟨n, hn, hbi⟩, rfl⟩

theorem refs_scope (n : Node) :
    ∀ (sc : Scope) (r : Ref), r ∈ refs sc n → ScopeCases sc (block_addrs sc.cur n) r := by
  induction n using Node.induction_kinds with
  | var v name =>
    intro sc r hr
    simp only [refs, List.mem_singleton] at hr
    subst hr
    exact Or.inl rfl
  | block b stmts ih =>
    intro sc r hr
    simp only [refs] at hr
    have := (refs_each_scope stmts ih _ r hr).under
    simpa [block_addrs, blocks, Scope.enter_block, Scope.cur, ScopeCases] using Or.inr this
  | program b stmts ih =>
    intro sc r hr
    simp only [refs] at hr
    have := (refs_each_scope stmts ih _ r hr).under
    simpa [block_addrs, blocks, Scope.enter_block, Scope.cur, ScopeCases] using Or.inr this
  | func args b stmts ihi ih =>
    intro sc r hr
    right
    rw [refs_func, List.mem_append] at hr
    simp only [block_addrs, blocks_func, List.map_cons, List.map_append]
    rcases hr with hr | hr
    · obtain ⟨l, pre, h1, h2⟩ := (refs_each_scope _ ihi _ r hr).under
      refine ⟨l, pre, h1, ?_⟩
      simp only [List.mem_cons, List.mem_append, Scope.cur_enter_init] at h2 ⊢
      tauto
    · obtain ⟨l, pre, h1, h2⟩ := (refs_each_scope _ ih _ r hr).under
      refine ⟨l, pre, h1, ?_⟩
      simp only [List.mem_cons, List.mem_append, Scope.cur_enter_block] at h2 ⊢
      tauto
  | seq n hn ih =>
    intro sc r hr
    rw [refs_of_seq sc n hn] at hr
    have := refs_each_scope n.kids ih sc r hr
    simpa [block_addrs, blocks_of_seq _ n hn] using this

theorem ScopeCases.owner {sc : Scope} {bs : List Addr} {r : Ref} (h : ScopeCases sc bs r) :
    r.owner = sc.cur ∨ ∃ b ∈ bs, r.owner = some b := by
  rcases h with h | ⟨l, pre, h1, h2⟩
  · left; simp [Ref.owner, h]
  · right; exact ⟨l.block, h2, by simp [Ref.owner, h1, Scope.cur]⟩

theorem ScopeCases.scope_ne {sc : Scope} {bs : List Addr} {r : Ref}
    (h : ∃ l pre, r.scope = l :: (pre ++ sc) ∧ l.block ∈ bs) : r.scope ≠ sc := by
  obtain ⟨l, pre, h1, _⟩ := h
  intro hc
  have := congrArg List.length (h1.symm.trans hc)
  simp at this
  omega

/-! ## Lookup through the parent chain -/

theorem find_of_names {attr : S_Block.AttrType} {names : List ustring}
    (hinv : LocalTableInv attr) (hn : local_names attr = names) (name : ustring) :
    map_find attr.name_to_local_index name =
      if name ∈ names then some ((names.indexOf name : Nat) : Int) else none := by
  subst hn
  by_cases hmem : name ∈ local_names attr
  · simp only [hmem, if_true]
    apply (hinv.1 name _).2
    refine ⟨_, rfl, ?_⟩
    have hlt : List.indexOf name (local_names attr) < (local_names attr).length :=
      List.indexOf_lt_length.2 hmem
    have hget : (local_names attr)[List.indexOf name (local_names attr)]? = some name := by
      rw [List.getElem?_eq_getElem hlt]
      simp
    simp only [local_names, List.getElem?_map] at hget
    cases hx : attr.local_info[List.indexOf name (List.map VarInfo.name attr.local_info)]? with
    | none => simp [local_names, hx] at hget
    | some x =>
      simp only [local_names, hx, Option.map_some', Option.some.injEq] at hget
      simp only [local_names]
      rw [hx]
      cases x
      simp_all
  · simp only [hmem, if_false]
    exact (hinv.1.find_none_iff name).2 hmem

theorem resolve_congr (blk blk' : Addr → S_Block.AttrType)
    (h : ∀ b, (blk' b).parent = (blk b).parent ∧
      (blk' b).name_to_local_index = (blk b).name_to_local_index)
    (fuel : Nat) (o : Option Addr) (name : ustring) :
    resolve_from_block blk' fuel o name = resolve_from_block blk fuel o name := by
  induction fuel generalizing o with
  | zero => cases o <;> simp [resolve_from_block]
  | succ fuel ih =>
    cases o with
    | none => simp [resolve_from_block]
    | some b =>
      simp only [resolve_from_block, (h b).1, (h b).2]
      cases map_find (blk b).name_to_local_index name with
      | none => exact ih _
      | some i => rfl

theorem resolve_from_block_lookup (blk : Addr → S_Block.AttrType) (anc : Scope)
    (name : ustring) (o : Option Addr) (fuel : Nat)
    (hchain : Chain blk o (anc.map Level.block))
    (hnames : ∀ l ∈ anc, local_names (blk l.block) = l.names)
    (hinv : ∀ l ∈ anc, LocalTableInv (blk l.block))
    (hfuel : anc.length ≤ fuel) :
    resolve_from_block blk fuel o name = lookup_result anc name := by
  induction anc generalizing o fuel with
  | nil =>
    simp only [List.map_nil, Chain] at hchain
    subst hchain
    simp [resolve_from_block, lookup_result, Scope.lookup]
  | cons l rest ih =>
    simp only [List.map_cons, Chain] at hchain
    obtain ⟨ho, hrest⟩ := hchain
    subst ho
    cases fuel with
    | zero => simp at hfuel
    | succ fuel =>
      simp only [resolve_from_block]
      rw [find_of_names (hinv l (List.mem_cons_self _ _)) (hnames l (List.mem_cons_self _ _))]
      by_cases hmem : name ∈ l.names
      · simp [hmem, lookup_result, Scope.lookup]
      · simp only [hmem, if_false]
        rw [ih _ fuel hrest (fun l' hl' => hnames l' (List.mem_cons_of_mem _ hl'))
          (fun l' hl' => hinv l' (List.mem_cons_of_mem _ hl'))
          (by simpa using hfuel)]
        simp [lookup_result, Scope.lookup, hmem]

theorem Chain.congr_chain {blk blk' : Addr → S_Block.AttrType} {o : Option Addr} {env : List Addr}
    (h : Chain blk o env) (hp : ∀ b ∈ env, (blk' b).parent = (blk b).parent) :
    Chain blk' o env := by
  induction env generalizing o with
  | nil => exact h
  | cons b rest ih =>
    obtain ⟨h1, h2⟩ := h
    refine ⟨h1, ?_⟩
    rw [hp b (List.mem_cons_self _ _)]
    exact ih h2 (fun b' hb' => hp b' (List.mem_cons_of_mem _ hb'))

/-! ## `visit_var`, case by case -/

theorem upd_upd {β : Type} (f : Addr → β) (a : Addr) (v w : β) :
    upd (upd f a v) a w = upd f a w := by
  funext x
  by_cases h : x = a <;> simp [upd, h]

theorem visit_var_local (fuel : Nat) (v : Addr) (name : ustring) (s : State) (c : Addr)
    (i : Int) (hc : s.cur_block = some c)
    (hf : map_find (s.block c).name_to_local_index name = some i) :
    Resolver.visit_var fuel v name s = (Result.ok (), { s with var := upd s.var v ⟨true, i⟩ }) := by
  obtain ⟨blk, var, decl, cur⟩ := s
  simp only at hc hf
  subst hc
  simp [Resolver.visit_var, hf]

theorem visit_var_hit (fuel : Nat) (v : Addr) (name : ustring) (s : State) (c : Addr)
    (k : Int) (hc : s.cur_block = some c)
    (hf : map_find (s.block c).name_to_local_index name = none)
    (hh : map_find (s.block c).name_to_nonlocal_index name = some k) :
    Resolver.visit_var fuel v name s =
      (Result.ok (), { s with var := upd s.var v ⟨false, k⟩ }) := by
  obtain ⟨blk, var, decl, cur⟩ := s
  simp only at hc hf hh
  subst hc
  simp [Resolver.visit_var, hf, add_nonlocal_to_block_attr, hh, upd_upd]

theorem visit_var_miss (fuel : Nat) (v : Addr) (name : ustring) (s : State) (c : Addr)
    (hc : s.cur_block = some c)
    (hf : map_find (s.block c).name_to_local_index name = none)
    (hh : map_find (s.block c).name_to_nonlocal_index name = none) :
    Resolver.visit_var fuel v name s =
      match resolve_from_block s.block fuel (s.block c).parent name with
      | Result.ok info =>
        (Result.ok (),
          { s with
            var := upd s.var v ⟨false, ((s.block c).nonlocal_indexes.length : Int)⟩
            block := upd s.block c (with_slot (s.block c) name info) })
      | Result.throw e =>
        (Result.throw e,
          { s with
            var := upd s.var v { s.var v with is_local := false }
            block := upd s.block c (with_key (s.block c) name) })
      | Result.assert_fail =>
        (Result.assert_fail,
          { s with
            var := upd s.var v { s.var v with is_local := false }
            block := upd s.block c (with_key (s.block c) name) })
      | Result.out_of_fuel =>
        (Result.out_of_fuel,
          { s with
            var := upd s.var v { s.var v with is_local := false }
            block := upd s.block c (with_key (s.block c) name) }) := by
  obtain ⟨blk, var, decl, cur⟩ := s
  simp only at hc hf hh
  subst hc
  have hcongr : resolve_from_block
      (upd blk c { blk c with
        name_to_nonlocal_index :=
          map_emplace (blk c).name_to_nonlocal_index name ((blk c).nonlocal_indexes.length : Int) })
      fuel (blk c).parent name = resolve_from_block blk fuel (blk c).parent name := by
    apply resolve_congr
    intro b
    by_cases hb : b = c
    · subst hb; simp
    · simp [upd_other _ _ _ _ hb]
  simp only [Resolver.visit_var, hf, add_nonlocal_to_block_attr, hh, hcongr]
  cases resolve_from_block blk fuel (blk c).parent name <;>
    simp [upd_upd, with_slot, with_key, map_emplace_absent _ _ _ hh]

theorem map_find_none_iff (m : NameMap) (name : ustring) :
    map_find m name = none ↔ name ∉ m.map Prod.fst := by
  induction m with
  | nil => simp [map_find]
  | cons p m ih =>
    obtain ⟨k, v⟩ := p
    by_cases h : k = name
    · simp [map_find, h]
    · simp only [map_find, h, if_false, ih, List.map_cons, List.mem_cons, not_or]
      constructor
      · intro hm; exact ⟨fun hc => h hc.symm, hm⟩
      · intro hm; exact hm.2

theorem map_find_mem_values (m : NameMap) (name : ustring) (v : Int)
    (h : map_find m name = some v) : v ∈ m.map Prod.snd := by
  induction m with
  | nil => simp [map_find] at h
  | cons p m ih =>
    obtain ⟨k, w⟩ := p
    by_cases hk : k = name
    · simp [map_find, hk] at h
      simp [h]
    · simp only [map_find, hk, if_false] at h
      simp [ih h]

theorem ScopeOK.congr_scope {s s' : State} {sc : Scope} (h : ScopeOK s sc)
    (hcur : s'.cur_block = s.cur_block)
    (hb : ∀ b ∈ sc.map Level.block, (s'.block b).parent = (s.block b).parent ∧
      (s'.block b).local_info = (s.block b).local_info ∧
      (s'.block b).name_to_local_index = (s.block b).name_to_local_index) :
    ScopeOK s' sc := by
  refine ⟨hcur.trans h.cur, ?_, h.nodup, ?_, ?_⟩
  · rw [hcur]
    exact h.chain.congr_chain (fun b hb' => (hb b hb').1)
  · intro l hl
    have := hb l.block (List.mem_map_of_mem _ hl)
    rw [← h.names l hl]
    simp [local_names, this.2.1]
  · intro l hl
    have := hb l.block (List.mem_map_of_mem _ hl)
    exact (h.inv l hl).congr_inv this.2.1 this.2.2

theorem CacheOK.with_slot {attr : S_Block.AttrType} {anc : Scope} (h : CacheOK attr anc)
    (name : ustring) (T : Addr) (i : Nat)
    (hh : map_find attr.name_to_nonlocal_index name = none)
    (hl : Scope.lookup name anc = some (T, i)) :
    CacheOK (with_slot attr name ⟨some T, (i : Int)⟩) anc := by
  refine ⟨?_, ?_, ?_⟩
  · simp [JiaoBenScript.with_slot, with_key, h.values, List.range_succ]
  · simp only [JiaoBenScript.with_slot, with_key, List.map_append, List.map_cons, List.map_nil]
    exact List.Nodup.append h.keys (by simp) (by simpa using (map_find_none_iff _ _).1 hh)
  · intro name' v hv
    simp only [JiaoBenScript.with_slot, with_key] at hv ⊢
    rw [map_find_append] at hv
    cases hold : map_find attr.name_to_nonlocal_index name' with
    | some w =>
      rw [hold] at hv
      simp only [Option.some.injEq] at hv
      subst hv
      obtain ⟨k, T', i', hk, hlook, hget⟩ := h.sound name' w hold
      refine ⟨k, T', i', hk, hlook, ?_⟩
      have hlt : k < attr.nonlocal_indexes.length := by
        by_contra hc
        rw [List.getElem?_eq_none (by omega)] at hget
        simp at hget
      rw [List.getElem?_append_left hlt]
      exact hget
    | none =>
      rw [hold] at hv
      by_cases hn : name = name'
      · subst hn
        simp only [map_find, if_true, Option.some.injEq] at hv
        refine ⟨attr.nonlocal_indexes.length, T, i, hv.symm, hl, by simp⟩
      · simp [map_find, hn] at hv

theorem Ready.parent_chain {fuel : Nat} {s : State} {l : Level} {anc : Scope}
    {bs vs ds : List Addr} (h : Ready fuel s l anc bs vs ds) :
    s.cur_block = some l.block ∧
      Chain s.block (s.block l.block).parent (anc.map Level.block) := by
  have := h.scope.chain
  simp only [List.map_cons, Chain] at this
  exact this

theorem visit_var_outcome (fuel : Nat) (v : Addr) (name : ustring) (s : State) (l : Level)
    (anc : Scope) (hr : Ready fuel s l anc [] [v] []) :
    Outcome s (Resolver.visit_var fuel v name s) l anc [⟨v, name, l :: anc⟩] [] := by
  obtain ⟨hcur, hchain⟩ := hr.parent_chain
  have hfind := find_of_names (hr.scope.inv l (List.mem_cons_self _ _))
    (hr.scope.names l (List.mem_cons_self _ _)) name
  by_cases hmem : name ∈ l.names
  · -- the name is a local of the current block
    simp only [hmem, if_true] at hfind
    rw [visit_var_local fuel v name s l.block _ hcur hfind]
    refine ⟨fun _ => ⟨hr.scope.congr_scope rfl (fun _ _ => ⟨rfl, rfl, rfl⟩), hr.cache, ?_, ?_, ?_⟩, ?_⟩
    · intro r hr'
      simp only [List.mem_singleton] at hr'
      subst hr'
      simp [Stamped, hmem]
    · simp
    · intro name'
      simp only [List.mem_singleton, exists_eq_left]
      constructor
      · intro h; exact Or.inl h
      · rintro (h | ⟨_, h1, h2⟩)
        · exact h
        · exact absurd (h1 ▸ hmem) h2
    · intro _
      left
      refine ⟨rfl, ?_⟩
      intro r hr'
      simp only [List.mem_singleton] at hr'
      subst hr'
      simp [Ref.unbound, Scope.lookup, hmem]
  · simp only [hmem, if_false] at hfind
    cases hh : map_find (s.block l.block).name_to_nonlocal_index name with
    | some v0 =>
      -- the name already has a capture slot
      obtain ⟨k, T, i, hk, hlook, hget⟩ := hr.cache.sound name v0 hh
      subst hk
      rw [visit_var_hit fuel v name s l.block _ hcur hfind hh]
      refine ⟨fun _ => ⟨hr.scope.congr_scope rfl (fun _ _ => ⟨rfl, rfl, rfl⟩), hr.cache, ?_, ?_, ?_⟩, ?_⟩
      · intro r hr'
        simp only [List.mem_singleton] at hr'
        subst hr'
        simp only [Stamped, hmem, false_imp_iff, not_false_eq_true, true_imp_iff, true_and]
        exact ⟨k, T, i, hlook, by simp, hget, hh⟩
      · simp
      · intro name'
        simp only [List.mem_singleton, exists_eq_left]
        constructor
        · intro h; exact Or.inl h
        · rintro (h | ⟨_, h1, _⟩)
          · exact h
          · subst h1
            by_contra hc
            rw [(map_find_none_iff _ _).2 hc] at hh
            simp at hh
      · intro _
        left
        refine ⟨rfl, ?_⟩
        intro r hr'
        simp only [List.mem_singleton] at hr'
        subst hr'
        simp [Ref.unbound, Scope.lookup, hmem, hlook]
    | none =>
      have hres := resolve_from_block_lookup s.block anc name (s.block l.block).parent fuel hchain
        (fun l' hl' => hr.scope.names l' (List.mem_cons_of_mem _ hl'))
        (fun l' hl' => hr.scope.inv l' (List.mem_cons_of_mem _ hl'))
        (by have := hr.fuel; simp at this; omega)
      rw [visit_var_miss fuel v name s l.block hcur hfind hh, hres]
      cases hlook : Scope.lookup name anc with
      | none =>
        -- no block around declares the name
        simp only [lookup_result, hlook]
        refine ⟨fun h => by simp at h, fun _ => Or.inr ⟨rfl, ?_⟩⟩
        intro hall
        have := hall ⟨v, name, l :: anc⟩ (List.mem_singleton.2 rfl)
        simp [Ref.unbound, Scope.lookup, hmem, hlook] at this
      | some p =>
        -- a new capture slot
        obtain ⟨T, i⟩ := p
        simp only [lookup_result, hlook]
        have hblk : ∀ b, (upd s.block l.block
            (with_slot (s.block l.block) name ⟨some T, (i : Int)⟩) b).parent = (s.block b).parent ∧
            (upd s.block l.block
              (with_slot (s.block l.block) name ⟨some T, (i : Int)⟩) b).local_info =
                (s.block b).local_info ∧
            (upd s.block l.block
              (with_slot (s.block l.block) name ⟨some T, (i : Int)⟩) b).name_to_local_index =
                (s.block b).name_to_local_index := by
          intro b
          by_cases hb : b = l.block
          · subst hb; simp [with_slot, with_key]
          · simp [upd_other _ _ _ _ hb]
        refine ⟨fun _ => ⟨hr.scope.congr_scope rfl (fun b _ => hblk b), ?_, ?_, ?_, ?_⟩, ?_⟩
        · simpa using hr.cache.with_slot name T i hh hlook
        · intro r hr'
          simp only [List.mem_singleton] at hr'
          subst hr'
          simp only [Stamped, hmem, false_imp_iff, not_false_eq_true, true_imp_iff, true_and]
          refine ⟨(s.block l.block).nonlocal_indexes.length, T, i, hlook, by simp, ?_, ?_⟩
          · simp [with_slot, with_key]
          · simp only [upd_same, with_slot, with_key]
            rw [map_find_append, hh]
            simp [map_find]
        · simp
        · intro name'
          simp only [List.mem_singleton, exists_eq_left, upd_same, with_slot, with_key,
            List.map_append, List.map_cons, List.map_nil, List.mem_append, true_and]
          constructor
          · rintro (h | h)
            · exact Or.inl h
            · right; exact ⟨h.symm, h ▸ hmem⟩
          · rintro (h | ⟨h1, _⟩)
            · exact Or.inl h
            · exact Or.inr h1.symm
        · intro _
          left
          refine ⟨rfl, ?_⟩
          intro r hr'
          simp only [List.mem_singleton] at hr'
          subst hr'
          simp [Ref.unbound, Scope.lookup, hmem, hlook]

/-! ## Stability of what resolution established -/

theorem Stamped.keep_stamped {s s' : State} {r : Ref} (h : Stamped s r)
    (hv : s'.var r.addr = s.var r.addr)
    (hb : ∀ b, r.owner = some b →
      (s.block b).nonlocal_indexes <+: (s'.block b).nonlocal_indexes ∧
      ∀ name i, map_find (s.block b).name_to_nonlocal_index name = some i →
        map_find (s'.block b).name_to_nonlocal_index name = some i) :
    Stamped s' r := by
  unfold Stamped at h ⊢
  cases hsc : r.scope with
  | nil => rw [hsc] at h; exact h
  | cons l anc =>
    rw [hsc] at h
    simp only at h ⊢
    obtain ⟨h1, h2⟩ := h
    refine ⟨fun hm => by rw [hv]; exact h1 hm, fun hm => ?_⟩
    obtain ⟨k, T, i, hl, hvar, hget, hfind⟩ := h2 hm
    obtain ⟨hpre, hgrow⟩ := hb l.block (by simp [Ref.owner, hsc, Scope.cur])
    refine ⟨k, T, i, hl, by rw [hv]; exact hvar, ?_, hgrow _ _ hfind⟩
    obtain ⟨t, ht⟩ := hpre
    rw [← ht]
    have hlt : k < (s.block l.block).nonlocal_indexes.length := by
      by_contra hc
      rw [List.getElem?_eq_none (by omega)] at hget
      simp at hget
    rw [List.getElem?_append_left hlt]
    exact hget

theorem BlockDone.keep_block {s s' : State} {R : List Ref} {bi : BlockInfo} (h : BlockDone s R bi)
    (hb : s'.block bi.addr = s.block bi.addr)
    (hd : ∀ d ∈ bi.decl_addrs, s'.decl d = s.decl d) : BlockDone s' R bi := by
  refine ⟨?_, ?_, ?_, ?_, ?_, ?_, ?_⟩
  · rw [hb]; exact h.parent
  · rw [hb]; exact h.names
  · rw [hb]; exact h.inv
  · rw [hb]; exact h.values
  · rw [hb]; exact h.keys
  · rw [hb]; exact h.captured
  · intro i d names hi
    rw [hd d (by
      simp only [BlockInfo.decl_addrs, List.mem_map]
      exact ⟨(d, names), List.getElem?_mem hi, rfl⟩)]
    exact h.start i d names hi

theorem BlockDone.enlarge {s : State} {R R' : List Ref} {bi : BlockInfo}
    (h : BlockDone s R bi) (hsub : ∀ r ∈ R, r ∈ R')
    (hnew : ∀ r ∈ R', r ∉ R → r.owner ≠ some bi.addr) : BlockDone s R' bi := by
  refine ⟨h.parent, h.names, h.inv, h.values, h.keys, ?_, h.start⟩
  intro name
  rw [h.captured name]
  constructor
  · rintro ⟨r, hr, h1⟩
    exact ⟨r, hsub r hr, h1⟩
  · rintro ⟨r, hr, h1, h2⟩
    by_cases hin : r ∈ R
    · exact ⟨r, hin, h1, h2⟩
    · exact absurd h1 (hnew r hr hin)

theorem Touches.owner_keep {bs vs ds : List Addr} {s s' : State} (h : Touches bs vs ds s s')
    (b : Addr) (hb : b ∉ bs) :
    (s.block b).nonlocal_indexes <+: (s'.block b).nonlocal_indexes ∧
      ∀ name i, map_find (s.block b).name_to_nonlocal_index name = some i →
        map_find (s'.block b).name_to_nonlocal_index name = some i := by
  by_cases hc : s.cur_block = some b
  · obtain ⟨_, _, _, h4, h5⟩ := h.block_cur b hc hb
    exact ⟨h4, h5⟩
  · rw [h.block_other b hb hc]
    exact ⟨List.prefix_refl _, fun _ _ h => h⟩

theorem Done.nil_done (s : State) (l : Level) (anc : Scope) (hs : ScopeOK s (l :: anc))
    (hc : CacheOK (s.block l.block) anc) : Done s s l anc [] [] :=
  ⟨hs, hc, by simp, by simp, by simp⟩

theorem Outcome.nil_outcome (s : State) (l : Level) (anc : Scope) (hs : ScopeOK s (l :: anc))
    (hc : CacheOK (s.block l.block) anc) : Outcome s (Result.ok (), s) l anc [] [] :=
  ⟨fun _ => Done.nil_done s l anc hs hc, fun _ => Or.inl ⟨rfl, by simp [AllBound]⟩⟩

theorem Ready.head {fuel : Nat} {s : State} {l : Level} {anc : Scope}
    {bs1 bs2 vs1 vs2 ds1 ds2 : List Addr}
    (h : Ready fuel s l anc (bs1 ++ bs2) (vs1 ++ vs2) (ds1 ++ ds2)) :
    Ready fuel s l anc bs1 vs1 ds1 :=
  ⟨h.scope, h.cache, (List.nodup_append.1 h.blocks_nodup).1,
    fun b hb => h.blocks_disjoint b (List.mem_append_left _ hb),
    fun b hb => h.fresh b (List.mem_append_left _ hb),
    (List.nodup_append.1 h.vars_nodup).1, (List.nodup_append.1 h.decls_nodup).1,
    by have := h.fuel; simp at this ⊢; omega⟩

theorem Ready.tail {fuel : Nat} {s s1 : State} {l : Level} {anc : Scope}
    {bs1 bs2 vs1 vs2 ds1 ds2 : List Addr} {R : List Ref} {B : List BlockInfo}
    (h : Ready fuel s l anc (bs1 ++ bs2) (vs1 ++ vs2) (ds1 ++ ds2))
    (hd : Done s s1 l anc R B) (ht : Touches bs1 vs1 ds1 s s1) :
    Ready fuel s1 l anc bs2 vs2 ds2 := by
  refine ⟨hd.scope, hd.cache, (List.nodup_append.1 h.blocks_nodup).2.1,
    fun b hb => h.blocks_disjoint b (List.mem_append_right _ hb), ?_,
    (List.nodup_append.1 h.vars_nodup).2.1, (List.nodup_append.1 h.decls_nodup).2.1,
    by have := h.fuel; simp at this ⊢; omega⟩
  intro b hb
  have hn1 : b ∉ bs1 := fun hb1 =>
    (List.nodup_append.1 h.blocks_nodup).2.2 hb1 hb
  have hcur : s.cur_block ≠ some b := by
    rw [h.scope.cur]
    intro hc
    have := h.blocks_disjoint b (List.mem_append_right _ hb)
    simp only [Scope.cur, List.head?_cons, Option.map_some', Option.some.injEq] at hc
    simp [hc] at this
  rw [ht.block_other b hn1 hcur]
  exact h.fresh b (List.mem_append_right _ hb)

/-! ## Sequencing -/

theorem Done.append_done {fuel : Nat} {s s1 s2 : State} {l : Level} {anc : Scope}
    {bs1 bs2 vs1 vs2 ds1 ds2 : List Addr} {R1 R2 : List Ref} {B1 B2 : List BlockInfo}
    (hr : Ready fuel s l anc (bs1 ++ bs2) (vs1 ++ vs2) (ds1 ++ ds2))
    (d1 : Done s s1 l anc R1 B1) (d2 : Done s1 s2 l anc R2 B2)
    (t2 : Touches bs2 vs2 ds2 s1 s2)
    (hR1 : ∀ r ∈ R1, ScopeCases (l :: anc) bs1 r ∧ r.addr ∈ vs1)
    (hR2 : ∀ r ∈ R2, ScopeCases (l :: anc) bs2 r)
    (hB1 : ∀ bi ∈ B1, bi.addr ∈ bs1 ∧ ∀ d ∈ bi.decl_addrs, d ∈ ds1)
    (hB2 : ∀ bi ∈ B2, bi.addr ∈ bs2) :
    Done s s2 l anc (R1 ++ R2) (B1 ++ B2) := by
  have hbdis := (List.nodup_append.1 hr.blocks_nodup).2.2
  have hvdis := (List.nodup_append.1 hr.vars_nodup).2.2
  have hddis := (List.nodup_append.1 hr.decls_nodup).2.2
  have hcur1 : s1.cur_block = some l.block := by rw [d1.scope.cur]; rfl
  have hl2 : l.block ∉ bs2 := fun hc =>
    hr.blocks_disjoint l.block (List.mem_append_right _ hc) (by simp)
  have hl1 : l.block ∉ bs1 := fun hc =>
    hr.blocks_disjoint l.block (List.mem_append_left _ hc) (by simp)
  -- owners of the references of each part
  have own1 : ∀ r ∈ R1, ∀ b, r.owner = some b → b ∉ bs2 := by
    intro r hr1 b hb
    rcases (hR1 r hr1).1.owner with h | ⟨b', hb', h⟩
    · rw [hb] at h
      simp only [Scope.cur, List.head?_cons, Option.map_some', Option.some.injEq] at h
      rw [h]; exact hl2
    · rw [hb] at h
      simp only [Option.some.injEq] at h
      rw [h]; exact fun hc => hbdis hb' hc
  have own2 : ∀ r ∈ R2, ∀ b ∈ bs1, r.owner ≠ some b := by
    intro r hr2 b hb1 hb
    rcases (hR2 r hr2).owner with h | ⟨b', hb', h⟩
    · rw [hb] at h
      simp only [Scope.cur, List.head?_cons, Option.map_some', Option.some.injEq] at h
      rw [h] at hb1; exact hl1 hb1
    · rw [hb] at h
      simp only [Option.some.injEq] at h
      rw [h] at hb1; exact hbdis hb1 hb'
  have own1' : ∀ r ∈ R1, ∀ b ∈ bs2, r.owner ≠ some b :=
    fun r hr1 b hb2 hb => own1 r hr1 b hb hb2
  refine ⟨d2.scope, d2.cache, ?_, ?_, ?_⟩
  · intro r hrm
    rcases List.mem_append.1 hrm with h1 | h2
    · refine (d1.stamped r h1).keep_stamped (t2.var_other _ (fun hc => hvdis (hR1 r h1).2 hc)) ?_
      intro b hb
      exact t2.owner_keep b (own1 r h1 b hb)
    · exact d2.stamped r h2
  · intro bi hbi
    rcases List.mem_append.1 hbi with h1 | h2
    · obtain ⟨ha, hd⟩ := hB1 bi h1
      have hne : s1.cur_block ≠ some bi.addr := by
        rw [hcur1]; intro hc
        simp only [Option.some.injEq] at hc
        rw [hc] at hl1; exact hl1 ha
      refine ((d1.blocks bi h1).keep_block (t2.block_other _ (fun hc => hbdis ha hc) hne)
        (fun d hdm => t2.decl_other d (fun hc => hddis (hd d hdm) hc))).enlarge
        (fun r hr1 => List.mem_append_left _ hr1) ?_
      intro r hrm hnot
      rcases List.mem_append.1 hrm with h | h
      · exact absurd h hnot
      · exact own2 r h bi.addr ha
    · refine (d2.blocks bi h2).enlarge (fun r hr2 => List.mem_append_right _ hr2) ?_
      intro r hrm hnot
      rcases List.mem_append.1 hrm with h | h
      · exact own1' r h bi.addr (hB2 bi h2)
      · exact absurd h hnot
  · intro name
    rw [d2.captured name, d1.captured name]
    simp only [List.mem_append]
    constructor
    · rintro ((h | ⟨r, hr1, h⟩) | ⟨r, hr2, h⟩)
      · exact Or.inl h
      · exact Or.inr ⟨r, Or.inl hr1, h⟩
      · exact Or.inr ⟨r, Or.inr hr2, h⟩
    · rintro (h | ⟨r, hr1 | hr2, h⟩)
      · exact Or.inl (Or.inl h)
      · exact Or.inl (Or.inr ⟨r, hr1, h⟩)
      · exact Or.inr ⟨r, hr2, h⟩

theorem AllBound.append_bound {R1 R2 : List Ref} :
    AllBound (R1 ++ R2) ↔ AllBound R1 ∧ AllBound R2 := by
  simp only [AllBound, List.mem_append]
  constructor
  · intro h; exact ⟨fun r hr => h r (Or.inl hr), fun r hr => h r (Or.inr hr)⟩
  · rintro ⟨h1, h2⟩ r (hr | hr)
    · exact h1 r hr
    · exact h2 r hr

theorem NoDupDecl.append_nodup {B1 B2 : List BlockInfo} :
    NoDupDecl (B1 ++ B2) ↔ NoDupDecl B1 ∧ NoDupDecl B2 := by
  simp only [NoDupDecl, List.mem_append]
  constructor
  · intro h; exact ⟨fun r hr => h r (Or.inl hr), fun r hr => h r (Or.inr hr)⟩
  · rintro ⟨h1, h2⟩ r (hr | hr)
    · exact h1 r hr
    · exact h2 r hr

/-- Outcome of one visit followed by another in the same scope. -/
theorem Outcome.andThen {fuel : Nat} {s : State} {l : Level} {anc : Scope}
    {bs1 bs2 vs1 vs2 ds1 ds2 : List Addr} {R1 R2 : List Ref} {B1 B2 : List BlockInfo}
    {res : Result Unit × State} {k : State → Result Unit × State}
    (hr : Ready fuel s l anc (bs1 ++ bs2) (vs1 ++ vs2) (ds1 ++ ds2))
    (o1 : Outcome s res l anc R1 B1) (t1 : Touches bs1 vs1 ds1 s res.2)
    (o2 : ∀ s1, Ready fuel s1 l anc bs2 vs2 ds2 → Outcome s1 (k s1) l anc R2 B2)
    (t2 : ∀ s1, s1.cur_block = some l.block → Touches bs2 vs2 ds2 s1 (k s1).2)
    (hR1 : ∀ r ∈ R1, ScopeCases (l :: anc) bs1 r ∧ r.addr ∈ vs1)
    (hR2 : ∀ r ∈ R2, ScopeCases (l :: anc) bs2 r)
    (hB1 : ∀ bi ∈ B1, bi.addr ∈ bs1 ∧ ∀ d ∈ bi.decl_addrs, d ∈ ds1)
    (hB2 : ∀ bi ∈ B2, bi.addr ∈ bs2) :
    Outcome s (JiaoBenScript.andThen res k) l anc (R1 ++ R2) (B1 ++ B2) := by
  obtain ⟨r1, s1⟩ := res
  cases r1 with
  | ok u =>
    have d1 := o1.1 rfl
    have hr2 := hr.tail d1 t1
    have o2' := o2 s1 hr2
    have t2' := t2 s1 (by rw [d1.scope.cur]; rfl)
    simp only [JiaoBenScript.andThen]
    refine ⟨fun hok => Done.append_done hr d1 (o2'.1 hok) t2' hR1 hR2 hB1 hB2, ?_⟩
    intro hnd
    obtain ⟨hn1, hn2⟩ := NoDupDecl.append_nodup.1 hnd
    rcases o1.2 hn1 with ⟨_, ha1⟩ | ⟨hf, _⟩
    · rcases o2'.2 hn2 with ⟨hok, ha2⟩ | ⟨hns, ha2⟩
      · exact Or.inl ⟨hok, AllBound.append_bound.2 ⟨ha1, ha2⟩⟩
      · exact Or.inr ⟨hns, fun h => ha2 (AllBound.append_bound.1 h).2⟩
    · simp [Result.threw_no_such_name] at hf
  | throw e =>
    refine ⟨fun h => by simp [JiaoBenScript.andThen] at h, ?_⟩
    intro hnd
    rcases o1.2 (NoDupDecl.append_nodup.1 hnd).1 with ⟨hok, _⟩ | ⟨hns, ha⟩
    · simp at hok
    · exact Or.inr ⟨hns, fun h => ha (AllBound.append_bound.1 h).1⟩
  | assert_fail =>
    refine ⟨fun h => by simp [JiaoBenScript.andThen] at h, ?_⟩
    intro hnd
    rcases o1.2 (NoDupDecl.append_nodup.1 hnd).1 with ⟨hok, _⟩ | ⟨hns, ha⟩
    · simp at hok
    · exact Or.inr ⟨hns, fun h => ha (AllBound.append_bound.1 h).1⟩
  | out_of_fuel =>
    refine ⟨fun h => by simp [JiaoBenScript.andThen] at h, ?_⟩
    intro hnd
    rcases o1.2 (NoDupDecl.append_nodup.1 hnd).1 with ⟨hok, _⟩ | ⟨hns, ha⟩
    · simp at hok
    · exact Or.inr ⟨hns, fun h => ha (AllBound.append_bound.1 h).1⟩

theorem mem_refs_facts (n : Node) (l : Level) (anc : Scope) :
    ∀ r ∈ refs (l :: anc) n,
      ScopeCases (l :: anc) (block_addrs (some l.block) n) r ∧ r.addr ∈ var_addrs (l :: anc) n :=
  fun r hr => ⟨refs_scope n (l :: anc) r hr, List.mem_map_of_mem _ hr⟩

theorem mem_blocks_facts (n : Node) (cur : Option Addr) :
    ∀ bi ∈ blocks cur n,
      bi.addr ∈ block_addrs cur n ∧ ∀ d ∈ bi.decl_addrs, d ∈ decl_addrs cur n :=
  fun bi hbi => ⟨List.mem_map_of_mem _ hbi,
    fun _ hd => List.mem_flatMap.2 ⟨bi, hbi, hd⟩⟩

theorem visit_each_outcome (fuel : Nat) (kids : List Node)
    (h : ∀ n ∈ kids, Resolves fuel n) (s : State) (l : Level) (anc : Scope)
    (hr : Ready fuel s l anc ((blocks_each (some l.block) kids).map BlockInfo.addr)
      ((refs_each (l :: anc) kids).map Ref.addr)
      ((blocks_each (some l.block) kids).flatMap BlockInfo.decl_addrs)) :
    Outcome s (Resolver.visit_each fuel kids s) l anc (refs_each (l :: anc) kids)
      (blocks_each (some l.block) kids) := by
  induction kids generalizing s with
  | nil => exact Outcome.nil_outcome s l anc hr.scope hr.cache
  | cons n rest ih =>
    simp only [blocks_each, refs_each, List.map_append, List.flatMap_append] at hr
    simp only [Resolver.visit_each, blocks_each, refs_each]
    have hcur : s.cur_block = some l.block := hr.parent_chain.1
    refine Outcome.andThen hr (h n (List.mem_cons_self _ _) s l anc hr.head)
      (visit_touches fuel n (l :: anc) s hcur.symm)
      (fun s1 hr1 => ih (fun m hm => h m (List.mem_cons_of_mem _ hm)) s1 hr1)
      (fun s1 hs1 => visit_each_touches fuel rest (fun m _ => visit_touches fuel m)
        (l :: anc) s1 hs1.symm)
      (mem_refs_facts n l anc) ?_ (mem_blocks_facts n _) ?_
    · intro r hrm
      exact refs_each_scope rest (fun m _ => refs_scope m) (l :: anc) r hrm
    · intro bi hbi
      exact List.mem_map_of_mem _ hbi

/-! ## Declarations: success and effect -/

theorem declare_outcome (b d : Addr) (decls : List PairType) (s : State) :
    (declare b d decls s).1 = Result.ok () ∨ (declare b d decls s).1.threw_duplicated = true := by
  rcases add_declarations_loop_outcome (s.block b) decls with h | ⟨n, h⟩
  · left; exact h
  · right
    show (add_declarations_loop (s.block b) decls).1.threw_duplicated = true
    rw [h]; rfl

theorem declare_ok_iff (b d : Addr) (decls : List PairType) (s : State)
    (hinv : LocalTableInv (s.block b)) :
    (declare b d decls s).1 = Result.ok () ↔
      (local_names (s.block b) ++ decl_names decls).Nodup := by
  have hiff := add_declarations_loop_throws_iff (s.block b) decls hinv.1
  have hout := add_declarations_loop_outcome (s.block b) decls
  show (add_declarations_loop (s.block b) decls).1 = Result.ok () ↔ _
  rw [List.nodup_append]
  constructor
  · intro hok
    have hnot : ¬ ((∃ name ∈ decl_names decls, name ∈ local_names (s.block b)) ∨
        ¬ (decl_names decls).Nodup) := by
      rw [← hiff, hok]; simp [Result.threw_duplicated]
    simp only [not_or, not_exists, not_and, not_not] at hnot
    exact ⟨hinv.2, hnot.2, fun a ha hb => hnot.1 a hb ha⟩
  · rintro ⟨_, h2, h3⟩
    apply threw_duplicated_false_of_outcome hout
    cases hc : (add_declarations_loop (s.block b) decls).1.threw_duplicated with
    | false => rfl
    | true =>
      rcases hiff.1 hc with ⟨n, hn, hl⟩ | hnd
      · exact absurd hn (fun hn => h3 hl hn)
      · exact absurd h2 hnd

theorem declare_spec (b d : Addr) (decls : List PairType) (s : State)
    (hok : (declare b d decls s).1 = Result.ok ()) :
    local_names ((declare b d decls s).2.block b) = local_names (s.block b) ++ decl_names decls ∧
    ((declare b d decls s).2.decl d).start_index = ((s.block b).local_info.length : Int) := by
  obtain ⟨h1, h2, _⟩ := add_declarations_appended (s.block b) decls hok
  refine ⟨?_, ?_⟩
  · simp only [declare, upd_same, local_names]
    rw [h2]
    simp [Function.comp_def]
  · simpa [declare] using h1

theorem declare_inv (b d : Addr) (decls : List PairType) (s : State)
    (hinv : LocalTableInv (s.block b)) : LocalTableInv ((declare b d decls s).2.block b) := by
  simpa [declare] using add_declarations_inv (s.block b) decls hinv

theorem hoisted_cons_decl (d : Addr) (decls : List PairType) (rest : List Node) :
    hoisted (Node.S_DeclareList d decls :: rest) = decl_names decls ++ hoisted rest := by
  simp [hoisted, direct_decls_cons_decl]

theorem hoisted_cons_other (n : Node) (rest : List Node)
    (h : ∀ d decls, n ≠ Node.S_DeclareList d decls) : hoisted (n :: rest) = hoisted rest := by
  simp [hoisted, direct_decls_cons_other n rest h]

theorem hoist_outcome (b : Addr) (stmts : List Node) (s : State) :
    (hoist_declarations b stmts s).1 = Result.ok () ∨
      (hoist_declarations b stmts s).1.threw_duplicated = true := by
  induction stmts generalizing s with
  | nil => left; rfl
  | cons n rest ih =>
    rcases n.decl_or_other with ⟨d, decls, rfl⟩ | hn
    · simp only [hoist_declarations]
      apply andThen_elim (P := fun r => r.1 = Result.ok () ∨ r.1.threw_duplicated = true)
      · intro hne
        rcases declare_outcome b d decls s with h | h
        · exact absurd h hne
        · exact Or.inr h
      · intro _; exact ih _
    · rw [hoist_cons_other b n rest s hn]; exact ih s

theorem hoist_ok_iff (b : Addr) (stmts : List Node) (s : State)
    (hinv : LocalTableInv (s.block b)) :
    (hoist_declarations b stmts s).1 = Result.ok () ↔
      (local_names (s.block b) ++ hoisted stmts).Nodup := by
  induction stmts generalizing s with
  | nil => simpa [hoist_declarations, hoisted, direct_decls] using hinv.2
  | cons n rest ih =>
    rcases n.decl_or_other with ⟨d, decls, rfl⟩ | hn
    · simp only [hoist_declarations, hoisted_cons_decl]
      cases hd : (declare b d decls s).1 with
      | ok u =>
        have hdecl : declare b d decls s = (Result.ok (), (declare b d decls s).2) := by
          rw [← hd]
        rw [hdecl, andThen_ok, ih _ (declare_inv b d decls s hinv), (declare_spec b d decls s hd).1,
          List.append_assoc]
      | throw e =>
        have hdecl : declare b d decls s = (Result.throw e, (declare b d decls s).2) := by
          rw [← hd]
        have hno : ¬ (local_names (s.block b) ++ decl_names decls).Nodup := by
          rw [← declare_ok_iff b d decls s hinv, hd]; simp
        rw [hdecl]
        simp only [andThen, false_iff, reduceCtorEq]
        intro hc
        rw [← List.append_assoc] at hc
        exact hno (List.nodup_append.1 hc).1
      | assert_fail =>
        rcases declare_outcome b d decls s with h | h
        · rw [hd] at h; simp at h
        · rw [hd] at h; simp [Result.threw_duplicated] at h
      | out_of_fuel =>
        rcases declare_outcome b d decls s with h | h
        · rw [hd] at h; simp at h
        · rw [hd] at h; simp [Result.threw_duplicated] at h
    · rw [hoist_cons_other b n rest s hn, hoisted_cons_other n rest hn]; exact ih s hinv

theorem andThen_ok_inv {r : Result Unit × State} {k : State → Result Unit × State}
    (h : (andThen r k).1 = Result.ok ()) : r.1 = Result.ok () ∧ andThen r k = k r.2 := by
  obtain ⟨r, s⟩ := r
  cases r <;> simp_all [andThen]

theorem hoist_spec (b : Addr) (stmts : List Node) (s : State)
    (hok : (hoist_declarations b stmts s).1 = Result.ok ())
    (hnd : ((direct_decls stmts).map Prod.fst).Nodup) :
    local_names ((hoist_declarations b stmts s).2.block b) =
      local_names (s.block b) ++ hoisted stmts ∧
    ∀ (i : Nat) (d : Addr) (names : List ustring),
      (direct_decls stmts)[i]? = some (d, names) →
      ((hoist_declarations b stmts s).2.decl d).start_index =
        (((s.block b).local_info.length +
          (((direct_decls stmts).take i).flatMap Prod.snd).length : Nat) : Int) := by
  induction stmts generalizing s with
  | nil => simp [hoist_declarations, hoisted, direct_decls]
  | cons n rest ih =>
    rcases n.decl_or_other with ⟨d, decls, rfl⟩ | hn
    · simp only [hoist_declarations] at hok ⊢
      obtain ⟨hd, heq⟩ := andThen_ok_inv hok
      rw [heq] at hok ⊢
      simp only [direct_decls_cons_decl, List.map_cons, List.nodup_cons] at hnd
      obtain ⟨ih1, ih2⟩ := ih _ hok hnd.2
      obtain ⟨sp1, sp2⟩ := declare_spec b d decls s hd
      refine ⟨?_, ?_⟩
      · rw [ih1, sp1, hoisted_cons_decl, List.append_assoc]
      · intro i d' names hi
        rw [direct_decls_cons_decl] at hi ⊢
        cases i with
        | zero =>
          simp only [List.getElem?_cons_zero, Option.some.injEq, Prod.mk.injEq] at hi
          obtain ⟨rfl, rfl⟩ := hi
          rw [(hoist_declares b rest _).decl_other d hnd.1, sp2]
          simp
        | succ i =>
          simp only [List.getElem?_cons_succ] at hi
          rw [ih2 i d' names hi]
          have hlen : ((declare b d decls s).2.block b).local_info.length =
              (s.block b).local_info.length + (decl_names decls).length := by
            have := congrArg List.length sp1
            simpa [local_names] using this
          rw [hlen]
          simp only [List.take_succ_cons, List.flatMap_cons, List.length_append]
          push_cast
          ring
    · rw [hoist_cons_other b n rest s hn] at hok ⊢
      rw [direct_decls_cons_other n rest hn] at hnd ⊢
      rw [hoisted_cons_other n rest hn]
      exact ih s hok hnd

theorem hoist_inv_at (b : Addr) (stmts : List Node) (s : State)
    (h : LocalTableInv (s.block b)) :
    LocalTableInv ((hoist_declarations b stmts s).2.block b) := by
  induction stmts generalizing s with
  | nil => exact h
  | cons n rest ih =>
    rcases n.decl_or_other with ⟨d, decls, rfl⟩ | hn
    · simp only [hoist_declarations]
      apply andThen_elim (P := fun r => LocalTableInv (r.2.block b))
      · intro _; exact declare_inv b d decls s h
      · intro _; exact ih _ (declare_inv b d decls s h)
    · rw [hoist_cons_other b n rest s hn]; exact ih s h

theorem CacheOK.congr_cache {attr attr' : S_Block.AttrType} {anc : Scope} (h : CacheOK attr anc)
    (h1 : attr'.nonlocal_indexes = attr.nonlocal_indexes)
    (h2 : attr'.name_to_nonlocal_index = attr.name_to_nonlocal_index) : CacheOK attr' anc := by
  refine ⟨?_, ?_, ?_⟩
  · rw [h1, h2]; exact h.values
  · rw [h2]; exact h.keys
  · intro name v hv
    rw [h2] at hv
    rw [h1]
    exact h.sound name v hv

theorem CacheOK.empty_cache (attr : S_Block.AttrType) (anc : Scope)
    (h1 : attr.nonlocal_indexes = []) (h2 : attr.name_to_nonlocal_index = []) :
    CacheOK attr anc := by
  refine ⟨by simp [h1, h2], by simp [h2], ?_⟩
  intro name v hv
  rw [h2] at hv
  simp [map_find] at hv

theorem LocalTableInv.of_empty (attr : S_Block.AttrType) (h1 : attr.local_info = [])
    (h2 : attr.name_to_local_index = []) : LocalTableInv attr :=
  LocalTableInv.empty_inv.congr_inv (by simp [h1]) (by simp [h2])

/-- The state just inside a block: after `enter(b)` and declarations for `b`
made from a state `sa` that agrees with the outer scope `l :: anc`, the state
agrees with the scope extended by `b`. -/
theorem ScopeOK.push {sa s2 : State} {l : Level} {anc : Scope} {b : Addr} {dd : List Addr}
    (hs : ScopeOK sa (l :: anc)) (hb : b ∉ (l :: anc).map Level.block)
    (hd : Declares b dd (Resolver.enter b sa) s2) (names : List ustring) (init : Bool)
    (hn : local_names (s2.block b) = names) (hinv : LocalTableInv (s2.block b)) :
    ScopeOK s2 (⟨b, names, init⟩ :: l :: anc) := by
  have hcur2 : s2.cur_block = some b := by rw [hd.cur]; rfl
  have hother : ∀ b' ∈ (l :: anc).map Level.block, s2.block b' = sa.block b' := by
    intro b' hb'
    have hne : b' ≠ b := fun h => hb (h ▸ hb')
    rw [hd.block_other b' hne]
    simp [Resolver.enter, upd_other _ _ _ _ hne]
  have hpar : (s2.block b).parent = some l.block := by
    rw [hd.parent]
    simp only [Resolver.enter, upd_same]
    rw [hs.cur]; rfl
  refine ⟨hcur2, ?_, ?_, ?_, ?_⟩
  · rw [hcur2]
    simp only [List.map_cons, Chain, true_and, hpar]
    have hch := hs.chain
    rw [hs.cur] at hch
    simp only [Scope.cur, List.head?_cons, Option.map_some', List.map_cons, Chain,
      true_and] at hch
    have := @Chain.congr_chain _ s2.block (some l.block)
      (l.block :: anc.map Level.block) ⟨rfl, hch⟩
      (fun b' hb' => by rw [hother b' (by simpa using hb')])
    exact this.2
  · simp only [List.map_cons, List.nodup_cons]
    exact ⟨by simpa using hb, by simpa using hs.nodup⟩
  · intro l' hl'
    rcases List.mem_cons.1 hl' with rfl | hl'
    · exact hn
    · rw [hother _ (List.mem_map_of_mem _ hl')]; exact hs.names l' hl'
  · intro l' hl'
    rcases List.mem_cons.1 hl' with rfl | hl'
    · exact hinv
    · rw [hother _ (List.mem_map_of_mem _ hl')]; exact hs.inv l' hl'

theorem Chain.head_parent {blk : Addr → S_Block.AttrType} {b c : Addr} {rest : List Addr}
    (h : Chain blk (some b) (b :: c :: rest)) : (blk b).parent = some c := by
  simp only [Chain, true_and] at h
  exact h.1

theorem Ref.declared_locally_iff (r : Ref) (l : Level) (anc : Scope) (h : r.scope = l :: anc) :
    r.declared_locally ↔ r.name ∈ l.names := by
  simp [Ref.declared_locally, h]

theorem Ref.owner_of_scope (r : Ref) (l : Level) (anc : Scope) (h : r.scope = l :: anc) :
    r.owner = some l.block := by
  simp [Ref.owner, h, Scope.cur]

theorem declared_eq (b : Addr) (cur : Option Addr) (pd : Option (Addr × List ustring))
    (stmts : List Node) :
    BlockInfo.declared ⟨b, cur, pd, direct_decls stmts⟩ =
      pd.toList.flatMap Prod.snd ++ hoisted stmts := by
  simp [BlockInfo.declared, BlockInfo.all_decls, hoisted]

set_option maxHeartbeats 1000000 in
theorem visit_block_outcome (fuel : Nat) (b : Addr) (stmts : List Node)
    (hst : ∀ n ∈ stmts, Resolves fuel n)
    (s sa : State) (l : Level) (anc : Scope) (P : List ustring)
    (pd : Option (Addr × List ustring)) (R0 : List Ref) (B0 : List BlockInfo)
    (bsI vsI dsI : List Addr)
    (hr : Ready fuel s l anc
      (b :: (bsI ++ (blocks_each (some b) stmts).map BlockInfo.addr))
      (vsI ++ (refs_each (⟨b, P ++ hoisted stmts, false⟩ :: l :: anc) stmts).map Ref.addr)
      ((pd.toList ++ direct_decls stmts).map Prod.fst ++
        (dsI ++ (blocks_each (some b) stmts).flatMap BlockInfo.decl_addrs)))
    (hP : pd.toList.flatMap Prod.snd = P)
    (hc : Confined (b :: bsI) vsI (pd.toList.map Prod.fst ++ dsI) s sa)
    (hm : Mid sa b l anc P pd R0 B0)
    (hR0 : ∀ r ∈ R0, ScopeCases (⟨b, [], true⟩ :: l :: anc) bsI r ∧ r.addr ∈ vsI)
    (hB0 : ∀ bi ∈ B0, bi.addr ∈ bsI ∧ ∀ d ∈ bi.decl_addrs, d ∈ dsI) :
    ((Resolver.visit_block (Resolver.visit_each fuel stmts) b stmts sa).1 = Result.ok () →
      Done s (Resolver.visit_block (Resolver.visit_each fuel stmts) b stmts sa).2 l anc
        (R0 ++ refs_each (⟨b, P ++ hoisted stmts, false⟩ :: l :: anc) stmts)
        (⟨b, some l.block, pd, direct_decls stmts⟩ :: (B0 ++ blocks_each (some b) stmts))) ∧
    (NoDupDecl (⟨b, some l.block, pd, direct_decls stmts⟩ :: blocks_each (some b) stmts) →
      ((Resolver.visit_block (Resolver.visit_each fuel stmts) b stmts sa).1 = Result.ok () ∧
          AllBound (refs_each (⟨b, P ++ hoisted stmts, false⟩ :: l :: anc) stmts)) ∨
        ((Resolver.visit_block (Resolver.visit_each fuel stmts) b stmts sa).1.threw_no_such_name
            = true ∧
          ¬ AllBound (refs_each (⟨b, P ++ hoisted stmts, false⟩ :: l :: anc) stmts))) := by
  -- distinctness facts
  have hbn := hr.blocks_nodup
  simp only [List.nodup_cons, List.mem_append, not_or] at hbn
  obtain ⟨⟨hbI, hbB⟩, hIB⟩ := hbn
  obtain ⟨hnI, hnB, hdisIB⟩ := List.nodup_append.1 hIB
  have hbsc : b ∉ (l :: anc).map Level.block :=
    hr.blocks_disjoint b (List.mem_cons_self _ _)
  obtain ⟨hvnI, hvnB, hvdis⟩ := List.nodup_append.1 hr.vars_nodup
  have hdn := hr.decls_nodup
  rw [List.map_append, List.append_assoc] at hdn
  obtain ⟨hdp, hdrest, hdpdis⟩ := List.nodup_append.1 hdn
  obtain ⟨hdd, hdrest2, hdddis⟩ := List.nodup_append.1 hdrest
  obtain ⟨hdI, hdB, hdIBdis⟩ := List.nodup_append.1 hdrest2
  -- the state before the block is visited
  have hcura : sa.cur_block = some l.block := by rw [hc.cur, hr.scope.cur]; rfl
  have hscope_a : ScopeOK sa (l :: anc) := by
    refine hr.scope.congr_scope hc.cur (fun b' hb' => ?_)
    rw [hc.block_other b' (by
      simp only [List.mem_cons, not_or]
      exact ⟨fun h => hbsc (h ▸ hb'),
        fun h => hr.blocks_disjoint b' (List.mem_cons_of_mem _ (List.mem_append_left _ h)) hb'⟩)]
    exact ⟨rfl, rfl, rfl⟩
  -- entering and hoisting
  have hd := hoist_declares b stmts (Resolver.enter b sa)
  have hnames_b : local_names ((Resolver.enter b sa).block b) = P := by
    rw [← hm.names]; simp [Resolver.enter, local_names]
  have hinv_b : LocalTableInv ((Resolver.enter b sa).block b) :=
    hm.inv.congr_inv (by simp [Resolver.enter]) (by simp [Resolver.enter])
  have hinv2 := hoist_inv_at b stmts (Resolver.enter b sa) hinv_b
  have hokiff := hoist_ok_iff b stmts (Resolver.enter b sa) hinv_b
  rw [hnames_b] at hokiff
  simp only [Resolver.visit_block, RestoreOnExit]
  cases hh : (hoist_declarations b stmts (Resolver.enter b sa)).1 with
  | ok u =>
    have hheq : hoist_declarations b stmts (Resolver.enter b sa) =
        (Result.ok (), (hoist_declarations b stmts (Resolver.enter b sa)).2) := by rw [← hh]
    obtain ⟨hsp1, hsp2⟩ := hoist_spec b stmts (Resolver.enter b sa) hh hdd
    rw [hnames_b] at hsp1
    rw [hheq, andThen_ok]
    generalize hs2 : (hoist_declarations b stmts (Resolver.enter b sa)).2 = s2 at *
    have hcur2 : s2.cur_block = some b := by rw [hd.cur]; rfl
    have hscope2 := hscope_a.push hbsc hd (P ++ hoisted stmts) false hsp1 hinv2
    have hblock2 : ∀ b', b' ≠ b → s2.block b' = sa.block b' := by
      intro b' hne
      rw [hd.block_other b' hne]
      simp [Resolver.enter, upd_other _ _ _ _ hne]
    have hcache2 : CacheOK (s2.block b) (l :: anc) :=
      hm.cache.congr_cache (by rw [hd.nonlocal_indexes]; simp [Resolver.enter])
        (by rw [hd.name_to_nonlocal_index]; simp [Resolver.enter])
    have hready2 : Ready fuel s2 ⟨b, P ++ hoisted stmts, false⟩ (l :: anc)
        ((blocks_each (some b) stmts).map BlockInfo.addr)
        ((refs_each (⟨b, P ++ hoisted stmts, false⟩ :: l :: anc) stmts).map Ref.addr)
        ((blocks_each (some b) stmts).flatMap BlockInfo.decl_addrs) := by
      refine ⟨hscope2, hcache2, hnB, ?_, ?_, hvnB, hdB, ?_⟩
      · intro b' hb'
        have h1 := hr.blocks_disjoint b' (List.mem_cons_of_mem _ (List.mem_append_right _ hb'))
        simp only [List.map_cons, List.mem_cons, not_or] at h1 ⊢
        exact ⟨fun h => hbB (h ▸ hb'), h1⟩
      · intro b' hb'
        have hne : b' ≠ b := fun h => hbB (h ▸ hb')
        rw [hblock2 b' hne, hc.block_other b' (by
          simp only [List.mem_cons, not_or]
          exact ⟨hne, fun h => hdisIB h hb'⟩)]
        exact hr.fresh b' (List.mem_cons_of_mem _ (List.mem_append_right _ hb'))
      · have := hr.fuel
        simp only [List.length_cons, List.length_append] at this ⊢
        omega
    have ho := visit_each_outcome fuel stmts hst s2 _ (l :: anc) hready2
    have ht := visit_each_touches fuel stmts (fun m _ => visit_touches fuel m)
      (⟨b, P ++ hoisted stmts, false⟩ :: l :: anc) s2 hcur2.symm
    generalize hres : Resolver.visit_each fuel stmts s2 = res at *
    obtain ⟨r3, s3⟩ := res
    simp only at ho ht ⊢
    refine ⟨?_, ?_⟩
    · intro hok
      have d := ho.1 hok
      -- what the visit of the block left unchanged
      have hne2 : ∀ b', b' ≠ b → s2.cur_block ≠ some b' := by
        intro b' hne h
        rw [hcur2] at h
        exact hne (Option.some.inj h).symm
      have hblk_a3 : ∀ b', b' ≠ b → b' ∉ (blocks_each (some b) stmts).map BlockInfo.addr →
          s3.block b' = sa.block b' := by
        intro b' hne hnb
        rw [ht.block_other b' hnb (hne2 b' hne), hblock2 b' hne]
      have hvar_a3 : ∀ v, v ∉ (refs_each (⟨b, P ++ hoisted stmts, false⟩ :: l :: anc)
          stmts).map Ref.addr → s3.var v = sa.var v := by
        intro v hv
        rw [ht.var_other v hv, hd.var]; rfl
      have hdecl_23 : ∀ d', d' ∉ (blocks_each (some b) stmts).flatMap BlockInfo.decl_addrs →
          s3.decl d' = s2.decl d' := fun d' hd' => ht.decl_other d' hd'
      have hdecl_a2 : ∀ d', d' ∉ (direct_decls stmts).map Prod.fst → s2.decl d' = sa.decl d' := by
        intro d' hd'
        rw [hd.decl_other d' hd']; rfl
      have hb_grow : (sa.block b).nonlocal_indexes <+: (s3.block b).nonlocal_indexes ∧
          ∀ name i, map_find (sa.block b).name_to_nonlocal_index name = some i →
            map_find (s3.block b).name_to_nonlocal_index name = some i := by
        have h23 := ht.owner_keep b hbB
        have e1 : (s2.block b).nonlocal_indexes = (sa.block b).nonlocal_indexes := by
          rw [hd.nonlocal_indexes]; simp [Resolver.enter]
        have e2 : (s2.block b).name_to_nonlocal_index = (sa.block b).name_to_nonlocal_index := by
          rw [hd.name_to_nonlocal_index]; simp [Resolver.enter]
        rw [e1, e2] at h23
        exact h23
      have houter : ∀ b' ∈ (l :: anc).map Level.block, s3.block b' = s.block b' := by
        intro b' hb'
        have hne : b' ≠ b := fun h => hbsc (h ▸ hb')
        have hnB' : b' ∉ (blocks_each (some b) stmts).map BlockInfo.addr := fun h =>
          hr.blocks_disjoint b' (List.mem_cons_of_mem _ (List.mem_append_right _ h)) hb'
        have hnI' : b' ∉ bsI := fun h =>
          hr.blocks_disjoint b' (List.mem_cons_of_mem _ (List.mem_append_left _ h)) hb'
        rw [hblk_a3 b' hne hnB', hc.block_other b' (by
          simp only [List.mem_cons, not_or]; exact ⟨hne, hnI'⟩)]
      -- owners and scopes of the references
      have scRB : ∀ r ∈ refs_each (⟨b, P ++ hoisted stmts, false⟩ :: l :: anc) stmts,
          ScopeCases (⟨b, P ++ hoisted stmts, false⟩ :: l :: anc)
            ((blocks_each (some b) stmts).map BlockInfo.addr) r :=
        fun r hrm => refs_each_scope stmts (fun m _ => refs_scope m) _ r hrm
      have ownR0 : ∀ r ∈ R0, ∀ b', r.owner = some b' → b' = b ∨ b' ∈ bsI := by
        intro r hrm b' hb'
        rcases (hR0 r hrm).1.owner with h | ⟨b'', hb'', h⟩
        · rw [hb'] at h
          left; simpa [Scope.cur] using h
        · rw [hb'] at h
          right; rw [Option.some.inj h]; exact hb''
      have ownRB : ∀ r ∈ refs_each (⟨b, P ++ hoisted stmts, false⟩ :: l :: anc) stmts,
          ∀ b', r.owner = some b' →
            b' = b ∨ b' ∈ (blocks_each (some b) stmts).map BlockInfo.addr := by
        intro r hrm b' hb'
        rcases (scRB r hrm).owner with h | ⟨b'', hb'', h⟩
        · rw [hb'] at h
          left; simpa [Scope.cur] using h
        · rw [hb'] at h
          right; rw [Option.some.inj h]; exact hb''
      have stR0 : ∀ r ∈ R0, Stamped s3 r := by
        intro r hrm
        refine (hm.stamped r hrm).keep_stamped (hvar_a3 _ (fun h => hvdis (hR0 r hrm).2 h)) ?_
        intro b' hb'
        rcases ownR0 r hrm b' hb' with rfl | hI
        · exact hb_grow
        · rw [hblk_a3 b' (fun h => hbI (h ▸ hI)) (fun h => hdisIB hI h)]
          exact ⟨List.prefix_refl _, fun _ _ h => h⟩
      refine ⟨?_, ?_, ?_, ?_, ?_⟩
      · exact hr.scope.congr_scope (by show sa.cur_block = s.cur_block; exact hc.cur)
          (fun b' hb' => by
            show (s3.block b').parent = _ ∧ (s3.block b').local_info = _ ∧
              (s3.block b').name_to_local_index = _
            rw [houter b' hb']; exact ⟨rfl, rfl, rfl⟩)
      · show CacheOK (s3.block l.block) anc
        rw [houter l.block (by simp)]
        exact hr.cache
      · intro r hrm
        rcases List.mem_append.1 hrm with h | h
        · exact stR0 r h
        · exact d.stamped r h
      · intro bi hbi
        rcases List.mem_cons.1 hbi with rfl | hbi
        · -- the block itself
          have hch := d.scope.chain
          simp only [List.map_cons, Chain] at hch
          refine ⟨hch.2.1, ?_, d.scope.inv _ (List.mem_cons_self _ _), d.cache.values,
            d.cache.keys, ?_, ?_⟩
          · show local_names (s3.block b) = _
            rw [d.scope.names _ (List.mem_cons_self _ _), declared_eq, hP]
          · intro name
            show name ∈ (s3.block b).name_to_nonlocal_index.map Prod.fst ↔ _
            rw [d.captured name]
            have e2 : (s2.block b).name_to_nonlocal_index =
                (sa.block b).name_to_nonlocal_index := by
              rw [hd.name_to_nonlocal_index]; simp [Resolver.enter]
            rw [e2, hm.captured name]
            constructor
            · rintro (⟨r, hrm, hsc, hn⟩ | ⟨r, hrm, hsc, hn, hnot⟩)
              · exact ⟨r, List.mem_append_left _ hrm, r.owner_of_scope _ _ hsc, hn,
                  by rw [r.declared_locally_iff _ _ hsc]; simp⟩
              · exact ⟨r, List.mem_append_right _ hrm, r.owner_of_scope _ _ hsc, hn,
                  by rw [r.declared_locally_iff _ _ hsc, hn]; exact hnot⟩
            · rintro ⟨r, hrm, hown, hn, hnot⟩
              rcases List.mem_append.1 hrm with h | h
              · left
                rcases (hR0 r h).1 with hsc | ⟨l', pre, hsc, hl'⟩
                · exact ⟨r, h, hsc, hn⟩
                · rw [r.owner_of_scope _ _ hsc] at hown
                  have e : l'.block = b := Option.some.inj hown
                  exact absurd (e ▸ hl') hbI
              · right
                rcases scRB r h with hsc | ⟨l', pre, hsc, hl'⟩
                · refine ⟨r, h, hsc, hn, ?_⟩
                  rw [r.declared_locally_iff _ _ hsc, hn] at hnot
                  exact hnot
                · rw [r.owner_of_scope _ _ hsc] at hown
                  have e : l'.block = b := Option.some.inj hown
                  exact absurd (e ▸ hl') hbB
          · intro i d' names hi
            show (s3.decl d').start_index = _
            have hlen : ((Resolver.enter b sa).block b).local_info.length = P.length := by
              have := congrArg List.length hnames_b
              simpa [local_names] using this
            simp only [BlockInfo.all_decls] at hi ⊢
            cases hpd : pd with
            | none =>
              rw [hpd] at hi hP
              simp only [Option.toList, List.nil_append] at hi ⊢
              simp only [Option.toList, List.flatMap_nil] at hP
              have hmem : d' ∈ (direct_decls stmts).map Prod.fst :=
                List.mem_map.2 ⟨(d', names), List.getElem?_mem hi, rfl⟩
              rw [hdecl_23 d' (fun h => hdddis hmem (List.mem_append_right _ h)),
                hsp2 i d' names hi, hlen, ← hP]
              simp
            | some p =>
              obtain ⟨d0, pn⟩ := p
              rw [hpd] at hi hP hdpdis
              simp only [Option.toList, List.singleton_append] at hi ⊢
              simp only [Option.toList, List.flatMap_cons, List.flatMap_nil,
                List.append_nil] at hP
              simp only [Option.toList, List.map_cons, List.map_nil] at hdpdis
              have hd0 : ∀ x, x ∈ (direct_decls stmts).map Prod.fst ++
                  (dsI ++ (blocks_each (some b) stmts).flatMap BlockInfo.decl_addrs) → d0 ≠ x :=
                fun x hx h => hdpdis (List.mem_singleton.2 rfl) (h ▸ hx)
              cases i with
              | zero =>
                simp only [List.getElem?_cons_zero, Option.some.injEq, Prod.mk.injEq] at hi
                obtain ⟨rfl, rfl⟩ := hi
                rw [hdecl_23 d0 (fun h => hd0 d0
                    (List.mem_append_right _ (List.mem_append_right _ h)) rfl),
                  hdecl_a2 d0 (fun h => hd0 d0 (List.mem_append_left _ h) rfl),
                  hm.start d0 pn hpd]
                simp
              | succ j =>
                simp only [List.getElem?_cons_succ] at hi
                have hmem : d' ∈ (direct_decls stmts).map Prod.fst :=
                  List.mem_map.2 ⟨(d', names), List.getElem?_mem hi, rfl⟩
                rw [hdecl_23 d' (fun h => hdddis hmem (List.mem_append_right _ h)),
                  hsp2 j d' names hi, hlen, ← hP]
                simp
        · rcases List.mem_append.1 hbi with h | h
          · obtain ⟨ha, hdm⟩ := hB0 bi h
            have hne : bi.addr ≠ b := fun hc' => hbI (hc' ▸ ha)
            refine ((@BlockDone.keep_block _ ⟨s3.block, s3.var, s3.decl, sa.cur_block⟩ _ _ (hm.blocks bi h))
              (hblk_a3 _ hne (fun hc' => hdisIB ha hc')) ?_).enlarge
              (fun r hr1 => List.mem_append_left _ hr1) ?_
            · intro d' hd'
              have hdI' := hdm d' hd'
              show s3.decl d' = sa.decl d'
              rw [hdecl_23 d' (fun hc' => hdIBdis hdI' hc'),
                hdecl_a2 d' (fun hc' => hdddis hc' (List.mem_append_left _ hdI'))]
            · intro r hrm hnot hown
              rcases List.mem_append.1 hrm with h' | h'
              · exact hnot h'
              · rcases ownRB r h' _ hown with e | e
                · exact hne e
                · exact hdisIB ha e
          · have ha : bi.addr ∈ (blocks_each (some b) stmts).map BlockInfo.addr :=
              List.mem_map_of_mem _ h
            refine ((@BlockDone.keep_block _ ⟨s3.block, s3.var, s3.decl, sa.cur_block⟩ _ _ (d.blocks bi h))
              rfl (fun _ _ => rfl)).enlarge (fun r hr1 => List.mem_append_right _ hr1) ?_
            intro r hrm hnot hown
            rcases List.mem_append.1 hrm with h' | h'
            · rcases ownR0 r h' _ hown with e | e
              · exact hbB (e ▸ ha)
              · exact hdisIB e ha
            · exact hnot h'
      · intro name
        show name ∈ (s3.block l.block).name_to_nonlocal_index.map Prod.fst ↔ _
        rw [houter l.block (by simp)]
        constructor
        · intro h; exact Or.inl h
        · rintro (h | ⟨r, hrm, hsc, _⟩)
          · exact h
          · exfalso
            rcases List.mem_append.1 hrm with h' | h'
            · exact ScopeCases.scope_ne ((hR0 r h').1.under) hsc
            · exact ScopeCases.scope_ne ((scRB r h').under) hsc
    · intro hnd
      exact ho.2 (fun bi hbi => hnd bi (List.mem_cons_of_mem _ hbi))
  | throw e =>
    have hheq : hoist_declarations b stmts (Resolver.enter b sa) =
        (Result.throw e, (hoist_declarations b stmts (Resolver.enter b sa)).2) := by rw [← hh]
    rw [hheq]
    refine ⟨fun h => by simp [andThen] at h, fun hnd => ?_⟩
    have := hnd _ (List.mem_cons_self _ _)
    rw [declared_eq, hP] at this
    rw [← hokiff, hh] at this
    simp at this
  | assert_fail =>
    rcases hoist_outcome b stmts (Resolver.enter b sa) with h | h
    · rw [hh] at h; simp at h
    · rw [hh] at h; simp [Result.threw_duplicated] at h
  | out_of_fuel =>
    rcases hoist_outcome b stmts (Resolver.enter b sa) with h | h
    · rw [hh] at h; simp at h
    · rw [hh] at h; simp [Result.threw_duplicated] at h

theorem Ready.of_sublist {fuel : Nat} {s : State} {l : Level} {anc : Scope}
    {bs vs ds bs' vs' ds' : List Addr} (h : Ready fuel s l anc bs vs ds)
    (hb : bs'.Sublist bs) (hv : vs'.Sublist vs) (hd : ds'.Sublist ds) :
    Ready fuel s l anc bs' vs' ds' :=
  ⟨h.scope, h.cache, h.blocks_nodup.sublist hb,
    fun b hb' => h.blocks_disjoint b (hb.subset hb'),
    fun b hb' => h.fresh b (hb.subset hb'),
    h.vars_nodup.sublist hv, h.decls_nodup.sublist hd,
    by have := h.fuel; have := hb.length_le; omega⟩

theorem visit_args_confined (fuel : Nat) (args : Option (Addr × List PairType)) (b : Addr)
    (sc : Scope) (s : State) :
    Confined (b :: (blocks_each (some b) (param_initialisers args)).map BlockInfo.addr)
      ((refs_each (sc.enter_init b) (param_initialisers args)).map Ref.addr)
      ((param_decl args).toList.map Prod.fst ++
        (blocks_each (some b) (param_initialisers args)).flatMap BlockInfo.decl_addrs) s
      (Resolver.visit_args fuel args b s).2 := by
  cases args with
  | none => exact Confined.refl_c _ _ _ _
  | some a =>
    obtain ⟨d, decls⟩ := a
    simp only [Resolver.visit_args, RestoreOnExit, param_initialisers, param_decl,
      Option.map_some', Option.toList, List.map_cons, List.map_nil]
    have ht := visit_each_touches fuel (initialisers decls) (fun m _ => visit_touches fuel m)
      (sc.enter_init b) (Resolver.enter b s) rfl
    apply andThen_elim (P := fun r => Confined _ _ _ s { r.2 with cur_block := s.cur_block })
    · intro _
      exact init_confined b s _ _ _ ht (Declares.refl_d _ _ _) rfl
    · intro _
      exact init_confined b s _ _ _ ht (declare_declares b d decls _) rfl

theorem param_decl_names (args : Option (Addr × List PairType)) :
    (param_decl args).toList.flatMap Prod.snd = param_names args := by
  cases args with
  | none => rfl
  | some a => simp [param_decl, param_names]

theorem fresh_names {s : State} {b : Addr} (h : s.block b = {}) :
    local_names (s.block b) = [] ∧ LocalTableInv (s.block b) ∧
      (s.block b).nonlocal_indexes = [] ∧ (s.block b).name_to_nonlocal_index = [] := by
  rw [h]
  exact ⟨rfl, LocalTableInv.empty_inv, rfl, rfl⟩

set_option maxHeartbeats 1000000 in
theorem visit_args_outcome (fuel : Nat) (args : Option (Addr × List PairType)) (b : Addr)
    (hin : ∀ n ∈ param_initialisers args, Resolves fuel n)
    (s : State) (l : Level) (anc : Scope)
    (hr : Ready fuel s l anc
      (b :: (blocks_each (some b) (param_initialisers args)).map BlockInfo.addr)
      ((refs_each (⟨b, [], true⟩ :: l :: anc) (param_initialisers args)).map Ref.addr)
      ((param_decl args).toList.map Prod.fst ++
        (blocks_each (some b) (param_initialisers args)).flatMap BlockInfo.decl_addrs)) :
    ((Resolver.visit_args fuel args b s).1 = Result.ok () →
      Mid (Resolver.visit_args fuel args b s).2 b l anc (param_names args) (param_decl args)
        (refs_each (⟨b, [], true⟩ :: l :: anc) (param_initialisers args))
        (blocks_each (some b) (param_initialisers args))) ∧
    ((param_names args).Nodup → NoDupDecl (blocks_each (some b) (param_initialisers args)) →
      ((Resolver.visit_args fuel args b s).1 = Result.ok () ∧
          AllBound (refs_each (⟨b, [], true⟩ :: l :: anc) (param_initialisers args))) ∨
        ((Resolver.visit_args fuel args b s).1.threw_no_such_name = true ∧
          ¬ AllBound (refs_each (⟨b, [], true⟩ :: l :: anc) (param_initialisers args)))) := by
  have hbn := hr.blocks_nodup
  simp only [List.nodup_cons] at hbn
  obtain ⟨hbI, hnI⟩ := hbn
  have hbsc : b ∉ (l :: anc).map Level.block :=
    hr.blocks_disjoint b (List.mem_cons_self _ _)
  obtain ⟨hf1, hf2, hf3, hf4⟩ := fresh_names (hr.fresh b (List.mem_cons_self _ _))
  cases args with
  | none =>
    simp only [Resolver.visit_args, param_initialisers, refs_each, blocks_each, param_names,
      param_decl, Option.map_none']
    refine ⟨fun _ => ⟨hf1, hf2, CacheOK.empty_cache _ _ hf3 hf4, by simp, by simp, ?_, by simp⟩,
      fun _ _ => Or.inl ⟨by simp, by simp [AllBound]⟩⟩
    intro name
    simp [hf4]
  | some a =>
    obtain ⟨d, decls⟩ := a
    simp only [param_initialisers, param_names, param_decl, Option.map_some', Option.toList,
      List.map_cons, List.map_nil, List.singleton_append] at hr ⊢
    have hdn := hr.decls_nodup
    simp only [List.nodup_cons] at hdn
    obtain ⟨hdI, hdnI⟩ := hdn
    -- entering the body block for the initialisers
    have hd0 : Declares b [] (Resolver.enter b s) (Resolver.enter b s) := Declares.refl_d _ _ _
    have hent : (Resolver.enter b s).block b = { s.block b with parent := s.cur_block } := by
      simp [Resolver.enter]
    have hn1 : local_names ((Resolver.enter b s).block b) = [] := by
      rw [hent]; simpa [local_names] using hf1
    have hi1 : LocalTableInv ((Resolver.enter b s).block b) := by
      rw [hent]; exact hf2.congr_inv rfl rfl
    have hscope1 := hr.scope.push hbsc hd0 [] true hn1 hi1
    have hready1 : Ready fuel (Resolver.enter b s) ⟨b, [], true⟩ (l :: anc)
        ((blocks_each (some b) (initialisers decls)).map BlockInfo.addr)
        ((refs_each (⟨b, [], true⟩ :: l :: anc) (initialisers decls)).map Ref.addr)
        ((blocks_each (some b) (initialisers decls)).flatMap BlockInfo.decl_addrs) := by
      refine ⟨hscope1, CacheOK.empty_cache _ _ (by rw [hent]; exact hf3) (by rw [hent]; exact hf4),
        hnI, ?_, ?_, hr.vars_nodup, hdnI, ?_⟩
      · intro b' hb'
        have h1 := hr.blocks_disjoint b' (List.mem_cons_of_mem _ hb')
        simp only [List.map_cons, List.mem_cons, not_or] at h1 ⊢
        exact ⟨fun h => hbI (h ▸ hb'), h1⟩
      · intro b' hb'
        have hne : b' ≠ b := fun h => hbI (h ▸ hb')
        simp only [Resolver.enter, upd_other _ _ _ _ hne]
        exact hr.fresh b' (List.mem_cons_of_mem _ hb')
      · have := hr.fuel
        simp only [List.length_cons] at this ⊢
        omega
    have ho1 := visit_each_outcome fuel (initialisers decls) hin _ _ (l :: anc) hready1
    simp only [Resolver.visit_args, RestoreOnExit]
    generalize hres : Resolver.visit_each fuel (initialisers decls) (Resolver.enter b s) = res
      at *
    obtain ⟨r1, s1⟩ := res
    cases r1 with
    | ok u =>
      have d1 := ho1.1 rfl
      simp only [andThen]
      have hinv1 : LocalTableInv (s1.block b) := d1.scope.inv _ (List.mem_cons_self _ _)
      have hnm1 : local_names (s1.block b) = [] := d1.scope.names _ (List.mem_cons_self _ _)
      have hokiff := declare_ok_iff b d decls s1 hinv1
      rw [hnm1, List.nil_append] at hokiff
      have hdd := declare_declares b d decls s1
      refine ⟨?_, ?_⟩
      · intro hok
        obtain ⟨sp1, sp2⟩ := declare_spec b d decls s1 hok
        refine ⟨?_, declare_inv b d decls s1 hinv1, ?_, ?_, ?_, ?_, ?_⟩
        · show local_names ((declare b d decls s1).2.block b) = _
          rw [sp1, hnm1, List.nil_append]
        · exact d1.cache.congr_cache hdd.nonlocal_indexes hdd.name_to_nonlocal_index
        · intro r hrm
          refine (d1.stamped r hrm).keep_stamped (by show (declare b d decls s1).2.var _ = _; rw [hdd.var])
            ?_
          intro b' _
          show (s1.block b').nonlocal_indexes <+: ((declare b d decls s1).2.block b').nonlocal_indexes ∧ _
          by_cases hb' : b' = b
          · subst hb'
            rw [hdd.nonlocal_indexes, hdd.name_to_nonlocal_index]
            exact ⟨List.prefix_refl _, fun _ _ h => h⟩
          · rw [hdd.block_other b' hb']
            exact ⟨List.prefix_refl _, fun _ _ h => h⟩
        · intro bi hbi
          have ha : bi.addr ∈ (blocks_each (some b) (initialisers decls)).map BlockInfo.addr :=
            List.mem_map_of_mem _ hbi
          refine (d1.blocks bi hbi).keep_block
            (hdd.block_other _ (fun h => hbI (h ▸ ha))) ?_
          intro d' hd'
          exact hdd.decl_other d' (by
            simp only [List.mem_singleton]
            rintro rfl
            exact hdI (List.mem_flatMap.2 ⟨bi, hbi, hd'⟩))
        · intro name
          show name ∈ ((declare b d decls s1).2.block b).name_to_nonlocal_index.map Prod.fst ↔ _
          rw [hdd.name_to_nonlocal_index, d1.captured name]
          have : (Resolver.enter b s).block b = { s.block b with parent := s.cur_block } := hent
          simp only [this, hf4, List.map_nil, List.not_mem_nil, false_or, not_false_eq_true,
            and_true]
        · intro d' names hpd
          simp only [Option.some.injEq, Prod.mk.injEq] at hpd
          obtain ⟨rfl, _⟩ := hpd
          show ((declare b d decls s1).2.decl d).start_index = 0
          rw [sp2]
          have := congrArg List.length hnm1
          simp only [local_names, List.length_map, List.length_nil] at this
          simp [this]
      · intro hP hnd
        rcases ho1.2 hnd with ⟨_, ha⟩ | ⟨hns, _⟩
        · exact Or.inl ⟨hokiff.2 hP, ha⟩
        · simp [Result.threw_no_such_name] at hns
    | throw e =>
      refine ⟨fun h => by simp [andThen] at h, fun _ hnd => ?_⟩
      rcases ho1.2 hnd with ⟨hok, _⟩ | ⟨hns, ha⟩
      · simp at hok
      · exact Or.inr ⟨hns, ha⟩
    | assert_fail =>
      refine ⟨fun h => by simp [andThen] at h, fun _ hnd => ?_⟩
      rcases ho1.2 hnd with ⟨hok, _⟩ | ⟨hns, ha⟩
      · simp at hok
      · exact Or.inr ⟨hns, ha⟩
    | out_of_fuel =>
      refine ⟨fun h => by simp [andThen] at h, fun _ hnd => ?_⟩
      rcases ho1.2 hnd with ⟨hok, _⟩ | ⟨hns, ha⟩
      · simp at hok
      · exact Or.inr ⟨hns, ha⟩

theorem block_addrs_func (cur : Option Addr) (args : Option (Addr × List PairType)) (b : Addr)
    (stmts : List Node) :
    block_addrs cur (Node.E_Func args b stmts) =
      b :: ((blocks_each (some b) (param_initialisers args)).map BlockInfo.addr ++
        (blocks_each (some b) stmts).map BlockInfo.addr) := by
  simp [block_addrs, blocks_func]

theorem decl_addrs_func (cur : Option Addr) (args : Option (Addr × List PairType)) (b : Addr)
    (stmts : List Node) :
    decl_addrs cur (Node.E_Func args b stmts) =
      ((param_decl args).toList ++ direct_decls stmts).map Prod.fst ++
        ((blocks_each (some b) (param_initialisers args)).flatMap BlockInfo.decl_addrs ++
          (blocks_each (some b) stmts).flatMap BlockInfo.decl_addrs) := by
  simp [decl_addrs, blocks_func, BlockInfo.decl_addrs, BlockInfo.all_decls]

theorem var_addrs_func (sc : Scope) (args : Option (Addr × List PairType)) (b : Addr)
    (stmts : List Node) :
    var_addrs sc (Node.E_Func args b stmts) =
      (refs_each (sc.enter_init b) (param_initialisers args)).map Ref.addr ++
        (refs_each (sc.enter_block b (param_names args ++ hoisted stmts)) stmts).map Ref.addr := by
  simp [var_addrs, refs_func]

set_option maxHeartbeats 1000000 in
theorem visit_func_outcome (fuel : Nat) (args : Option (Addr × List PairType)) (b : Addr)
    (stmts : List Node) (hin : ∀ n ∈ param_initialisers args, Resolves fuel n)
    (hst : ∀ n ∈ stmts, Resolves fuel n) : Resolves fuel (Node.E_Func args b stmts) := by
  intro s l anc hr
  rw [block_addrs_func, decl_addrs_func, var_addrs_func] at hr
  rw [visit_func_eq, refs_func, blocks_func]
  simp only [Scope.enter_init, Scope.enter_block] at hr ⊢
  have hr1 : Ready fuel s l anc
      (b :: (blocks_each (some b) (param_initialisers args)).map BlockInfo.addr)
      ((refs_each (⟨b, [], true⟩ :: l :: anc) (param_initialisers args)).map Ref.addr)
      ((param_decl args).toList.map Prod.fst ++
        (blocks_each (some b) (param_initialisers args)).flatMap BlockInfo.decl_addrs) := by
    refine hr.of_sublist ?_ ?_ ?_
    · exact List.Sublist.cons₂ _ (List.sublist_append_left _ _)
    · exact List.sublist_append_left _ _
    · rw [List.map_append]
      exact List.Sublist.append (List.sublist_append_left _ _) (List.sublist_append_left _ _)
  obtain ⟨hmid, hnd1⟩ := visit_args_outcome fuel args b hin s l anc hr1
  have hconf := visit_args_confined fuel args b (l :: anc) s
  simp only [Scope.enter_init] at hconf
  generalize hres : Resolver.visit_args fuel args b s = res at *
  obtain ⟨ra, sa⟩ := res
  have hsplit : ∀ hnd : NoDupDecl (⟨b, some l.block, param_decl args, direct_decls stmts⟩ ::
      (blocks_each (some b) (param_initialisers args) ++ blocks_each (some b) stmts)),
      (param_names args).Nodup ∧ NoDupDecl (blocks_each (some b) (param_initialisers args)) ∧
        NoDupDecl (⟨b, some l.block, param_decl args, direct_decls stmts⟩ ::
          blocks_each (some b) stmts) := by
    intro hnd
    have h0 := hnd _ (List.mem_cons_self _ _)
    rw [declared_eq, param_decl_names] at h0
    refine ⟨(List.nodup_append.1 h0).1,
      fun bi hbi => hnd bi (List.mem_cons_of_mem _ (List.mem_append_left _ hbi)), ?_⟩
    intro bi hbi
    rcases List.mem_cons.1 hbi with rfl | hbi
    · exact hnd _ (List.mem_cons_self _ _)
    · exact hnd bi (List.mem_cons_of_mem _ (List.mem_append_right _ hbi))
  cases ra with
  | ok u =>
    simp only [andThen]
    obtain ⟨hdone, hnd2⟩ := visit_block_outcome fuel b stmts hst s sa l anc (param_names args)
      (param_decl args) _ _ _ _ _ hr (param_decl_names args) hconf (hmid rfl)
      (fun r hrm => ⟨refs_each_scope _ (fun m _ => refs_scope m) _ r hrm,
        List.mem_map_of_mem _ hrm⟩)
      (fun bi hbi => ⟨List.mem_map_of_mem _ hbi,
        fun _ hd => List.mem_flatMap.2 ⟨bi, hbi, hd⟩⟩)
    refine ⟨hdone, ?_⟩
    intro hnd
    obtain ⟨hP, hndI, hndB⟩ := hsplit hnd
    rcases hnd1 hP hndI with ⟨_, ha1⟩ | ⟨hns, _⟩
    · rcases hnd2 hndB with ⟨hok, ha2⟩ | ⟨hns, ha2⟩
      · exact Or.inl ⟨hok, AllBound.append_bound.2 ⟨ha1, ha2⟩⟩
      · exact Or.inr ⟨hns, fun h => ha2 (AllBound.append_bound.1 h).2⟩
    · simp [Result.threw_no_such_name] at hns
  | throw e =>
    refine ⟨fun h => by simp [andThen] at h, fun hnd => ?_⟩
    obtain ⟨hP, hndI, _⟩ := hsplit hnd
    rcases hnd1 hP hndI with ⟨hok, _⟩ | ⟨hns, ha⟩
    · simp at hok
    · exact Or.inr ⟨hns, fun h => ha (AllBound.append_bound.1 h).1⟩
  | assert_fail =>
    refine ⟨fun h => by simp [andThen] at h, fun hnd => ?_⟩
    obtain ⟨hP, hndI, _⟩ := hsplit hnd
    rcases hnd1 hP hndI with ⟨hok, _⟩ | ⟨hns, ha⟩
    · simp at hok
    · exact Or.inr ⟨hns, fun h => ha (AllBound.append_bound.1 h).1⟩
  | out_of_fuel =>
    refine ⟨fun h => by simp [andThen] at h, fun hnd => ?_⟩
    obtain ⟨hP, hndI, _⟩ := hsplit hnd
    rcases hnd1 hP hndI with ⟨hok, _⟩ | ⟨hns, ha⟩
    · simp at hok
    · exact Or.inr ⟨hns, fun h => ha (AllBound.append_bound.1 h).1⟩

theorem resolves_block (fuel : Nat) (b : Addr) (stmts : List Node)
    (h : Resolves fuel (Node.E_Func none b stmts)) :
    Resolves fuel (Node.S_Block b stmts) ∧ Resolves fuel (Node.Program b stmts) := by
  have e1 : ∀ cur, blocks cur (Node.E_Func none b stmts) = blocks cur (Node.S_Block b stmts) := by
    intro cur; simp [blocks_func, blocks, param_decl, param_initialisers, blocks_each]
  have e2 : ∀ sc, refs sc (Node.E_Func none b stmts) = refs sc (Node.S_Block b stmts) := by
    intro sc; simp [refs_func, refs, param_names, param_initialisers, refs_each]
  have e3 : ∀ s, Resolver.visit fuel (Node.E_Func none b stmts) s =
      Resolver.visit fuel (Node.S_Block b stmts) s := by
    intro s; simp [Resolver.visit, andThen_ok]
  have e1' : ∀ cur, blocks cur (Node.Program b stmts) = blocks cur (Node.S_Block b stmts) := by
    intro cur; simp [blocks]
  have e2' : ∀ sc, refs sc (Node.Program b stmts) = refs sc (Node.S_Block b stmts) := by
    intro sc; simp [refs]
  have e3' : ∀ s, Resolver.visit fuel (Node.Program b stmts) s =
      Resolver.visit fuel (Node.S_Block b stmts) s := by
    intro s; simp [Resolver.visit]
  have hb : Resolves fuel (Node.S_Block b stmts) := by
    intro s l anc hr
    have := h s l anc (by simpa [block_addrs, var_addrs, decl_addrs, e1, e2] using hr)
    simpa [e1, e2, e3] using this
  refine ⟨hb, ?_⟩
  intro s l anc hr
  have := hb s l anc (by simpa [block_addrs, var_addrs, decl_addrs, e1', e2'] using hr)
  simpa [e1', e2', e3'] using this

/-- From a ready state, every node resolves. -/
theorem resolves (fuel : Nat) (n : Node) : Resolves fuel n := by
  induction n using Node.induction_kinds with
  | var v name =>
    intro s l anc hr
    simp only [block_addrs, var_addrs, decl_addrs, blocks, refs, List.map_nil, List.map_cons,
      List.flatMap_nil] at hr
    simpa [Resolver.visit, refs, blocks] using visit_var_outcome fuel v name s l anc hr
  | block b stmts ih =>
    exact (resolves_block fuel b stmts
      (visit_func_outcome fuel none b stmts (by simp [param_initialisers]) ih)).1
  | program b stmts ih =>
    exact (resolves_block fuel b stmts
      (visit_func_outcome fuel none b stmts (by simp [param_initialisers]) ih)).2
  | func args b stmts ihi ih => exact visit_func_outcome fuel args b stmts ihi ih
  | seq n hn ih =>
    intro s l anc hr
    simp only [block_addrs, var_addrs, decl_addrs, blocks_of_seq _ n hn,
      refs_of_seq _ n hn] at hr
    rw [visit_of_seq fuel n hn, refs_of_seq _ n hn, blocks_of_seq _ n hn]
    exact visit_each_outcome fuel n.kids ih s l anc hr

/-! ## `resolve_names` on a fresh program -/

theorem blocks_program (cur : Option Addr) (b : Addr) (stmts : List Node) :
    blocks cur (Node.Program b stmts) =
      ⟨b, cur, none, direct_decls stmts⟩ :: blocks_each (some b) stmts := by
  simp [blocks]

theorem refs_program (sc : Scope) (b : Addr) (stmts : List Node) :
    refs sc (Node.Program b stmts) = refs_each (sc.enter_block b (hoisted stmts)) stmts := by
  simp [refs]

set_option maxHeartbeats 1000000 in
theorem resolve_names_outcome (fuel : Nat) (b : Addr) (stmts : List Node) (s : State)
    (hf : FreshTree s b stmts)
    (hfuel : (block_addrs none (Node.Program b stmts)).length ≤ fuel) :
    ((resolve_names fuel b stmts s).1 = Result.ok () →
      Resolved (resolve_names fuel b stmts s).2 (refs Scope.top (Node.Program b stmts))
        (blocks none (Node.Program b stmts))) ∧
    (NoDupDecl (blocks none (Node.Program b stmts)) →
      ((resolve_names fuel b stmts s).1 = Result.ok () ∧
          AllBound (refs Scope.top (Node.Program b stmts))) ∨
        ((resolve_names fuel b stmts s).1.threw_no_such_name = true ∧
          ¬ AllBound (refs Scope.top (Node.Program b stmts)))) := by
  obtain ⟨hbn, hvn, hdn, hfr⟩ := hf
  simp only [block_addrs, decl_addrs, var_addrs, blocks_program, refs_program, List.map_cons,
    List.flatMap_cons, List.nodup_cons, BlockInfo.decl_addrs, BlockInfo.all_decls,
    Option.toList, List.nil_append, List.length_cons, Scope.top, Scope.enter_block,
    List.mem_cons, forall_eq_or_imp] at hbn hvn hdn hfr hfuel ⊢
  obtain ⟨hbB, hnB⟩ := hbn
  obtain ⟨hdd, hdB, hdddis⟩ := List.nodup_append.1 hdn
  obtain ⟨hfb, hfB⟩ := hfr
  obtain ⟨hf1, hf2, hf3, hf4⟩ := fresh_names hfb
  -- entering and hoisting
  have hent : (Resolver.enter b { s with cur_block := none }).block b =
      { s.block b with parent := none } := by
    simp [Resolver.enter]
  have hd := hoist_declares b stmts (Resolver.enter b { s with cur_block := none })
  have hnames_b : local_names ((Resolver.enter b { s with cur_block := none }).block b) = [] := by
    rw [hent]; simpa [local_names] using hf1
  have hinv_b : LocalTableInv ((Resolver.enter b { s with cur_block := none }).block b) := by
    rw [hent]; exact hf2.congr_inv rfl rfl
  have hinv2 := hoist_inv_at b stmts _ hinv_b
  have hokiff := hoist_ok_iff b stmts _ hinv_b
  rw [hnames_b, List.nil_append] at hokiff
  simp only [resolve_names, Resolver.visit_block, RestoreOnExit]
  cases hh : (hoist_declarations b stmts (Resolver.enter b { s with cur_block := none })).1 with
  | ok u =>
    have hheq : hoist_declarations b stmts (Resolver.enter b { s with cur_block := none }) =
        (Result.ok (),
          (hoist_declarations b stmts (Resolver.enter b { s with cur_block := none })).2) := by
      rw [← hh]
    obtain ⟨hsp1, hsp2⟩ := hoist_spec b stmts _ hh hdd
    rw [hnames_b, List.nil_append] at hsp1
    rw [hheq, andThen_ok]
    generalize hs2 :
      (hoist_declarations b stmts (Resolver.enter b { s with cur_block := none })).2 = s2 at *
    have hcur2 : s2.cur_block = some b := by rw [hd.cur]; rfl
    have hpar2 : (s2.block b).parent = none := by rw [hd.parent, hent]
    have hscope2 : ScopeOK s2 [⟨b, hoisted stmts, false⟩] := by
      refine ⟨hcur2, ?_, by simp, ?_, ?_⟩
      · rw [hcur2]; simp [Chain, hpar2]
      · intro l' hl'; simp only [List.mem_singleton] at hl'; subst hl'; exact hsp1
      · intro l' hl'; simp only [List.mem_singleton] at hl'; subst hl'; exact hinv2
    have hcache2 : CacheOK (s2.block b) [] :=
      CacheOK.empty_cache _ _ (by rw [hd.nonlocal_indexes, hent]; exact hf3)
        (by rw [hd.name_to_nonlocal_index, hent]; exact hf4)
    have hready2 : Ready fuel s2 ⟨b, hoisted stmts, false⟩ []
        ((blocks_each (some b) stmts).map BlockInfo.addr)
        ((refs_each [⟨b, hoisted stmts, false⟩] stmts).map Ref.addr)
        ((blocks_each (some b) stmts).flatMap BlockInfo.decl_addrs) := by
      refine ⟨hscope2, hcache2, hnB, ?_, ?_, hvn, hdB, ?_⟩
      · intro b' hb'
        simp only [List.map_cons, List.map_nil, List.mem_singleton]
        exact fun h => hbB (h ▸ hb')
      · intro b' hb'
        have hne : b' ≠ b := fun h => hbB (h ▸ hb')
        rw [hd.block_other b' hne]
        simp only [Resolver.enter, upd_other _ _ _ _ hne]
        exact hfB b' hb'
      · simp only [List.length_cons, List.length_nil]
        omega
    have ho := visit_each_outcome fuel stmts (fun m _ => resolves fuel m) s2 _ [] hready2
    have ht := visit_each_touches fuel stmts (fun m _ => visit_touches fuel m)
      [⟨b, hoisted stmts, false⟩] s2 hcur2.symm
    generalize hres : Resolver.visit_each fuel stmts s2 = res at *
    obtain ⟨r3, s3⟩ := res
    simp only at ho ht ⊢
    refine ⟨?_, fun hnd => ho.2 (fun bi hbi => hnd bi (List.mem_cons_of_mem _ hbi))⟩
    intro hok
    have d := ho.1 hok
    have scRB : ∀ r ∈ refs_each [⟨b, hoisted stmts, false⟩] stmts,
        ScopeCases [⟨b, hoisted stmts, false⟩]
          ((blocks_each (some b) stmts).map BlockInfo.addr) r :=
      fun r hrm => refs_each_scope stmts (fun m _ => refs_scope m) _ r hrm
    refine ⟨fun r hrm => (d.stamped r hrm).keep_stamped rfl
      (fun _ _ => ⟨List.prefix_refl _, fun _ _ h => h⟩), ?_⟩
    intro bi hbi
    rcases List.mem_cons.1 hbi with rfl | hbi
    · have hch := d.scope.chain
      simp only [List.map_cons, List.map_nil, Chain] at hch
      refine ⟨hch.2, ?_, d.scope.inv _ (List.mem_cons_self _ _), d.cache.values,
        d.cache.keys, ?_, ?_⟩
      · show local_names (s3.block b) = _
        rw [d.scope.names _ (List.mem_cons_self _ _), declared_eq]
        simp
      · intro name
        show name ∈ (s3.block b).name_to_nonlocal_index.map Prod.fst ↔ _
        rw [d.captured name]
        have e2 : (s2.block b).name_to_nonlocal_index = [] := by
          rw [hd.name_to_nonlocal_index, hent]; exact hf4
        rw [e2]
        simp only [List.map_nil, List.not_mem_nil, false_or]
        constructor
        · rintro ⟨r, hrm, hsc, hn, hnot⟩
          exact ⟨r, hrm, r.owner_of_scope _ _ hsc, hn,
            by rw [r.declared_locally_iff _ _ hsc, hn]; exact hnot⟩
        · rintro ⟨r, hrm, hown, hn, hnot⟩
          rcases scRB r hrm with hsc | ⟨l', pre, hsc, hl'⟩
          · refine ⟨r, hrm, hsc, hn, ?_⟩
            rw [r.declared_locally_iff _ _ hsc, hn] at hnot
            exact hnot
          · rw [r.owner_of_scope _ _ hsc] at hown
            have e : l'.block = b := Option.some.inj hown
            exact absurd (e ▸ hl') hbB
      · intro i d' names hi
        show (s3.decl d').start_index = _
        simp only [BlockInfo.all_decls, Option.toList, List.nil_append] at hi ⊢
        have hmem : d' ∈ (direct_decls stmts).map Prod.fst :=
          List.mem_map.2 ⟨(d', names), List.getElem?_mem hi, rfl⟩
        have hlen : ((Resolver.enter b { s with cur_block := none }).block b).local_info.length
            = 0 := by
          have := congrArg List.length hnames_b
          simpa [local_names] using this
        rw [ht.decl_other d' (fun h => hdddis hmem h), hsp2 i d' names hi, hlen]
        simp
    · exact (d.blocks bi hbi).keep_block rfl (fun _ _ => rfl)
  | throw e =>
    have hheq : hoist_declarations b stmts (Resolver.enter b { s with cur_block := none }) =
        (Result.throw e,
          (hoist_declarations b stmts (Resolver.enter b { s with cur_block := none })).2) := by
      rw [← hh]
    rw [hheq]
    refine ⟨fun h => by simp [andThen] at h, fun hnd => ?_⟩
    have := hnd _ (List.mem_cons_self _ _)
    rw [declared_eq] at this
    simp only [Option.toList, List.flatMap_nil, List.nil_append] at this
    rw [← hokiff, hh] at this
    simp at this
  | assert_fail =>
    rcases hoist_outcome b stmts (Resolver.enter b { s with cur_block := none }) with h | h
    · rw [hh] at h; simp at h
    · rw [hh] at h; simp [Result.threw_duplicated] at h
  | out_of_fuel =>
    rcases hoist_outcome b stmts (Resolver.enter b { s with cur_block := none }) with h | h
    · rw [hh] at h; simp at h
    · rw [hh] at h; simp [Result.threw_duplicated] at h

/-! ## Scopes and the resolved state -/

theorem LevelOK.mono_level {B B' : List BlockInfo} {lv : Level} {next : Option Addr}
    (h : LevelOK B lv next) (hB : B ⊆ B') : LevelOK B' lv next := by
  obtain ⟨bi, hbi, h1⟩ := h
  exact ⟨bi, hB hbi, h1⟩

theorem ScopeWF.mono_wf {B B' : List BlockInfo} {sc : Scope} (h : ScopeWF B sc) (hB : B ⊆ B') :
    ScopeWF B' sc := by
  induction sc with
  | nil => trivial
  | cons lv rest ih => exact ⟨h.1.mono_level hB, ih h.2⟩

theorem scope_wf_each (l : List Node)
    (h : ∀ n ∈ l, ∀ (sc : Scope) (B0 : List BlockInfo) (r : Ref), r ∈ refs sc n →
      ScopeWF B0 sc → ScopeWF (B0 ++ blocks sc.cur n) r.scope)
    (sc : Scope) (B0 : List BlockInfo) (r : Ref) (hr : r ∈ refs_each sc l)
    (hw : ScopeWF B0 sc) : ScopeWF (B0 ++ blocks_each sc.cur l) r.scope := by
  rw [refs_each_eq, List.mem_flatMap] at hr
  obtain ⟨n, hn, hr⟩ := hr
  refine (h n hn sc B0 r hr hw).mono_wf ?_
  intro bi hbi
  rcases List.mem_append.1 hbi with h1 | h1
  · exact List.mem_append_left _ h1
  · exact List.mem_append_right _ (by
      rw [blocks_each_eq, List.mem_flatMap]; exact ⟨n, hn, h1⟩)

theorem scope_wf_refs (n : Node) :
    ∀ (sc : Scope) (B0 : List BlockInfo) (r : Ref), r ∈ refs sc n →
      ScopeWF B0 sc → ScopeWF (B0 ++ blocks sc.cur n) r.scope := by
  induction n using Node.induction_kinds with
  | var v name =>
    intro sc B0 r hr hw
    simp only [refs, List.mem_singleton] at hr
    subst hr
    exact hw.mono_wf (List.subset_append_left _ _)
  | block b stmts ih =>
    intro sc B0 r hr hw
    rw [refs_block] at hr
    rw [blocks_block]
    have hw' : ScopeWF (B0 ++ [⟨b, sc.cur, none, direct_decls stmts⟩])
        (sc.enter_block b (hoisted stmts)) := by
      refine ⟨⟨_, List.mem_append_right _ (List.mem_singleton.2 rfl), rfl, rfl, ?_, ?_⟩,
        hw.mono_wf (List.subset_append_left _ _)⟩
      · intro _; rw [declared_eq]; simp
      · intro h; simp at h
    have := scope_wf_each stmts ih _ _ r hr hw'
    simpa [Scope.cur_enter_block] using this
  | program b stmts ih =>
    intro sc B0 r hr hw
    rw [refs_program] at hr
    rw [blocks_program]
    have hw' : ScopeWF (B0 ++ [⟨b, sc.cur, none, direct_decls stmts⟩])
        (sc.enter_block b (hoisted stmts)) := by
      refine ⟨⟨_, List.mem_append_right _ (List.mem_singleton.2 rfl), rfl, rfl, ?_, ?_⟩,
        hw.mono_wf (List.subset_append_left _ _)⟩
      · intro _; rw [declared_eq]; simp
      · intro h; simp at h
    have := scope_wf_each stmts ih _ _ r hr hw'
    simpa [Scope.cur_enter_block] using this
  | func args b stmts ihi ih =>
    intro sc B0 r hr hw
    rw [refs_func, List.mem_append] at hr
    rw [blocks_func]
    rcases hr with hr | hr
    · have hw' : ScopeWF (B0 ++ [⟨b, sc.cur, param_decl args, direct_decls stmts⟩])
          (sc.enter_init b) := by
        refine ⟨⟨_, List.mem_append_right _ (List.mem_singleton.2 rfl), rfl, rfl, ?_, ?_⟩,
          hw.mono_wf (List.subset_append_left _ _)⟩
        · intro h; simp at h
        · intro _; rfl
      refine (scope_wf_each _ ihi _ _ r hr hw').mono_wf ?_
      intro bi hbi
      simp only [List.mem_append, List.mem_singleton, List.mem_cons, Scope.cur_enter_init]
        at hbi ⊢
      tauto
    · have hw' : ScopeWF (B0 ++ [⟨b, sc.cur, param_decl args, direct_decls stmts⟩])
          (sc.enter_block b (param_names args ++ hoisted stmts)) := by
        refine ⟨⟨_, List.mem_append_right _ (List.mem_singleton.2 rfl), rfl, rfl, ?_, ?_⟩,
          hw.mono_wf (List.subset_append_left _ _)⟩
        · intro _; rw [declared_eq, param_decl_names]
        · intro h; simp at h
      refine (scope_wf_each _ ih _ _ r hr hw').mono_wf ?_
      intro bi hbi
      simp only [List.mem_append, List.mem_singleton, List.mem_cons, Scope.cur_enter_block]
        at hbi ⊢
      tauto
  | seq n hn ih =>
    intro sc B0 r hr hw
    rw [refs_of_seq sc n hn] at hr
    rw [blocks_of_seq _ n hn]
    exact scope_wf_each n.kids ih sc B0 r hr hw

theorem heap_scope_of_wf {s : State} {R : List Ref} {B : List BlockInfo} {sc : Scope}
    (hw : ScopeWF B sc) (hb : ∀ bi ∈ B, BlockDone s R bi) : HeapScope s sc := by
  induction sc with
  | nil => trivial
  | cons lv rest ih =>
    obtain ⟨⟨bi, hbi, h1, h2, h3, h4⟩, hrest⟩ := hw
    have hd := hb bi hbi
    refine ⟨?_, ?_, h4, ih hrest⟩
    · rw [← h1, hd.parent, h2]
    · intro hi; rw [← h1, hd.names]; exact h3 hi

theorem lookup_split {name : ustring} {anc : Scope} {T : Addr} {i : Nat}
    (h : Scope.lookup name anc = some (T, i)) :
    ∃ pre lv post, anc = pre ++ lv :: post ∧ lv.block = T ∧ name ∈ lv.names ∧
      i = lv.names.indexOf name ∧ ∀ x ∈ pre, name ∉ x.names := by
  induction anc with
  | nil => simp [Scope.lookup] at h
  | cons l rest ih =>
    simp only [Scope.lookup] at h
    by_cases hm : name ∈ l.names
    · simp only [hm, if_true, Option.some.injEq, Prod.mk.injEq] at h
      exact ⟨[], l, rest, rfl, h.1, hm, h.2.symm, by simp⟩
    · simp only [hm, if_false] at h
      obtain ⟨pre, lv, post, h1, h2, h3, h4, h5⟩ := ih h
      refine ⟨l :: pre, lv, post, by simp [h1], h2, h3, h4, ?_⟩
      intro x hx
      rcases List.mem_cons.1 hx with rfl | hx
      · exact hm
      · exact h5 x hx

theorem heap_path {s : State} (pre : List Level) (lv : Level) (post : List Level)
    (h : HeapScope s (pre ++ lv :: post)) :
    PathTo s.block (Scope.cur (pre ++ lv :: post)) (pre.map Level.block) lv.block ∧
      HeapScope s (lv :: post) ∧ ∀ x ∈ pre, x.init = false →
        x.names = local_names (s.block x.block) := by
  induction pre with
  | nil => exact ⟨rfl, h, by simp⟩
  | cons x pre ih =>
    obtain ⟨h1, h2, _, h4⟩ := h
    obtain ⟨i1, i2, i3⟩ := ih h4
    refine ⟨⟨rfl, ?_⟩, i2, ?_⟩
    · rw [h1]; exact i1
    · intro y hy hinit
      rcases List.mem_cons.1 hy with rfl | hy
      · exact h2 hinit
      · exact i3 y hy hinit

theorem indexOf_getElem?_names {attr : S_Block.AttrType} {name : ustring}
    (h : name ∈ local_names attr) :
    attr.local_info[(local_names attr).indexOf name]? = some ⟨name⟩ := by
  have hlt : (local_names attr).indexOf name < (local_names attr).length :=
    List.indexOf_lt_length.2 h
  have hget : (local_names attr)[(local_names attr).indexOf name]? = some name := by
    rw [List.getElem?_eq_getElem hlt]; simp
  simp only [local_names, List.getElem?_map] at hget
  simp only [local_names]
  cases hx : attr.local_info[List.indexOf name (List.map VarInfo.name attr.local_info)]? with
  | none => simp [hx] at hget
  | some x =>
    simp only [hx, Option.map_some', Option.some.injEq] at hget
    cases x
    simp_all

/-- What the stamp of a reference says in terms of the resolved state. -/
theorem stamped_facts {s : State} {r : Ref} (hst : Stamped s r) (hh : HeapScope s r.scope) :
    ∃ B, r.owner = some B ∧
      ((s.var r.addr).is_local = true →
        r.declared_locally ∧
        s.var r.addr = ⟨true, ((local_names (s.block B)).indexOf r.name : Nat)⟩ ∧
        (s.block B).local_info[(local_names (s.block B)).indexOf r.name]? = some ⟨r.name⟩) ∧
      ((s.var r.addr).is_local = false →
        ¬ r.declared_locally ∧
        ∃ (k : Nat) (T : Addr) (i : Nat), s.var r.addr = ⟨false, (k : Int)⟩ ∧
          (s.block B).nonlocal_indexes[k]? = some ⟨some T, (i : Int)⟩ ∧
          map_find (s.block B).name_to_nonlocal_index r.name = some (k : Int) ∧
          StrictAncestor s.block B T ∧
          (s.block T).local_info[i]? = some ⟨r.name⟩ ∧
          (r.nested_in_init = false → NearestDeclaring s.block r.name B T)) := by
  unfold Stamped at hst
  cases hsc : r.scope with
  | nil => rw [hsc] at hst; exact absurd hst id
  | cons l anc =>
    rw [hsc] at hst hh
    simp only at hst
    obtain ⟨h1, h2⟩ := hst
    obtain ⟨hpar, hnames, hempty, hrest⟩ := hh
    have hdl : r.declared_locally ↔ r.name ∈ l.names := r.declared_locally_iff l anc hsc
    refine ⟨l.block, r.owner_of_scope l anc hsc, ?_, ?_⟩
    · intro hloc
      have hmem : r.name ∈ l.names := by
        by_contra hc
        obtain ⟨k, T, i, _, hv, _⟩ := h2 hc
        rw [hv] at hloc
        simp at hloc
      have hinit : l.init = false := by
        cases hi : l.init with
        | false => rfl
        | true => rw [hempty hi] at hmem; simp at hmem
      have hn := hnames hinit
      refine ⟨hdl.2 hmem, ?_, ?_⟩
      · rw [h1 hmem, hn]
      · exact indexOf_getElem?_names (hn ▸ hmem)
    · intro hloc
      have hmem : r.name ∉ l.names := by
        intro hc
        rw [h1 hc] at hloc
        simp at hloc
      refine ⟨fun h => hmem (hdl.1 h), ?_⟩
      obtain ⟨k, T, i, hlook, hv, hget, hfind⟩ := h2 hmem
      obtain ⟨pre, lv, post, hanc, hT, hin, hi, hpre⟩ := lookup_split hlook
      rw [hanc] at hrest hpar
      obtain ⟨hpath, hlv, hprenames⟩ := heap_path pre lv post hrest
      have hlvinit : lv.init = false := by
        cases hi' : lv.init with
        | false => rfl
        | true => rw [hlv.2.2.1 hi'] at hin; simp at hin
      have hlvn := hlv.2.1 hlvinit
      rw [hT] at hlvn hpath
      have hinT : r.name ∈ local_names (s.block T) := hlvn ▸ hin
      refine ⟨k, T, i, hv, hget, hfind, ⟨pre.map Level.block, hpar ▸ hpath⟩, ?_, ?_⟩
      · rw [hi, hlvn]
        exact indexOf_getElem?_names hinT
      · intro hnest
        refine ⟨pre.map Level.block, hpar ▸ hpath, ?_, hinT⟩
        intro b' hb'
        obtain ⟨x, hx, rfl⟩ := List.mem_map.1 hb'
        have hxinit : x.init = false := by
          simp only [Ref.nested_in_init, hsc, List.tail_cons, hanc, List.any_append,
            Bool.or_eq_false_iff, List.any_eq_false] at hnest
          simpa using hnest.1 x hx
        rw [← hprenames x hx hxinit]
        exact hpre x hx

/-- After a successful `resolve_names` on a fresh program, every reference of
the program is stamped as lexical lookup prescribes, and the scope of every
reference can be read off the resolved state. -/
theorem resolve_names_resolved (fuel : Nat) (b : Addr) (stmts : List Node) (s : State)
    (hf : FreshTree s b stmts)
    (hfuel : (block_addrs none (Node.Program b stmts)).length ≤ fuel)
    (hok : (resolve_names fuel b stmts s).1 = Result.ok ()) :
    Resolved (resolve_names fuel b stmts s).2 (refs Scope.top (Node.Program b stmts))
        (blocks none (Node.Program b stmts)) ∧
      ∀ r ∈ refs Scope.top (Node.Program b stmts),
        Stamped (resolve_names fuel b stmts s).2 r ∧
          HeapScope (resolve_names fuel b stmts s).2 r.scope ∧
          ScopeWF (blocks none (Node.Program b stmts)) r.scope := by
  have hres := (resolve_names_outcome fuel b stmts s hf hfuel).1 hok
  refine ⟨hres, fun r hr => ?_⟩
  have hw : ScopeWF (blocks none (Node.Program b stmts)) r.scope := by
    have := scope_wf_refs (Node.Program b stmts) Scope.top [] r hr trivial
    simpa [Scope.top, Scope.cur] using this
  exact ⟨hres.stamped r hr, heap_scope_of_wf hw hres.blocks, hw⟩

theorem fresh_tree_of_nodup (b : Addr) (stmts : List Node)
    (h1 : (block_addrs none (Node.Program b stmts)).Nodup)
    (h2 : (var_addrs Scope.top (Node.Program b stmts)).Nodup)
    (h3 : (decl_addrs none (Node.Program b stmts)).Nodup) :
    FreshTree State.fresh b stmts :=
  ⟨h1, h2, h3, fun _ _ => rfl⟩

theorem unbound_iff_not_all_bound (R : List Ref) :
    (∃ r ∈ R, r.unbound = true) ↔ ¬ AllBound R := by
  simp only [AllBound, not_forall]
  constructor
  · rintro ⟨r, hr, hu⟩
    exact ⟨r, hr, by simp [hu]⟩
  · rintro ⟨r, hr, hu⟩
    exact ⟨r, hr, by simpa using hu⟩

theorem in_init_false {r : Ref} {l : Level} {anc : Scope} (hsc : r.scope = l :: anc)
    (h : r.in_init = false) : l.init = false ∧ r.nested_in_init = false := by
  simp only [Ref.in_init, hsc, List.any_cons, Bool.or_eq_false_iff] at h
  exact ⟨h.1, by simpa [Ref.nested_in_init, hsc] using h.2⟩

/-- Effect of a successful visit of a function literal whose body block record
is empty: the locals of the body are the parameters followed by the names of
the body's declare-list statements, the parameter list has `start_index` 0
and a declare-list statement of the body starts after the parameters. -/
theorem visit_func_locals (fuel : Nat) (args : Option (Addr × List PairType)) (b : Addr)
    (stmts : List Node) (s : State) (hempty : s.block b = {})
    (hbn : (block_addrs s.cur_block (Node.E_Func args b stmts)).Nodup)
    (hdn : (decl_addrs s.cur_block (Node.E_Func args b stmts)).Nodup)
    (hok : (Resolver.visit fuel (Node.E_Func args b stmts) s).1 = Result.ok ()) :
    local_names ((Resolver.visit fuel (Node.E_Func args b stmts) s).2.block b) =
      param_names args ++ hoisted stmts ∧
    (∀ d decls, args = some (d, decls) →
      ((Resolver.visit fuel (Node.E_Func args b stmts) s).2.decl d).start_index = 0) ∧
    (∀ (i : Nat) (d : Addr) (names : List ustring), (direct_decls stmts)[i]? = some (d, names) →
      ((Resolver.visit fuel (Node.E_Func args b stmts) s).2.decl d).start_index =
        (((param_names args).length +
          (((direct_decls stmts).take i).flatMap Prod.snd).length : Nat) : Int)) := by
  rw [block_addrs_func] at hbn
  rw [decl_addrs_func, List.map_append, List.append_assoc] at hdn
  simp only [List.nodup_cons, List.mem_append, not_or] at hbn
  obtain ⟨⟨hbI, hbB⟩, _⟩ := hbn
  obtain ⟨_, hdrest, hdpdis⟩ := List.nodup_append.1 hdn
  obtain ⟨hdd, _, hdddis⟩ := List.nodup_append.1 hdrest
  rw [visit_func_eq] at hok ⊢
  obtain ⟨hok1, heq⟩ := andThen_ok_inv hok
  rw [heq] at hok ⊢
  -- the parameters
  have hmid : local_names ((Resolver.visit_args fuel args b s).2.block b) = param_names args ∧
      ∀ d decls, args = some (d, decls) →
        ((Resolver.visit_args fuel args b s).2.decl d).start_index = 0 := by
    cases args with
    | none =>
      refine ⟨?_, by simp⟩
      simp [Resolver.visit_args, hempty, local_names, param_names]
    | some a =>
      obtain ⟨d, decls⟩ := a
      simp only [Resolver.visit_args, RestoreOnExit, param_initialisers] at hok1 hbI ⊢
      obtain ⟨hoki, heqi⟩ := andThen_ok_inv hok1
      rw [heqi] at hok1 ⊢
      have ht := visit_each_touches fuel (initialisers decls) (fun m _ => visit_touches fuel m)
        [⟨b, [], true⟩] (Resolver.enter b s) rfl
      obtain ⟨_, hli, _⟩ := ht.block_cur b rfl hbI
      have hn0 : local_names
          ((Resolver.visit_each fuel (initialisers decls) (Resolver.enter b s)).2.block b) = [] := by
        simp only [local_names, hli]
        simp [Resolver.enter, hempty]
      obtain ⟨sp1, sp2⟩ := declare_spec b d decls _ hok1
      refine ⟨?_, ?_⟩
      · show local_names ((declare b d decls _).2.block b) = _
        rw [sp1, hn0]; rfl
      · intro d' decls' he
        simp only [Option.some.injEq, Prod.mk.injEq] at he
        obtain ⟨rfl, _⟩ := he
        show ((declare b d decls _).2.decl d).start_index = 0
        rw [sp2]
        have := congrArg List.length hn0
        simp only [local_names, List.length_map, List.length_nil] at this
        simp [this]
  obtain ⟨hnm, hst0⟩ := hmid
  generalize Resolver.visit_args fuel args b s = resa at *
  obtain ⟨ra, sa⟩ := resa
  simp only at hnm hst0 hok ⊢
  -- the body
  simp only [Resolver.visit_block, RestoreOnExit] at hok ⊢
  obtain ⟨hokh, heqh⟩ := andThen_ok_inv hok
  rw [heqh]
  have hd := hoist_declares b stmts (Resolver.enter b sa)
  have hnb : local_names ((Resolver.enter b sa).block b) = param_names args := by
    rw [← hnm]; simp [Resolver.enter, local_names]
  obtain ⟨hsp1, hsp2⟩ := hoist_spec b stmts (Resolver.enter b sa) hokh hdd
  rw [hnb] at hsp1
  have hlen : ((Resolver.enter b sa).block b).local_info.length = (param_names args).length := by
    have := congrArg List.length hnb
    simpa [local_names] using this
  have ht := visit_each_touches fuel stmts (fun m _ => visit_touches fuel m)
    [⟨b, [], false⟩] (hoist_declarations b stmts (Resolver.enter b sa)).2
    (by rw [hd.cur]; rfl)
  obtain ⟨_, hli, _⟩ := ht.block_cur b (by rw [hd.cur]; rfl) hbB
  refine ⟨?_, ?_, ?_⟩
  · show local_names ((Resolver.visit_each fuel stmts _).2.block b) = _
    simp only [local_names, hli]
    exact hsp1
  · intro d decls he
    show ((Resolver.visit_each fuel stmts _).2.decl d).start_index = 0
    have hmem : d ∈ (param_decl args).toList.map Prod.fst := by
      subst he; simp [param_decl]
    rw [ht.decl_other d (fun h => hdpdis hmem
        (List.mem_append_right _ (List.mem_append_right _ h))),
      hd.decl_other d (fun h => hdpdis hmem (List.mem_append_left _ h))]
    exact hst0 d decls he
  · intro i d names hi
    show ((Resolver.visit_each fuel stmts _).2.decl d).start_index = _
    have hmem : d ∈ (direct_decls stmts).map Prod.fst :=
      List.mem_map.2 ⟨(d, names), List.getElem?_mem hi, rfl⟩
    rw [ht.decl_other d (fun h => hdddis hmem (List.mem_append_right _ h)),
      hsp2 i d names hi, hlen]

/-! ## Claims -/

/-- C1 (counterexample): in the fresh program `fn(a = z) {};` no block
declares a name twice and no variable reference outside a parameter default
initialiser is undeclared, yet `resolve_names` fails with `NoSuchName`. -/
theorem no_such_name_from_initialiser :
    FreshTree State.fresh 0 prog_init_unbound ∧
    NoDupDecl (blocks none (Node.Program 0 prog_init_unbound)) ∧
    (resolve_names 8 0 prog_init_unbound State.fresh).1 =
      Result.throw (Exception.NoSuchName "z") ∧
    ¬ ∃ r ∈ refs Scope.top (Node.Program 0 prog_init_unbound),
      r.in_init = false ∧ r.unbound = true :=
  ⟨fresh_tree_of_nodup _ _ (by decide) (by decide) (by decide),
    by unfold NoDupDecl; decide, by decide, by decide⟩

/-- C1 (amended): on a fresh program in which no block declares a name twice,
`resolve_names` fails with `NoSuchName` if and only if some variable reference
is unbound, that is, its name is declared neither by its current block nor by
any enclosing block, where the body block of a function literal counts as
declaring nothing for the references in its parameter default initialisers;
otherwise it returns normally.  The scope of every reference lists, for each
enclosing block, exactly the names that block declares (or none, for a body
block whose parameter initialisers contain the reference). -/
theorem resolve_names_fails_iff_unbound (fuel : Nat) (b : Addr) (stmts : List Node)
    (s : State) (hf : FreshTree s b stmts)
    (hfuel : (block_addrs none (Node.Program b stmts)).length ≤ fuel)
    (hnd : NoDupDecl (blocks none (Node.Program b stmts))) :
    ((resolve_names fuel b stmts s).1.threw_no_such_name = true ↔
      ∃ r ∈ refs Scope.top (Node.Program b stmts), r.unbound = true) ∧
    ((resolve_names fuel b stmts s).1.threw_no_such_name = false →
      (resolve_names fuel b stmts s).1 = Result.ok ()) ∧
    ∀ r ∈ refs Scope.top (Node.Program b stmts),
      ScopeWF (blocks none (Node.Program b stmts)) r.scope := by
  have hw : ∀ r ∈ refs Scope.top (Node.Program b stmts),
      ScopeWF (blocks none (Node.Program b stmts)) r.scope := by
    intro r hr
    have := scope_wf_refs (Node.Program b stmts) Scope.top [] r hr trivial
    simpa [Scope.top, Scope.cur] using this
  rw [unbound_iff_not_all_bound]
  rcases (resolve_names_outcome fuel b stmts s hf hfuel).2 hnd with ⟨hok, ha⟩ | ⟨hns, ha⟩
  · refine ⟨?_, fun _ => hok, hw⟩
    rw [hok]
    simp [Result.threw_no_such_name, ha]
  · refine ⟨?_, fun h => ?_, hw⟩
    · simp [hns, ha]
    · rw [hns] at h; simp at h

/-- Witness for C1 (amended): the program `var y = z;` with `z` undeclared
fails with `NoSuchName`. -/
theorem resolve_names_fails_iff_unbound_witness :
    FreshTree State.fresh 0 prog_undeclared ∧
    (block_addrs none (Node.Program 0 prog_undeclared)).length ≤ 8 ∧
    NoDupDecl (blocks none (Node.Program 0 prog_undeclared)) ∧
    (resolve_names 8 0 prog_undeclared State.fresh).1 =
      Result.throw (Exception.NoSuchName "z") ∧
    (((resolve_names 8 0 prog_undeclared State.fresh).1.threw_no_such_name = true ↔
      ∃ r ∈ refs Scope.top (Node.Program 0 prog_undeclared), r.unbound = true) ∧
    ((resolve_names 8 0 prog_undeclared State.fresh).1.threw_no_such_name = false →
      (resolve_names 8 0 prog_undeclared State.fresh).1 = Result.ok ()) ∧
    ∀ r ∈ refs Scope.top (Node.Program 0 prog_undeclared),
      ScopeWF (blocks none (Node.Program 0 prog_undeclared)) r.scope) :=
  ⟨fresh_tree_of_nodup _ _ (by decide) (by decide) (by decide), by decide,
    by unfold NoDupDecl; decide, by decide,
    resolve_names_fails_iff_unbound 8 0 prog_undeclared State.fresh
      (fresh_tree_of_nodup _ _ (by decide) (by decide) (by decide)) (by decide)
      (by unfold NoDupDecl; decide)⟩

/-- C2: for a block attribute record whose `name_to_local_index` maps exactly
the names of `local_info` to their positions, and every declare-list,
`add_declarations_to_block_attr` fails with `DuplicatedLocalName` if and only
if some declared name is already a local of the block or occurs more than
once in the declare-list; otherwise it returns normally. -/
theorem add_declarations_duplicated_iff (attr : S_Block.AttrType) (decls : List PairType)
    (h : MapsToPositions attr) :
    ((add_declarations_to_block_attr attr decls).1.threw_duplicated = true ↔
      ((∃ name ∈ decl_names decls, name ∈ local_names attr) ∨ ¬ (decl_names decls).Nodup)) ∧
    ((add_declarations_to_block_attr attr decls).1.threw_duplicated = false →
      (add_declarations_to_block_attr attr decls).1 = Result.ok ()) :=
  ⟨add_declarations_loop_throws_iff attr decls h,
    threw_duplicated_false_of_outcome (add_declarations_loop_outcome attr decls)⟩

/-- Witness for C2: the empty record and the declare-list `var x, x`. -/
theorem add_declarations_duplicated_iff_witness :
    MapsToPositions {} ∧
    (((add_declarations_to_block_attr {} [("x", none), ("x", none)]).1.threw_duplicated = true ↔
      ((∃ name ∈ decl_names [("x", none), ("x", none)], name ∈ local_names {}) ∨
        ¬ (decl_names [("x", none), ("x", none)]).Nodup)) ∧
    ((add_declarations_to_block_attr {} [("x", none), ("x", none)]).1.threw_duplicated = false →
      (add_declarations_to_block_attr {} [("x", none), ("x", none)]).1 = Result.ok ())) :=
  ⟨LocalTableInv.empty_inv.1, add_declarations_duplicated_iff {} _ LocalTableInv.empty_inv.1⟩

/-- C3 (the code departs from the claim): in a fresh program block, resolving
the statement `z;` fails with `NoSuchName`, and resolving a second statement
`z;` in the same block afterwards returns normally, leaving the reference
stamped non-local with capture index 0 although the block has no capture
entry. -/
theorem resolve_names_in_block_second_call_returns :
    (resolve_names_in_block 8 0 (Node.S_Exp (Node.E_Var 10 "z")) State.fresh).1 =
      Result.throw (Exception.NoSuchName "z") ∧
    (resolve_names_in_block 8 0 (Node.S_Exp (Node.E_Var 11 "z"))
      (resolve_names_in_block 8 0 (Node.S_Exp (Node.E_Var 10 "z")) State.fresh).2).1 =
      Result.ok () ∧
    ((resolve_names_in_block 8 0 (Node.S_Exp (Node.E_Var 11 "z"))
      (resolve_names_in_block 8 0 (Node.S_Exp (Node.E_Var 10 "z")) State.fresh).2).2.var 11) =
      ⟨false, 0⟩ ∧
    ((resolve_names_in_block 8 0 (Node.S_Exp (Node.E_Var 11 "z"))
      (resolve_names_in_block 8 0 (Node.S_Exp (Node.E_Var 10 "z")) State.fresh).2).2.block
        0).nonlocal_indexes = [] := by
  decide

/-- C4: after `resolve_names` succeeds on a fresh program, every variable
reference, with owning block `B`, satisfies: if it is stamped local, then
`0 ≤ index < B.local_info.size()`; otherwise
`0 ≤ index < B.nonlocal_indexes.size()` and the capture entry at `index` is
`(T, i)` with `T` a strict ancestor of `B` on `B`'s parent chain and
`0 ≤ i < T.local_info.size()`. -/
theorem stamps_in_range (fuel : Nat) (b : Addr) (stmts : List Node) (s : State)
    (hf : FreshTree s b stmts)
    (hfuel : (block_addrs none (Node.Program b stmts)).length ≤ fuel)
    (hok : (resolve_names fuel b stmts s).1 = Result.ok ()) :
    ∀ r ∈ refs Scope.top (Node.Program b stmts), ∃ B, r.owner = some B ∧
      (((resolve_names fuel b stmts s).2.var r.addr).is_local = true →
        0 ≤ ((resolve_names fuel b stmts s).2.var r.addr).index ∧
        ((resolve_names fuel b stmts s).2.var r.addr).index <
          (((resolve_names fuel b stmts s).2.block B).local_info.length : Int)) ∧
      (((resolve_names fuel b stmts s).2.var r.addr).is_local = false →
        0 ≤ ((resolve_names fuel b stmts s).2.var r.addr).index ∧
        ((resolve_names fuel b stmts s).2.var r.addr).index <
          (((resolve_names fuel b stmts s).2.block B).nonlocal_indexes.length : Int) ∧
        ∃ (T : Addr) (i : Int),
          ((resolve_names fuel b stmts s).2.block B).nonlocal_indexes[
            ((resolve_names fuel b stmts s).2.var r.addr).index.toNat]? = some ⟨some T, i⟩ ∧
          StrictAncestor (resolve_names fuel b stmts s).2.block B T ∧
          0 ≤ i ∧ i < (((resolve_names fuel b stmts s).2.block T).local_info.length : Int)) := by
  intro r hr
  obtain ⟨hst, hh, _⟩ := (resolve_names_resolved fuel b stmts s hf hfuel hok).2 r hr
  obtain ⟨B, hB, hl, hn⟩ := stamped_facts hst hh
  refine ⟨B, hB, ?_, ?_⟩
  · intro hloc
    obtain ⟨_, hv, hget⟩ := hl hloc
    rw [hv]
    have hlt := (List.getElem?_eq_some_iff.1 hget).1
    exact ⟨by simp, by simpa using hlt⟩
  · intro hloc
    obtain ⟨_, k, T, i, hv, hget, _, hanc, hgetT, _⟩ := hn hloc
    rw [hv]
    have hlt := (List.getElem?_eq_some_iff.1 hget).1
    have hltT := (List.getElem?_eq_some_iff.1 hgetT).1
    refine ⟨by simp, by simpa using hlt, T, i, by simpa using hget, hanc, by simp,
      by exact_mod_cast hltT⟩

/-- Witness for C4: the program `var a; fn() { return a; }; a;`. -/
theorem stamps_in_range_witness :
    FreshTree State.fresh 0 prog_capture ∧
    (block_addrs none (Node.Program 0 prog_capture)).length ≤ 8 ∧
    (resolve_names 8 0 prog_capture State.fresh).1 = Result.ok () ∧
    (resolve_names 8 0 prog_capture State.fresh).2.var 200 = ⟨false, 0⟩ ∧
    (resolve_names 8 0 prog_capture State.fresh).2.var 201 = ⟨true, 0⟩ ∧
    ∀ r ∈ refs Scope.top (Node.Program 0 prog_capture), ∃ B, r.owner = some B ∧
      (((resolve_names 8 0 prog_capture State.fresh).2.var r.addr).is_local = true →
        0 ≤ ((resolve_names 8 0 prog_capture State.fresh).2.var r.addr).index ∧
        ((resolve_names 8 0 prog_capture State.fresh).2.var r.addr).index <
          (((resolve_names 8 0 prog_capture State.fresh).2.block B).local_info.length : Int)) ∧
      (((resolve_names 8 0 prog_capture State.fresh).2.var r.addr).is_local = false →
        0 ≤ ((resolve_names 8 0 prog_capture State.fresh).2.var r.addr).index ∧
        ((resolve_names 8 0 prog_capture State.fresh).2.var r.addr).index <
          (((resolve_names 8 0 prog_capture State.fresh).2.block B).nonlocal_indexes.length
            : Int) ∧
        ∃ (T : Addr) (i : Int),
          ((resolve_names 8 0 prog_capture State.fresh).2.block B).nonlocal_indexes[
            ((resolve_names 8 0 prog_capture State.fresh).2.var r.addr).index.toNat]? =
              some ⟨some T, i⟩ ∧
          StrictAncestor (resolve_names 8 0 prog_capture State.fresh).2.block B T ∧
          0 ≤ i ∧
          i < (((resolve_names 8 0 prog_capture State.fresh).2.block T).local_info.length
            : Int)) :=
  ⟨fresh_tree_of_nodup _ _ (by decide) (by decide) (by decide), by decide, by decide,
    by decide, by decide,
    stamps_in_range 8 0 prog_capture State.fresh
      (fresh_tree_of_nodup _ _ (by decide) (by decide) (by decide)) (by decide) (by decide)⟩

/-- C6 (hoisting): after `resolve_names` succeeds on a fresh program, for
every block `B` of the tree and every variable reference with owning block
`B` that is not inside a parameter default initialiser, if the name of the
reference is declared by a declare-list statement directly in `B` (before or
after the reference), then the reference is stamped local and its index is
the position of the name in `B.local_info`. -/
theorem hoisted_reference_local (fuel : Nat) (b : Addr) (stmts : List Node) (s : State)
    (hf : FreshTree s b stmts)
    (hfuel : (block_addrs none (Node.Program b stmts)).length ≤ fuel)
    (hok : (resolve_names fuel b stmts s).1 = Result.ok ()) :
    ∀ bi ∈ blocks none (Node.Program b stmts),
      ∀ r ∈ refs Scope.top (Node.Program b stmts),
        r.owner = some bi.addr → r.in_init = false → r.name ∈ bi.decls.flatMap Prod.snd →
        (resolve_names fuel b stmts s).2.var r.addr =
          ⟨true, ((local_names ((resolve_names fuel b stmts s).2.block bi.addr)).indexOf r.name
            : Nat)⟩ ∧
        ((resolve_names fuel b stmts s).2.block bi.addr).local_info[
          (local_names ((resolve_names fuel b stmts s).2.block bi.addr)).indexOf r.name]? =
            some ⟨r.name⟩ := by
  intro bi hbi r hr hown hinit hdecl
  obtain ⟨hres, hall⟩ := resolve_names_resolved fuel b stmts s hf hfuel hok
  obtain ⟨hst, hh, _⟩ := hall r hr
  obtain ⟨B, hB, hl, hn⟩ := stamped_facts hst hh
  have hBe : B = bi.addr := Option.some.inj (hB.symm.trans hown)
  subst hBe
  have hdl : r.declared_locally := by
    cases hsc : r.scope with
    | nil => simp [Ref.owner, hsc, Scope.cur] at hown
    | cons l anc =>
      rw [hsc] at hh
      have hlb : l.block = bi.addr := by
        simpa [Ref.owner, hsc, Scope.cur] using hown
      rw [r.declared_locally_iff l anc hsc, hh.2.1 (in_init_false hsc hinit).1, hlb,
        (hres.blocks bi hbi).names]
      simp only [BlockInfo.declared, BlockInfo.all_decls, List.flatMap_append, List.mem_append]
      exact Or.inr hdecl
  cases hloc : ((resolve_names fuel b stmts s).2.var r.addr).is_local with
  | true => exact (hl hloc).2
  | false => exact absurd hdl (hn hloc).1

/-- Witness for C6: in the block `x; var x;` the reference to `x` is stamped
`(local, 0)`. -/
theorem hoisted_reference_local_witness :
    FreshTree State.fresh 0 prog_forward ∧
    (block_addrs none (Node.Program 0 prog_forward)).length ≤ 8 ∧
    (resolve_names 8 0 prog_forward State.fresh).1 = Result.ok () ∧
    (resolve_names 8 0 prog_forward State.fresh).2.var 200 = ⟨true, 0⟩ ∧
    ∀ bi ∈ blocks none (Node.Program 0 prog_forward),
      ∀ r ∈ refs Scope.top (Node.Program 0 prog_forward),
        r.owner = some bi.addr → r.in_init = false → r.name ∈ bi.decls.flatMap Prod.snd →
        (resolve_names 8 0 prog_forward State.fresh).2.var r.addr =
          ⟨true, ((local_names
            ((resolve_names 8 0 prog_forward State.fresh).2.block bi.addr)).indexOf r.name
            : Nat)⟩ ∧
        ((resolve_names 8 0 prog_forward State.fresh).2.block bi.addr).local_info[
          (local_names
            ((resolve_names 8 0 prog_forward State.fresh).2.block bi.addr)).indexOf r.name]? =
            some ⟨r.name⟩ :=
  ⟨fresh_tree_of_nodup _ _ (by decide) (by decide) (by decide), by decide, by decide,
    by decide,
    hoisted_reference_local 8 0 prog_forward State.fresh
      (fresh_tree_of_nodup _ _ (by decide) (by decide) (by decide)) (by decide) (by decide)⟩

/-- C7: when the resolver visits successfully a function literal with
parameters `p_0 .. p_{k-1}` whose body block record is empty, the body's
`local_info` has `p_i` at index `i` for every `i < k`, the parameter
declare-list gets `start_index` 0, and every declare-list statement directly
in the body gets a `start_index ≥ k`: the locals of the body are exactly the
parameters, in order, followed by the names of the body's declare-lists. -/
theorem parameters_first (fuel : Nat) (args : Option (Addr × List PairType)) (b : Addr)
    (stmts : List Node) (s : State) (hempty : s.block b = {})
    (hbn : (block_addrs s.cur_block (Node.E_Func args b stmts)).Nodup)
    (hdn : (decl_addrs s.cur_block (Node.E_Func args b stmts)).Nodup)
    (hok : (Resolver.visit fuel (Node.E_Func args b stmts) s).1 = Result.ok ()) :
    (∀ (i : Nat) (p : ustring), (param_names args)[i]? = some p →
      ((Resolver.visit fuel (Node.E_Func args b stmts) s).2.block b).local_info[i]? =
        some ⟨p⟩) ∧
    (∀ d decls, args = some (d, decls) →
      ((Resolver.visit fuel (Node.E_Func args b stmts) s).2.decl d).start_index = 0) ∧
    (∀ d names, (d, names) ∈ direct_decls stmts →
      ((param_names args).length : Int) ≤
        ((Resolver.visit fuel (Node.E_Func args b stmts) s).2.decl d).start_index) ∧
    local_names ((Resolver.visit fuel (Node.E_Func args b stmts) s).2.block b) =
      param_names args ++ hoisted stmts := by
  obtain ⟨h1, h2, h3⟩ := visit_func_locals fuel args b stmts s hempty hbn hdn hok
  refine ⟨?_, h2, ?_, h1⟩
  · intro i p hi
    have hlt := (List.getElem?_eq_some_iff.1 hi).1
    have : (local_names ((Resolver.visit fuel (Node.E_Func args b stmts) s).2.block b))[i]? =
        some p := by
      rw [h1, List.getElem?_append_left hlt]; exact hi
    simp only [local_names, List.getElem?_map] at this
    cases hx : ((Resolver.visit fuel (Node.E_Func args b stmts) s).2.block b).local_info[i]? with
    | none => simp [hx] at this
    | some x =>
      simp only [hx, Option.map_some', Option.some.injEq] at this
      cases x
      simp_all
  · intro d names hmem
    obtain ⟨i, hi⟩ := List.getElem?_of_mem hmem
    rw [h3 i d names hi]
    push_cast
    omega

/-- Witness for C7: `fn(p, q = 1) { var x; var y, z; }` visited in a fresh
state with the program block current. -/
theorem parameters_first_witness :
    (({ State.fresh with cur_block := some 0 } : State).block 1 = {}) ∧
    (Resolver.visit 8 func_two_params { State.fresh with cur_block := some 0 }).1 =
      Result.ok () ∧
    ((Resolver.visit 8 func_two_params { State.fresh with cur_block := some 0 }).2.block
      1).local_info = [⟨"p"⟩, ⟨"q"⟩, ⟨"x"⟩, ⟨"y"⟩, ⟨"z"⟩] ∧
    ((Resolver.visit 8 func_two_params { State.fresh with cur_block := some 0 }).2.decl
      102).start_index = 3 ∧
    ((∀ (i : Nat) (p : ustring),
      (param_names (some (100, [("p", none), ("q", some (Node.E_Int 1))])))[i]? = some p →
      ((Resolver.visit 8 func_two_params
        { State.fresh with cur_block := some 0 }).2.block 1).local_info[i]? = some ⟨p⟩) ∧
    (∀ d decls, some (100, [("p", none), ("q", some (Node.E_Int 1))]) = some (d, decls) →
      ((Resolver.visit 8 func_two_params
        { State.fresh with cur_block := some 0 }).2.decl d).start_index = 0) ∧
    (∀ d names, (d, names) ∈ direct_decls [Node.S_DeclareList 101 [("x", none)],
        Node.S_DeclareList 102 [("y", none), ("z", none)]] →
      ((param_names (some (100, [("p", none), ("q", some (Node.E_Int 1))]))).length : Int) ≤
        ((Resolver.visit 8 func_two_params
          { State.fresh with cur_block := some 0 }).2.decl d).start_index) ∧
    local_names ((Resolver.visit 8 func_two_params
        { State.fresh with cur_block := some 0 }).2.block 1) =
      param_names (some (100, [("p", none), ("q", some (Node.E_Int 1))])) ++
        hoisted [Node.S_DeclareList 101 [("x", none)],
          Node.S_DeclareList 102 [("y", none), ("z", none)]]) :=
  ⟨rfl, by decide, by decide, by decide,
    parameters_first 8 (some (100, [("p", none), ("q", some (Node.E_Int 1))])) 1
      [Node.S_DeclareList 101 [("x", none)], Node.S_DeclareList 102 [("y", none), ("z", none)]]
      { State.fresh with cur_block := some 0 } rfl (by decide) (by decide) (by decide)⟩

/-- C8: after `resolve_names` succeeds on a fresh program, two variable
references with the same name that are both stamped non-local in the same
owning block carry the same index, and for every block `B` of the program
`B.nonlocal_indexes.size()` is the number of distinct names of the references
stamped non-local with `B` as owning block. -/
theorem one_slot_per_name (fuel : Nat) (b : Addr) (stmts : List Node) (s : State)
    (hf : FreshTree s b stmts)
    (hfuel : (block_addrs none (Node.Program b stmts)).length ≤ fuel)
    (hok : (resolve_names fuel b stmts s).1 = Result.ok ()) :
    (∀ r1 ∈ refs Scope.top (Node.Program b stmts),
      ∀ r2 ∈ refs Scope.top (Node.Program b stmts),
        r1.name = r2.name → r1.owner = r2.owner →
        ((resolve_names fuel b stmts s).2.var r1.addr).is_local = false →
        ((resolve_names fuel b stmts s).2.var r2.addr).is_local = false →
        ((resolve_names fuel b stmts s).2.var r1.addr).index =
          ((resolve_names fuel b stmts s).2.var r2.addr).index) ∧
    (∀ bi ∈ blocks none (Node.Program b stmts),
      ((resolve_names fuel b stmts s).2.block bi.addr).nonlocal_indexes.length =
        (nonlocal_names (resolve_names fuel b stmts s).2
          (refs Scope.top (Node.Program b stmts)) bi.addr).length) := by
  obtain ⟨hres, hall⟩ := resolve_names_resolved fuel b stmts s hf hfuel hok
  refine ⟨?_, ?_⟩
  · intro r1 hr1 r2 hr2 hname hown hl1 hl2
    obtain ⟨hst1, hh1, _⟩ := hall r1 hr1
    obtain ⟨hst2, hh2, _⟩ := hall r2 hr2
    obtain ⟨B1, hB1, _, hn1⟩ := stamped_facts hst1 hh1
    obtain ⟨B2, hB2, _, hn2⟩ := stamped_facts hst2 hh2
    obtain ⟨_, k1, _, _, hv1, _, hf1, _⟩ := hn1 hl1
    obtain ⟨_, k2, _, _, hv2, _, hf2, _⟩ := hn2 hl2
    have hB : B1 = B2 := Option.some.inj (hB1.symm.trans (hown.trans hB2))
    subst hB
    rw [hname, hf2] at hf1
    rw [hv1, hv2]
    simpa using (Option.some.inj hf1).symm
  · intro bi hbi
    have hd := hres.blocks bi hbi
    have hlen : ((resolve_names fuel b stmts s).2.block bi.addr).nonlocal_indexes.length =
        (((resolve_names fuel b stmts s).2.block bi.addr).name_to_nonlocal_index.map
          Prod.fst).length := by
      have := congrArg List.length hd.values
      simp only [List.length_map, List.length_range] at this
      simp [this]
    rw [hlen]
    apply List.Perm.length_eq
    refine (List.perm_ext_iff_of_nodup hd.keys (by
      unfold nonlocal_names; exact List.nodup_dedup _)).2 ?_
    intro name
    rw [hd.captured name]
    simp only [nonlocal_names, List.mem_dedup, List.mem_map, List.mem_filter,
      Bool.and_eq_true, decide_eq_true_eq, Bool.not_eq_true']
    constructor
    · rintro ⟨r, hr, hown, hn, hnot⟩
      refine ⟨r, ⟨hr, hown, ?_⟩, hn⟩
      obtain ⟨hst, hh, _⟩ := hall r hr
      obtain ⟨_, _, hl, _⟩ := stamped_facts hst hh
      cases hloc : ((resolve_names fuel b stmts s).2.var r.addr).is_local with
      | false => rfl
      | true => exact absurd (hl hloc).1 hnot
    · rintro ⟨r, ⟨hr, hown, hloc⟩, hn⟩
      obtain ⟨hst, hh, _⟩ := hall r hr
      obtain ⟨_, _, _, hnl⟩ := stamped_facts hst hh
      exact ⟨r, hr, hown, hn, (hnl hloc).1⟩

/-- Witness for C8: in `var a; var b; fn() { a; b; a; };` the function body
has two capture slots and both references to `a` carry index 0. -/
theorem one_slot_per_name_witness :
    FreshTree State.fresh 0 prog_two_captures ∧
    (block_addrs none (Node.Program 0 prog_two_captures)).length ≤ 8 ∧
    (resolve_names 8 0 prog_two_captures State.fresh).1 = Result.ok () ∧
    (resolve_names 8 0 prog_two_captures State.fresh).2.var 200 = ⟨false, 0⟩ ∧
    (resolve_names 8 0 prog_two_captures State.fresh).2.var 201 = ⟨false, 1⟩ ∧
    (resolve_names 8 0 prog_two_captures State.fresh).2.var 202 = ⟨false, 0⟩ ∧
    ((resolve_names 8 0 prog_two_captures State.fresh).2.block 1).nonlocal_indexes.length = 2 ∧
    ((∀ r1 ∈ refs Scope.top (Node.Program 0 prog_two_captures),
      ∀ r2 ∈ refs Scope.top (Node.Program 0 prog_two_captures),
        r1.name = r2.name → r1.owner = r2.owner →
        ((resolve_names 8 0 prog_two_captures State.fresh).2.var r1.addr).is_local = false →
        ((resolve_names 8 0 prog_two_captures State.fresh).2.var r2.addr).is_local = false →
        ((resolve_names 8 0 prog_two_captures State.fresh).2.var r1.addr).index =
          ((resolve_names 8 0 prog_two_captures State.fresh).2.var r2.addr).index) ∧
    (∀ bi ∈ blocks none (Node.Program 0 prog_two_captures),
      ((resolve_names 8 0 prog_two_captures State.fresh).2.block bi.addr).nonlocal_indexes.length =
        (nonlocal_names (resolve_names 8 0 prog_two_captures State.fresh).2
          (refs Scope.top (Node.Program 0 prog_two_captures)) bi.addr).length)) :=
  ⟨fresh_tree_of_nodup _ _ (by decide) (by decide) (by decide), by decide, by decide,
    by decide, by decide, by decide, by decide,
    one_slot_per_name 8 0 prog_two_captures State.fresh
      (fresh_tree_of_nodup _ _ (by decide) (by decide) (by decide)) (by decide) (by decide)⟩

/-- C9: `add_declarations_to_block_attr` keeps the local-table invariant
(the map sends exactly the names of `local_info` to their positions, and the
names are pairwise distinct) whether it returns or throws; and after any
sequence of resolver calls, each with any outcome, started from empty
attribute records, every block satisfies the invariant. -/
theorem local_table_invariant_kept (attr : S_Block.AttrType) (decls : List PairType)
    (h : LocalTableInv attr) :
    LocalTableInv (add_declarations_to_block_attr attr decls).2.1 ∧
    ∀ (fuel : Nat) (calls : List ResolverCall) (b : Addr),
      LocalTableInv ((run_calls fuel calls State.fresh).block b) :=
  ⟨add_declarations_inv attr decls h,
    fun fuel calls b => run_calls_inv fuel calls State.fresh (fun _ => LocalTableInv.empty_inv) b⟩

/-- Witness for C9: the empty record and the declare-list `var x, x`, on
which the call throws. -/
theorem local_table_invariant_kept_witness :
    LocalTableInv {} ∧
    (add_declarations_to_block_attr {} [("x", none), ("x", none)]).1 =
      Result.throw (Exception.DuplicatedLocalName "x") ∧
    LocalTableInv (add_declarations_to_block_attr {} [("x", none), ("x", none)]).2.1 ∧
    ∀ (fuel : Nat) (calls : List ResolverCall) (b : Addr),
      LocalTableInv ((run_calls fuel calls State.fresh).block b) :=
  ⟨LocalTableInv.empty_inv, by decide,
    local_table_invariant_kept {} [("x", none), ("x", none)] LocalTableInv.empty_inv⟩

/-- C10: when `add_declarations_to_block_attr` returns normally,
`start_index` is the number of locals before the call, `local_info` is the
old `local_info` followed by the declared names in source order (so slot
`start_index + i` holds the `i`-th name), and every earlier local keeps its
slot and its map entry.  The same holds for the record of `block` and the
attribute of the declare-list after a successful
`resolve_names_in_block(block, decls)`, for an initial record `attr` of the
block, when `block` and the declare-list are not themselves nested inside the
declare-list's initialisers. -/
theorem declarations_appended (attr : S_Block.AttrType) (decls : List PairType)
    (h : (add_declarations_to_block_attr attr decls).1 = Result.ok ()) :
    Appended attr decls (add_declarations_to_block_attr attr decls).2.1
      (add_declarations_to_block_attr attr decls).2.2 ∧
    ∀ (fuel : Nat) (block d : Addr) (s : State),
      s.block block = attr →
      block ∉ block_addrs (some block) (Node.S_DeclareList d decls) →
      d ∉ decl_addrs (some block) (Node.S_DeclareList d decls) →
      (resolve_names_in_block fuel block (Node.S_DeclareList d decls) s).1 = Result.ok () →
      Appended attr decls
        ((resolve_names_in_block fuel block (Node.S_DeclareList d decls) s).2.block block)
        ((resolve_names_in_block fuel block (Node.S_DeclareList d decls) s).2.decl d) := by
  refine ⟨add_declarations_appended attr decls h, ?_⟩
  intro fuel block d s hs hb hd hok
  subst hs
  exact resolve_names_in_block_appended fuel block d decls s hb hd hok

/-- Witness for C10: after `var a;` in a fresh program block, the declare-list
`var b = a, c;` is added from slot 1 on, by `add_declarations_to_block_attr`
and by `resolve_names_in_block`. -/
theorem declarations_appended_witness :
    (add_declarations_to_block_attr (push_local {} "a")
      [("b", some (Node.E_Var 200 "a")), ("c", none)]).1 = Result.ok () ∧
    (resolve_names_in_block 8 0 (Node.S_DeclareList 100 [("a", none)]) State.fresh).2.block 0 =
      push_local {} "a" ∧
    (resolve_names_in_block 8 0
      (Node.S_DeclareList 101 [("b", some (Node.E_Var 200 "a")), ("c", none)])
      (resolve_names_in_block 8 0 (Node.S_DeclareList 100 [("a", none)]) State.fresh).2).1 =
      Result.ok () ∧
    ((resolve_names_in_block 8 0
      (Node.S_DeclareList 101 [("b", some (Node.E_Var 200 "a")), ("c", none)])
      (resolve_names_in_block 8 0 (Node.S_DeclareList 100 [("a", none)])
        State.fresh).2).2.block 0).local_info = [⟨"a"⟩, ⟨"b"⟩, ⟨"c"⟩] ∧
    ((resolve_names_in_block 8 0
      (Node.S_DeclareList 101 [("b", some (Node.E_Var 200 "a")), ("c", none)])
      (resolve_names_in_block 8 0 (Node.S_DeclareList 100 [("a", none)])
        State.fresh).2).2.decl 101).start_index = 1 ∧
    (Appended (push_local {} "a") [("b", some (Node.E_Var 200 "a")), ("c", none)]
      (add_declarations_to_block_attr (push_local {} "a")
        [("b", some (Node.E_Var 200 "a")), ("c", none)]).2.1
      (add_declarations_to_block_attr (push_local {} "a")
        [("b", some (Node.E_Var 200 "a")), ("c", none)]).2.2 ∧
    ∀ (fuel : Nat) (block d : Addr) (s : State),
      s.block block = push_local {} "a" →
      block ∉ block_addrs (some block)
        (Node.S_DeclareList d [("b", some (Node.E_Var 200 "a")), ("c", none)]) →
      d ∉ decl_addrs (some block)
        (Node.S_DeclareList d [("b", some (Node.E_Var 200 "a")), ("c", none)]) →
      (resolve_names_in_block fuel block
        (Node.S_DeclareList d [("b", some (Node.E_Var 200 "a")), ("c", none)]) s).1 =
        Result.ok () →
      Appended (push_local {} "a") [("b", some (Node.E_Var 200 "a")), ("c", none)]
        ((resolve_names_in_block fuel block
          (Node.S_DeclareList d [("b", some (Node.E_Var 200 "a")), ("c", none)]) s).2.block block)
        ((resolve_names_in_block fuel block
          (Node.S_DeclareList d [("b", some (Node.E_Var 200 "a")), ("c", none)]) s).2.decl d)) :=
  ⟨by decide, by decide, by decide, by decide, by decide,
    declarations_appended (push_local {} "a") [("b", some (Node.E_Var 200 "a")), ("c", none)]
      (by decide)⟩


/-! ## The current-block pointer -/

/-- A scope whose current block is the given one. -/
theorem exists_scope_cur (o : Option Addr) : ∃ sc : Scope, sc.cur = o := by
  cases o with
  | none => exact ⟨[], rfl⟩
  | some c => exact ⟨[⟨c, [], false⟩], rfl⟩

/-- Every visit leaves `cur_block` as it found it, whatever its outcome. -/
theorem visit_cur_block (fuel : Nat) (n : Node) (s : State) :
    (Resolver.visit fuel n s).2.cur_block = s.cur_block := by
  obtain ⟨sc, hsc⟩ := exists_scope_cur s.cur_block
  exact (visit_touches fuel n sc s hsc).cur

/-! ## A failed declaration -/

/-- The loop of `add_declarations_to_block_attr` stops at the first name that
the map already has or that occurred earlier in the list, and keeps what it
added before. -/
theorem add_declarations_loop_stops (pre : List PairType) (bad : PairType)
    (post : List PairType) :
    ∀ (attr : S_Block.AttrType),
      (∀ name ∈ decl_names pre, map_find attr.name_to_local_index name = none) →
      (decl_names pre).Nodup →
      ((map_find attr.name_to_local_index bad.1).isSome = true ∨ bad.1 ∈ decl_names pre) →
      (add_declarations_loop attr (pre ++ bad :: post)).1 =
        Result.throw (Exception.DuplicatedLocalName bad.1) ∧
      (add_declarations_loop attr (pre ++ bad :: post)).2.local_info =
        attr.local_info ++ (decl_names pre).map VarInfo.mk ∧
      (∀ (i : Nat) (name : ustring), (decl_names pre)[i]? = some name →
        map_find (add_declarations_loop attr (pre ++ bad :: post)).2.name_to_local_index name =
          some ((attr.local_info.length + i : Nat) : Int)) := by
  induction pre with
  | nil =>
    intro attr _ _ hbad
    have hs : (map_find attr.name_to_local_index bad.1).isSome = true := by
      rcases hbad with h | h
      · exact h
      · simp [decl_names] at h
    obtain ⟨v, hv⟩ := Option.isSome_iff_exists.1 hs
    simp [add_declarations_loop, hv, decl_names]
  | cons p pre ih =>
    intro attr hpre hnd hbad
    have hp : map_find attr.name_to_local_index p.1 = none :=
      hpre p.1 (by simp [decl_names])
    have hnd' : p.1 ∉ decl_names pre ∧ (decl_names pre).Nodup := by
      simpa [decl_names] using hnd
    have hstep : add_declarations_loop attr ((p :: pre) ++ bad :: post) =
        add_declarations_loop (push_local attr p.1) (pre ++ bad :: post) := by
      simp [add_declarations_loop, hp]
    have hfind : ∀ name, map_find (push_local attr p.1).name_to_local_index name =
        if p.1 = name then some (attr.local_info.length : Int)
        else map_find attr.name_to_local_index name := by
      intro name
      simp only [push_local]
      exact map_find_emplace_absent _ _ _ _ hp
    obtain ⟨h1, h2, h3⟩ := ih (push_local attr p.1)
      (by
        intro name hname
        rw [hfind]
        have : p.1 ≠ name := fun h => hnd'.1 (h ▸ hname)
        simp only [this, if_false]
        exact hpre name (by simp only [decl_names, List.map_cons, List.mem_cons] at hname ⊢
                            exact Or.inr hname))
      hnd'.2
      (by
        by_cases hpb : p.1 = bad.1
        · left; rw [hfind]; simp [hpb]
        · rcases hbad with h | h
          · left; rw [hfind]; simp only [hpb, if_false]; exact h
          · right
            simp only [decl_names, List.map_cons, List.mem_cons] at h
            rcases h with h | h
            · exact absurd h.symm hpb
            · exact h)
    rw [hstep]
    refine ⟨h1, ?_, ?_⟩
    · rw [h2]; simp [push_local, decl_names]
    · intro i name hi
      cases i with
      | zero =>
        have hname : p.1 = name := by simpa [decl_names] using hi
        have := add_declarations_loop_keeps (push_local attr p.1) (pre ++ bad :: post) name
          (attr.local_info.length : Int) (by rw [hfind]; simp [hname])
        simpa using this
      | succ i =>
        have hi' : (decl_names pre)[i]? = some name := by simpa [decl_names] using hi
        have := h3 i name hi'
        rw [this]
        simp [push_local]
        omega

/-! ## Capture entries -/

/-- With distinct keys, `map_find` returns the value of the pair that holds
the key. -/
theorem map_find_of_getElem? (m : NameMap) (hk : (m.map Prod.fst).Nodup) :
    ∀ (k : Nat) (name : ustring) (v : Int), m[k]? = some (name, v) → map_find m name = some v := by
  induction m with
  | nil => intro k name v h; simp at h
  | cons p m ih =>
    intro k name v h
    obtain ⟨key, w⟩ := p
    simp only [List.map_cons, List.nodup_cons] at hk
    cases k with
    | zero =>
      simp only [List.getElem?_cons_zero, Option.some.injEq, Prod.mk.injEq] at h
      simp [map_find, h.1, h.2]
    | succ k =>
      simp only [List.getElem?_cons_succ] at h
      have hmem : name ∈ m.map Prod.fst :=
        List.mem_map.2 ⟨(name, v), List.getElem?_mem h, rfl⟩
      have hne : key ≠ name := fun hc => hk.1 (hc ▸ hmem)
      simp only [map_find, hne, if_false]
      exact ih hk.2 k name v h

/-- In a resolved program, the `k`-th pair of `name_to_nonlocal_index` of a
block is a name with the value `k`, and the `k`-th capture entry is a local
of that name in some block. -/
theorem capture_entry_at {s : State} {R : List Ref} {B : List BlockInfo}
    (hres : Resolved s R B) (hh : ∀ r ∈ R, HeapScope s r.scope) :
    ∀ bi ∈ B, ∀ (k : Nat) (name : ustring) (v : Int),
      (s.block bi.addr).name_to_nonlocal_index[k]? = some (name, v) →
      v = (k : Int) ∧ k < (s.block bi.addr).nonlocal_indexes.length ∧
      ∃ (T : Addr) (i : Nat),
        (s.block bi.addr).nonlocal_indexes[k]? = some ⟨some T, (i : Int)⟩ ∧
        (s.block T).local_info[i]? = some ⟨name⟩ := by
  intro bi hbi k name v hk
  have hd := hres.blocks bi hbi
  have hv : ((s.block bi.addr).name_to_nonlocal_index.map Prod.snd)[k]? = some v := by
    simp [List.getElem?_map, hk]
  rw [hd.values] at hv
  simp only [List.getElem?_map] at hv
  have hlt : k < (s.block bi.addr).nonlocal_indexes.length := by
    by_contra hc
    rw [List.getElem?_eq_none (by simpa using hc)] at hv
    simp at hv
  have hvk : v = (k : Int) := by
    rw [List.getElem?_range hlt] at hv
    simpa using hv.symm
  have hfind := map_find_of_getElem? _ hd.keys k name v hk
  have hkey : name ∈ (s.block bi.addr).name_to_nonlocal_index.map Prod.fst :=
    List.mem_map.2 ⟨(name, v), List.getElem?_mem hk, rfl⟩
  obtain ⟨r, hr, hown, hname, hnot⟩ := (hd.captured name).1 hkey
  obtain ⟨B', hB', hl, hn⟩ := stamped_facts (hres.stamped r hr) (hh r hr)
  have hBe : B' = bi.addr := Option.some.inj (hB'.symm.trans hown)
  subst hBe
  have hloc : (s.var r.addr).is_local = false := by
    cases hc : (s.var r.addr).is_local with
    | false => rfl
    | true => exact absurd (hl hc).1 hnot
  obtain ⟨_, k', T, i, _, hget, hf, _, hT, _⟩ := hn hloc
  rw [hname, hfind, hvk] at hf
  have hkk : k = k' := by simpa using hf
  subst hkk
  exact ⟨hvk, hlt, T, i, hget, hname ▸ hT⟩

/-! ## Parent pointers -/

theorem lexical_blocks_each_eq (encl host : Option Addr) (l : List Node) :
    lexical_blocks_each encl host l = l.flatMap (lexical_blocks encl host) := by
  induction l with
  | nil => simp [lexical_blocks_each]
  | cons n l ih => simp [lexical_blocks_each, ih]

theorem lexical_blocks_pairs_eq (encl host : Option Addr) (decls : List PairType) :
    lexical_blocks_pairs encl host decls =
      lexical_blocks_each encl host (initialisers decls) := by
  induction decls with
  | nil => simp [lexical_blocks_pairs, lexical_blocks_each, initialisers]
  | cons p rest ih =>
    obtain ⟨name, init⟩ := p
    cases init with
    | none => simpa [lexical_blocks_pairs, initialisers] using ih
    | some x =>
      simp only [lexical_blocks_pairs, initialisers, List.filterMap_cons_some,
        lexical_blocks_each]
      rw [ih]; rfl

theorem lexical_blocks_of_seq (encl host : Option Addr) (n : Node) (h : n.is_seq = true) :
    lexical_blocks encl host n = lexical_blocks_each encl host n.kids := by
  cases n with
  | S_Block _ _ => simp [Node.is_seq] at h
  | Program _ _ => simp [Node.is_seq] at h
  | E_Var _ _ => simp [Node.is_seq] at h
  | E_Func _ _ _ => simp [Node.is_seq] at h
  | S_DeclareList d decls => simp [lexical_blocks, Node.kids, lexical_blocks_pairs_eq]
  | S_Condition c t e =>
    cases e <;> simp [lexical_blocks, Node.kids, lexical_blocks_each]
  | S_While c b => simp [lexical_blocks, Node.kids, lexical_blocks_each]
  | S_Return v => cases v <;> simp [lexical_blocks, Node.kids, lexical_blocks_each]
  | S_Exp v => simp [lexical_blocks, Node.kids, lexical_blocks_each]
  | E_Op _ args => simp [lexical_blocks, Node.kids]
  | E_List value => simp [lexical_blocks, Node.kids]
  | S_Break => simp [lexical_blocks, Node.kids, lexical_blocks_each]
  | S_Continue => simp [lexical_blocks, Node.kids, lexical_blocks_each]
  | S_Empty => simp [lexical_blocks, Node.kids, lexical_blocks_each]
  | E_Bool _ => simp [lexical_blocks, Node.kids, lexical_blocks_each]
  | E_Int _ => simp [lexical_blocks, Node.kids, lexical_blocks_each]
  | E_Float _ => simp [lexical_blocks, Node.kids, lexical_blocks_each]
  | E_String _ => simp [lexical_blocks, Node.kids, lexical_blocks_each]
  | E_Null => simp [lexical_blocks, Node.kids, lexical_blocks_each]

theorem lexical_blocks_func (encl host : Option Addr) (args : Option (Addr × List PairType))
    (b : Addr) (stmts : List Node) :
    lexical_blocks encl host (Node.E_Func args b stmts) =
      ⟨b, encl, host⟩ ::
        (lexical_blocks_each encl (some b) (param_initialisers args) ++
          lexical_blocks_each (some b) none stmts) := by
  cases args with
  | none => simp [lexical_blocks, param_initialisers, lexical_blocks_each]
  | some a =>
    obtain ⟨d, decls⟩ := a
    simp [lexical_blocks, lexical_blocks_pairs_eq, param_initialisers]

/-- The parent recorded for a block by `blocks` is the block in which the
resolver reaches it according to the lexical position. -/
theorem blocks_lexical (n : Node) :
    ∀ (encl host : Option Addr),
      (blocks (LexInfo.reached_in ⟨0, encl, host⟩) n).map (fun bi => (bi.addr, bi.parent)) =
        (lexical_blocks encl host n).map (fun lb => (lb.addr, lb.reached_in)) := by
  have each : ∀ (l : List Node),
      (∀ k ∈ l, ∀ (encl host : Option Addr),
        (blocks (LexInfo.reached_in ⟨0, encl, host⟩) k).map (fun bi => (bi.addr, bi.parent)) =
          (lexical_blocks encl host k).map (fun lb => (lb.addr, lb.reached_in))) →
      ∀ (encl host : Option Addr),
        (blocks_each (LexInfo.reached_in ⟨0, encl, host⟩) l).map
            (fun bi => (bi.addr, bi.parent)) =
          (lexical_blocks_each encl host l).map (fun lb => (lb.addr, lb.reached_in)) := by
    intro l
    induction l with
    | nil => intro _ encl host; simp [blocks_each, lexical_blocks_each]
    | cons k l ih =>
      intro h encl host
      simp only [blocks_each, lexical_blocks_each, List.map_append]
      rw [h k (List.mem_cons_self _ _) encl host,
        ih (fun k' hk' => h k' (List.mem_cons_of_mem _ hk')) encl host]
  induction n using Node.induction_kinds with
  | var v name => intro encl host; simp [blocks, lexical_blocks]
  | block b stmts ih =>
    intro encl host
    simp only [blocks, lexical_blocks, List.map_cons]
    have := each stmts ih (some b) none
    simp only [LexInfo.reached_in] at this ⊢
    rw [this]
  | program b stmts ih =>
    intro encl host
    simp only [blocks, lexical_blocks, List.map_cons]
    have := each stmts ih (some b) none
    simp only [LexInfo.reached_in] at this ⊢
    rw [this]
  | func args b stmts ihi ih =>
    intro encl host
    rw [blocks_func, lexical_blocks_func]
    simp only [List.map_cons, List.map_append]
    have h1 := each (param_initialisers args) ihi encl (some b)
    have h2 := each stmts ih (some b) none
    simp only [LexInfo.reached_in] at h1 h2 ⊢
    rw [h1, h2]
  | seq n hseq ih =>
    intro encl host
    rw [blocks_of_seq _ n hseq, lexical_blocks_of_seq _ _ n hseq]
    exact each n.kids ih encl host
/-- In the list of the blocks of a sequence of nodes, the block in which a
block is reached is the one given for the sequence, or an earlier block of
the list. -/
theorem parent_earlier_each (l : List Node)
    (h : ∀ k ∈ l, ∀ (cur : Option Addr) (l1 : List BlockInfo) (bi : BlockInfo)
      (l2 : List BlockInfo), blocks cur k = l1 ++ bi :: l2 →
        bi.parent = cur ∨ ∃ bj ∈ l1, bi.parent = some bj.addr) :
    ∀ (cur : Option Addr) (l1 : List BlockInfo) (bi : BlockInfo) (l2 : List BlockInfo),
      blocks_each cur l = l1 ++ bi :: l2 →
        bi.parent = cur ∨ ∃ bj ∈ l1, bi.parent = some bj.addr := by
  induction l with
  | nil => intro cur l1 bi l2 he; simp [blocks_each] at he
  | cons k l ih =>
    intro cur l1 bi l2 he
    simp only [blocks_each] at he
    rcases List.append_eq_append_iff.1 he with ⟨a', h1, h2⟩ | ⟨c', h1, h2⟩
    · rcases ih (fun k' hk' => h k' (List.mem_cons_of_mem _ hk')) cur a' bi l2 h2 with
        hp | ⟨bj, hbj, hp⟩
      · exact Or.inl hp
      · exact Or.inr ⟨bj, by rw [h1]; exact List.mem_append_right _ hbj, hp⟩
    · cases c' with
      | nil =>
        rcases ih (fun k' hk' => h k' (List.mem_cons_of_mem _ hk')) cur [] bi l2
          (by simpa using h2.symm) with hp | ⟨bj, hbj, _⟩
        · exact Or.inl hp
        · simp at hbj
      | cons x c'' =>
        simp only [List.cons_append, List.cons.injEq] at h2
        obtain ⟨hx, _⟩ := h2
        subst hx
        exact h k (List.mem_cons_self _ _) cur l1 bi c'' h1

/-- In the list of the blocks of a subtree, the block in which a block is
reached is the one given for the subtree, or an earlier block of the list. -/
theorem parent_earlier (n : Node) :
    ∀ (cur : Option Addr) (l1 : List BlockInfo) (bi : BlockInfo) (l2 : List BlockInfo),
      blocks cur n = l1 ++ bi :: l2 →
        bi.parent = cur ∨ ∃ bj ∈ l1, bi.parent = some bj.addr := by
  have under : ∀ (b : Addr) (cur : Option Addr) (hd : BlockInfo) (tl : List BlockInfo),
      hd.addr = b → hd.parent = cur →
      (∀ (l1 : List BlockInfo) (bi : BlockInfo) (l2 : List BlockInfo),
        tl = l1 ++ bi :: l2 → bi.parent = some b ∨ ∃ bj ∈ l1, bi.parent = some bj.addr) →
      ∀ (l1 : List BlockInfo) (bi : BlockInfo) (l2 : List BlockInfo),
        hd :: tl = l1 ++ bi :: l2 →
          bi.parent = cur ∨ ∃ bj ∈ l1, bi.parent = some bj.addr := by
    intro b cur hd tl hb hc htl l1 bi l2 he
    cases l1 with
    | nil =>
      simp only [List.nil_append, List.cons.injEq] at he
      exact Or.inl (he.1 ▸ hc)
    | cons x l1' =>
      simp only [List.cons_append, List.cons.injEq] at he
      obtain ⟨hx, he'⟩ := he
      subst hx
      rcases htl l1' bi l2 he' with hp | ⟨bj, hbj, hp⟩
      · exact Or.inr ⟨hd, List.mem_cons_self _ _, by rw [hp, hb]⟩
      · exact Or.inr ⟨bj, List.mem_cons_of_mem _ hbj, hp⟩
  induction n using Node.induction_kinds with
  | var v name => intro cur l1 bi l2 he; simp [blocks] at he
  | block b stmts ih =>
    intro cur l1 bi l2 he
    rw [blocks_block] at he
    exact under b cur _ _ rfl rfl (parent_earlier_each stmts ih (some b)) l1 bi l2 he
  | program b stmts ih =>
    intro cur l1 bi l2 he
    simp only [blocks] at he
    exact under b cur _ _ rfl rfl (parent_earlier_each stmts ih (some b)) l1 bi l2 he
  | func args b stmts ihi ih =>
    intro cur l1 bi l2 he
    rw [blocks_func] at he
    have happ : blocks_each (some b) (param_initialisers args) ++ blocks_each (some b) stmts =
        blocks_each (some b) (param_initialisers args ++ stmts) := by
      simp [blocks_each_eq]
    rw [happ] at he
    refine under b cur _ _ rfl rfl
      (parent_earlier_each (param_initialisers args ++ stmts) ?_ (some b)) l1 bi l2 he
    intro k hk
    rcases List.mem_append.1 hk with hk | hk
    · exact ihi k hk
    · exact ih k hk
  | seq n hseq ih =>
    intro cur l1 bi l2 he
    rw [blocks_of_seq _ n hseq] at he
    exact parent_earlier_each n.kids ih cur l1 bi l2 he

/-- A chain of parent pointers goes on from each of its blocks. -/
theorem Chain.from_mid {blk : Addr → S_Block.AttrType} (pre : List Addr) :
    ∀ (o : Option Addr) (b : Addr) (rest : List Addr),
      Chain blk o (pre ++ b :: rest) → Chain blk (some b) (b :: rest) := by
  induction pre with
  | nil =>
    intro o b rest h
    exact ⟨rfl, h.2⟩
  | cons x pre ih =>
    intro o b rest h
    exact ih _ b rest h.2

/-- The chain of parent pointers from a block is determined by the block. -/
theorem Chain.unique_chain {blk : Addr → S_Block.AttrType} (p : List Addr) :
    ∀ (o : Option Addr) (q : List Addr), Chain blk o p → Chain blk o q → p = q := by
  induction p with
  | nil =>
    intro o q hp hq
    cases q with
    | nil => rfl
    | cons y q =>
      have h1 : o = none := hp
      have h2 : o = some y := hq.1
      rw [h1] at h2
      cases h2
  | cons x p ih =>
    intro o q hp hq
    cases q with
    | nil =>
      have h1 : o = none := hq
      have h2 : o = some x := hp.1
      rw [h1] at h2
      cases h2
    | cons y q =>
      have hxy : x = y := Option.some.inj (hp.1.symm.trans hq.1)
      subst hxy
      rw [ih _ q hp.2 hq.2]

/-- A chain of parent pointers that ends at null passes through no block
twice. -/
theorem Chain.nodup_chain {blk : Addr → S_Block.AttrType} (p : List Addr) :
    ∀ (o : Option Addr), Chain blk o p → p.Nodup := by
  induction p with
  | nil => intro _ _; exact List.nodup_nil
  | cons b rest ih =>
    intro o h
    refine List.nodup_cons.2 ⟨?_, ih _ h.2⟩
    intro hmem
    obtain ⟨pre, post, hsplit⟩ := List.append_of_mem hmem
    have h2 := h.2
    rw [hsplit] at h2
    have h3 : Chain blk (some b) (b :: post) := Chain.from_mid pre _ b post h2
    have h4 : Chain blk (some b) (b :: rest) := ⟨rfl, h.2⟩
    have := Chain.unique_chain _ _ _ h3 h4
    have hlen := congrArg List.length hsplit
    simp only [List.cons.injEq, true_and] at this
    rw [← this] at hlen
    simp at hlen
    omega

/-- When every block after the first of a list is reached in the first block
or in an earlier block of the list, and the parent pointers are set
accordingly, the parent chain of every block of the list ends at the first
block. -/
theorem chain_to_root {blk : Addr → S_Block.AttrType} (b : Addr) (tl : List BlockInfo)
    (hroot : (blk b).parent = none)
    (hpar : ∀ bi ∈ tl, (blk bi.addr).parent = bi.parent)
    (hE : ∀ (l1 : List BlockInfo) (bi : BlockInfo) (l2 : List BlockInfo),
      tl = l1 ++ bi :: l2 → bi.parent = some b ∨ ∃ bj ∈ l1, bi.parent = some bj.addr) :
    ∀ (n : Nat) (l1 : List BlockInfo) (bi : BlockInfo) (l2 : List BlockInfo),
      l1.length = n → tl = l1 ++ bi :: l2 →
      ∃ path, Chain blk (some bi.addr) path ∧ path.getLast? = some b := by
  intro n
  induction n using Nat.strong_induction_on with
  | _ n ih =>
    intro l1 bi l2 hlen he
    have hmem : bi ∈ tl := by rw [he]; simp
    rcases hE l1 bi l2 he with hp | ⟨bj, hbj, hp⟩
    · refine ⟨[bi.addr, b], ⟨rfl, ?_, ?_⟩, rfl⟩
      · rw [hpar bi hmem, hp]
      · exact hroot
    · obtain ⟨a, c, hsplit⟩ := List.append_of_mem hbj
      have hlt : a.length < n := by
        rw [← hlen, hsplit]; simp
      obtain ⟨path, hch, hlast⟩ := ih a.length hlt a bj (c ++ bi :: l2) rfl
        (by rw [he, hsplit]; simp)
      refine ⟨bi.addr :: path, ⟨rfl, ?_⟩, ?_⟩
      · rw [hpar bi hmem, hp]; exact hch
      · cases path with
        | nil =>
          have : some bj.addr = none := hch
          cases this
        | cons x path => simpa using hlast

/-! ## Duplicate parameters -/

theorem andThen_not_ok {r : Result Unit × State} (k : State → Result Unit × State)
    (h : r.1 ≠ Result.ok ()) : andThen r k = r := by
  obtain ⟨r1, s1⟩ := r
  cases r1 with
  | ok v => exact absurd rfl h
  | throw e => rfl
  | assert_fail => rfl
  | out_of_fuel => rfl

theorem andThen_is_ok {r : Result Unit × State} (k : State → Result Unit × State)
    (h : r.1 = Result.ok ()) : andThen r k = k r.2 := by
  obtain ⟨r1, s1⟩ := r
  simp only at h
  subst h
  rfl

/-- Visit of a function literal with a parameter list, fresh body block, and
a name that is declared twice among the parameters and the declare-list
statements of the body: when the visit of the parameter initialisers returns,
the visit of the function literal throws `DuplicatedLocalName`; otherwise it
ends as the visit of the initialisers does. -/
theorem visit_func_duplicate (fuel : Nat) (d : Addr) (decls : List PairType) (b : Addr)
    (stmts : List Node) (s : State) (hempty : s.block b = {})
    (hbI : b ∉ (blocks_each (some b) (initialisers decls)).map BlockInfo.addr)
    (hdup : (∃ name ∈ decl_names decls, name ∈ hoisted stmts) ∨ ¬ (decl_names decls).Nodup) :
    ((Resolver.visit_each fuel (initialisers decls) (Resolver.enter b s)).1 = Result.ok () →
      (Resolver.visit fuel (Node.E_Func (some (d, decls)) b stmts) s).1.threw_duplicated = true) ∧
    ((Resolver.visit_each fuel (initialisers decls) (Resolver.enter b s)).1 ≠ Result.ok () →
      (Resolver.visit fuel (Node.E_Func (some (d, decls)) b stmts) s).1 =
        (Resolver.visit_each fuel (initialisers decls) (Resolver.enter b s)).1) := by
  rw [visit_func_eq]
  simp only [Resolver.visit_args, RestoreOnExit]
  have ht := visit_each_touches fuel (initialisers decls) (fun m _ => visit_touches fuel m)
    [⟨b, [], true⟩] (Resolver.enter b s) rfl
  obtain ⟨_, hli, hmi, _⟩ := ht.block_cur b rfl hbI
  generalize Resolver.visit_each fuel (initialisers decls) (Resolver.enter b s) = r1 at *
  constructor
  · intro hok1
    rw [andThen_is_ok _ hok1]
    have hinv : LocalTableInv (r1.2.block b) :=
      LocalTableInv.of_empty _ (by rw [hli]; simp [Resolver.enter, hempty])
        (by rw [hmi]; simp [Resolver.enter, hempty])
    have hn0 : local_names (r1.2.block b) = [] := by
      simp only [local_names, hli]
      simp [Resolver.enter, hempty]
    have hiff := declare_ok_iff b d decls r1.2 hinv
    rw [hn0, List.nil_append] at hiff
    by_cases hnd : (decl_names decls).Nodup
    · have hok2 := hiff.2 hnd
      obtain ⟨sp1, _⟩ := declare_spec b d decls r1.2 hok2
      have hinv2 := declare_inv b d decls r1.2 hinv
      rw [andThen_is_ok _ (by exact hok2)]
      simp only [Resolver.visit_block, RestoreOnExit]
      generalize declare b d decls r1.2 = r2 at *
      have hnb : local_names ((Resolver.enter b { r2.2 with cur_block := s.cur_block }).block b) =
          decl_names decls := by
        have : local_names ((Resolver.enter b { r2.2 with cur_block := s.cur_block }).block b) =
            local_names (r2.2.block b) := by
          simp [Resolver.enter, local_names]
        rw [this, sp1, hn0, List.nil_append]
      have hinv3 : LocalTableInv
          ((Resolver.enter b { r2.2 with cur_block := s.cur_block }).block b) :=
        hinv2.congr_inv (by simp [Resolver.enter]) (by simp [Resolver.enter])
      have hh := hoist_ok_iff b stmts _ hinv3
      rw [hnb] at hh
      have hnot : (hoist_declarations b stmts
          (Resolver.enter b { r2.2 with cur_block := s.cur_block })).1 ≠ Result.ok () := by
        intro hc
        have hnd2 := hh.1 hc
        rcases hdup with ⟨name, h1, h2⟩ | h
        · exact (List.nodup_append.1 hnd2).2.2 h1 h2
        · exact h hnd
      rw [andThen_not_ok _ hnot]
      rcases hoist_outcome b stmts (Resolver.enter b { r2.2 with cur_block := s.cur_block }) with
        h | h
      · exact absurd h hnot
      · exact h
    · have hnot : (declare b d decls r1.2).1 ≠ Result.ok () := fun hc => hnd (hiff.1 hc)
      have hnot' : ((declare b d decls r1.2).1,
          ({ (declare b d decls r1.2).2 with cur_block := s.cur_block } : State)).1 ≠
            Result.ok () := hnot
      rw [andThen_not_ok _ hnot']
      rcases declare_outcome b d decls r1.2 with h | h
      · exact absurd h hnot
      · exact h
  · intro hnot
    rw [andThen_not_ok _ hnot]
    have hnot' : (r1.1, ({ r1.2 with cur_block := s.cur_block } : State)).1 ≠ Result.ok () := hnot
    rw [andThen_not_ok _ hnot']

/-! ## Resolving a resolved tree again -/

theorem upd_self {β : Type} (f : Addr → β) (a : Addr) : upd f a (f a) = f := by
  funext x
  by_cases h : x = a <;> simp [upd, h]

/-- Adding the declarations of a declare-list whose names the block already
has: nothing changes when the list is empty, and the call throws
`DuplicatedLocalName` otherwise. -/
theorem declare_replay (b d : Addr) (decls : List PairType) (s : State)
    (h : ∀ name ∈ decl_names decls,
      (map_find (s.block b).name_to_local_index name).isSome = true) :
    (decl_names decls = [] ∧ (declare b d decls s).1 = Result.ok () ∧
      (declare b d decls s).2.block = s.block ∧
      (declare b d decls s).2.cur_block = s.cur_block) ∨
    (decl_names decls ≠ [] ∧ (declare b d decls s).1.threw_duplicated = true) := by
  cases decls with
  | nil =>
    left
    refine ⟨rfl, rfl, ?_, rfl⟩
    simp only [declare, add_declarations_to_block_attr, add_declarations_loop]
    exact upd_self _ _
  | cons p rest =>
    right
    refine ⟨by simp [decl_names], ?_⟩
    obtain ⟨v, hv⟩ := Option.isSome_iff_exists.1 (h p.1 (by simp [decl_names]))
    simp [declare, add_declarations_to_block_attr, add_declarations_loop, hv,
      Result.threw_duplicated]

/-- The first loop of `visit_block` on a block that already has its hoisted
names. -/
theorem hoist_replay (b : Addr) (stmts : List Node) :
    ∀ (s : State),
      (∀ name ∈ hoisted stmts, (map_find (s.block b).name_to_local_index name).isSome = true) →
      (hoisted stmts = [] ∧ (hoist_declarations b stmts s).1 = Result.ok () ∧
        (hoist_declarations b stmts s).2.block = s.block ∧
        (hoist_declarations b stmts s).2.cur_block = s.cur_block) ∨
      (hoisted stmts ≠ [] ∧ (hoist_declarations b stmts s).1.threw_duplicated = true) := by
  induction stmts with
  | nil =>
    intro s _
    left
    exact ⟨rfl, rfl, rfl, rfl⟩
  | cons n rest ih =>
    intro s h
    rcases n.decl_or_other with ⟨d, decls, rfl⟩ | hn
    · rw [hoisted_cons_decl] at h ⊢
      simp only [hoist_declarations]
      rcases declare_replay b d decls s (fun name hname => h name (List.mem_append_left _ hname))
        with ⟨he, hok, hblk, hcur⟩ | ⟨hne, hdup⟩
      · rw [andThen_is_ok _ hok]
        rcases ih (declare b d decls s).2 (by
            intro name hname
            rw [hblk]
            exact h name (List.mem_append_right _ hname)) with
          ⟨he2, hok2, hblk2, hcur2⟩ | ⟨hne2, hdup2⟩
        · left
          exact ⟨by rw [he, he2]; rfl, hok2, hblk2.trans hblk, hcur2.trans hcur⟩
        · right
          exact ⟨by rw [he]; simpa using hne2, hdup2⟩
      · right
        have hnot : (declare b d decls s).1 ≠ Result.ok () := by
          intro hc
          rw [hc] at hdup
          simp [Result.threw_duplicated] at hdup
        rw [andThen_not_ok _ hnot]
        exact ⟨by simp [hne], hdup⟩
    · rw [hoisted_cons_other n rest hn] at h ⊢
      rw [hoist_cons_other b n rest s hn]
      exact ih s h

theorem Settled.sub {blk blk' : Addr → S_Block.AttrType} {R R' : List Ref}
    {B B' : List BlockInfo} (h : Settled blk R B) (hb : blk' = blk)
    (hR : ∀ r ∈ R', r ∈ R) (hB : ∀ bi ∈ B', bi ∈ B) : Settled blk' R' B' := by
  subst hb
  exact ⟨fun r hr => h.known r (hR r hr), fun bi hbi => h.parent bi (hB bi hbi),
    fun bi hbi => h.declared bi (hB bi hbi)⟩

/-- One replayed visit followed by another. -/
theorem Replayed.seq {s : State} {res : Result Unit × State} {k : State → Result Unit × State}
    {B1 B2 : List BlockInfo} (h1 : Replayed s res B1)
    (h2 : ∀ s1, s1.block = s.block → s1.cur_block = s.cur_block → Replayed s1 (k s1) B2) :
    Replayed s (andThen res k) (B1 ++ B2) := by
  rcases h1 with ⟨hok, hblk, hcur, hno⟩ | ⟨hdup, bi, hbi, hne⟩
  · rw [andThen_is_ok _ hok]
    rcases h2 res.2 hblk hcur with ⟨hok2, hblk2, hcur2, hno2⟩ | ⟨hdup2, bi, hbi, hne⟩
    · left
      refine ⟨hok2, hblk2.trans hblk, hcur2.trans hcur, ?_⟩
      intro bi hbi
      rcases List.mem_append.1 hbi with h | h
      · exact hno bi h
      · exact hno2 bi h
    · right
      exact ⟨hdup2, bi, List.mem_append_right _ hbi, hne⟩
  · right
    have hnot : res.1 ≠ Result.ok () := by
      intro hc
      rw [hc] at hdup
      simp [Result.threw_duplicated] at hdup
    rw [andThen_not_ok _ hnot]
    exact ⟨hdup, bi, List.mem_append_left _ hbi, hne⟩

/-- Visit of a reference whose name the current block already has in one of
its tables. -/
theorem visit_var_replay (fuel : Nat) (v : Addr) (name : ustring) (s : State) (c : Addr)
    (hc : s.cur_block = some c)
    (h : (map_find (s.block c).name_to_local_index name).isSome = true ∨
      (map_find (s.block c).name_to_nonlocal_index name).isSome = true) :
    (Resolver.visit_var fuel v name s).1 = Result.ok () ∧
    (Resolver.visit_var fuel v name s).2.block = s.block ∧
    (Resolver.visit_var fuel v name s).2.cur_block = s.cur_block := by
  cases hl : map_find (s.block c).name_to_local_index name with
  | some i =>
    rw [visit_var_local fuel v name s c i hc hl]
    exact ⟨rfl, rfl, rfl⟩
  | none =>
    rw [hl] at h
    simp only [Option.isSome_none, Bool.false_eq_true, false_or] at h
    obtain ⟨k, hk⟩ := Option.isSome_iff_exists.1 h
    simp [Resolver.visit_var, hc, hl, add_nonlocal_to_block_attr, hk]

/-- Entering a block whose parent pointer is already the current block
changes no block record. -/
theorem enter_replay (b : Addr) (s : State) (h : (s.block b).parent = s.cur_block) :
    (Resolver.enter b s).block = s.block := by
  have hrec : ({ s.block b with parent := s.cur_block } : S_Block.AttrType) = s.block b := by
    rw [← h]
  simp only [Resolver.enter, hrec]
  exact upd_self _ _

/-- Visit of a block that already has its parent pointer and its hoisted
names, given what the second loop does. -/
theorem visit_block_replay (k : State → Result Unit × State) (b : Addr) (stmts : List Node)
    (s : State) (B2 : List BlockInfo)
    (hpar : (s.block b).parent = s.cur_block)
    (hh : ∀ name ∈ hoisted stmts,
      (map_find (s.block b).name_to_local_index name).isSome = true)
    (hk : ∀ s1, s1.block = s.block → s1.cur_block = some b → Replayed s1 (k s1) B2) :
    ((Resolver.visit_block k b stmts s).1 = Result.ok () ∧
      (Resolver.visit_block k b stmts s).2.block = s.block ∧
      (Resolver.visit_block k b stmts s).2.cur_block = s.cur_block ∧
      hoisted stmts = [] ∧ ∀ bi ∈ B2, bi.declared = []) ∨
    ((Resolver.visit_block k b stmts s).1.threw_duplicated = true ∧
      (hoisted stmts ≠ [] ∨ ∃ bi ∈ B2, bi.declared ≠ [])) := by
  have hent := enter_replay b s hpar
  simp only [Resolver.visit_block, RestoreOnExit]
  rcases hoist_replay b stmts (Resolver.enter b s) (by rw [hent]; exact hh) with
    ⟨he, hok, hblk, hcur⟩ | ⟨hne, hdup⟩
  · rw [andThen_is_ok _ hok]
    rcases hk (hoist_declarations b stmts (Resolver.enter b s)).2 (hblk.trans hent)
        (by rw [hcur]; rfl) with ⟨hok2, hblk2, _, hno2⟩ | ⟨hdup2, hex⟩
    · left
      exact ⟨hok2, hblk2.trans (hblk.trans hent), trivial, he, hno2⟩
    · right
      exact ⟨hdup2, Or.inr hex⟩
  · right
    have hnot : (hoist_declarations b stmts (Resolver.enter b s)).1 ≠ Result.ok () := by
      intro hc
      rw [hc] at hdup
      simp [Result.threw_duplicated] at hdup
    rw [andThen_not_ok _ hnot]
    exact ⟨hdup, Or.inl hne⟩

theorem threw_duplicated_not_ok {r : Result Unit} (h : r.threw_duplicated = true) :
    r ≠ Result.ok () := by
  intro hc
  rw [hc] at h
  simp [Result.threw_duplicated] at h

theorem visit_each_replay (fuel : Nat) (l : List Node)
    (h : ∀ n ∈ l, ∀ (sc : Scope) (s : State), sc.cur = s.cur_block →
      Settled s.block (refs sc n) (blocks sc.cur n) →
      Replayed s (Resolver.visit fuel n s) (blocks sc.cur n)) :
    ∀ (sc : Scope) (s : State), sc.cur = s.cur_block →
      Settled s.block (refs_each sc l) (blocks_each sc.cur l) →
      Replayed s (Resolver.visit_each fuel l s) (blocks_each sc.cur l) := by
  induction l with
  | nil =>
    intro sc s _ _
    left
    exact ⟨rfl, rfl, rfl, by simp [blocks_each]⟩
  | cons n rest ih =>
    intro sc s hsc hset
    simp only [Resolver.visit_each, blocks_each]
    simp only [refs_each, blocks_each] at hset
    refine Replayed.seq (h n (List.mem_cons_self _ _) sc s hsc
      (hset.sub rfl (fun r hr => List.mem_append_left _ hr)
        (fun bi hbi => List.mem_append_left _ hbi))) ?_
    intro s1 hblk hcur
    exact ih (fun m hm => h m (List.mem_cons_of_mem _ hm)) sc s1 (by rw [hcur]; exact hsc)
      (hset.sub hblk (fun r hr => List.mem_append_right _ hr)
        (fun bi hbi => List.mem_append_right _ hbi))

/-- Visit of the guarded part of a function literal in a settled tree. -/
theorem visit_args_replay (fuel : Nat) (args : Option (Addr × List PairType)) (b : Addr)
    (s : State) (hpar : (s.block b).parent = s.cur_block)
    (hp : ∀ name ∈ param_names args,
      (map_find (s.block b).name_to_local_index name).isSome = true)
    (hin : ∀ (s1 : State), s1.block = s.block → s1.cur_block = some b →
      Replayed s1 (Resolver.visit_each fuel (param_initialisers args) s1)
        (blocks_each (some b) (param_initialisers args))) :
    ((Resolver.visit_args fuel args b s).1 = Result.ok () ∧
      (Resolver.visit_args fuel args b s).2.block = s.block ∧
      (Resolver.visit_args fuel args b s).2.cur_block = s.cur_block ∧
      param_names args = [] ∧
      ∀ bi ∈ blocks_each (some b) (param_initialisers args), bi.declared = []) ∨
    ((Resolver.visit_args fuel args b s).1.threw_duplicated = true ∧
      (param_names args ≠ [] ∨
        ∃ bi ∈ blocks_each (some b) (param_initialisers args), bi.declared ≠ [])) := by
  cases args with
  | none =>
    left
    exact ⟨rfl, rfl, rfl, rfl, by simp [param_initialisers, blocks_each]⟩
  | some a =>
    obtain ⟨d, decls⟩ := a
    simp only [Resolver.visit_args, RestoreOnExit, param_initialisers, param_names] at hin hp ⊢
    have hent := enter_replay b s hpar
    rcases hin (Resolver.enter b s) hent rfl with ⟨hok, hblk, hcur, hno⟩ | ⟨hdup, hex⟩
    · rw [andThen_is_ok _ hok]
      rcases declare_replay b d decls
          (Resolver.visit_each fuel (initialisers decls) (Resolver.enter b s)).2
          (by rw [hblk, hent]; exact hp) with ⟨he, hok2, hblk2, _⟩ | ⟨hne, hdup2⟩
      · left
        exact ⟨hok2, hblk2.trans (hblk.trans hent), trivial, he, hno⟩
      · right
        exact ⟨hdup2, Or.inl hne⟩
    · right
      rw [andThen_not_ok _ (threw_duplicated_not_ok hdup)]
      exact ⟨hdup, Or.inr hex⟩

/-- Visit of a node of a settled tree: it returns, leaving the block records
as they are, when no block of the subtree declares a name, and throws
`DuplicatedLocalName` when one does. -/
theorem visit_replay (fuel : Nat) (n : Node) :
    ∀ (sc : Scope) (s : State), sc.cur = s.cur_block →
      Settled s.block (refs sc n) (blocks sc.cur n) →
      Replayed s (Resolver.visit fuel n s) (blocks sc.cur n) := by
  have body : ∀ (b : Addr) (stmts : List Node) (pd : Option (Addr × List ustring))
      (P : List ustring) (sc : Scope) (s0 s : State),
      (∀ n ∈ stmts, ∀ (sc : Scope) (s : State), sc.cur = s.cur_block →
        Settled s.block (refs sc n) (blocks sc.cur n) →
        Replayed s (Resolver.visit fuel n s) (blocks sc.cur n)) →
      sc.cur = s.cur_block → s.block = s0.block →
      Settled s0.block (refs_each (sc.enter_block b (P ++ hoisted stmts)) stmts)
        (⟨b, sc.cur, pd, direct_decls stmts⟩ :: blocks_each (some b) stmts) →
      ((Resolver.visit_block (Resolver.visit_each fuel stmts) b stmts s).1 = Result.ok () ∧
        (Resolver.visit_block (Resolver.visit_each fuel stmts) b stmts s).2.block = s.block ∧
        (Resolver.visit_block (Resolver.visit_each fuel stmts) b stmts s).2.cur_block =
          s.cur_block ∧
        hoisted stmts = [] ∧ ∀ bi ∈ blocks_each (some b) stmts, bi.declared = []) ∨
      ((Resolver.visit_block (Resolver.visit_each fuel stmts) b stmts s).1.threw_duplicated =
          true ∧
        (hoisted stmts ≠ [] ∨ ∃ bi ∈ blocks_each (some b) stmts, bi.declared ≠ [])) := by
    intro b stmts pd P sc s0 s ih hsc hs0 hset
    have hself := List.mem_cons_self (⟨b, sc.cur, pd, direct_decls stmts⟩ : BlockInfo)
      (blocks_each (some b) stmts)
    refine visit_block_replay _ b stmts s _ ?_ ?_ ?_
    · rw [hs0, ← hsc]; exact hset.parent _ hself
    · intro name hname
      rw [hs0]
      refine hset.declared _ hself name ?_
      rw [declared_eq]
      exact List.mem_append_right _ hname
    · intro s1 hblk hcur
      exact visit_each_replay fuel stmts ih (sc.enter_block b (P ++ hoisted stmts)) s1
        (by rw [hcur]; rfl)
        (hset.sub (hblk.trans hs0) (fun r hr => hr) (fun bi hbi => List.mem_cons_of_mem _ hbi))
  induction n using Node.induction_kinds with
  | var v name =>
    intro sc s hsc hset
    obtain ⟨c, hown, hk⟩ := hset.known ⟨v, name, sc⟩ (by simp [refs])
    have hc : s.cur_block = some c := by rw [← hsc]; exact hown
    obtain ⟨h1, h2, h3⟩ := visit_var_replay fuel v name s c hc hk
    left
    simp only [Resolver.visit]
    exact ⟨h1, h2, h3, by simp [blocks]⟩
  | block b stmts ih =>
    intro sc s hsc hset
    rw [blocks_block] at hset ⊢
    rw [refs_block] at hset
    have hv : Resolver.visit fuel (Node.S_Block b stmts) s =
        Resolver.visit_block (Resolver.visit_each fuel stmts) b stmts s := by
      simp only [Resolver.visit]
    rw [hv]
    have hd : BlockInfo.declared ⟨b, sc.cur, none, direct_decls stmts⟩ = hoisted stmts := by
      rw [declared_eq]; rfl
    rcases body b stmts none [] sc s s ih hsc rfl (by simpa using hset) with
      ⟨h1, h2, h3, h4, h5⟩ | ⟨h1, h2⟩
    · left
      refine ⟨h1, h2, h3, ?_⟩
      intro bi hbi
      rcases List.mem_cons.1 hbi with rfl | hbi
      · rw [hd]; exact h4
      · exact h5 bi hbi
    · right
      refine ⟨h1, ?_⟩
      rcases h2 with h | ⟨bi, hbi, hne⟩
      · exact ⟨_, List.mem_cons_self _ _, by rw [hd]; exact h⟩
      · exact ⟨bi, List.mem_cons_of_mem _ hbi, hne⟩
  | program b stmts ih =>
    intro sc s hsc hset
    have hb : blocks sc.cur (Node.Program b stmts) =
        ⟨b, sc.cur, none, direct_decls stmts⟩ :: blocks_each (some b) stmts := by
      simp [blocks]
    have hr : refs sc (Node.Program b stmts) =
        refs_each (sc.enter_block b (hoisted stmts)) stmts := by
      simp [refs]
    rw [hb] at hset ⊢
    rw [hr] at hset
    have hv : Resolver.visit fuel (Node.Program b stmts) s =
        Resolver.visit_block (Resolver.visit_each fuel stmts) b stmts s := by
      simp only [Resolver.visit]
    rw [hv]
    have hd : BlockInfo.declared ⟨b, sc.cur, none, direct_decls stmts⟩ = hoisted stmts := by
      rw [declared_eq]; rfl
    rcases body b stmts none [] sc s s ih hsc rfl (by simpa using hset) with
      ⟨h1, h2, h3, h4, h5⟩ | ⟨h1, h2⟩
    · left
      refine ⟨h1, h2, h3, ?_⟩
      intro bi hbi
      rcases List.mem_cons.1 hbi with rfl | hbi
      · rw [hd]; exact h4
      · exact h5 bi hbi
    · right
      refine ⟨h1, ?_⟩
      rcases h2 with h | ⟨bi, hbi, hne⟩
      · exact ⟨_, List.mem_cons_self _ _, by rw [hd]; exact h⟩
      · exact ⟨bi, List.mem_cons_of_mem _ hbi, hne⟩
  | func args b stmts ihi ih =>
    intro sc s hsc hset
    rw [blocks_func] at hset ⊢
    rw [refs_func] at hset
    rw [visit_func_eq]
    have hself := List.mem_cons_self (⟨b, sc.cur, param_decl args, direct_decls stmts⟩ : BlockInfo)
      (blocks_each (some b) (param_initialisers args) ++ blocks_each (some b) stmts)
    have hd : BlockInfo.declared ⟨b, sc.cur, param_decl args, direct_decls stmts⟩ =
        param_names args ++ hoisted stmts := by
      rw [declared_eq, param_decl_names]
    have hpar : (s.block b).parent = s.cur_block := by
      rw [← hsc]; exact hset.parent _ hself
    rcases visit_args_replay fuel args b s hpar
        (by
          intro name hname
          refine hset.declared _ hself name ?_
          rw [hd]
          exact List.mem_append_left _ hname)
        (by
          intro s1 hblk hcur
          exact visit_each_replay fuel (param_initialisers args) ihi (sc.enter_init b) s1
            (by rw [hcur]; rfl)
            (hset.sub hblk (fun r hr => List.mem_append_left _ hr)
              (fun bi hbi => List.mem_cons_of_mem _ (List.mem_append_left _ hbi)))) with
      ⟨a1, a2, a3, a4, a5⟩ | ⟨a1, a2⟩
    · rw [andThen_is_ok _ a1]
      rcases body b stmts (param_decl args) (param_names args) sc s
          (Resolver.visit_args fuel args b s).2 ih (by rw [a3]; exact hsc) a2
          (hset.sub rfl (fun r hr => List.mem_append_right _ hr)
            (fun bi hbi => by
              rcases List.mem_cons.1 hbi with rfl | hbi
              · exact hself
              · exact List.mem_cons_of_mem _ (List.mem_append_right _ hbi))) with
        ⟨h1, h2, h3, h4, h5⟩ | ⟨h1, h2⟩
      · left
        refine ⟨h1, h2.trans a2, h3.trans a3, ?_⟩
        intro bi hbi
        rcases List.mem_cons.1 hbi with rfl | hbi
        · rw [hd, a4, h4]; rfl
        · rcases List.mem_append.1 hbi with h | h
          · exact a5 bi h
          · exact h5 bi h
      · right
        refine ⟨h1, ?_⟩
        rcases h2 with h | ⟨bi, hbi, hne⟩
        · exact ⟨_, hself, by rw [hd]; simp [h]⟩
        · exact ⟨bi, List.mem_cons_of_mem _ (List.mem_append_right _ hbi), hne⟩
    · right
      rw [andThen_not_ok _ (threw_duplicated_not_ok a1)]
      refine ⟨a1, ?_⟩
      rcases a2 with h | ⟨bi, hbi, hne⟩
      · exact ⟨_, hself, by rw [hd]; simp [h]⟩
      · exact ⟨bi, List.mem_cons_of_mem _ (List.mem_append_left _ hbi), hne⟩
  | seq n hn ih =>
    intro sc s hsc hset
    rw [visit_of_seq fuel n hn]
    rw [blocks_of_seq _ n hn] at hset ⊢
    rw [refs_of_seq _ n hn] at hset
    exact visit_each_replay fuel n.kids ih sc s hsc hset

theorem ScopeWF.level {B : List BlockInfo} {sc : Scope} (h : ScopeWF B sc) :
    ∀ lv ∈ sc, ∃ next, LevelOK B lv next := by
  induction sc with
  | nil => intro lv hlv; simp at hlv
  | cons l rest ih =>
    intro lv hlv
    rcases List.mem_cons.1 hlv with rfl | hlv
    · exact ⟨_, h.1⟩
    · exact ih h.2 lv hlv

theorem lookup_some_mem (name : ustring) (sc : Scope) (T : Addr) (i : Nat)
    (h : Scope.lookup name sc = some (T, i)) : ∃ lv ∈ sc, name ∈ lv.names := by
  induction sc with
  | nil => simp [Scope.lookup] at h
  | cons l rest ih =>
    by_cases hm : name ∈ l.names
    · exact ⟨l, List.mem_cons_self _ _, hm⟩
    · simp only [Scope.lookup, hm, if_false] at h
      obtain ⟨lv, hlv, hn⟩ := ih h
      exact ⟨lv, List.mem_cons_of_mem _ hlv, hn⟩

/-- The records a successful resolution leaves are settled. -/
theorem settled_of_resolved {s : State} {R : List Ref} {B : List BlockInfo}
    (hres : Resolved s R B)
    (hall : ∀ r ∈ R, HeapScope s r.scope ∧ ScopeWF B r.scope) : Settled s.block R B := by
  have hfind : ∀ bi ∈ B, ∀ name ∈ local_names (s.block bi.addr),
      (map_find (s.block bi.addr).name_to_local_index name).isSome = true := by
    intro bi hbi name hname
    have hinv := (hres.blocks bi hbi).inv
    cases hf : map_find (s.block bi.addr).name_to_local_index name with
    | some v => rfl
    | none => exact absurd hname ((hinv.1.find_none_iff name).1 hf)
  refine ⟨?_, fun bi hbi => (hres.blocks bi hbi).parent, ?_⟩
  · intro r hr
    have hst := hres.stamped r hr
    obtain ⟨hh, hw⟩ := hall r hr
    cases hsc : r.scope with
    | nil => simp [Stamped, hsc] at hst
    | cons l anc =>
      rw [hsc] at hh hw
      simp only [Stamped, hsc] at hst
      refine ⟨l.block, r.owner_of_scope l anc hsc, ?_⟩
      by_cases hm : r.name ∈ l.names
      · left
        obtain ⟨bi, hbi, haddr, _, _, hinit⟩ := hw.1
        have hnames : l.names = local_names (s.block l.block) := by
          cases hi : l.init with
          | false => exact hh.2.1 hi
          | true =>
            rw [hinit hi] at hm
            simp at hm
        rw [← haddr]
        refine hfind bi hbi r.name ?_
        rw [haddr, ← hnames]
        exact hm
      · right
        obtain ⟨k, T, i, _, _, _, hf⟩ := hst.2 hm
        rw [hf]; rfl
  · intro bi hbi name hname
    refine hfind bi hbi name ?_
    rw [(hres.blocks bi hbi).names]
    exact hname

/-- A resolved program in which no block declares a name has no variable
reference. -/
theorem no_refs_of_no_decls {s : State} {R : List Ref} {B : List BlockInfo}
    (hres : Resolved s R B) (hall : ∀ r ∈ R, ScopeWF B r.scope)
    (hno : ∀ bi ∈ B, bi.declared = []) : R = [] := by
  apply List.eq_nil_iff_forall_not_mem.2
  intro r hr
  have hst := hres.stamped r hr
  have hw := hall r hr
  have hex : ∃ lv ∈ r.scope, r.name ∈ lv.names := by
    cases hsc : r.scope with
    | nil => simp [Stamped, hsc] at hst
    | cons l anc =>
      simp only [Stamped, hsc] at hst
      by_cases hm : r.name ∈ l.names
      · exact ⟨l, List.mem_cons_self _ _, hm⟩
      · obtain ⟨k, T, i, hl, _⟩ := hst.2 hm
        obtain ⟨lv, hlv, hn⟩ := lookup_some_mem _ _ _ _ hl
        exact ⟨lv, List.mem_cons_of_mem _ hlv, hn⟩
  obtain ⟨lv, hlv, hn⟩ := hex
  obtain ⟨next, bi, hbi, _, _, hf, ht⟩ := hw.level lv hlv
  cases hi : lv.init with
  | false =>
    rw [hf hi, hno bi hbi] at hn
    simp at hn
  | true =>
    rw [ht hi] at hn
    simp at hn
/-! ## Stack discipline of the evaluator -/

theorem Exit.not_normal_of_signal {e : Exit} (h : e.is_signal = true) : e.is_normal = false := by
  cases e <;> simp [Exit.is_signal, Exit.is_normal] at h ⊢

theorem Grown.then_grown {m n : Nat} {st st1 st2 : AstInterpreter} (h1 : Grown m st st1)
    (h2 : Grown n st1 st2) : Grown (m + n) st st2 := by
  obtain ⟨hs1, vs, hv1, hl1, he1⟩ := h1
  obtain ⟨hs2, ws, hv2, hl2, he2⟩ := h2
  refine ⟨le_trans hs1 hs2, ws ++ vs, by rw [hv2, hv1, List.append_assoc], ?_, ?_⟩
  · simp only [List.length_append]; omega
  · intro heq
    have e1 : st1.strays = st.strays := by omega
    have e2 : st2.strays = st1.strays := by omega
    have := he1 e1
    have := he2 e2
    simp only [List.length_append]; omega

theorem Grown.after_same {m : Nat} {st st1 st2 : AstInterpreter} (h1 : Grown 0 st st1)
    (h2 : Grown m st1 st2) : Grown m st st2 := by
  have := h1.then_grown h2
  rwa [Nat.zero_add] at this

theorem Abrupt.from_abrupt {st st' : AstInterpreter} {r : Exit × AstInterpreter}
    (h : Abrupt st' r) (hf : st'.frames = st.frames) (hg : Grown 0 st st') : Abrupt st r :=
  ⟨h.1.trans hf, h.2.1, fun hx =>
    ⟨hg.after_same (h.2.2 hx).1, lt_of_le_of_lt hg.1 (h.2.2 hx).2⟩⟩

/-- Footprint of the visit of a block or of a function literal: the records
of its blocks, the stamps of its variable references and the attributes of its
declare-lists; the record of the current block is left as it is. -/
theorem visit_confined (fuel : Nat) (n : Node) (hseq : n.is_seq = false)
    (hvar : ∀ v name, n ≠ Node.E_Var v name) (sc : Scope) (s : State) :
    Confined (block_addrs sc.cur n) (var_addrs sc n) (decl_addrs sc.cur n) s
      (Resolver.visit fuel n s).2 := by
  cases n with
  | S_Block b stmts =>
    have := visit_confined_block fuel b stmts (fun m _ => visit_touches fuel m) sc
      (hoisted stmts) s
    simpa [block_addrs, var_addrs, decl_addrs, blocks, refs, Resolver.visit,
      BlockInfo.decl_addrs, BlockInfo.all_decls] using this
  | Program b stmts =>
    have := visit_confined_block fuel b stmts (fun m _ => visit_touches fuel m) sc
      (hoisted stmts) s
    simpa [block_addrs, var_addrs, decl_addrs, blocks, refs, Resolver.visit,
      BlockInfo.decl_addrs, BlockInfo.all_decls] using this
  | E_Var v name => exact absurd rfl (hvar v name)
  | E_Func args b stmts =>
    rw [visit_func_eq]
    have h1 := visit_args_confined fuel args b sc s
    have h2 := fun s1 => visit_confined_block fuel b stmts (fun m _ => visit_touches fuel m) sc
      (param_names args ++ hoisted stmts) s1
    have hsub : ∀ {bs vs ds : List Addr} {s1 s2 : State},
        (bs ⊆ block_addrs sc.cur (Node.E_Func args b stmts)) →
        (vs ⊆ var_addrs sc (Node.E_Func args b stmts)) →
        (ds ⊆ decl_addrs sc.cur (Node.E_Func args b stmts)) →
        Confined bs vs ds s1 s2 →
        Confined (block_addrs sc.cur (Node.E_Func args b stmts))
          (var_addrs sc (Node.E_Func args b stmts))
          (decl_addrs sc.cur (Node.E_Func args b stmts)) s1 s2 :=
      fun hb hv hd h => h.mono_c hb hv hd
    have hb1 : (b :: (blocks_each (some b) (param_initialisers args)).map BlockInfo.addr) ⊆
        block_addrs sc.cur (Node.E_Func args b stmts) := by
      rw [block_addrs_func]
      intro x hx
      simp only [List.mem_cons, List.mem_append] at hx ⊢
      tauto
    have hb2 : (b :: (blocks_each (some b) stmts).map BlockInfo.addr) ⊆
        block_addrs sc.cur (Node.E_Func args b stmts) := by
      rw [block_addrs_func]
      intro x hx
      simp only [List.mem_cons, List.mem_append] at hx ⊢
      tauto
    have hv1 : (refs_each (sc.enter_init b) (param_initialisers args)).map Ref.addr ⊆
        var_addrs sc (Node.E_Func args b stmts) := by
      rw [var_addrs_func]
      exact List.subset_append_left _ _
    have hv2 : (refs_each (sc.enter_block b (param_names args ++ hoisted stmts)) stmts).map
        Ref.addr ⊆ var_addrs sc (Node.E_Func args b stmts) := by
      rw [var_addrs_func]
      exact List.subset_append_right _ _
    have hd1 : ((param_decl args).toList.map Prod.fst ++
        (blocks_each (some b) (param_initialisers args)).flatMap BlockInfo.decl_addrs) ⊆
        decl_addrs sc.cur (Node.E_Func args b stmts) := by
      rw [decl_addrs_func]
      intro x hx
      simp only [List.mem_append, List.map_append] at hx ⊢
      tauto
    have hd2 : ((direct_decls stmts).map Prod.fst ++
        (blocks_each (some b) stmts).flatMap BlockInfo.decl_addrs) ⊆
        decl_addrs sc.cur (Node.E_Func args b stmts) := by
      rw [decl_addrs_func]
      intro x hx
      simp only [List.mem_append, List.map_append] at hx ⊢
      tauto
    apply andThen_elim (P := fun r => Confined _ _ _ s r.2)
    · intro _
      exact hsub hb1 hv1 hd1 h1
    · intro _
      exact (hsub hb1 hv1 hd1 h1).trans_c (hsub hb2 hv2 hd2 (h2 _))
  | S_DeclareList _ _ => simp [Node.is_seq] at hseq
  | S_Condition _ _ _ => simp [Node.is_seq] at hseq
  | S_While _ _ => simp [Node.is_seq] at hseq
  | S_Return _ => simp [Node.is_seq] at hseq
  | S_Break => simp [Node.is_seq] at hseq
  | S_Continue => simp [Node.is_seq] at hseq
  | S_Exp _ => simp [Node.is_seq] at hseq
  | S_Empty => simp [Node.is_seq] at hseq
  | E_Op _ _ => simp [Node.is_seq] at hseq
  | E_Bool _ => simp [Node.is_seq] at hseq
  | E_Int _ => simp [Node.is_seq] at hseq
  | E_Float _ => simp [Node.is_seq] at hseq
  | E_String _ => simp [Node.is_seq] at hseq
  | E_List _ => simp [Node.is_seq] at hseq
  | E_Null => simp [Node.is_seq] at hseq

/-- A reference inside a block or a function literal has that block, or one
inside it, as current block: its scope is longer than the scope of the
node. -/
theorem refs_scope_ne (n : Node) (hseq : n.is_seq = false)
    (hvar : ∀ v name, n ≠ Node.E_Var v name) (sc : Scope) (r : Ref) (hr : r ∈ refs sc n) :
    r.scope ≠ sc := by
  cases n with
  | S_Block b stmts =>
    simp only [refs] at hr
    exact ScopeCases.scope_ne
      ((refs_each_scope stmts (fun m _ => refs_scope m) _ r hr).under)
  | Program b stmts =>
    simp only [refs] at hr
    exact ScopeCases.scope_ne
      ((refs_each_scope stmts (fun m _ => refs_scope m) _ r hr).under)
  | E_Var v name => exact absurd rfl (hvar v name)
  | E_Func args b stmts =>
    rw [refs_func, List.mem_append] at hr
    rcases hr with hr | hr
    · exact ScopeCases.scope_ne
        ((refs_each_scope _ (fun m _ => refs_scope m) _ r hr).under)
    · exact ScopeCases.scope_ne
        ((refs_each_scope _ (fun m _ => refs_scope m) _ r hr).under)
  | S_DeclareList _ _ => simp [Node.is_seq] at hseq
  | S_Condition _ _ _ => simp [Node.is_seq] at hseq
  | S_While _ _ => simp [Node.is_seq] at hseq
  | S_Return _ => simp [Node.is_seq] at hseq
  | S_Break => simp [Node.is_seq] at hseq
  | S_Continue => simp [Node.is_seq] at hseq
  | S_Exp _ => simp [Node.is_seq] at hseq
  | S_Empty => simp [Node.is_seq] at hseq
  | E_Op _ _ => simp [Node.is_seq] at hseq
  | E_Bool _ => simp [Node.is_seq] at hseq
  | E_Int _ => simp [Node.is_seq] at hseq
  | E_Float _ => simp [Node.is_seq] at hseq
  | E_String _ => simp [Node.is_seq] at hseq
  | E_List _ => simp [Node.is_seq] at hseq
  | E_Null => simp [Node.is_seq] at hseq

/-- A block or a function literal is visited as a whole: the scope around it
and the capture tables of the current block are left as they are. -/
theorem directly_closed (fuel : Nat) (n : Node) (hseq : n.is_seq = false)
    (hvar : ∀ v name, n ≠ Node.E_Var v name) : Directly fuel n := by
  intro s l anc hs hc hbd _ _ _
  have hconf := visit_confined fuel n hseq hvar (l :: anc) s
  have hsame : ∀ b ∈ (l :: anc).map Level.block,
      (Resolver.visit fuel n s).2.block b = s.block b :=
    fun b hb => hconf.block_other b (fun hm => hbd b hm hb)
  refine ⟨hs.congr_scope hconf.cur (fun b hb => by rw [hsame b hb]; exact ⟨rfl, rfl, rfl⟩),
    ?_, ?_⟩
  · rw [hsame l.block (by simp)]; exact hc
  · intro r hr hsc
    exact absurd hsc (refs_scope_ne n hseq hvar (l :: anc) r hr)

theorem directly_each (fuel : Nat) (kids : List Node) (h : ∀ n ∈ kids, Directly fuel n) :
    ∀ (s : State) (l : Level) (anc : Scope),
      ScopeOK s (l :: anc) → CacheOK (s.block l.block) anc →
      (∀ b ∈ (blocks_each (some l.block) kids).map BlockInfo.addr,
        b ∉ (l :: anc).map Level.block) →
      ((refs_each (l :: anc) kids).map Ref.addr).Nodup → (l :: anc).length ≤ fuel →
      (Resolver.visit_each fuel kids s).1 = Result.ok () →
      ScopeOK (Resolver.visit_each fuel kids s).2 (l :: anc) ∧
      CacheOK ((Resolver.visit_each fuel kids s).2.block l.block) anc ∧
      ∀ r ∈ refs_each (l :: anc) kids, r.scope = l :: anc →
        Stamped (Resolver.visit_each fuel kids s).2 r := by
  induction kids with
  | nil =>
    intro s l anc hs hc _ _ _ _
    exact ⟨hs, hc, by simp [refs_each]⟩
  | cons n rest ih =>
    intro s l anc hs hc hbd hvn hfuel hok
    simp only [blocks_each, refs_each, List.map_append] at hbd hvn
    simp only [Resolver.visit_each] at hok ⊢
    obtain ⟨hok1, heq⟩ := andThen_ok_inv hok
    rw [heq] at hok ⊢
    obtain ⟨hvn1, hvn2, hvdis⟩ := List.nodup_append.1 hvn
    obtain ⟨hs1, hc1, hst1⟩ := h n (List.mem_cons_self _ _) s l anc hs hc
      (fun b hb => hbd b (List.mem_append_left _ hb)) hvn1 hfuel hok1
    have hbd2 : ∀ b ∈ (blocks_each (some l.block) rest).map BlockInfo.addr,
        b ∉ (l :: anc).map Level.block := fun b hb => hbd b (List.mem_append_right _ hb)
    obtain ⟨hs2, hc2, hst2⟩ := ih (fun m hm => h m (List.mem_cons_of_mem _ hm))
      (Resolver.visit fuel n s).2 l anc hs1 hc1 hbd2 hvn2 hfuel hok
    refine ⟨hs2, hc2, ?_⟩
    intro r hr hsc
    rcases List.mem_append.1 hr with hr1 | hr2
    · have ht := visit_each_touches fuel rest (fun m _ => visit_touches fuel m) (l :: anc)
        (Resolver.visit fuel n s).2 (by rw [hs1.cur])
      refine (hst1 r hr1 hsc).keep_stamped ?_ ?_
      · exact ht.var_other r.addr (fun hm => hvdis (List.mem_map_of_mem _ hr1) hm)
      · intro b hb
        have hbl : b = l.block := by
          rw [r.owner_of_scope l anc hsc] at hb
          exact (Option.some.inj hb).symm
        subst hbl
        exact ht.owner_keep l.block (fun hm => hbd2 l.block hm (by simp))
    · exact hst2 r hr2 hsc

/-- Every node is visited as `Directly` says. -/
theorem directly (fuel : Nat) (n : Node) : Directly fuel n := by
  induction n using Node.induction_kinds with
  | var v name =>
    intro s l anc hs hc _ _ hfuel hok
    have hr : Ready fuel s l anc [] [v] [] :=
      ⟨hs, hc, List.nodup_nil, by simp, by simp, by simp, List.nodup_nil, by simpa using hfuel⟩
    simp only [Resolver.visit] at hok ⊢
    have hd := (visit_var_outcome fuel v name s l anc hr).1 hok
    refine ⟨hd.scope, hd.cache, ?_⟩
    intro r hr' _
    exact hd.stamped r (by simpa [refs] using hr')
  | block b stmts _ => exact directly_closed fuel _ rfl (fun _ _ h => by cases h)
  | program b stmts _ => exact directly_closed fuel _ rfl (fun _ _ h => by cases h)
  | func args b stmts _ _ => exact directly_closed fuel _ rfl (fun _ _ h => by cases h)
  | seq n hn ih =>
    intro s l anc hs hc hbd hvn hfuel hok
    rw [visit_of_seq fuel n hn] at hok ⊢
    rw [refs_of_seq _ n hn]
    simp only [block_addrs, var_addrs, blocks_of_seq _ n hn, refs_of_seq _ n hn] at hbd hvn
    exact directly_each fuel n.kids ih s l anc hs hc hbd hvn hfuel hok

/-- Lexical lookup in a scope the state agrees with, read off the state: the
block found is reached from `o` through blocks that do not have the name as a
local, it has the name as a local, and the position found is the slot of the
name. -/
theorem lookup_heap (blk : Addr → S_Block.AttrType) (name : ustring) (T : Addr) (i : Nat)
    (sc : Scope) :
    ∀ o : Option Addr, Chain blk o (sc.map Level.block) →
      (∀ l ∈ sc, local_names (blk l.block) = l.names) →
      Scope.lookup name sc = some (T, i) →
      ∃ path, PathTo blk o path T ∧ (∀ b ∈ path, name ∉ local_names (blk b)) ∧
        name ∈ local_names (blk T) ∧ (blk T).local_info[i]? = some ⟨name⟩ := by
  induction sc with
  | nil => intro o _ _ h; simp [Scope.lookup] at h
  | cons l rest ih =>
    intro o hch hn h
    simp only [List.map_cons, Chain] at hch
    obtain ⟨ho, hrest⟩ := hch
    simp only [Scope.lookup] at h
    have hl := hn l (List.mem_cons_self _ _)
    by_cases hm : name ∈ l.names
    · simp only [hm, if_true, Option.some.injEq, Prod.mk.injEq] at h
      obtain ⟨hT, hi⟩ := h
      subst hT
      have hin : name ∈ local_names (blk l.block) := hl ▸ hm
      refine ⟨[], ho, by simp, hin, ?_⟩
      rw [← hi, ← hl]
      exact indexOf_getElem?_names hin
    · simp only [hm, if_false] at h
      obtain ⟨path, hp, hnone, hin, hget⟩ :=
        ih _ hrest (fun l' hl' => hn l' (List.mem_cons_of_mem _ hl')) h
      refine ⟨l.block :: path, ⟨ho, hp⟩, ?_, hin, hget⟩
      intro b hb
      rcases List.mem_cons.1 hb with rfl | hb
      · rw [hl]; exact hm
      · exact hnone b hb

/-- What the visit of the body block of a function literal keeps of a state:
the stamp of a variable reference outside the body, the capture entries of
the body block, and the parent pointer that `enter` writes. -/
theorem visit_block_keeps (fuel : Nat) (b : Addr) (stmts : List Node) (sa : State) (v : Addr)
    (sc : Scope) (hsc : sc.cur = some b) (hv : v ∉ (refs_each sc stmts).map Ref.addr)
    (hb : b ∉ (blocks_each (some b) stmts).map BlockInfo.addr) :
    (Resolver.visit_block (Resolver.visit_each fuel stmts) b stmts sa).2.var v = sa.var v ∧
    ((sa.block b).nonlocal_indexes <+:
      ((Resolver.visit_block (Resolver.visit_each fuel stmts) b stmts sa).2.block
        b).nonlocal_indexes) ∧
    (∀ name i, map_find (sa.block b).name_to_nonlocal_index name = some i →
      map_find ((Resolver.visit_block (Resolver.visit_each fuel stmts) b stmts sa).2.block
        b).name_to_nonlocal_index name = some i) ∧
    ((Resolver.visit_block (Resolver.visit_each fuel stmts) b stmts sa).2.block b).parent =
      sa.cur_block := by
  simp only [Resolver.visit_block, RestoreOnExit]
  have hd := hoist_declares b stmts (Resolver.enter b sa)
  have he1 : ((Resolver.enter b sa).block b).nonlocal_indexes = (sa.block b).nonlocal_indexes := by
    simp [Resolver.enter, upd_same]
  have he2 : ((Resolver.enter b sa).block b).name_to_nonlocal_index =
      (sa.block b).name_to_nonlocal_index := by
    simp [Resolver.enter, upd_same]
  have he3 : ((Resolver.enter b sa).block b).parent = sa.cur_block := by
    simp [Resolver.enter, upd_same]
  have hvar : (hoist_declarations b stmts (Resolver.enter b sa)).2.var v = sa.var v := by
    rw [hd.var]; rfl
  apply andThen_elim (P := fun r =>
    r.2.var v = sa.var v ∧
    ((sa.block b).nonlocal_indexes <+: (r.2.block b).nonlocal_indexes) ∧
    (∀ name i, map_find (sa.block b).name_to_nonlocal_index name = some i →
      map_find (r.2.block b).name_to_nonlocal_index name = some i) ∧
    (r.2.block b).parent = sa.cur_block)
  · intro _
    refine ⟨hvar, ?_, ?_, ?_⟩
    · rw [hd.nonlocal_indexes, he1]
    · intro name i h; rw [hd.name_to_nonlocal_index, he2]; exact h
    · rw [hd.parent, he3]
  · intro _
    have hcur : (hoist_declarations b stmts (Resolver.enter b sa)).2.cur_block = some b := by
      rw [hd.cur]; rfl
    have ht := visit_each_touches fuel stmts (fun m _ => visit_touches fuel m)
      sc (hoist_declarations b stmts (Resolver.enter b sa)).2 (by rw [hcur, hsc])
    rw [hsc] at ht
    obtain ⟨hp, _, _, hpre, hmono⟩ := ht.block_cur b hcur hb
    refine ⟨?_, ?_, ?_, ?_⟩
    · rw [ht.var_other v hv, hvar]
    · rw [hd.nonlocal_indexes, he1] at hpre
      exact hpre
    · intro name i h
      exact hmono name i (by rw [hd.name_to_nonlocal_index, he2]; exact h)
    · rw [hp, hd.parent, he3]

/-- A reference of a function literal whose current block is the body block
while the parameter default initialisers are resolved stands in one of the
initialisers. -/
theorem init_ref_mem (d : Addr) (decls : List PairType) (b : Addr) (stmts : List Node)
    (sc : Scope) (r : Ref) (hr : r ∈ refs sc (Node.E_Func (some (d, decls)) b stmts))
    (hsc : r.scope = ⟨b, [], true⟩ :: sc) :
    r ∈ refs_each (⟨b, [], true⟩ :: sc) (initialisers decls) := by
  rw [refs_func, List.mem_append] at hr
  simp only [param_initialisers, Scope.enter_init, Scope.enter_block] at hr
  rcases hr with hr | hr
  · exact hr
  · exfalso
    have := refs_each_scope stmts (fun m _ => refs_scope m) _ r hr
    rcases this with h | ⟨l', pre, h1, _⟩
    · rw [hsc] at h
      simp at h
    · rw [hsc] at h1
      have hlen := congrArg List.length h1
      simp only [List.length_cons, List.length_append] at hlen
      omega

/-- A visit of a function literal whose parameter default initialisers do not
resolve ends as the visit of the initialisers does. -/
theorem visit_func_init_fails (fuel : Nat) (d : Addr) (decls : List PairType) (b : Addr)
    (stmts : List Node) (s : State)
    (h : (Resolver.visit_each fuel (initialisers decls) (Resolver.enter b s)).1 ≠ Result.ok ()) :
    (Resolver.visit fuel (Node.E_Func (some (d, decls)) b stmts) s).1 =
      (Resolver.visit_each fuel (initialisers decls) (Resolver.enter b s)).1 := by
  rw [visit_func_eq]
  simp only [Resolver.visit_args, RestoreOnExit]
  rw [andThen_not_ok _ h]
  rw [andThen_not_ok _ (by exact h)]

/-! ## What a visit reaches under the current block -/

theorem items_pairs_eq (decls : List PairType) :
    items_pairs decls = items_each (initialisers decls) := by
  induction decls with
  | nil => simp [items_pairs, items_each, initialisers]
  | cons p rest ih =>
    obtain ⟨name, init⟩ := p
    cases init with
    | none => simpa [items_pairs, initialisers] using ih
    | some x =>
      simp only [items_pairs, initialisers, List.filterMap_cons_some, items_each]
      rw [ih]; rfl

theorem items_of_seq (n : Node) (h : n.is_seq = true) : items n = items_each n.kids := by
  cases n with
  | S_Block _ _ => simp [Node.is_seq] at h
  | Program _ _ => simp [Node.is_seq] at h
  | E_Var _ _ => simp [Node.is_seq] at h
  | E_Func _ _ _ => simp [Node.is_seq] at h
  | S_DeclareList d decls => simp only [items, Node.kids, items_pairs_eq]
  | S_Condition c t e =>
    cases e <;> simp [items, Node.kids, items_each]
  | S_Return v => cases v <;> simp [items, Node.kids, items_each]
  | _ => simp [items, Node.kids, items_each]

theorem items_each_append (l l' : List Node) :
    items_each (l ++ l') = items_each l ++ items_each l' := by
  induction l with
  | nil => simp [items_each]
  | cons n l ih => simp [items_each, ih]

/-- The visit of a sequence of nodes is the visit of its items, in order. -/
theorem visit_items_each (fuel : Nat) (l : List Node)
    (h : ∀ n ∈ l, ∀ s, Resolver.visit_each fuel (items n) s = Resolver.visit fuel n s) :
    ∀ s, Resolver.visit_each fuel (items_each l) s = Resolver.visit_each fuel l s := by
  induction l with
  | nil => intro s; rfl
  | cons n rest ih =>
    intro s
    simp only [items_each, visit_each_append, Resolver.visit_each]
    rw [h n (List.mem_cons_self _ _) s]
    congr 1
    funext s1
    exact ih (fun m hm => h m (List.mem_cons_of_mem _ hm)) s1

/-- The visit of a node is the visit of its items, in order. -/
theorem visit_items (fuel : Nat) (n : Node) :
    ∀ s, Resolver.visit_each fuel (items n) s = Resolver.visit fuel n s := by
  induction n using Node.induction_kinds with
  | var v name => intro s; simp only [items]; exact visit_each_singleton fuel _ s
  | block b stmts _ => intro s; simp only [items]; exact visit_each_singleton fuel _ s
  | program b stmts _ => intro s; simp only [items]; exact visit_each_singleton fuel _ s
  | func args b stmts _ _ => intro s; simp only [items]; exact visit_each_singleton fuel _ s
  | seq n hn ih =>
    intro s
    rw [items_of_seq n hn, visit_of_seq fuel n hn]
    exact visit_items_each fuel n.kids ih s

theorem blocks_items_each (cur : Option Addr) (l : List Node)
    (h : ∀ n ∈ l, blocks_each cur (items n) = blocks cur n) :
    blocks_each cur (items_each l) = blocks_each cur l := by
  induction l with
  | nil => rfl
  | cons n rest ih =>
    simp only [items_each, blocks_each]
    rw [blocks_each_eq, List.flatMap_append, ← blocks_each_eq, ← blocks_each_eq,
      h n (List.mem_cons_self _ _), ih (fun m hm => h m (List.mem_cons_of_mem _ hm))]

/-- The blocks of the items of a node are the blocks of the node. -/
theorem blocks_items (cur : Option Addr) (n : Node) :
    blocks_each cur (items n) = blocks cur n := by
  induction n using Node.induction_kinds with
  | var v name => simp [items, blocks_each]
  | block b stmts _ => simp [items, blocks_each]
  | program b stmts _ => simp [items, blocks_each]
  | func args b stmts _ _ => simp only [items, blocks_each, List.append_nil]
  | seq n hn ih =>
    rw [items_of_seq n hn, blocks_of_seq cur n hn]
    exact blocks_items_each cur n.kids ih

theorem refs_items_each (sc : Scope) (l : List Node)
    (h : ∀ n ∈ l, refs_each sc (items n) = refs sc n) :
    refs_each sc (items_each l) = refs_each sc l := by
  induction l with
  | nil => rfl
  | cons n rest ih =>
    simp only [items_each, refs_each]
    rw [refs_each_eq, List.flatMap_append, ← refs_each_eq, ← refs_each_eq,
      h n (List.mem_cons_self _ _), ih (fun m hm => h m (List.mem_cons_of_mem _ hm))]

/-- The variable references of the items of a node are those of the node. -/
theorem refs_items (sc : Scope) (n : Node) : refs_each sc (items n) = refs sc n := by
  induction n using Node.induction_kinds with
  | var v name => simp [items, refs_each]
  | block b stmts _ => simp [items, refs_each]
  | program b stmts _ => simp [items, refs_each]
  | func args b stmts _ _ => simp only [items, refs_each, List.append_nil]
  | seq n hn ih =>
    rw [items_of_seq n hn, refs_of_seq sc n hn]
    exact refs_items_each sc n.kids ih

/-- A variable reference of a node whose current block is the current block
of the node is one of the items of the node. -/
theorem mem_items (n : Node) :
    ∀ (sc : Scope) (r : Ref), r ∈ refs sc n → r.scope = sc →
      Node.E_Var r.addr r.name ∈ items n := by
  induction n using Node.induction_kinds with
  | var v name =>
    intro sc r hr _
    simp only [refs, List.mem_singleton] at hr
    subst hr
    simp [items]
  | block b stmts _ =>
    intro sc r hr hsc
    exact absurd hsc (refs_scope_ne _ (by rfl) (fun _ _ h => by cases h) sc r hr)
  | program b stmts _ =>
    intro sc r hr hsc
    exact absurd hsc (refs_scope_ne _ (by rfl) (fun _ _ h => by cases h) sc r hr)
  | func args b stmts _ _ =>
    intro sc r hr hsc
    exact absurd hsc (refs_scope_ne _ (by rfl) (fun _ _ h => by cases h) sc r hr)
  | seq n hn ih =>
    intro sc r hr hsc
    rw [refs_of_seq sc n hn, refs_each_eq, List.mem_flatMap] at hr
    obtain ⟨k, hk, hr⟩ := hr
    rw [items_of_seq n hn]
    have : ∀ l : List Node, k ∈ l → Node.E_Var r.addr r.name ∈ items k →
        Node.E_Var r.addr r.name ∈ items_each l := by
      intro l
      induction l with
      | nil => intro h; simp at h
      | cons x rest ihl =>
        intro hm hi
        simp only [items_each, List.mem_append]
        rcases List.mem_cons.1 hm with h | h
        · left; rw [← h]; exact hi
        · right; exact ihl h hi
    exact this n.kids hk (ih k hk sc r hr hsc)

theorem refs_each_append (sc : Scope) (l l' : List Node) :
    refs_each sc (l ++ l') = refs_each sc l ++ refs_each sc l' := by
  rw [refs_each_eq, refs_each_eq, refs_each_eq, List.flatMap_append]

theorem blocks_each_append (cur : Option Addr) (l l' : List Node) :
    blocks_each cur (l ++ l') = blocks_each cur l ++ blocks_each cur l' := by
  rw [blocks_each_eq, blocks_each_eq, blocks_each_eq, List.flatMap_append]

/-- The variable references of the initialisers of a declare-list, along a
split of what the resolver visits in them at a variable reference. -/
theorem refs_split (sc : Scope) (l pre post : List Node) (v : Addr) (name : ustring)
    (h : items_each l = pre ++ Node.E_Var v name :: post) :
    refs_each sc l = refs_each sc pre ++ ⟨v, name, sc⟩ :: refs_each sc post := by
  rw [← refs_items_each sc l (fun n _ => refs_items sc n), h, refs_each_append]
  simp [refs_each, refs]

theorem blocks_split (cur : Option Addr) (l pre post : List Node) (v : Addr) (name : ustring)
    (h : items_each l = pre ++ Node.E_Var v name :: post) :
    blocks_each cur l = blocks_each cur pre ++ blocks_each cur post := by
  rw [← blocks_items_each cur l (fun n _ => blocks_items cur n), h, blocks_each_append]
  simp [blocks_each, blocks]

/-- The visit of the initialisers of a declare-list, along a split of what
the resolver visits in them at a variable reference. -/
theorem visit_split (fuel : Nat) (l pre post : List Node) (v : Addr) (name : ustring)
    (h : items_each l = pre ++ Node.E_Var v name :: post) (s : State) :
    Resolver.visit_each fuel l s =
      andThen (Resolver.visit_each fuel pre s) (fun s1 =>
        andThen (Resolver.visit_var fuel v name s1) (Resolver.visit_each fuel post)) := by
  rw [← visit_items_each fuel l (fun n _ => visit_items fuel n) s, h, visit_each_append]
  simp only [Resolver.visit_each, Resolver.visit]

/-- A variable reference whose name is not a local of the current block, in a
state that agrees with the scope: the visit returns when lexical lookup in the
blocks around finds the name, and throws `NoSuchName` with the name when it
does not. -/
theorem visit_var_result (fuel : Nat) (v : Addr) (name : ustring) (s : State) (l : Level)
    (anc : Scope) (hr : Ready fuel s l anc [] [v] []) (hmem : name ∉ l.names) :
    (Scope.lookup name anc = none →
      (Resolver.visit_var fuel v name s).1 = Result.throw (Exception.NoSuchName name)) ∧
    (∀ p, Scope.lookup name anc = some p →
      (Resolver.visit_var fuel v name s).1 = Result.ok ()) := by
  obtain ⟨hcur, hchain⟩ := hr.parent_chain
  have hfind := find_of_names (hr.scope.inv l (List.mem_cons_self _ _))
    (hr.scope.names l (List.mem_cons_self _ _)) name
  simp only [hmem, if_false] at hfind
  refine ⟨?_, ?_⟩
  · intro hnone
    cases hh : map_find (s.block l.block).name_to_nonlocal_index name with
    | some v0 =>
      obtain ⟨k, T, i, _, hlook, _⟩ := hr.cache.sound name v0 hh
      rw [hnone] at hlook
      cases hlook
    | none =>
      have hres := resolve_from_block_lookup s.block anc name (s.block l.block).parent fuel
        hchain (fun l' hl' => hr.scope.names l' (List.mem_cons_of_mem _ hl'))
        (fun l' hl' => hr.scope.inv l' (List.mem_cons_of_mem _ hl'))
        (by have := hr.fuel; simp at this; omega)
      rw [visit_var_miss fuel v name s l.block hcur hfind hh, hres]
      simp only [lookup_result, hnone]
  · intro p hsome
    rcases (visit_var_outcome fuel v name s l anc hr).2 (fun _ h => by simp at h) with
      ⟨hok, _⟩ | ⟨_, hnot⟩
    · exact hok
    · exfalso
      apply hnot
      intro r hr'
      simp only [List.mem_singleton] at hr'
      subst hr'
      simp [Ref.unbound, Scope.lookup, hmem, hsome]

/-- What the visit of a function literal keeps of the state reached in its
parameter default initialisers: the stamp of a variable reference that does
not stand in the body, and the capture entries of the body block, which only
grow; the body block has the block around the literal as parent. -/
theorem visit_func_keeps (fuel : Nat) (d : Addr) (decls : List PairType) (b : Addr)
    (stmts : List Node) (s : State) (l : Level) (anc : Scope)
    (hcur : s.cur_block = some l.block)
    (hbB : b ∉ (blocks_each (some b) stmts).map BlockInfo.addr) (v : Addr)
    (hv : v ∉ (refs_each (⟨b, param_names (some (d, decls)) ++ hoisted stmts, false⟩ ::
      l :: anc) stmts).map Ref.addr)
    (s2 : State)
    (h3 : (Resolver.visit_each fuel (initialisers decls) (Resolver.enter b s)).2.var v =
        s2.var v ∧
      ((s2.block b).nonlocal_indexes <+:
        ((Resolver.visit_each fuel (initialisers decls) (Resolver.enter b s)).2.block
          b).nonlocal_indexes) ∧
      ((Resolver.visit_each fuel (initialisers decls) (Resolver.enter b s)).2.block b).parent =
        some l.block) :
    (Resolver.visit fuel (Node.E_Func (some (d, decls)) b stmts) s).2.var v = s2.var v ∧
    ((s2.block b).nonlocal_indexes <+:
      ((Resolver.visit fuel (Node.E_Func (some (d, decls)) b stmts) s).2.block
        b).nonlocal_indexes) ∧
    ((Resolver.visit fuel (Node.E_Func (some (d, decls)) b stmts) s).2.block b).parent =
      some l.block := by
  rw [visit_func_eq]
  simp only [Resolver.visit_args]
  have hargs : (RestoreOnExit s.cur_block
      (andThen (Resolver.visit_each fuel (initialisers decls) (Resolver.enter b s))
        (declare b d decls))).2.var v = s2.var v ∧
      ((s2.block b).nonlocal_indexes <+:
        ((RestoreOnExit s.cur_block
          (andThen (Resolver.visit_each fuel (initialisers decls) (Resolver.enter b s))
            (declare b d decls))).2.block b).nonlocal_indexes) ∧
      ((RestoreOnExit s.cur_block
          (andThen (Resolver.visit_each fuel (initialisers decls) (Resolver.enter b s))
            (declare b d decls))).2.block b).parent = some l.block := by
    simp only [RestoreOnExit]
    apply andThen_elim (P := fun res =>
      res.2.var v = s2.var v ∧
      ((s2.block b).nonlocal_indexes <+: (res.2.block b).nonlocal_indexes) ∧
      (res.2.block b).parent = some l.block)
    · intro _; exact h3
    · intro _
      have hdec := declare_declares b d decls
        (Resolver.visit_each fuel (initialisers decls) (Resolver.enter b s)).2
      refine ⟨?_, ?_, ?_⟩
      · exact (congrFun hdec.var v).trans h3.1
      · rw [hdec.nonlocal_indexes]; exact h3.2.1
      · rw [hdec.parent]; exact h3.2.2
  apply andThen_elim (P := fun res =>
    res.2.var v = s2.var v ∧
    ((s2.block b).nonlocal_indexes <+: (res.2.block b).nonlocal_indexes) ∧
    (res.2.block b).parent = some l.block)
  · intro _; exact hargs
  · intro _
    obtain ⟨hk1, hk2, _, hk4⟩ := visit_block_keeps fuel b stmts
      (RestoreOnExit s.cur_block
        (andThen (Resolver.visit_each fuel (initialisers decls) (Resolver.enter b s))
          (declare b d decls))).2 v
      (⟨b, param_names (some (d, decls)) ++ hoisted stmts, false⟩ :: l :: anc) rfl hv hbB
    refine ⟨hk1.trans hargs.1, hargs.2.1.trans hk2, ?_⟩
    rw [hk4]
    exact hcur

/-- A variable reference whose name no block of the scope declares: the visit
marks it non-local before it throws. -/
theorem visit_var_unbound (fuel : Nat) (v : Addr) (name : ustring) (s : State) (l : Level)
    (anc : Scope) (hr : Ready fuel s l anc [] [v] []) (hmem : name ∉ l.names)
    (hnone : Scope.lookup name anc = none) :
    ((Resolver.visit_var fuel v name s).2.var v).is_local = false := by
  obtain ⟨hcur, hchain⟩ := hr.parent_chain
  have hfind := find_of_names (hr.scope.inv l (List.mem_cons_self _ _))
    (hr.scope.names l (List.mem_cons_self _ _)) name
  simp only [hmem, if_false] at hfind
  cases hh : map_find (s.block l.block).name_to_nonlocal_index name with
  | some v0 =>
    obtain ⟨k, T, i, _, hlook, _⟩ := hr.cache.sound name v0 hh
    rw [hnone] at hlook
    cases hlook
  | none =>
    have hres := resolve_from_block_lookup s.block anc name (s.block l.block).parent fuel
      hchain (fun l' hl' => hr.scope.names l' (List.mem_cons_of_mem _ hl'))
      (fun l' hl' => hr.scope.inv l' (List.mem_cons_of_mem _ hl'))
      (by have := hr.fuel; simp at this; omega)
    rw [visit_var_miss fuel v name s l.block hcur hfind hh, hres]
    simp only [lookup_result, hnone, upd_same]

/-- A visit of a function literal leaves the blocks around it as they are. -/
theorem visit_func_scope (fuel : Nat) (args : Option (Addr × List PairType)) (b : Addr)
    (stmts : List Node) (s : State) (l : Level) (anc : Scope)
    (hs : ScopeOK s (l :: anc))
    (hbd : ∀ b' ∈ block_addrs (some l.block) (Node.E_Func args b stmts),
      b' ∉ (l :: anc).map Level.block) :
    ScopeOK (Resolver.visit fuel (Node.E_Func args b stmts) s).2 (l :: anc) := by
  have hconf := visit_confined fuel (Node.E_Func args b stmts) rfl
    (fun _ _ h => by cases h) (l :: anc) s
  exact hs.congr_scope hconf.cur (fun b' hb' => by
    rw [hconf.block_other b' (fun hm => hbd b' hm hb')]; exact ⟨rfl, rfl, rfl⟩)

/-- A variable reference that stands in a parameter default initialiser of a
function literal, outside any nested function: `pre` is what the resolver
visits in the initialisers before it, with the body block current.  When the
visit of `pre` does not return, the visit of the literal ends as it does.
When it returns, the reference is visited: it is marked non-local; when lookup
in the blocks around the literal finds its name, it gets a capture entry of
the body block with what lookup finds, and stamp and entry are still there
after the visit of the literal, whatever its outcome; when lookup finds
nothing, the visit of the literal throws `NoSuchName` with the name.  Only
the body block has to be fresh. -/
theorem visit_func_init_reached (fuel : Nat) (d : Addr) (decls : List PairType) (b : Addr)
    (stmts : List Node) (s : State) (l : Level) (anc : Scope)
    (hs : ScopeOK s (l :: anc)) (hempty : s.block b = {})
    (hbn : (block_addrs (some l.block) (Node.E_Func (some (d, decls)) b stmts)).Nodup)
    (hbd : ∀ b' ∈ block_addrs (some l.block) (Node.E_Func (some (d, decls)) b stmts),
      b' ∉ (l :: anc).map Level.block)
    (hvn : (var_addrs (l :: anc) (Node.E_Func (some (d, decls)) b stmts)).Nodup)
    (hfuel : (l :: anc).length + 1 ≤ fuel)
    (pre post : List Node) (v : Addr) (name : ustring)
    (hsplit : items_each (initialisers decls) = pre ++ Node.E_Var v name :: post) :
    ((Resolver.visit_each fuel pre (Resolver.enter b s)).1 ≠ Result.ok () →
      (Resolver.visit fuel (Node.E_Func (some (d, decls)) b stmts) s).1 =
        (Resolver.visit_each fuel pre (Resolver.enter b s)).1) ∧
    ((Resolver.visit_each fuel pre (Resolver.enter b s)).1 = Result.ok () →
      ((Resolver.visit fuel (Node.E_Func (some (d, decls)) b stmts) s).2.var v).is_local =
        false ∧
      ((Resolver.visit fuel (Node.E_Func (some (d, decls)) b stmts) s).2.block b).parent =
        some l.block ∧
      (Scope.lookup name (l :: anc) = none →
        (Resolver.visit fuel (Node.E_Func (some (d, decls)) b stmts) s).1 =
          Result.throw (Exception.NoSuchName name)) ∧
      (∀ (T : Addr) (i : Nat), Scope.lookup name (l :: anc) = some (T, i) →
        ∃ k : Nat,
          (Resolver.visit fuel (Node.E_Func (some (d, decls)) b stmts) s).2.var v =
            ⟨false, (k : Int)⟩ ∧
          ((Resolver.visit fuel (Node.E_Func (some (d, decls)) b stmts) s).2.block
            b).nonlocal_indexes[k]? = some ⟨some T, (i : Int)⟩)) := by
  have hcur : s.cur_block = some l.block := by rw [hs.cur]; rfl
  have hbS : b ∉ (l :: anc).map Level.block := hbd b (by rw [block_addrs_func]; simp)
  rw [block_addrs_func] at hbn hbd
  simp only [List.nodup_cons, List.mem_append, not_or, param_initialisers] at hbn
  obtain ⟨⟨hbI, hbB⟩, _⟩ := hbn
  rw [var_addrs_func] at hvn
  simp only [param_initialisers, Scope.enter_init, Scope.enter_block] at hvn
  obtain ⟨hvn1, _, hvdis⟩ := List.nodup_append.1 hvn
  have hvis := visit_split fuel (initialisers decls) pre post v name hsplit (Resolver.enter b s)
  have hrefs := refs_split (⟨b, [], true⟩ :: l :: anc) (initialisers decls) pre post v name
    hsplit
  have hblocks := blocks_split (some b) (initialisers decls) pre post v name hsplit
  rw [hrefs] at hvn1 hvdis
  simp only [param_initialisers] at hbd
  rw [hblocks] at hbI hbd
  simp only [List.map_append, List.map_cons, List.mem_append, List.mem_cons, not_or] at hbI
  have hvpre : ((refs_each (⟨b, [], true⟩ :: l :: anc) pre).map Ref.addr).Nodup := by
    rw [List.map_append] at hvn1
    exact (List.nodup_append.1 hvn1).1
  have hvpost : v ∉ (refs_each (⟨b, [], true⟩ :: l :: anc) post).map Ref.addr := by
    rw [List.map_append, List.map_cons] at hvn1
    exact (List.nodup_cons.1 (List.nodup_append.1 hvn1).2.1).1
  have hvbody : v ∉ (refs_each (⟨b, param_names (some (d, decls)) ++ hoisted stmts, false⟩ ::
      l :: anc) stmts).map Ref.addr := by
    intro hm
    exact hvdis (by simp) hm
  refine ⟨?_, ?_⟩
  · intro hne
    have hI : Resolver.visit_each fuel (initialisers decls) (Resolver.enter b s) =
        Resolver.visit_each fuel pre (Resolver.enter b s) := by
      rw [hvis, andThen_not_ok _ hne]
    rw [visit_func_init_fails fuel d decls b stmts s (by rw [hI]; exact hne), hI]
  · intro hok
    have hse : ScopeOK (Resolver.enter b s) (⟨b, [], true⟩ :: l :: anc) :=
      hs.push hbS (Declares.refl_d b [] (Resolver.enter b s)) [] true
        (by simp [Resolver.enter, upd_same, hempty, local_names])
        (LocalTableInv.of_empty _ (by simp [Resolver.enter, upd_same, hempty])
          (by simp [Resolver.enter, upd_same, hempty]))
    have hce : CacheOK ((Resolver.enter b s).block b) (l :: anc) :=
      CacheOK.empty_cache _ _ (by simp [Resolver.enter, upd_same, hempty])
        (by simp [Resolver.enter, upd_same, hempty])
    obtain ⟨hs1, hc1, _⟩ := directly_each fuel pre (fun m _ => directly fuel m)
      (Resolver.enter b s) ⟨b, [], true⟩ (l :: anc) hse hce
      (by
        intro b' hb' hm
        rcases List.mem_cons.1 hm with h | h
        · have h' : b' = b := h
          exact hbI.1 (h' ▸ hb')
        · exact hbd b' (List.mem_cons_of_mem _ (List.mem_append_left _
            (by rw [List.map_append]; exact List.mem_append_left _ hb'))) h)
      hvpre (by simpa using hfuel) hok
    have hready : Ready fuel (Resolver.visit_each fuel pre (Resolver.enter b s)).2
        ⟨b, [], true⟩ (l :: anc) [] [v] [] :=
      ⟨hs1, hc1, List.nodup_nil, by simp, by simp, by simp, List.nodup_nil,
        by simpa using hfuel⟩
    obtain ⟨hnone, hsome⟩ := visit_var_result fuel v name
      (Resolver.visit_each fuel pre (Resolver.enter b s)).2 ⟨b, [], true⟩ (l :: anc) hready
      (by simp)
    have hI : Resolver.visit_each fuel (initialisers decls) (Resolver.enter b s) =
        andThen (Resolver.visit_var fuel v name
          (Resolver.visit_each fuel pre (Resolver.enter b s)).2)
          (Resolver.visit_each fuel post) := by
      rw [hvis, andThen_is_ok _ hok]
    have hpar1 : ((Resolver.visit_each fuel pre (Resolver.enter b s)).2.block b).parent =
        some l.block := by
      have := hs1.chain
      rw [hs1.cur] at this
      exact this.2.1
    have hcur1 : (Resolver.visit_each fuel pre (Resolver.enter b s)).2.cur_block = some b := by
      rw [hs1.cur]; rfl
    have htv := visit_var_touches fuel v name
      (Resolver.visit_each fuel pre (Resolver.enter b s)).2
    have hpar2 : ((Resolver.visit_var fuel v name
        (Resolver.visit_each fuel pre (Resolver.enter b s)).2).2.block b).parent =
        some l.block := by
      rw [(htv.block_cur b hcur1 (by simp)).1, hpar1]
    have hcur2 : (Resolver.visit_var fuel v name
        (Resolver.visit_each fuel pre (Resolver.enter b s)).2).2.cur_block = some b := by
      rw [htv.cur, hcur1]
    -- what the rest of the visit keeps
    have hkeep : (Resolver.visit fuel (Node.E_Func (some (d, decls)) b stmts) s).2.var v =
          (Resolver.visit_var fuel v name
            (Resolver.visit_each fuel pre (Resolver.enter b s)).2).2.var v ∧
        ((((Resolver.visit_var fuel v name
            (Resolver.visit_each fuel pre (Resolver.enter b s)).2).2.block
              b).nonlocal_indexes) <+:
          ((Resolver.visit fuel (Node.E_Func (some (d, decls)) b stmts) s).2.block
            b).nonlocal_indexes) ∧
        ((Resolver.visit fuel (Node.E_Func (some (d, decls)) b stmts) s).2.block b).parent =
          some l.block := by
      refine visit_func_keeps fuel d decls b stmts s l anc hcur hbB v hvbody _ ?_
      rw [hI]
      apply andThen_elim (P := fun res =>
        res.2.var v = (Resolver.visit_var fuel v name
            (Resolver.visit_each fuel pre (Resolver.enter b s)).2).2.var v ∧
        (((Resolver.visit_var fuel v name
            (Resolver.visit_each fuel pre (Resolver.enter b s)).2).2.block
              b).nonlocal_indexes <+: (res.2.block b).nonlocal_indexes) ∧
        (res.2.block b).parent = some l.block)
      · intro _
        exact ⟨rfl, List.prefix_refl _, hpar2⟩
      · intro _
        have ht := visit_each_touches fuel post (fun m _ => visit_touches fuel m)
          (⟨b, [], true⟩ :: l :: anc) (Resolver.visit_var fuel v name
            (Resolver.visit_each fuel pre (Resolver.enter b s)).2).2 (by rw [hcur2]; rfl)
        obtain ⟨hp, _, _, hpre, _⟩ := ht.block_cur b hcur2 hbI.2
        exact ⟨ht.var_other v hvpost, hpre, by rw [hp, hpar2]⟩
    obtain ⟨hk1, hk2, hk3⟩ := hkeep
    have hlocal : ((Resolver.visit fuel (Node.E_Func (some (d, decls)) b stmts) s).2.var
        v).is_local = false := by
      rw [hk1]
      cases hl : Scope.lookup name (l :: anc) with
      | none =>
        exact visit_var_unbound fuel v name _ ⟨b, [], true⟩ (l :: anc) hready (by simp) hl
      | some p =>
        have hd := (visit_var_outcome fuel v name _ ⟨b, [], true⟩ (l :: anc) hready).1
          (hsome p hl)
        have hst := hd.stamped ⟨v, name, ⟨b, [], true⟩ :: l :: anc⟩
          (List.mem_singleton.2 rfl)
        simp only [Stamped] at hst
        obtain ⟨k, T, i, _, hv, _⟩ := hst.2 (by simp)
        rw [hv]
    refine ⟨hlocal, hk3, ?_, ?_⟩
    · intro hl
      have hthrow := hnone hl
      have hnv : (Resolver.visit_var fuel v name
          (Resolver.visit_each fuel pre (Resolver.enter b s)).2).1 ≠ Result.ok () := by
        rw [hthrow]; simp
      have hI2 : Resolver.visit_each fuel (initialisers decls) (Resolver.enter b s) =
          Resolver.visit_var fuel v name
            (Resolver.visit_each fuel pre (Resolver.enter b s)).2 := by
        rw [hI, andThen_not_ok _ hnv]
      rw [visit_func_init_fails fuel d decls b stmts s (by rw [hI2]; exact hnv), hI2, hthrow]
    · intro T i hl
      have hd := (visit_var_outcome fuel v name _ ⟨b, [], true⟩ (l :: anc) hready).1
        (hsome (T, i) hl)
      have hst := hd.stamped ⟨v, name, ⟨b, [], true⟩ :: l :: anc⟩ (List.mem_singleton.2 rfl)
      simp only [Stamped] at hst
      obtain ⟨k, T', i', hlook, hv, hget, _⟩ := hst.2 (by simp)
      rw [hl] at hlook
      simp only [Option.some.injEq, Prod.mk.injEq] at hlook
      obtain ⟨hT, hi⟩ := hlook
      subst hT hi
      refine ⟨k, by rw [hk1, hv], ?_⟩
      obtain ⟨t, ht⟩ := hk2
      rw [← ht]
      have hlt : k < ((Resolver.visit_var fuel v name
          (Resolver.visit_each fuel pre (Resolver.enter b s)).2).2.block
            b).nonlocal_indexes.length := by
        by_contra hc
        rw [List.getElem?_eq_none (by omega)] at hget
        simp at hget
      rw [List.getElem?_append_left hlt]
      exact hget

theorem items_each_mem (l : List Node) (k x : Node) (hk : k ∈ l) (hx : x ∈ items k) :
    x ∈ items_each l := by
  induction l with
  | nil => simp at hk
  | cons n rest ih =>
    simp only [items_each, List.mem_append]
    rcases List.mem_cons.1 hk with h | h
    · left; rw [← h]; exact hx
    · right; exact ih h

/-- A variable reference of a sequence of nodes whose current block is the
current block of the sequence is one of the things the resolver visits in the
sequence under that block. -/
theorem mem_items_each (l : List Node) (sc : Scope) (r : Ref) (hr : r ∈ refs_each sc l)
    (hsc : r.scope = sc) : Node.E_Var r.addr r.name ∈ items_each l := by
  rw [refs_each_eq, List.mem_flatMap] at hr
  obtain ⟨k, hk, hr⟩ := hr
  exact items_each_mem l k _ hk (mem_items k sc r hr hsc)

/-! ## Example states -/

/-- The program block after `var a;` has been resolved, current again for the
next statement, agrees with the scope that has `a` in the program block. -/
theorem state_var_a_scope : ScopeOK state_var_a [⟨0, ["a"], false⟩] := by
  refine ⟨rfl, ⟨rfl, by simp only [List.map_nil, Chain]; decide⟩, by decide, ?_, ?_⟩
  · intro l hl
    simp only [List.mem_singleton] at hl
    subst hl
    decide
  · intro l hl
    simp only [List.mem_singleton] at hl
    subst hl
    exact run_calls_inv 8 [ResolverCall.resolve_names 0 [Node.S_DeclareList 100 [("a", none)]]]
      State.fresh (fun _ => LocalTableInv.empty_inv) 0

/-- A current program block without declarations agrees with the scope that
has no name. -/
theorem state_empty_scope :
    ScopeOK { State.fresh with cur_block := some 0 } [⟨0, [], false⟩] := by
  refine ⟨rfl, ⟨rfl, by simp only [List.map_nil, Chain]; decide⟩, by decide, ?_, ?_⟩
  · intro l hl
    simp only [List.mem_singleton] at hl
    subst hl
    decide
  · intro l hl
    simp only [List.mem_singleton] at hl
    subst hl
    exact LocalTableInv.empty_inv

/-! ## Claims (continued) -/

/-- C11 (counterexample): in `var a; fn(a = fn() { return a; }) {};` the
nearest block that lexically encloses the inner function literal, which
stands in the parameter list of the outer one, is the program block (at 0);
after a successful `resolve_names` the parent of the inner body (at 2) is the
body block of the outer function (at 1). -/
theorem parent_of_initialiser_function :
    FreshTree State.fresh 0 prog_nested_init ∧
    (resolve_names 8 0 prog_nested_init State.fresh).1 = Result.ok () ∧
    (⟨2, some 0, some 1⟩ : LexInfo) ∈
      lexical_blocks none none (Node.Program 0 prog_nested_init) ∧
    ((resolve_names 8 0 prog_nested_init State.fresh).2.block 2).parent = some 1 ∧
    ¬ ∀ lb ∈ lexical_blocks none none (Node.Program 0 prog_nested_init),
      ((resolve_names 8 0 prog_nested_init State.fresh).2.block lb.addr).parent = lb.encl :=
  ⟨fresh_tree_of_nodup _ _ (by decide) (by decide) (by decide), by decide, by decide,
    by decide, by decide⟩

/-- C11 (amended): after `resolve_names` succeeds on a fresh program `P`,
`P.attr.parent` is null; every other block has as `attr.parent` the nearest
block that lexically encloses it, except a block reached through a parameter
default initialiser of a function literal with no block in between (the body
of a function literal written in the initialiser), whose `attr.parent` is the
body block of that function literal; and the parent chain of every block is
finite, passes through no block twice and ends at `P`. -/
theorem parents_as_reached (fuel : Nat) (b : Addr) (stmts : List Node) (s : State)
    (hf : FreshTree s b stmts)
    (hfuel : (block_addrs none (Node.Program b stmts)).length ≤ fuel)
    (hok : (resolve_names fuel b stmts s).1 = Result.ok ()) :
    ((resolve_names fuel b stmts s).2.block b).parent = none ∧
    ∀ lb ∈ lexical_blocks none none (Node.Program b stmts),
      (lb.host = none → ((resolve_names fuel b stmts s).2.block lb.addr).parent = lb.encl) ∧
      (∀ h, lb.host = some h →
        ((resolve_names fuel b stmts s).2.block lb.addr).parent = some h) ∧
      ∃ path, Chain (resolve_names fuel b stmts s).2.block (some lb.addr) path ∧
        path.Nodup ∧ path.getLast? = some b := by
  obtain ⟨hres, _⟩ := resolve_names_resolved fuel b stmts s hf hfuel hok
  have hroot : ((resolve_names fuel b stmts s).2.block b).parent = none := by
    have := (hres.blocks ⟨b, none, none, direct_decls stmts⟩ (by simp [blocks])).parent
    exact this
  refine ⟨hroot, ?_⟩
  intro lb hlb
  have hmap := blocks_lexical (Node.Program b stmts) none none
  have hmem : (lb.addr, lb.reached_in) ∈
      (blocks none (Node.Program b stmts)).map (fun bi => (bi.addr, bi.parent)) := by
    have h0 : LexInfo.reached_in ⟨0, none, none⟩ = none := rfl
    rw [h0] at hmap
    rw [hmap]
    exact List.mem_map.2 ⟨lb, hlb, rfl⟩
  obtain ⟨bi, hbi, hpair⟩ := List.mem_map.1 hmem
  simp only [Prod.mk.injEq] at hpair
  obtain ⟨haddr, hparent⟩ := hpair
  have hp := (hres.blocks bi hbi).parent
  rw [haddr, hparent] at hp
  refine ⟨?_, ?_, ?_⟩
  · intro hhost
    rw [hp]; simp [LexInfo.reached_in, hhost]
  · intro h hhost
    rw [hp]; simp [LexInfo.reached_in, hhost]
  · have hblocks : blocks none (Node.Program b stmts) =
        ⟨b, none, none, direct_decls stmts⟩ :: blocks_each (some b) stmts := by
      simp [blocks]
    have hchain : ∃ path, Chain (resolve_names fuel b stmts s).2.block (some bi.addr) path ∧
        path.getLast? = some b := by
      rw [hblocks] at hbi
      rcases List.mem_cons.1 hbi with rfl | htl
      · exact ⟨[b], ⟨rfl, hroot⟩, rfl⟩
      · obtain ⟨l1, l2, hsplit⟩ := List.append_of_mem htl
        refine chain_to_root b (blocks_each (some b) stmts) hroot ?_ ?_ l1.length l1 bi l2 rfl
          hsplit
        · intro bi' hbi'
          exact (hres.blocks bi' (by rw [hblocks]; exact List.mem_cons_of_mem _ hbi')).parent
        · exact parent_earlier_each stmts (fun k _ => parent_earlier k) (some b)
    rw [haddr] at hchain
    obtain ⟨path, hch, hlast⟩ := hchain
    exact ⟨path, hch, Chain.nodup_chain path _ hch, hlast⟩

/-- Witness for C11 (amended): the program
`var a; fn(a = fn() { return a; }) {};`. -/
theorem parents_as_reached_witness :
    FreshTree State.fresh 0 prog_nested_init ∧
    (block_addrs none (Node.Program 0 prog_nested_init)).length ≤ 8 ∧
    (resolve_names 8 0 prog_nested_init State.fresh).1 = Result.ok () ∧
    lexical_blocks none none (Node.Program 0 prog_nested_init) =
      [⟨0, none, none⟩, ⟨1, some 0, none⟩, ⟨2, some 0, some 1⟩] ∧
    Chain (resolve_names 8 0 prog_nested_init State.fresh).2.block (some 2) [2, 1, 0] ∧
    (((resolve_names 8 0 prog_nested_init State.fresh).2.block 0).parent = none ∧
    ∀ lb ∈ lexical_blocks none none (Node.Program 0 prog_nested_init),
      (lb.host = none →
        ((resolve_names 8 0 prog_nested_init State.fresh).2.block lb.addr).parent = lb.encl) ∧
      (∀ h, lb.host = some h →
        ((resolve_names 8 0 prog_nested_init State.fresh).2.block lb.addr).parent = some h) ∧
      ∃ path, Chain (resolve_names 8 0 prog_nested_init State.fresh).2.block (some lb.addr) path ∧
        path.Nodup ∧ path.getLast? = some 0) :=
  ⟨fresh_tree_of_nodup _ _ (by decide) (by decide) (by decide), by decide, by decide,
    by decide, by simp only [Chain]; decide,
    parents_as_reached 8 0 prog_nested_init State.fresh
      (fresh_tree_of_nodup _ _ (by decide) (by decide) (by decide)) (by decide) (by decide)⟩
/-- C13 (counterexample): the body of `fn(a = z) { var a; }` directly
contains a declare-list that declares the parameter name `a`, and resolving
the function literal (fresh records, program block current, `z` declared
nowhere) fails with `NoSuchName`, not with `DuplicatedLocalName`. -/
theorem redeclared_parameter_no_such_name :
    (∃ name ∈ param_names (some (100, [("a", some (Node.E_Var 200 "z"))])),
      name ∈ hoisted [Node.S_DeclareList 101 [("a", none)]]) ∧
    (Resolver.visit 8 func_redeclared_unbound { State.fresh with cur_block := some 0 }).1 =
      Result.throw (Exception.NoSuchName "z") ∧
    (Resolver.visit 8 func_redeclared_unbound
      { State.fresh with cur_block := some 0 }).1.threw_duplicated = false :=
  ⟨by decide, by decide, by decide⟩

/-- C13 (amended): for every function literal with a parameter list and a
fresh body block, whose body directly contains a declare-list declaring a
name equal to one of the parameters, or whose parameter list names a
parameter twice: when resolving the parameter default initialisers succeeds,
resolving the function literal fails with `DuplicatedLocalName`; otherwise it
ends with the failure of the initialisers. -/
theorem duplicate_parameter_rejected (fuel : Nat) (d : Addr) (decls : List PairType) (b : Addr)
    (stmts : List Node) (s : State) (hempty : s.block b = {})
    (hbn : (block_addrs s.cur_block (Node.E_Func (some (d, decls)) b stmts)).Nodup)
    (hdup : (∃ name ∈ decl_names decls, name ∈ hoisted stmts) ∨ ¬ (decl_names decls).Nodup) :
    ((Resolver.visit_declare_list fuel decls (Resolver.enter b s)).1 = Result.ok () →
      (Resolver.visit fuel (Node.E_Func (some (d, decls)) b stmts) s).1.threw_duplicated = true) ∧
    ((Resolver.visit_declare_list fuel decls (Resolver.enter b s)).1 ≠ Result.ok () →
      (Resolver.visit fuel (Node.E_Func (some (d, decls)) b stmts) s).1 =
        (Resolver.visit_declare_list fuel decls (Resolver.enter b s)).1) := by
  rw [block_addrs_func] at hbn
  simp only [List.nodup_cons, List.mem_append, not_or, param_initialisers] at hbn
  rw [visit_declare_list_eq]
  exact visit_func_duplicate fuel d decls b stmts s hempty hbn.1.1 hdup

/-- Witness for C13 (amended): `fn(a) { var a; }` fails with
`DuplicatedLocalName`, as does `fn(a, a) {}`. -/
theorem duplicate_parameter_rejected_witness :
    (({ State.fresh with cur_block := some 0 } : State).block 1 = {}) ∧
    (Resolver.visit 8 func_redeclared { State.fresh with cur_block := some 0 }).1 =
      Result.throw (Exception.DuplicatedLocalName "a") ∧
    (Resolver.visit 8 func_twice { State.fresh with cur_block := some 0 }).1 =
      Result.throw (Exception.DuplicatedLocalName "a") ∧
    (((Resolver.visit_declare_list 8 [("a", none)]
        (Resolver.enter 1 { State.fresh with cur_block := some 0 })).1 = Result.ok () →
      (Resolver.visit 8 (Node.E_Func (some (100, [("a", none)])) 1
        [Node.S_DeclareList 101 [("a", none)]])
        { State.fresh with cur_block := some 0 }).1.threw_duplicated = true) ∧
    ((Resolver.visit_declare_list 8 [("a", none)]
        (Resolver.enter 1 { State.fresh with cur_block := some 0 })).1 ≠ Result.ok () →
      (Resolver.visit 8 (Node.E_Func (some (100, [("a", none)])) 1
        [Node.S_DeclareList 101 [("a", none)]])
        { State.fresh with cur_block := some 0 }).1 =
        (Resolver.visit_declare_list 8 [("a", none)]
          (Resolver.enter 1 { State.fresh with cur_block := some 0 })).1)) :=
  ⟨rfl, by decide, by decide,
    duplicate_parameter_rejected 8 100 [("a", none)] 1 [Node.S_DeclareList 101 [("a", none)]]
      { State.fresh with cur_block := some 0 } rfl (by decide) (by decide)⟩

/-- C14: for every node and every resolver state, when the visit of the node
finishes, with any outcome (normal return, `DuplicatedLocalName`,
`NoSuchName`), the current-block pointer of the resolver has the value it had
immediately before the visit. -/
theorem cur_block_restored (fuel : Nat) (n : Node) (s : State) :
    (Resolver.visit fuel n s).2.cur_block = s.cur_block :=
  visit_cur_block fuel n s

/-- C15: resolution is not repeatable on populated attribute records.  After
`resolve_names` has succeeded on a fresh program, a second `resolve_names` on
the same tree fails with `DuplicatedLocalName` if some block of the tree
declares a name (by a declare-list statement directly in it or, for a
function body, by a parameter), and if none does it succeeds and leaves every
variable stamp and every block record unchanged. -/
theorem second_resolve_names (fuel : Nat) (b : Addr) (stmts : List Node) (s : State)
    (hf : FreshTree s b stmts)
    (hfuel : (block_addrs none (Node.Program b stmts)).length ≤ fuel)
    (hok : (resolve_names fuel b stmts s).1 = Result.ok ()) :
    ((∃ bi ∈ blocks none (Node.Program b stmts), bi.declared ≠ []) →
      (resolve_names fuel b stmts (resolve_names fuel b stmts s).2).1.threw_duplicated = true) ∧
    ((∀ bi ∈ blocks none (Node.Program b stmts), bi.declared = []) →
      (resolve_names fuel b stmts (resolve_names fuel b stmts s).2).1 = Result.ok () ∧
      (resolve_names fuel b stmts (resolve_names fuel b stmts s).2).2.var =
        (resolve_names fuel b stmts s).2.var ∧
      (resolve_names fuel b stmts (resolve_names fuel b stmts s).2).2.block =
        (resolve_names fuel b stmts s).2.block) := by
  obtain ⟨hres, hall⟩ := resolve_names_resolved fuel b stmts s hf hfuel hok
  generalize (resolve_names fuel b stmts s).2 = s1 at *
  have hset : Settled s1.block (refs Scope.top (Node.Program b stmts))
      (blocks none (Node.Program b stmts)) :=
    settled_of_resolved hres (fun r hr => (hall r hr).2)
  have hrun : resolve_names fuel b stmts s1 =
      Resolver.visit fuel (Node.Program b stmts) { s1 with cur_block := none } := by
    simp only [resolve_names, Resolver.visit]
  rw [hrun]
  have hrep := visit_replay fuel (Node.Program b stmts) Scope.top
    { s1 with cur_block := none } rfl hset
  have htouch := visit_touches fuel (Node.Program b stmts) Scope.top
    { s1 with cur_block := none } rfl
  refine ⟨?_, ?_⟩
  · rintro ⟨bi, hbi, hne⟩
    rcases hrep with ⟨_, _, _, hno⟩ | ⟨hdup, _⟩
    · exact absurd (hno bi hbi) hne
    · exact hdup
  · intro hno
    rcases hrep with ⟨h1, h2, _, _⟩ | ⟨_, bi, hbi, hne⟩
    · refine ⟨h1, ?_, h2⟩
      have hR := no_refs_of_no_decls hres (fun r hr => (hall r hr).2.2) hno
      funext v
      exact htouch.var_other v (by simp [var_addrs, hR])
    · exact absurd (hno bi hbi) hne

/-- Witness for C15: after `var a; fn() { return a; }; a;` has been resolved,
a second `resolve_names` fails with `DuplicatedLocalName`; the program
`fn() { while (true) { } };`, which declares nothing, is resolved a second
time without failure. -/
theorem second_resolve_names_witness :
    FreshTree State.fresh 0 prog_capture ∧
    (block_addrs none (Node.Program 0 prog_capture)).length ≤ 8 ∧
    (resolve_names 8 0 prog_capture State.fresh).1 = Result.ok () ∧
    (resolve_names 8 0 prog_capture (resolve_names 8 0 prog_capture State.fresh).2).1 =
      Result.throw (Exception.DuplicatedLocalName "a") ∧
    (resolve_names 8 0 prog_no_decls State.fresh).1 = Result.ok () ∧
    (resolve_names 8 0 prog_no_decls (resolve_names 8 0 prog_no_decls State.fresh).2).1 =
      Result.ok () ∧
    (((∃ bi ∈ blocks none (Node.Program 0 prog_capture), bi.declared ≠ []) →
      (resolve_names 8 0 prog_capture
        (resolve_names 8 0 prog_capture State.fresh).2).1.threw_duplicated = true) ∧
    ((∀ bi ∈ blocks none (Node.Program 0 prog_capture), bi.declared = []) →
      (resolve_names 8 0 prog_capture (resolve_names 8 0 prog_capture State.fresh).2).1 =
        Result.ok () ∧
      (resolve_names 8 0 prog_capture (resolve_names 8 0 prog_capture State.fresh).2).2.var =
        (resolve_names 8 0 prog_capture State.fresh).2.var ∧
      (resolve_names 8 0 prog_capture (resolve_names 8 0 prog_capture State.fresh).2).2.block =
        (resolve_names 8 0 prog_capture State.fresh).2.block)) :=
  ⟨fresh_tree_of_nodup _ _ (by decide) (by decide) (by decide), by decide, by decide,
    by decide, by decide, by decide,
    second_resolve_names 8 0 prog_capture State.fresh
      (fresh_tree_of_nodup _ _ (by decide) (by decide) (by decide)) (by decide) (by decide)⟩

/-- C16: a failed declaration is not rolled back.  When
`add_declarations_to_block_attr` meets, after the names `d_0 .. d_{j-1}` (none
of them in the block's map, pairwise distinct), a first offending name `d_j`
(one that `name_to_local_index` already has, which under the local-table
invariant means a local of the block, or one of `d_0 .. d_{j-1}`), it fails
with `DuplicatedLocalName` for `d_j`; afterwards `local_info` is the old
`local_info` followed by `d_0 .. d_{j-1}`, `name_to_local_index` has each of
these `j` names at its new slot, and `start_index` is the old size of
`local_info`.  `resolve_names_in_block` on such a declare-list fails the same
way and leaves this record in the block. -/
theorem failed_declaration_kept (attr : S_Block.AttrType) (pre : List PairType)
    (bad : PairType) (post : List PairType)
    (hpre : ∀ name ∈ decl_names pre, map_find attr.name_to_local_index name = none)
    (hnd : (decl_names pre).Nodup)
    (hbad : (map_find attr.name_to_local_index bad.1).isSome = true ∨ bad.1 ∈ decl_names pre) :
    (add_declarations_to_block_attr attr (pre ++ bad :: post)).1 =
      Result.throw (Exception.DuplicatedLocalName bad.1) ∧
    (add_declarations_to_block_attr attr (pre ++ bad :: post)).2.1.local_info =
      attr.local_info ++ (decl_names pre).map VarInfo.mk ∧
    (∀ (i : Nat) (name : ustring), (decl_names pre)[i]? = some name →
      map_find (add_declarations_to_block_attr attr
        (pre ++ bad :: post)).2.1.name_to_local_index name =
          some ((attr.local_info.length + i : Nat) : Int)) ∧
    (add_declarations_to_block_attr attr (pre ++ bad :: post)).2.2.start_index =
      (attr.local_info.length : Int) ∧
    ∀ (fuel : Nat) (block d : Addr) (s : State), s.block block = attr →
      (resolve_names_in_block fuel block (Node.S_DeclareList d (pre ++ bad :: post)) s).1 =
        Result.throw (Exception.DuplicatedLocalName bad.1) ∧
      (resolve_names_in_block fuel block
        (Node.S_DeclareList d (pre ++ bad :: post)) s).2.block block =
          (add_declarations_to_block_attr attr (pre ++ bad :: post)).2.1 ∧
      (resolve_names_in_block fuel block
        (Node.S_DeclareList d (pre ++ bad :: post)) s).2.decl d =
          (add_declarations_to_block_attr attr (pre ++ bad :: post)).2.2 := by
  obtain ⟨h1, h2, h3⟩ := add_declarations_loop_stops pre bad post attr hpre hnd hbad
  refine ⟨h1, h2, h3, rfl, ?_⟩
  intro fuel block d s hs
  subst hs
  have hd : (declare block d (pre ++ bad :: post) s).1 =
      Result.throw (Exception.DuplicatedLocalName bad.1) := h1
  have hr : resolve_names_in_block fuel block (Node.S_DeclareList d (pre ++ bad :: post)) s =
      declare block d (pre ++ bad :: post) s := by
    simp only [resolve_names_in_block]
    generalize declare block d (pre ++ bad :: post) s = r at hd ⊢
    obtain ⟨r1, r2⟩ := r
    simp only at hd
    subst hd
    rfl
  rw [hr]
  exact ⟨hd, by simp [declare, upd], by simp [declare, upd]⟩

/-- Witness for C16: the declare-list `var b, a, c` added to a block that
already has the local `a` fails at `a` and leaves `b` declared. -/
theorem failed_declaration_kept_witness :
    (∀ name ∈ decl_names [("b", (none : Option Node))],
      map_find (push_local {} "a").name_to_local_index name = none) ∧
    (decl_names [("b", (none : Option Node))]).Nodup ∧
    (add_declarations_to_block_attr (push_local {} "a")
      ([("b", none)] ++ ("a", none) :: [("c", none)])).2.1.local_info = [⟨"a"⟩, ⟨"b"⟩] ∧
    ((add_declarations_to_block_attr (push_local {} "a")
      ([("b", none)] ++ ("a", none) :: [("c", none)])).1 =
      Result.throw (Exception.DuplicatedLocalName "a") ∧
    (add_declarations_to_block_attr (push_local {} "a")
      ([("b", none)] ++ ("a", none) :: [("c", none)])).2.1.local_info =
      (push_local {} "a").local_info ++ (decl_names [("b", (none : Option Node))]).map VarInfo.mk ∧
    (∀ (i : Nat) (name : ustring), (decl_names [("b", (none : Option Node))])[i]? = some name →
      map_find (add_declarations_to_block_attr (push_local {} "a")
        ([("b", none)] ++ ("a", none) :: [("c", none)])).2.1.name_to_local_index name =
          some (((push_local {} "a").local_info.length + i : Nat) : Int)) ∧
    (add_declarations_to_block_attr (push_local {} "a")
      ([("b", none)] ++ ("a", none) :: [("c", none)])).2.2.start_index =
      ((push_local {} "a").local_info.length : Int) ∧
    ∀ (fuel : Nat) (block d : Addr) (s : State), s.block block = push_local {} "a" →
      (resolve_names_in_block fuel block
        (Node.S_DeclareList d ([("b", none)] ++ ("a", none) :: [("c", none)])) s).1 =
        Result.throw (Exception.DuplicatedLocalName "a") ∧
      (resolve_names_in_block fuel block
        (Node.S_DeclareList d ([("b", none)] ++ ("a", none) :: [("c", none)])) s).2.block block =
          (add_declarations_to_block_attr (push_local {} "a")
            ([("b", none)] ++ ("a", none) :: [("c", none)])).2.1 ∧
      (resolve_names_in_block fuel block
        (Node.S_DeclareList d ([("b", none)] ++ ("a", none) :: [("c", none)])) s).2.decl d =
          (add_declarations_to_block_attr (push_local {} "a")
            ([("b", none)] ++ ("a", none) :: [("c", none)])).2.2) :=
  ⟨by decide, by decide, by decide,
    failed_declaration_kept (push_local {} "a") [("b", none)] ("a", none) [("c", none)]
      (by decide) (by decide) (by decide)⟩

/-- C17 (counterexample): in the fresh program
`fn(a = fn(y, y) {}, b = b) {};` the initialiser of the parameter `b` refers
to `b`, which no block around the function literal declares, and resolving the
function literal fails with `DuplicatedLocalName` (raised for the initialiser
of `a`), not with `NoSuchName`. -/
theorem duplicate_before_initialiser :
    FreshTree State.fresh 0 prog_dup_in_init ∧
    (∃ r ∈ refs Scope.top (Node.Program 0 prog_dup_in_init),
      r.addr = 200 ∧ r.name = "b" ∧ r.at_init = true ∧ r.owner = some 1 ∧
      Scope.lookup r.name r.scope.tail = none) ∧
    (resolve_names 8 0 prog_dup_in_init State.fresh).1 =
      Result.throw (Exception.DuplicatedLocalName "y") ∧
    (resolve_names 8 0 prog_dup_in_init State.fresh).1.threw_no_such_name = false :=
  ⟨fresh_tree_of_nodup _ _ (by decide) (by decide) (by decide), by decide, by decide,
    by decide⟩

/-- C17 (amended): parameter default initialisers are resolved before the
parameters are declared.  A function literal `fn(decls) { stmts }` with a
fresh body block `b` is visited in a state that agrees with the scope
`l :: anc` of the blocks around the literal (`l.block` is current); the
blocks and the variable references of the literal are distinct objects, and
its blocks are none of the blocks around it.  Let `r` be a variable reference
that stands in a parameter default initialiser, outside any nested function.
Its owning block is `b`, and the visit of the initialisers, with `b` current,
is: the visit of what precedes `r` in visiting order (`pre`), then
`visit_var` on `r`, then the visit of what follows (`post`).  When the
visit of `pre` does not return, an exception is raised before `r` is reached
and the visit of the literal ends with it.  When it returns, `r` is reached:
it is marked non-local, never local; when a block around the literal declares
its name, `r` gets a capture entry of `b` for the local that lexical lookup
finds around the literal, the local of the nearest block `T` on the parent
chain of `b` that has the name, also when the name is a parameter of the same
function, and stamp and entry are there after the visit of the literal,
whatever its outcome; when no block around the literal declares the name,
the visit of the literal throws `NoSuchName` with that name. -/
theorem initialiser_reference_bound_outside (fuel : Nat) (d : Addr) (decls : List PairType)
    (b : Addr) (stmts : List Node) (s : State) (l : Level) (anc : Scope)
    (hs : ScopeOK s (l :: anc)) (hempty : s.block b = {})
    (hbn : (block_addrs (some l.block) (Node.E_Func (some (d, decls)) b stmts)).Nodup)
    (hbd : ∀ b' ∈ block_addrs (some l.block) (Node.E_Func (some (d, decls)) b stmts),
      b' ∉ (l :: anc).map Level.block)
    (hvn : (var_addrs (l :: anc) (Node.E_Func (some (d, decls)) b stmts)).Nodup)
    (hfuel : (l :: anc).length + 1 ≤ fuel)
    (r : Ref) (hr : r ∈ refs (l :: anc) (Node.E_Func (some (d, decls)) b stmts))
    (hsc : r.scope = ⟨b, [], true⟩ :: l :: anc) :
    r.owner = some b ∧
    (∃ pre post : List Node,
      items_each (initialisers decls) = pre ++ Node.E_Var r.addr r.name :: post) ∧
    ∀ pre post : List Node,
      items_each (initialisers decls) = pre ++ Node.E_Var r.addr r.name :: post →
      Resolver.visit_declare_list fuel decls (Resolver.enter b s) =
        andThen (Resolver.visit_each fuel pre (Resolver.enter b s)) (fun s1 =>
          andThen (Resolver.visit_var fuel r.addr r.name s1) (Resolver.visit_each fuel post)) ∧
      ((Resolver.visit_each fuel pre (Resolver.enter b s)).1 ≠ Result.ok () →
        (Resolver.visit fuel (Node.E_Func (some (d, decls)) b stmts) s).1 =
          (Resolver.visit_each fuel pre (Resolver.enter b s)).1) ∧
      ((Resolver.visit_each fuel pre (Resolver.enter b s)).1 = Result.ok () →
        ((Resolver.visit fuel (Node.E_Func (some (d, decls)) b stmts) s).2.var
          r.addr).is_local = false ∧
        (∀ (T : Addr) (i : Nat), Scope.lookup r.name (l :: anc) = some (T, i) →
          ∃ k : Nat,
            (Resolver.visit fuel (Node.E_Func (some (d, decls)) b stmts) s).2.var r.addr =
              ⟨false, (k : Int)⟩ ∧
            ((Resolver.visit fuel (Node.E_Func (some (d, decls)) b stmts) s).2.block
              b).nonlocal_indexes[k]? = some ⟨some T, (i : Int)⟩ ∧
            NearestDeclaring
              (Resolver.visit fuel (Node.E_Func (some (d, decls)) b stmts) s).2.block
              r.name b T ∧
            ((Resolver.visit fuel (Node.E_Func (some (d, decls)) b stmts) s).2.block
              T).local_info[i]? = some ⟨r.name⟩) ∧
        (Scope.lookup r.name (l :: anc) = none →
          (Resolver.visit fuel (Node.E_Func (some (d, decls)) b stmts) s).1 =
            Result.throw (Exception.NoSuchName r.name))) := by
  have hri := init_ref_mem d decls b stmts (l :: anc) r hr hsc
  refine ⟨r.owner_of_scope _ _ hsc, ?_, ?_⟩
  · exact List.append_of_mem (mem_items_each _ _ r hri hsc)
  intro pre post hsplit
  obtain ⟨hearly, hreached⟩ := visit_func_init_reached fuel d decls b stmts s l anc hs hempty
    hbn hbd hvn hfuel pre post r.addr r.name hsplit
  refine ⟨?_, hearly, ?_⟩
  · rw [visit_declare_list_eq]
    exact visit_split fuel (initialisers decls) pre post r.addr r.name hsplit _
  intro hok
  obtain ⟨hlocal, hpar, hnone, hsome⟩ := hreached hok
  refine ⟨hlocal, ?_, hnone⟩
  intro T i hl
  obtain ⟨k, hv, hget⟩ := hsome T i hl
  have hscope := visit_func_scope fuel (some (d, decls)) b stmts s l anc hs hbd
  have hch := hscope.chain
  rw [hscope.cur] at hch
  have hcur : Scope.cur (l :: anc) = some l.block := rfl
  rw [hcur, ← hpar] at hch
  obtain ⟨path, hp, hnot, hin, hloc⟩ := lookup_heap _ r.name T i (l :: anc) _ hch
    hscope.names hl
  exact ⟨k, hv, hget, ⟨path, hp, hnot, hin⟩, hloc⟩

/-- Witness for C17 (amended): after `var a;` has been resolved, the statement
`fn(a = a) {};` is resolved by `resolve_names_in_block` in the populated
program block: the reference in the initialiser is reached, stamped non-local
in the function body and bound to the `a` of the program block, not to the
parameter.  In a state where the program block declares nothing, the visit of
`fn(a = a) {}` throws `NoSuchName`; and the visit of
`fn(a = fn(y, y) {}, b = b) {}` ends with the `DuplicatedLocalName` that is
raised before the reference `b` is reached. -/
theorem initialiser_reference_bound_outside_witness :
    ScopeOK state_var_a [⟨0, ["a"], false⟩] ∧
    state_var_a.block 1 = {} ∧
    (block_addrs (some 0) func_init_own_param).Nodup ∧
    (var_addrs [⟨0, ["a"], false⟩] func_init_own_param).Nodup ∧
    (⟨200, "a", [⟨1, [], true⟩, ⟨0, ["a"], false⟩]⟩ : Ref) ∈
      refs [⟨0, ["a"], false⟩] func_init_own_param ∧
    (resolve_names_in_block 8 0 (Node.S_Exp func_init_own_param)
        (resolve_names 8 0 [Node.S_DeclareList 100 [("a", none)]] State.fresh).2).1 =
      Result.ok () ∧
    (resolve_names_in_block 8 0 (Node.S_Exp func_init_own_param)
        (resolve_names 8 0 [Node.S_DeclareList 100 [("a", none)]] State.fresh).2).2.var 200 =
      (Resolver.visit 8 func_init_own_param state_var_a).2.var 200 ∧
    (Resolver.visit 8 func_init_own_param state_var_a).2.var 200 = ⟨false, 0⟩ ∧
    ((Resolver.visit 8 func_init_own_param state_var_a).2.block 1).nonlocal_indexes =
      [⟨some 0, 0⟩] ∧
    ((Resolver.visit 8 func_init_own_param state_var_a).2.block 1).local_info = [⟨"a"⟩] ∧
    ((⟨200, "a", [⟨1, [], true⟩, ⟨0, ["a"], false⟩]⟩ : Ref).owner = some 1 ∧
      (∃ pre post : List Node,
        items_each (initialisers [("a", some (Node.E_Var 200 "a"))]) =
          pre ++ Node.E_Var 200 "a" :: post) ∧
      ∀ pre post : List Node,
        items_each (initialisers [("a", some (Node.E_Var 200 "a"))]) =
          pre ++ Node.E_Var 200 "a" :: post →
        Resolver.visit_declare_list 8 [("a", some (Node.E_Var 200 "a"))]
            (Resolver.enter 1 state_var_a) =
          andThen (Resolver.visit_each 8 pre (Resolver.enter 1 state_var_a)) (fun s1 =>
            andThen (Resolver.visit_var 8 200 "a" s1) (Resolver.visit_each 8 post)) ∧
        ((Resolver.visit_each 8 pre (Resolver.enter 1 state_var_a)).1 ≠ Result.ok () →
          (Resolver.visit 8 func_init_own_param state_var_a).1 =
            (Resolver.visit_each 8 pre (Resolver.enter 1 state_var_a)).1) ∧
        ((Resolver.visit_each 8 pre (Resolver.enter 1 state_var_a)).1 = Result.ok () →
          ((Resolver.visit 8 func_init_own_param state_var_a).2.var 200).is_local = false ∧
          (∀ (T : Addr) (i : Nat), Scope.lookup "a" [⟨0, ["a"], false⟩] = some (T, i) →
            ∃ k : Nat,
              (Resolver.visit 8 func_init_own_param state_var_a).2.var 200 =
                ⟨false, (k : Int)⟩ ∧
              ((Resolver.visit 8 func_init_own_param state_var_a).2.block
                1).nonlocal_indexes[k]? = some ⟨some T, (i : Int)⟩ ∧
              NearestDeclaring (Resolver.visit 8 func_init_own_param state_var_a).2.block
                "a" 1 T ∧
              ((Resolver.visit 8 func_init_own_param state_var_a).2.block
                T).local_info[i]? = some ⟨"a"⟩) ∧
          (Scope.lookup "a" [⟨0, ["a"], false⟩] = none →
            (Resolver.visit 8 func_init_own_param state_var_a).1 =
              Result.throw (Exception.NoSuchName "a")))) ∧
    (Resolver.visit 8 func_init_own_param { State.fresh with cur_block := some 0 }).1 =
      Result.throw (Exception.NoSuchName "a") ∧
    (Resolver.visit 8
        (Node.E_Func
          (some (100, [("a", some (Node.E_Func (some (101, [("y", none), ("y", none)])) 2 [])),
            ("b", some (Node.E_Var 200 "b"))])) 1 [])
        { State.fresh with cur_block := some 0 }).1 =
      Result.throw (Exception.DuplicatedLocalName "y") :=
  ⟨state_var_a_scope, by decide, by decide, by decide,
    by simp [func_init_own_param, refs, refs_pairs, Scope.enter_init],
    by decide, by decide, by decide, by decide, by decide,
    initialiser_reference_bound_outside 8 101 [("a", some (Node.E_Var 200 "a"))] 1 []
      state_var_a ⟨0, ["a"], false⟩ [] state_var_a_scope (by decide) (by decide) (by decide)
      (by decide) (by decide) ⟨200, "a", [⟨1, [], true⟩, ⟨0, ["a"], false⟩]⟩
      (by simp [refs, refs_pairs, Scope.enter_init]) rfl,
    (((initialiser_reference_bound_outside 8 101 [("a", some (Node.E_Var 200 "a"))] 1 []
      { State.fresh with cur_block := some 0 } ⟨0, [], false⟩ [] state_empty_scope rfl
      (by decide) (by decide) (by decide) (by decide)
      ⟨200, "a", [⟨1, [], true⟩, ⟨0, [], false⟩]⟩
      (by simp [refs, refs_pairs, Scope.enter_init]) rfl).2.2 [] [] rfl).2.2
        (by decide)).2.2 (by decide),
    (((initialiser_reference_bound_outside 8 100
      [("a", some (Node.E_Func (some (101, [("y", none), ("y", none)])) 2 [])),
        ("b", some (Node.E_Var 200 "b"))] 1 []
      { State.fresh with cur_block := some 0 } ⟨0, [], false⟩ [] state_empty_scope rfl
      (by decide) (by decide) (by decide) (by decide)
      ⟨200, "b", [⟨1, [], true⟩, ⟨0, [], false⟩]⟩
      (by simp [refs, refs_pairs, refs_each, Scope.enter_init, Scope.enter_block]) rfl).2.2
        [Node.E_Func (some (101, [("y", none), ("y", none)])) 2 []] [] rfl).2.1
          (by decide)).trans (by decide)⟩

/-- C18: after `resolve_names` succeeds on a fresh program, in every block
the entries of `nonlocal_indexes` are pairwise distinct as (target block,
slot index) pairs, every value stored in `name_to_nonlocal_index` is a valid
position in `nonlocal_indexes`, and two references with different names that
are stamped non-local in the block select different capture entries. -/
theorem capture_entries_distinct (fuel : Nat) (b : Addr) (stmts : List Node) (s : State)
    (hf : FreshTree s b stmts)
    (hfuel : (block_addrs none (Node.Program b stmts)).length ≤ fuel)
    (hok : (resolve_names fuel b stmts s).1 = Result.ok ()) :
    ∀ bi ∈ blocks none (Node.Program b stmts),
      ((resolve_names fuel b stmts s).2.block bi.addr).nonlocal_indexes.Nodup ∧
      (∀ p ∈ ((resolve_names fuel b stmts s).2.block bi.addr).name_to_nonlocal_index,
        0 ≤ p.2 ∧
        p.2 < (((resolve_names fuel b stmts s).2.block bi.addr).nonlocal_indexes.length : Int)) ∧
      (∀ r1 ∈ refs Scope.top (Node.Program b stmts),
        ∀ r2 ∈ refs Scope.top (Node.Program b stmts),
          r1.owner = some bi.addr → r2.owner = some bi.addr →
          ((resolve_names fuel b stmts s).2.var r1.addr).is_local = false →
          ((resolve_names fuel b stmts s).2.var r2.addr).is_local = false →
          r1.name ≠ r2.name →
          ((resolve_names fuel b stmts s).2.block bi.addr).nonlocal_indexes[
              ((resolve_names fuel b stmts s).2.var r1.addr).index.toNat]? ≠
            ((resolve_names fuel b stmts s).2.block bi.addr).nonlocal_indexes[
              ((resolve_names fuel b stmts s).2.var r2.addr).index.toNat]?) := by
  obtain ⟨hres, hall⟩ := resolve_names_resolved fuel b stmts s hf hfuel hok
  have hh : ∀ r ∈ refs Scope.top (Node.Program b stmts),
      HeapScope (resolve_names fuel b stmts s).2 r.scope := fun r hr => (hall r hr).2.1
  intro bi hbi
  have hd := hres.blocks bi hbi
  have hlen : ((resolve_names fuel b stmts s).2.block bi.addr).name_to_nonlocal_index.length =
      ((resolve_names fuel b stmts s).2.block bi.addr).nonlocal_indexes.length := by
    have := congrArg List.length hd.values
    simpa using this
  refine ⟨?_, ?_, ?_⟩
  · rw [List.nodup_iff_getElem?_ne_getElem?]
    intro i j hij hj heq
    have hi : i < ((resolve_names fuel b stmts s).2.block bi.addr).name_to_nonlocal_index.length := by
      omega
    have hj' : j < ((resolve_names fuel b stmts s).2.block bi.addr).name_to_nonlocal_index.length := by
      omega
    obtain ⟨_, _, T1, i1, hg1, hT1⟩ := capture_entry_at hres hh bi hbi i _ _
      (List.getElem?_eq_getElem hi)
    obtain ⟨_, _, T2, i2, hg2, hT2⟩ := capture_entry_at hres hh bi hbi j _ _
      (List.getElem?_eq_getElem hj')
    rw [hg1, hg2] at heq
    simp only [Option.some.injEq, NonLocalInfo.mk.injEq, Nat.cast_inj] at heq
    obtain ⟨hT, hi12⟩ := heq
    rw [hT, hi12, hT2] at hT1
    have hname : (((resolve_names fuel b stmts s).2.block bi.addr).name_to_nonlocal_index[j]).1 =
        (((resolve_names fuel b stmts s).2.block bi.addr).name_to_nonlocal_index[i]).1 := by
      simpa using hT1
    have hk := (List.nodup_iff_getElem?_ne_getElem?.1 hd.keys) i j hij (by simpa using hj')
    apply hk
    simp [List.getElem?_map, List.getElem?_eq_getElem hi, List.getElem?_eq_getElem hj', hname]
  · intro p hp
    obtain ⟨k, hk⟩ := List.getElem?_of_mem hp
    obtain ⟨hv, hlt, _⟩ := capture_entry_at hres hh bi hbi k p.1 p.2 hk
    rw [hv]
    exact ⟨by simp, by exact_mod_cast hlt⟩
  · intro r1 hr1 r2 hr2 ho1 ho2 hl1 hl2 hne heq
    obtain ⟨B1, hB1, _, hn1⟩ := stamped_facts (hres.stamped r1 hr1) (hh r1 hr1)
    obtain ⟨B2, hB2, _, hn2⟩ := stamped_facts (hres.stamped r2 hr2) (hh r2 hr2)
    have e1 : B1 = bi.addr := Option.some.inj (hB1.symm.trans ho1)
    have e2 : B2 = bi.addr := Option.some.inj (hB2.symm.trans ho2)
    subst e1
    obtain ⟨_, k1, T1, i1, hv1, hg1, _, _, hT1, _⟩ := hn1 hl1
    obtain ⟨_, k2, T2, i2, hv2, hg2, _, _, hT2, _⟩ := hn2 hl2
    rw [e2] at hg2
    rw [hv1, hv2] at heq
    simp only [Int.toNat_ofNat] at heq
    rw [hg1, hg2] at heq
    simp only [Option.some.injEq, NonLocalInfo.mk.injEq, Nat.cast_inj] at heq
    obtain ⟨hT, hi12⟩ := heq
    rw [hT, hi12, hT2] at hT1
    exact hne (by simpa using hT1.symm)

/-- Witness for C18: in `var a; var b; fn() { a; b; a; };` the function body
has the capture entries `(program, 0)` and `(program, 1)`. -/
theorem capture_entries_distinct_witness :
    FreshTree State.fresh 0 prog_two_captures ∧
    (block_addrs none (Node.Program 0 prog_two_captures)).length ≤ 8 ∧
    (resolve_names 8 0 prog_two_captures State.fresh).1 = Result.ok () ∧
    ((resolve_names 8 0 prog_two_captures State.fresh).2.block 1).nonlocal_indexes =
      [⟨some 0, 0⟩, ⟨some 0, 1⟩] ∧
    ((resolve_names 8 0 prog_two_captures State.fresh).2.block 1).name_to_nonlocal_index =
      [("a", 0), ("b", 1)] ∧
    ∀ bi ∈ blocks none (Node.Program 0 prog_two_captures),
      ((resolve_names 8 0 prog_two_captures State.fresh).2.block bi.addr).nonlocal_indexes.Nodup ∧
      (∀ p ∈ ((resolve_names 8 0 prog_two_captures State.fresh).2.block
          bi.addr).name_to_nonlocal_index,
        0 ≤ p.2 ∧
        p.2 < (((resolve_names 8 0 prog_two_captures State.fresh).2.block
          bi.addr).nonlocal_indexes.length : Int)) ∧
      (∀ r1 ∈ refs Scope.top (Node.Program 0 prog_two_captures),
        ∀ r2 ∈ refs Scope.top (Node.Program 0 prog_two_captures),
          r1.owner = some bi.addr → r2.owner = some bi.addr →
          ((resolve_names 8 0 prog_two_captures State.fresh).2.var r1.addr).is_local = false →
          ((resolve_names 8 0 prog_two_captures State.fresh).2.var r2.addr).is_local = false →
          r1.name ≠ r2.name →
          ((resolve_names 8 0 prog_two_captures State.fresh).2.block bi.addr).nonlocal_indexes[
              ((resolve_names 8 0 prog_two_captures State.fresh).2.var r1.addr).index.toNat]? ≠
            ((resolve_names 8 0 prog_two_captures State.fresh).2.block bi.addr).nonlocal_indexes[
              ((resolve_names 8 0 prog_two_captures State.fresh).2.var r2.addr).index.toNat]?) :=
  ⟨fresh_tree_of_nodup _ _ (by decide) (by decide) (by decide), by decide, by decide,
    by decide, by decide,
    capture_entries_distinct 8 0 prog_two_captures State.fresh
      (fresh_tree_of_nodup _ _ (by decide) (by decide) (by decide)) (by decide) (by decide)⟩

end JiaoBenScript
